import Mathlib

/-! Forwarding accounts: registration, eligibility, the memo store, the sweep,
genesis and the packet messages.

A shallow embedding of the message server of the forwarding module
(`keeper/msg_server.go`), of the receive hook and the end-block sweep of its keeper
(`keeper.go`) and of the keeper state they work on, of genesis import and export
(`genesis.go`), and of the generated encoder and decoder of the packet messages
(`types/packet.pb.go`).

* Go strings are Lean strings, and Go's `len` is the UTF-8 byte count.
* A handler takes the state and returns the state it leaves behind together
  with Go's `(response, error)` pair; an error is its message, `none` is `nil`.
* The ledger, the channel registry, the address codec and the denom validation
  are collaborators outside the module: the pure ones are fields of `Env`, the
  stateful ones are parts of `State`.
* The collections of the keeper are keyed lists with `Store.get`, `Store.set` and
  `Store.remove`; writing to a collection of strings never fails, so the
  branches of the source that report a failed write are not reachable.
* The transfer initiator is a collaborator too: its answer to a request is a field
  of `Env`, and the requests it receives are recorded, with the answers, in the
  state. Iteration over a collection goes in the ascending order of its keys.
* The packet code works on byte slices: a slice and a string of a packet message
  are lists of bytes, an index or a slice bound out of range is a panic, a Go
  `int` or `uint64` is its 64 bits, and a loop of the source is a recursion on a
  number of rounds that is shown never to run out.
-/

namespace Forwarding

/-! ## Keyed collections -/

namespace Store

/-- Value stored under a key, if any. -/
def get {κ ν : Type} [DecidableEq κ] : List (κ × ν) → κ → Option ν
  | [], _ => none
  | (k', v) :: rest, k => if k' = k then some v else get rest k

/-- Upsert: overwrite the value under the key, or add the key. -/
def set {κ ν : Type} [DecidableEq κ] : List (κ × ν) → κ → ν → List (κ × ν)
  | [], k, v => [(k, v)]
  | (k', v') :: rest, k, v => if k' = k then (k, v) :: rest else (k', v') :: set rest k v

/-- Delete the key; deleting an absent key changes nothing. -/
def remove {κ ν : Type} [DecidableEq κ] : List (κ × ν) → κ → List (κ × ν)
  | [], _ => []
  | (k', v') :: rest, k => if k' = k then remove rest k else (k', v') :: remove rest k

end Store

/-! ## Data model -/

/-- Go's `len` of a string: the number of bytes. -/
def len (s : String) : Nat := s.utf8ByteSize

/-- An account address, as its bytes. -/
abbrev AccAddress := List Nat

/-- Modelled from the spec: the key types are not among the sources. A public key
is either the sentinel of a forwarding address ("this address has no controlling
private key"), carrying the address it stands for, or an ordinary key of some
named type (secp256k1 and the like) with its bytes. -/
inductive PubKey where
  | ForwardingPubKey (Key : AccAddress)
  | ordinary (keyType : String) (bytes : List Nat)
deriving DecidableEq, Repr

/-- Modelled from the spec: the `Equals` methods of the key types are not among
the sources. Two keys are equal when they are of the same type and hold the same
bytes; a sentinel equals only the sentinel "for this exact address". -/
def PubKey.Equals : PubKey → PubKey → Bool
  | .ForwardingPubKey a, .ForwardingPubKey b => a == b
  | .ordinary t a, .ordinary u b => t == u && a == b
  | _, _ => false

/-- The base account record of the ledger (`authtypes.BaseAccount`); `PubKey` is
`none` for Go's nil key. -/
structure BaseAccount where
  Address : AccAddress
  PubKey : Option PubKey
  AccountNumber : Nat
  Sequence : Nat
deriving DecidableEq, Repr

/-- A forwarding account (`types.ForwardingAccount`): a base account extended
with the route. -/
structure ForwardingAccount where
  BaseAccount : BaseAccount
  Channel : String
  Recipient : String
  CreatedAt : Int
  Fallback : String
deriving DecidableEq, Repr

/-- The dynamic types an `sdk.AccountI` value of the account store can have:
the two the registry knows, and any other account type, given by its Go type
name. -/
inductive AccountI where
  | baseAccount (account : BaseAccount)
  | forwardingAccount (account : ForwardingAccount)
  | other (typeName : String) (account : BaseAccount)
deriving DecidableEq, Repr

/-- The base account every account type embeds. -/
def AccountI.base : AccountI → BaseAccount
  | .baseAccount a => a
  | .forwardingAccount fa => fa.BaseAccount
  | .other _ a => a

def AccountI.GetAddress (a : AccountI) : AccAddress := a.base.Address
def AccountI.GetPubKey (a : AccountI) : Option PubKey := a.base.PubKey
def AccountI.GetAccountNumber (a : AccountI) : Nat := a.base.AccountNumber
def AccountI.GetSequence (a : AccountI) : Nat := a.base.Sequence

/-- Channel states of the channel registry (`channeltypes.State`). -/
inductive ChannelState where
  | UNINITIALIZED | INIT | TRYOPEN | OPEN | CLOSED | FLUSHING | FLUSHCOMPLETE
deriving DecidableEq, Repr

/-- The name a channel state prints as. -/
def ChannelState.String : ChannelState → String
  | .UNINITIALIZED => "STATE_UNINITIALIZED_UNSPECIFIED"
  | .INIT => "STATE_INIT"
  | .TRYOPEN => "STATE_TRYOPEN"
  | .OPEN => "STATE_OPEN"
  | .CLOSED => "STATE_CLOSED"
  | .FLUSHING => "STATE_FLUSHING"
  | .FLUSHCOMPLETE => "STATE_FLUSHCOMPLETE"

/-- A channel of the registry; only its state matters here. -/
structure Channel where
  State : ChannelState
deriving DecidableEq, Repr

/-- One initial memo of a registration (`types.MemoEntry`). -/
structure MemoEntry where
  Denom : String
  Memo : String
deriving DecidableEq, Repr

structure MsgRegisterAccount where
  Signer : String
  Recipient : String
  Channel : String
  Fallback : String
  Memos : List MemoEntry
deriving DecidableEq, Repr

structure MsgRegisterAccountResponse where
  Address : String
deriving DecidableEq, Repr

structure MsgSetMemo where
  Signer : String
  Recipient : String
  Channel : String
  Fallback : String
  Denom : String
  Memo : String
deriving DecidableEq, Repr

structure MsgSetMemoResponse where
deriving DecidableEq, Repr

structure MsgClearAccount where
  Signer : String
  Address : String
  Fallback : Bool
deriving DecidableEq, Repr

structure MsgClearAccountResponse where
deriving DecidableEq, Repr

structure MsgSetAllowedDenoms where
  Signer : String
  Denoms : List String
deriving DecidableEq, Repr

structure MsgSetAllowedDenomsResponse where
deriving DecidableEq, Repr

/-- A set of coins (`sdk.Coins`): an amount per denom; the sorted order the
ledger keeps them in is not modelled. -/
abbrev Coins := List (String × Nat)

/-- The typed events the message server emits. -/
inductive Event where
  | AccountRegistered (Address Channel Recipient Fallback : String)
  | MemoSet (Address Denom Memo : String)
  | AccountCleared (Address Recipient : String)
  | AllowedDenomsConfigured (PreviousDenoms CurrentDenoms : List String)
deriving DecidableEq, Repr

/-- The port of the transfer application (`transfertypes.PortID`). -/
def PortID : String := "transfer"

/-- A transfer request (`transfertypes.MsgTransfer`); the token is a coin, denom
and amount, and the timeout height is a revision number and a revision height. -/
structure MsgTransfer where
  SourcePort : String
  SourceChannel : String
  Token : String × Nat
  Sender : String
  Receiver : String
  TimeoutHeight : Nat × Nat
  TimeoutTimestamp : Nat
  Memo : String
deriving DecidableEq, Repr

/-- The state the keeper reads and writes: the account store and account-number
sequence of the ledger, its balances, the channel registry, the block height,
the collections of the module, the events emitted so far, the time of the
block (`BlockTime().UnixNano()`) and the requests the transfer initiator has
received, each with its answer (`none` for an accepted request). -/
structure State where
  accounts : List AccountI := []
  nextAccountNumber : Nat := 0
  balances : List ((AccAddress × String) × Nat) := []
  channels : List ((String × String) × Channel) := []
  height : Int := 0
  NumOfAccounts : List (String × Nat) := []
  NumOfForwards : List (String × Nat) := []
  TotalForwarded : List (String × String) := []
  PendingForwards : List (String × ForwardingAccount) := []
  Memos : List ((String × String) × String) := []
  AllowedDenoms : List String := []
  events : List Event := []
  blockTime : Int := 0
  transfers : List (MsgTransfer × Option String) := []
deriving DecidableEq, Repr

/-- Go's `(response, error)` of a handler, with the state the call leaves. -/
structure Result (α : Type) where
  state : State
  resp : Option α
  err : Option String

/-- The pure collaborators and constants the keeper is built over. -/
structure Env where
  /-- Syntax check of a channel id (`channeltypes.IsValidChannelID`). -/
  IsValidChannelID : String → Bool
  /-- The bound on a recipient (`transfertypes.MaximumReceiverLength`). -/
  MaximumReceiverLength : Nat
  /-- The address codec decoding a string; `none` is a decoding error. -/
  StringToBytes : String → Option AccAddress
  /-- The text an address prints as (`address.String()`). -/
  AddressString : AccAddress → String
  /-- The address derived from channel, recipient and fallback
  (`types.GenerateAddress`). -/
  GenerateAddress : String → String → String → AccAddress
  /-- The denom check of the ledger (`sdk.ValidateDenom`): `none` when the denom
  is valid, else the error text. -/
  ValidateDenom : String → Option String
  /-- The address of the module authority (`k.authority`). -/
  authority : String
  /-- The text of the error of the address codec for a string it cannot decode. -/
  DecodeError : String → String := fun a => "decoding bech32 failed: " ++ a
  /-- The text of the registered error `types.ErrInvalidAuthority`. -/
  ErrInvalidAuthority : String := "signer is not authority"
  /-- The text of the registered error `types.ErrInvalidDenoms`. -/
  ErrInvalidDenoms : String := "invalid allowed denoms"
  /-- The answer of the transfer initiator (`transferKeeper.Transfer`) to a
  request in a state: `none` when it accepts, else the error text. -/
  Transfer : State → MsgTransfer → Option String := fun _ _ => none
  /-- The relative timeout of a transfer
  (`transfertypes.DefaultRelativePacketTimeoutTimestamp`), ten minutes in
  nanoseconds. -/
  DefaultRelativePacketTimeoutTimestamp : Nat := 600000000000
  /-- The coins a stored total reads as (`sdk.ParseCoinsNormalized`, an
  unreadable text reading as no coins). -/
  ParseCoinsNormalized : String → Coins
  /-- The text a set of coins prints as (`Coins.String()`). -/
  CoinsString : Coins → String

/-! ## The ledger and the registry, as the keeper uses them -/

/-- The account stored at an address (`accountKeeper.GetAccount`); `none` is nil.
The store is keyed by the address of the account it holds. -/
def GetAccount (s : State) (address : AccAddress) : Option AccountI :=
  s.accounts.find? (fun a => a.GetAddress == address)

/-- Whether an account is stored at the address (`accountKeeper.HasAccount`). -/
def HasAccount (s : State) (address : AccAddress) : Bool :=
  (GetAccount s address).isSome

/-- Write an account under its own address, replacing the one stored there. -/
def setAccountIn : List AccountI → AccountI → List AccountI
  | [], acc => [acc]
  | a :: rest, acc =>
    if a.GetAddress = acc.GetAddress then acc :: rest else a :: setAccountIn rest acc

/-- Store an account (`accountKeeper.SetAccount`). -/
def SetAccount (s : State) (acc : AccountI) : State :=
  { s with accounts := setAccountIn s.accounts acc }

/-- A new base account at the address, with the next account number of the
ledger, no key and sequence 0 (`accountKeeper.NewAccountWithAddress`); the
account-number sequence advances, the account is not stored yet. -/
def NewAccountWithAddress (s : State) (address : AccAddress) : State × AccountI :=
  ({ s with nextAccountNumber := s.nextAccountNumber + 1 },
   .baseAccount { Address := address, PubKey := none,
                  AccountNumber := s.nextAccountNumber, Sequence := 0 })

/-- A base account from its four fields (`authtypes.NewBaseAccount`). -/
def NewBaseAccount (address : AccAddress) (pubKey : Option PubKey)
    (accountNumber sequence : Nat) : BaseAccount :=
  { Address := address, PubKey := pubKey, AccountNumber := accountNumber, Sequence := sequence }

/-- The channel registered under a port and channel id
(`channelKeeper.GetChannel`); `none` is "not found". -/
def GetChannel (s : State) (portID channelID : String) : Option Channel :=
  Store.get s.channels (portID, channelID)

/-- The balance of an address in a denom (`bankKeeper.GetBalance`), 0 when the
ledger holds none. -/
def GetBalance (s : State) (address : AccAddress) (denom : String) : Nat :=
  (Store.get s.balances (address, denom)).getD 0

/-- Height of the current block (`headerService.GetHeaderInfo(ctx).Height`). -/
def GetHeight (s : State) : Int := s.height

/-- Emit a typed event; the event service accepts every event. -/
def Emit (s : State) (e : Event) : State × Option String :=
  ({ s with events := s.events ++ [e] }, none)

/-! ## Keeper state helpers -/

/-- Go's `<` on the bytes of two strings, as lists of characters: the first
difference decides, and a proper prefix comes first. -/
def ltChars : List Char → List Char → Bool
  | _, [] => false
  | [], _ :: _ => true
  | a :: as, b :: bs => decide (a.toNat < b.toNat) || (a.toNat == b.toNat && ltChars as bs)

/-- The order in which a collection keeps its string keys. -/
def strLt (a b : String) : Bool := ltChars a.data b.data

/-- Insert an entry into a list of entries that is in the order of its keys. -/
def Store.insertByKey {ν : Type} (e : String × ν) : List (String × ν) → List (String × ν)
  | [] => [e]
  | x :: rest => if strLt e.1 x.1 then e :: x :: rest else x :: Store.insertByKey e rest

/-- The entries of a collection in the order of their keys, the order in which a
collection is iterated. -/
def Store.sortByKey {ν : Type} : List (String × ν) → List (String × ν)
  | [] => []
  | e :: rest => Store.insertByKey e (Store.sortByKey rest)

/-- Modelled from the spec: the counter helpers of the keeper are not among the
sources. The per-channel account counter, 0 for a channel never counted. -/
def GetNumOfAccounts (s : State) (channel : String) : Nat :=
  (Store.get s.NumOfAccounts channel).getD 0

/-- Modelled from the spec: "Increments the per-channel account counter"; the
counter is a `uint64`. -/
def IncrementNumOfAccounts (s : State) (channel : String) : State :=
  { s with NumOfAccounts :=
      Store.set s.NumOfAccounts channel ((GetNumOfAccounts s channel + 1) % 2 ^ 64) }

/-- Modelled from the spec: "enqueue(account): idempotent upsert keyed by
address"; the key is the address string of the account. -/
def SetPendingForward (env : Env) (s : State) (account : ForwardingAccount) : State :=
  { s with PendingForwards :=
      Store.set s.PendingForwards (env.AddressString account.BaseAccount.Address) account }

/-- Modelled from the spec: the allowed denoms, "a governance-settable set of
denominations eligible for forwarding-balance checks". `AllowedDenoms` is a key
set of the collections (`msg_server.go` writes it with `Clear` and `Set`), and a
key set is walked in the order of its keys, whatever the order in which they were
written: the denoms of the state are read in ascending order. -/
def GetAllowedDenoms (s : State) : List String :=
  (Store.sortByKey (s.AllowedDenoms.map (fun denom => (denom, ())))).map Prod.fst

/-- Modelled from the spec: "get(address, denom) -> memo|NotFound", a read of the
memo collection under the pair of address string and denom. -/
def GetMemo (s : State) (address denom : String) : Option String :=
  Store.get s.Memos (address, denom)

/-- Modelled from the spec: "list(address) -> sequence of (denom, memo) filtered
to the given address only", the entries of the memo collection whose key carries
the address string. -/
def GetMemos (s : State) (address : String) : List MemoEntry :=
  (s.Memos.filter (fun e => e.1.1 = address)).map (fun e => ⟨e.1.2, e.2⟩)

/-- Modelled from the spec: the validation of a list of allowed denoms is not
among the sources; it "validates the denom list (non-empty, well-formed, no
duplicates)". `none` is Go's nil error. -/
def ValidateAllowedDenoms (env : Env) (denoms : List String) : Option String :=
  if denoms = [] then
    some "allowed denoms cannot be empty"
  else
    match denoms.find? (fun d => (env.ValidateDenom d).isSome) with
    | some d => some ("invalid denom: " ++ d)
    | none => if denoms.Nodup then none else some "duplicate denom"

/-! ## The receive hook and the send of the ledger -/

/-- The hook the ledger runs on every transfer (`keeper.go`): a receiver that is a
forwarding account is enqueued; the receiver is returned as given, with no error.
Sender and amount are not looked at. -/
def SendRestrictionFn (env : Env) (s : State) (_fromAddr toAddr : AccAddress) (_amt : Coins) :
    State × AccAddress × Option String :=
  match GetAccount s toAddr with
  | none => (s, toAddr, none)
  | some (.forwardingAccount account) => (SetPendingForward env s account, toAddr, none)
  | some _ => (s, toAddr, none)

/-- The empty set of coins (`sdk.NewCoins()`). -/
def NewCoins : Coins := []

/-- Add a coin to a set of coins (`Coins.Add`): amounts of the same denom are
summed, a zero coin adds nothing. -/
def Coins.Add (coins : Coins) (coin : String × Nat) : Coins :=
  if coin.2 = 0 then coins
  else Store.set coins coin.1 ((Store.get coins coin.1).getD 0 + coin.2)

/-- Whether every amount of the set is zero (`Coins.IsZero`). -/
def Coins.IsZero (coins : Coins) : Bool := coins.all (fun c => c.2 == 0)

/-- Write a balance of the ledger; a zero balance is not kept. -/
def setBalance (s : State) (addr : AccAddress) (denom : String) (amount : Nat) : State :=
  if amount = 0 then { s with balances := Store.remove s.balances (addr, denom) }
  else { s with balances := Store.set s.balances (addr, denom) amount }

/-- Take the coins from an address, coin by coin; `none` when a balance does not
cover its coin ("insufficient funds"). -/
def subUnlockedCoins (addr : AccAddress) : State → Coins → Option State
  | s, [] => some s
  | s, (denom, amount) :: rest =>
    if GetBalance s addr denom < amount then none
    else subUnlockedCoins addr (setBalance s addr denom (GetBalance s addr denom - amount)) rest

/-- Give the coins to an address, coin by coin. -/
def addCoins (addr : AccAddress) : State → Coins → State
  | s, [] => s
  | s, (denom, amount) :: rest =>
    addCoins addr (setBalance s addr denom (GetBalance s addr denom + amount)) rest

/-- The send of the ledger (`bankKeeper.SendCoins`): the receive hook runs first
("invoked synchronously by the ledger for every incoming value movement"), then
the coins are taken from the sender and given to the receiver; `none` is a refused
send, which changes nothing. -/
def SendCoins (env : Env) (s : State) (fromAddr toAddr : AccAddress) (amt : Coins) :
    Option State :=
  let restricted := SendRestrictionFn env s fromAddr toAddr amt
  match restricted.2.2 with
  | some _ => none
  | none =>
    match subUnlockedCoins fromAddr restricted.1 amt with
    | none => none
    | some s1 => some (addCoins restricted.2.1 s1 amt)

/-! ## The message server (`keeper/msg_server.go`) -/

/-- Eligibility of an existing account for registration at `address`:
`none` is Go's nil error. -/
def ValidateAccountFields (env : Env) (account : AccountI) (address : AccAddress) :
    Option String :=
  let pubKey := account.GetPubKey
  let isNewAccount : Bool := pubKey.isNone && account.GetSequence == 0
  let isValidPubKey : Bool :=
    match pubKey with
    | none => false
    | some pk => pk.Equals (.ForwardingPubKey address)
  if !isNewAccount && !isValidPubKey then
    some ("attempting to register an existing user account with address: " ++
      env.AddressString address)
  else none

def MaxMemoLength : Nat := 1024
def MaxMemoEntries : Nat := 10

/-- The loop of `validateMemoEntries` over the entries, with the denoms seen so
far (the keys of the Go map `seen`). -/
def validateMemoLoop (env : Env) : List String → List MemoEntry → Option String
  | _, [] => none
  | seen, entry :: rest =>
    if entry.Denom = "" then
      some "memo denom cannot be empty"
    else if entry.Denom ∈ seen then
      some ("duplicate memo denom: " ++ entry.Denom)
    else if len entry.Memo = 0 then
      some ("memo for denom " ++ entry.Denom ++ " cannot be empty")
    else if len entry.Memo > MaxMemoLength then
      some ("memo for denom " ++ entry.Denom ++ " exceeds maximum length of " ++
        toString MaxMemoLength ++ " characters")
    else
      match env.ValidateDenom entry.Denom with
      | some err => some ("invalid denom " ++ entry.Denom ++ ": " ++ err)
      | none => validateMemoLoop env (entry.Denom :: seen) rest

/-- Validation of the initial memos of a registration; `none` is Go's nil error. -/
def validateMemoEntries (env : Env) (entries : List MemoEntry) : Option String :=
  if entries.length > MaxMemoEntries then
    some ("cannot register more than " ++ toString MaxMemoEntries ++ " memos")
  else
    validateMemoLoop env [] entries

/-- One `k.Memos.Set` of the loop of `setInitialMemos`. -/
def setMemoEntry (addr : String) (s : State) (entry : MemoEntry) : State :=
  { s with Memos := Store.set s.Memos (addr, entry.Denom) entry.Memo }

/-- Store the initial memos of a registration, after validating the whole list. -/
def setInitialMemos (env : Env) (s : State) (address : AccAddress)
    (entries : List MemoEntry) : State × Option String :=
  if entries.length = 0 then
    (s, none)
  else
    match validateMemoEntries env entries with
    | some err => (s, some err)
    | none =>
      let addr := env.AddressString address
      (entries.foldl (setMemoEntry addr) s, none)

/-- The loop of `RegisterAccount` over the allowed denoms on the upgrade path:
at the first denom with a non-zero balance the account, if it is a forwarding
account, is enqueued and the loop ends. -/
def enqueueIfFunded (env : Env) (address : AccAddress) (rawAccount : AccountI) :
    State → List String → State
  | s, [] => s
  | s, denom :: rest =>
    if GetBalance s address denom ≠ 0 then
      match rawAccount with
      | .forwardingAccount account => SetPendingForward env s account
      | _ => enqueueIfFunded env address rawAccount s rest
    else
      enqueueIfFunded env address rawAccount s rest

/-- The tail shared by both paths of `RegisterAccount`: set the initial memos,
then answer with the address and emit the registration event. -/
def finishRegistration (env : Env) (s : State) (address : AccAddress)
    (msg : MsgRegisterAccount) : Result MsgRegisterAccountResponse :=
  match setInitialMemos env s address msg.Memos with
  | (s1, some err) => ⟨s1, none, some err⟩
  | (s1, none) =>
    let emitted := Emit s1 (.AccountRegistered (env.AddressString address)
      msg.Channel msg.Recipient msg.Fallback)
    ⟨emitted.1, some ⟨env.AddressString address⟩, emitted.2⟩

/-- Handler of `MsgRegisterAccount`. -/
def RegisterAccount (env : Env) (s : State) (msg : MsgRegisterAccount) :
    Result MsgRegisterAccountResponse :=
  if !env.IsValidChannelID msg.Channel then
    ⟨s, none, some "invalid channel"⟩
  else if len msg.Recipient > env.MaximumReceiverLength then
    ⟨s, none, some ("recipient address must not exceed " ++
      toString env.MaximumReceiverLength ++ " bytes")⟩
  else if msg.Fallback ≠ "" ∧ env.StringToBytes msg.Fallback = none then
    ⟨s, none, some "invalid fallback address"⟩
  else
    let address := env.GenerateAddress msg.Channel msg.Recipient msg.Fallback
    match GetChannel s PortID msg.Channel with
    | none => ⟨s, none, some ("channel does not exist: " ++ msg.Channel)⟩
    | some channel =>
      if channel.State ≠ .OPEN then
        ⟨s, none, some ("channel is not open: " ++ msg.Channel ++ ", " ++
          channel.State.String)⟩
      else
        -- `HasAccount` holds exactly when `GetAccount` answers an account
        match GetAccount s address with
        | some rawAccount =>
          match ValidateAccountFields env rawAccount address with
          | some err => ⟨s, none, some err⟩
          | none =>
            match rawAccount with
            | .baseAccount account =>
              let upgraded : ForwardingAccount :=
                { BaseAccount := account, Channel := msg.Channel,
                  Recipient := msg.Recipient, CreatedAt := GetHeight s,
                  Fallback := msg.Fallback }
              let s1 := SetAccount s (.forwardingAccount upgraded)
              let s2 := IncrementNumOfAccounts s1 msg.Channel
              let s3 := enqueueIfFunded env address (.forwardingAccount upgraded) s2
                (GetAllowedDenoms s2)
              finishRegistration env s3 address msg
            | .forwardingAccount _ =>
              ⟨s, none, some "account has already been registered"⟩
            | .other typeName _ =>
              ⟨s, none, some ("unsupported account type: " ++ typeName)⟩
        | none =>
          let created := NewAccountWithAddress s address
          let base := created.2
          let account : ForwardingAccount :=
            { BaseAccount := NewBaseAccount base.GetAddress base.GetPubKey
                base.GetAccountNumber base.GetSequence,
              Channel := msg.Channel, Recipient := msg.Recipient,
              CreatedAt := GetHeight created.1, Fallback := msg.Fallback }
          let s1 := SetAccount created.1 (.forwardingAccount account)
          let s2 := IncrementNumOfAccounts s1 msg.Channel
          finishRegistration env s2 address msg

/-- The write of `SetMemo` once the signer is authorized: an empty memo deletes
the entry (an absent entry is no error), an oversized memo is an error, any
other memo is stored. -/
def writeMemo (s : State) (pair : String × String) (memo : String) : State × Option String :=
  if len memo = 0 then
    ({ s with Memos := Store.remove s.Memos pair }, none)
  else if len memo > MaxMemoLength then
    (s, some ("memo exceeds maximum length of " ++ toString MaxMemoLength ++ " characters"))
  else
    ({ s with Memos := Store.set s.Memos pair memo }, none)

/-- Handler of `MsgSetMemo`. -/
def SetMemo (env : Env) (s : State) (msg : MsgSetMemo) : Result MsgSetMemoResponse :=
  match env.ValidateDenom msg.Denom with
  | some err => ⟨s, none, some ("invalid denom: " ++ err)⟩
  | none =>
    let address := env.GenerateAddress msg.Channel msg.Recipient msg.Fallback
    match GetAccount s address with
    | none => ⟨s, none, some "account does not exist"⟩
    | some (.forwardingAccount _) =>
      let addr := env.AddressString address
      if msg.Signer ≠ msg.Recipient ∧ msg.Signer ≠ msg.Fallback ∧ msg.Signer ≠ env.authority then
        ⟨s, none, some
          "only the forwarding account\x27s receiver or fallback account can modify memos"⟩
      else
        match writeMemo s (addr, msg.Denom) msg.Memo with
        | (s1, some err) => ⟨s1, none, some err⟩
        | (s1, none) =>
          let emitted := Emit s1 (.MemoSet addr msg.Denom msg.Memo)
          ⟨emitted.1, some ⟨⟩, emitted.2⟩
    | some _ => ⟨s, none, some "account is not a forwarding account"⟩

/-- The sum of `ClearAccount` over the allowed denoms: the balances of the
address, added up coin by coin. -/
def totalAllowedBalance (s : State) (address : AccAddress) : Coins :=
  (GetAllowedDenoms s).foldl
    (fun totalBalance denom => Coins.Add totalBalance (denom, GetBalance s address denom))
    NewCoins

/-- Handler of `MsgClearAccount`. -/
def ClearAccount (env : Env) (s : State) (msg : MsgClearAccount) :
    Result MsgClearAccountResponse :=
  match env.StringToBytes msg.Address with
  | none => ⟨s, none, some "invalid account address"⟩
  | some address =>
    match GetAccount s address with
    | none => ⟨s, none, some "account does not exist"⟩
    | some (.forwardingAccount account) =>
      let totalBalance := totalAllowedBalance s address
      if totalBalance.IsZero then
        ⟨s, none, some "account does not require clearing"⟩
      else if !msg.Fallback || account.Fallback = "" then
        ⟨SetPendingForward env s account, some ⟨⟩, none⟩
      else
        match env.StringToBytes account.Fallback with
        | none =>
          ⟨s, none, some ("failed to decode fallback address: " ++
            env.DecodeError account.Fallback)⟩
        | some fallback =>
          match SendCoins env s address fallback totalBalance with
          | none => ⟨s, none, some "failed to clear balance to fallback account"⟩
          | some s1 =>
            let emitted := Emit s1 (.AccountCleared msg.Address account.Fallback)
            ⟨emitted.1, some ⟨⟩, emitted.2⟩
    | some _ => ⟨s, none, some "account is not a forwarding account"⟩

/-- One `k.AllowedDenoms.Set`: the key set holds a denom once. The state keeps
the denoms of the set; the order in which they are read is that of their keys, see
`GetAllowedDenoms`. -/
def setAllowedDenom (s : State) (denom : String) : State :=
  { s with AllowedDenoms :=
      if denom ∈ s.AllowedDenoms then s.AllowedDenoms else s.AllowedDenoms ++ [denom] }

/-- Handler of `MsgSetAllowedDenoms`. -/
def SetAllowedDenoms (env : Env) (s : State) (msg : MsgSetAllowedDenoms) :
    Result MsgSetAllowedDenomsResponse :=
  if msg.Signer ≠ env.authority then
    ⟨s, none, some ("expected " ++ env.authority ++ ", got " ++ msg.Signer ++ ": " ++
      env.ErrInvalidAuthority)⟩
  else
    match ValidateAllowedDenoms env msg.Denoms with
    | some err => ⟨s, none, some (err ++ ": " ++ env.ErrInvalidDenoms)⟩
    | none =>
      let previousDenoms := GetAllowedDenoms s
      let cleared : State := { s with AllowedDenoms := [] }
      let s1 := msg.Denoms.foldl setAllowedDenom cleared
      let emitted := Emit s1 (.AllowedDenomsConfigured previousDenoms msg.Denoms)
      ⟨emitted.1, some ⟨⟩, emitted.2⟩

/-! ## The sweep at the end of the block (`keeper.go`) -/

/-- All balances of an address (`bankKeeper.GetAllBalances`): its coins in the
order of their denoms; the ledger keeps no zero balance. -/
def GetAllBalances (s : State) (address : AccAddress) : Coins :=
  Store.sortByKey
    ((s.balances.filter (fun e => e.1.1 = address ∧ e.2 ≠ 0)).map (fun e => (e.1.2, e.2)))

/-- Modelled from the spec: "drainAll() -> sequence of account", the accounts of
the pending queue in the order of their keys. The queue itself is left as it is:
"they are automatically cleared at the end of the block lifecycle", as the note at
the end of `ExecuteForwards` says. -/
def GetPendingForwards (s : State) : List ForwardingAccount :=
  (Store.sortByKey s.PendingForwards).map Prod.snd

/-- Modelled from the spec: the per-channel forward counter, 0 for a channel never
counted. -/
def GetNumOfForwards (s : State) (channel : String) : Nat :=
  (Store.get s.NumOfForwards channel).getD 0

/-- Modelled from the spec: "increment the per-channel forward counter"; the
counter is a `uint64`. -/
def IncrementNumOfForwards (s : State) (channel : String) : State :=
  { s with NumOfForwards :=
      Store.set s.NumOfForwards channel ((GetNumOfForwards s channel + 1) % 2 ^ 64) }

/-- Modelled from the spec: the coins forwarded over a channel so far, read from
the text the collection `TotalForwarded` stores; no coins for a channel without
an entry. -/
def GetTotalForwarded (env : Env) (s : State) (channel : String) : Coins :=
  env.ParseCoinsNormalized ((Store.get s.TotalForwarded channel).getD "")

/-- Modelled from the spec: increment "the per-channel-per-denom total-forwarded
accumulator" by a coin; the new total is stored as text. -/
def IncrementTotalForwarded (env : Env) (s : State) (channel : String) (coin : String × Nat) :
    State :=
  { s with TotalForwarded :=
      (Store.set s.TotalForwarded channel
        (env.CoinsString (Coins.Add (GetTotalForwarded env s channel) coin))) }

/-- The transfer initiator (`transferKeeper.Transfer`), a collaborator outside the
module: it answers the request as `env.Transfer` decides, and the request is kept,
with the answer, in the list of the requests received. What an accepted request
does to the ledger is the business of the initiator and not modelled. -/
def Transfer (env : Env) (s : State) (msg : MsgTransfer) : State × Option String :=
  ({ s with transfers := s.transfers ++ [(msg, env.Transfer s msg)] }, env.Transfer s msg)

/-- The request `ExecuteForwards` builds for one balance of a queued account. -/
def transferRequest (env : Env) (s : State) (forward : ForwardingAccount)
    (balance : String × Nat) : MsgTransfer where
  SourcePort := PortID
  SourceChannel := forward.Channel
  Token := balance
  Sender := env.AddressString forward.BaseAccount.Address
  Receiver := forward.Recipient
  TimeoutHeight := (0, 0)
  TimeoutTimestamp :=
    ((s.blockTime % 2 ^ 64).toNat + env.DefaultRelativePacketTimeoutTimestamp) % 2 ^ 64
  Memo := ""

/-- The inner loop of `ExecuteForwards` over the balances of one account: one
request per coin; an accepted request increments the forward counter and the
total of the channel, a rejected one is only logged. -/
def forwardBalances (env : Env) (forward : ForwardingAccount) : State → Coins → State
  | s, [] => s
  | s, balance :: rest =>
    let sent := Transfer env s (transferRequest env s forward balance)
    match sent.2 with
    | some _ => forwardBalances env forward sent.1 rest
    | none =>
      forwardBalances env forward
        (IncrementTotalForwarded env (IncrementNumOfForwards sent.1 forward.Channel)
          forward.Channel balance) rest

/-- The body of the outer loop of `ExecuteForwards`: an account whose channel is
not OPEN (a channel not found reads as the zero value, which is not OPEN) is
skipped, else its balances are forwarded. -/
def forwardAccount (env : Env) (s : State) (forward : ForwardingAccount) : State :=
  let channel := (GetChannel s PortID forward.Channel).getD ⟨.UNINITIALIZED⟩
  if channel.State ≠ .OPEN then s
  else forwardBalances env forward s (GetAllBalances s forward.BaseAccount.Address)

/-- The end-block hook: the pending forwards, read once, are executed one after
the other. -/
def ExecuteForwards (env : Env) (s : State) : State :=
  (GetPendingForwards s).foldl (forwardAccount env) s

/-- The number of requests of a list, on a channel, that the transfer initiator
accepted. -/
def acceptedOn (channel : String) (issued : List (MsgTransfer × Option String)) : Nat :=
  (issued.filter (fun r => r.2 = none ∧ r.1.SourceChannel = channel)).length

/-- The sum of the tokens of a denom over the requests of a list, on a channel,
that the transfer initiator accepted. -/
def acceptedAmount (channel denom : String) (issued : List (MsgTransfer × Option String)) :
    Nat :=
  ((issued.filter (fun r => r.2 = none ∧ r.1.SourceChannel = channel ∧ r.1.Token.1 = denom)).map
    (fun r => r.1.Token.2)).sum

/-- What the sweep never writes: everything but the requests received by the
transfer initiator and the two forward statistics. -/
def SweepFrame (s s' : State) : Prop :=
  s'.accounts = s.accounts ∧ s'.nextAccountNumber = s.nextAccountNumber ∧
  s'.balances = s.balances ∧ s'.channels = s.channels ∧ s'.height = s.height ∧
  s'.NumOfAccounts = s.NumOfAccounts ∧ s'.PendingForwards = s.PendingForwards ∧
  s'.Memos = s.Memos ∧ s'.AllowedDenoms = s.AllowedDenoms ∧ s'.events = s.events ∧
  s'.blockTime = s.blockTime

/-- What the sweep relies on of the two functions of the ledger that read and print
coins. Reading (`sdk.ParseCoinsNormalized`) gives coins of pairwise different, valid
denoms: it sorts the coins, drops the zero ones and refuses a text that holds a
denom twice or an invalid denom, which then reads as no coins. And coins of
pairwise different, valid denoms, printed (`Coins.String`) and read again, hold in
every denom the amount they held. Nothing is asked of the order of the coins read,
nor of coins that hold a denom twice or an invalid denom. -/
def CoinsCodec (env : Env) : Prop :=
  (∀ text : String,
    ((env.ParseCoinsNormalized text).map Prod.fst).Nodup ∧
    ∀ c ∈ env.ParseCoinsNormalized text, env.ValidateDenom c.1 = none) ∧
  (∀ coins : Coins, (coins.map Prod.fst).Nodup →
    (∀ c ∈ coins, env.ValidateDenom c.1 = none) →
    ∀ denom : String,
      (Store.get (env.ParseCoinsNormalized (env.CoinsString coins)) denom).getD 0 =
        (Store.get coins denom).getD 0)

/-- The requests expected of the sweep for one account, read off the state before
the sweep: none when the channel of the account is not open there, else one per
balance of the account, in their order. -/
def accountRequests (env : Env) (s : State) (forward : ForwardingAccount) :
    List MsgTransfer :=
  if ((GetChannel s PortID forward.Channel).getD ⟨.UNINITIALIZED⟩).State ≠ .OPEN then []
  else (GetAllBalances s forward.BaseAccount.Address).map (transferRequest env s forward)

/-! ## Genesis (`x/forwarding/genesis.go`) -/

/-- The genesis state of the module (`types.GenesisState`): the three maps from a
channel to its number of accounts, its number of forwards and the text of its
total forwarded. A Go map is the list of its entries, in the order a `range`
goes through them. -/
structure GenesisState where
  NumOfAccounts : List (String × Nat)
  NumOfForwards : List (String × Nat)
  TotalForwarded : List (String × String)
deriving DecidableEq, Repr

/-- Write the three maps of a genesis state to the collections, entry by entry;
the result of a write is dropped (`_ =`), nothing is checked and nothing is
returned. -/
def InitGenesis (s : State) (genesis : GenesisState) : State :=
  let s1 := genesis.NumOfAccounts.foldl
    (fun st e => { st with NumOfAccounts := Store.set st.NumOfAccounts e.1 e.2 }) s
  let s2 := genesis.NumOfForwards.foldl
    (fun st e => { st with NumOfForwards := Store.set st.NumOfForwards e.1 e.2 }) s1
  genesis.TotalForwarded.foldl
    (fun st e => { st with TotalForwarded := Store.set st.TotalForwarded e.1 e.2 }) s2

/-- Modelled from the spec: the readers of the whole collections are not among
the sources; genesis export "surfaces the three per-channel counter maps as a
flat snapshot", the entries of the collection. -/
def GetAllNumOfAccounts (s : State) : List (String × Nat) := s.NumOfAccounts

/-- Modelled from the spec: see `GetAllNumOfAccounts`. -/
def GetAllNumOfForwards (s : State) : List (String × Nat) := s.NumOfForwards

/-- Modelled from the spec: see `GetAllNumOfAccounts`. -/
def GetAllTotalForwarded (s : State) : List (String × String) := s.TotalForwarded

/-- The genesis state read from the three collections. -/
def ExportGenesis (s : State) : GenesisState where
  NumOfAccounts := GetAllNumOfAccounts s
  NumOfForwards := GetAllNumOfForwards s
  TotalForwarded := GetAllTotalForwarded s

/-! ## The packet messages (`x/forwarding/types/packet.pb.go`) -/

/-- A Go byte slice, or the bytes of a Go string. -/
abbrev Bytes := List Nat

/-- The first packet message: the two strings are kept as their bytes. -/
structure RegisterAccountData where
  Recipient : Bytes
  Channel : Bytes
deriving DecidableEq, Repr

/-- The wrapper message; `none` is the nil pointer. -/
structure RegisterAccountMemo_RegisterAccountDataWrapper where
  Forwarding : Option RegisterAccountData
deriving DecidableEq, Repr

/-- The memo message; `none` is the nil pointer. -/
structure RegisterAccountMemo where
  Noble : Option RegisterAccountMemo_RegisterAccountDataWrapper
deriving DecidableEq, Repr

/-- The errors the generated code returns: the four error values, and the
formatted errors with the values they are formatted from. -/
inductive PacketError where
  | ErrInvalidLengthPacket
  | ErrIntOverflowPacket
  | ErrUnexpectedEndOfGroupPacket
  | ErrUnexpectedEOF
  | endGroup (message : String)
  | illegalTag (message : String) (fieldNum : Int) (wire : Nat)
  | wrongWireType (wireType : Nat) (field : String)
  | illegalWireType (wireType : Nat)
deriving DecidableEq, Repr

/-- The ways a run of the generated code ends: with a value (Go's nil error), with
an error returned, with a runtime panic (an index or a slice bound out of range),
or, for the model only, with its loop fuel used up. -/
inductive Run (α : Type) where
  | ok (value : α)
  | error (err : PacketError)
  | panic
  | outOfFuel
deriving DecidableEq, Repr

/-- Go on with the value of a run; anything else ends the whole run. -/
def Run.bind {α β : Type} (r : Run α) (f : α → Run β) : Run β :=
  match r with
  | .ok v => f v
  | .error e => .error e
  | .panic => .panic
  | .outOfFuel => .outOfFuel

/-- The number of bits of a value that has at most `width` of them: it is halved
until nothing is left. -/
def bitLen : Nat → Nat → Nat
  | 0, _ => 0
  | width + 1, x => if x = 0 then 0 else bitLen width (x / 2) + 1

/-- The number of bits of a 64-bit value (`math/bits.Len64`), 0 for 0. -/
def Len64 (x : Nat) : Nat := bitLen 64 x

/-- The number of bytes of the varint of a 64-bit value. -/
def sovPacket (x : Nat) : Nat := (Len64 (x ||| 1) + 6) / 7

/-- The write `dAtA[i] = b`; an index out of range panics. -/
def setByte (dAtA : Bytes) (i : Nat) (b : Nat) : Run Bytes :=
  if i < dAtA.length then .ok (dAtA.set i b) else .panic

/-- The loop of `encodeVarintPacket`: `for v >= 1<<7`. A 64-bit value leaves the
loop after at most nine rounds. -/
def encodeVarintLoop : Nat → Bytes → Nat → Nat → Run Bytes
  | 0, _, _, _ => .outOfFuel
  | fuel + 1, dAtA, offset, v =>
    if v ≥ 1 <<< 7 then
      (setByte dAtA offset ((v &&& 0x7f ||| 0x80) % 256)).bind fun written =>
        encodeVarintLoop fuel written (offset + 1) (v >>> 7)
    else setByte dAtA offset (v % 256)

/-- Write a varint so that it ends before `offset`, and return where it starts. An
offset that `offset -= sovPacket(v)` takes below zero makes the first write
panic. -/
def encodeVarintPacket (dAtA : Bytes) (offset : Nat) (v : Nat) : Run (Bytes × Nat) :=
  if offset < sovPacket v then .panic
  else
    (encodeVarintLoop 10 dAtA (offset - sovPacket v) v).bind fun written =>
      .ok (written, offset - sovPacket v)

/-- The statements `i -= len(s); copy(dAtA[i:], s)`: the slice `dAtA[i:]` panics
when `i` has gone below zero or lies past the end, and `copy` fills what there is
room for. -/
def copyBefore (dAtA : Bytes) (i : Nat) (s : Bytes) : Run (Bytes × Nat) :=
  if i < s.length ∨ dAtA.length < i - s.length then .panic
  else
    .ok (dAtA.take (i - s.length) ++ s.take (dAtA.length - (i - s.length)) ++
      dAtA.drop (i - s.length + min s.length (dAtA.length - (i - s.length))), i - s.length)

/-- The statements `i--; dAtA[i] = tag`. -/
def setTagBefore (dAtA : Bytes) (i : Nat) (tag : Nat) : Run (Bytes × Nat) :=
  if i = 0 then .panic
  else (setByte dAtA (i - 1) tag).bind fun written => .ok (written, i - 1)

/-- The block the generated code writes for a string field: nothing for an empty
string, else the bytes, before them their number as a varint, before it the
tag. -/
def marshalString (dAtA : Bytes) (i : Nat) (tag : Nat) (s : Bytes) : Run (Bytes × Nat) :=
  if s.length > 0 then
    (copyBefore dAtA i s).bind fun copied =>
      (encodeVarintPacket copied.1 copied.2 (s.length % 2 ^ 64)).bind fun sized =>
        setTagBefore sized.1 sized.2 tag
  else .ok (dAtA, i)

/-- The number of bytes the message is written as: for each string that is not
empty its tag, its length as a varint and its bytes. -/
def RegisterAccountData.Size (m : RegisterAccountData) : Nat :=
  let n := 0
  let l := m.Recipient.length
  let n := if l > 0 then n + (1 + l + sovPacket (l % 2 ^ 64)) else n
  let l := m.Channel.length
  let n := if l > 0 then n + (1 + l + sovPacket (l % 2 ^ 64)) else n
  n

/-- The number of bytes the wrapper is written as: nothing for a nil field, else the
tag, the size of the inner message as a varint, and the inner message. -/
def RegisterAccountMemo_RegisterAccountDataWrapper.Size
    (m : RegisterAccountMemo_RegisterAccountDataWrapper) : Nat :=
  match m.Forwarding with
  | some forwarding =>
    let l := forwarding.Size
    1 + l + sovPacket (l % 2 ^ 64)
  | none => 0

/-- The number of bytes the memo is written as: nothing for a nil field, else the
tag, the size of the wrapper as a varint, and the wrapper. -/
def RegisterAccountMemo.Size (m : RegisterAccountMemo) : Nat :=
  match m.Noble with
  | some noble =>
    let l := noble.Size
    1 + l + sovPacket (l % 2 ^ 64)
  | none => 0

/-- Fill the buffer from its end: the channel, then, before it, the recipient. The
result is the buffer and the number of bytes written. -/
def RegisterAccountData.MarshalToSizedBuffer (m : RegisterAccountData) (dAtA : Bytes) :
    Run (Bytes × Nat) :=
  let i := dAtA.length
  (marshalString dAtA i 0x12 m.Channel).bind fun channel =>
    (marshalString channel.1 channel.2 0xa m.Recipient).bind fun recipient =>
      .ok (recipient.1, dAtA.length - recipient.2)

/-- The block the generated code writes for a message field whose bytes the
message itself has written into `dAtA[:i]`: before them their number as a varint,
before it the tag. -/
def marshalNested (dAtA : Bytes) (i : Nat) (inner : Run (Bytes × Nat)) : Run (Bytes × Nat) :=
  inner.bind fun filled =>
    if i < filled.2 then .panic
    else
      (encodeVarintPacket (filled.1 ++ dAtA.drop i) (i - filled.2) (filled.2 % 2 ^ 64)).bind
        fun sized => setTagBefore sized.1 sized.2 0xa

/-- Fill the buffer from its end: the inner message, if there is one, and before it
its length and the tag. -/
def RegisterAccountMemo_RegisterAccountDataWrapper.MarshalToSizedBuffer
    (m : RegisterAccountMemo_RegisterAccountDataWrapper) (dAtA : Bytes) : Run (Bytes × Nat) :=
  let i := dAtA.length
  match m.Forwarding with
  | some forwarding =>
    (marshalNested dAtA i (forwarding.MarshalToSizedBuffer (dAtA.take i))).bind fun written =>
      .ok (written.1, dAtA.length - written.2)
  | none => .ok (dAtA, dAtA.length - i)

/-- Fill the buffer from its end: the wrapper, if there is one, and before it its
length and the tag. -/
def RegisterAccountMemo.MarshalToSizedBuffer (m : RegisterAccountMemo) (dAtA : Bytes) :
    Run (Bytes × Nat) :=
  let i := dAtA.length
  match m.Noble with
  | some noble =>
    (marshalNested dAtA i (noble.MarshalToSizedBuffer (dAtA.take i))).bind fun written =>
      .ok (written.1, dAtA.length - written.2)
  | none => .ok (dAtA, dAtA.length - i)

/-- The slice `dAtA[lo:hi]`; bounds out of order or past the end panic. -/
def slice (dAtA : Bytes) (lo hi : Nat) : Run Bytes :=
  if lo ≤ hi ∧ hi ≤ dAtA.length then .ok ((dAtA.take hi).drop lo) else .panic

/-- A buffer of `Size` zero bytes is made and filled; the answer is `dAtA[:n]`. -/
def RegisterAccountData.Marshal (m : RegisterAccountData) : Run Bytes :=
  let size := m.Size
  let dAtA := List.replicate size 0
  (slice dAtA 0 size).bind fun buffer =>
    (m.MarshalToSizedBuffer buffer).bind fun written => slice written.1 0 written.2

/-- A buffer of `Size` zero bytes is made and filled; the answer is `dAtA[:n]`. -/
def RegisterAccountMemo_RegisterAccountDataWrapper.Marshal
    (m : RegisterAccountMemo_RegisterAccountDataWrapper) : Run Bytes :=
  let size := m.Size
  let dAtA := List.replicate size 0
  (slice dAtA 0 size).bind fun buffer =>
    (m.MarshalToSizedBuffer buffer).bind fun written => slice written.1 0 written.2

/-- A buffer of `Size` zero bytes is made and filled; the answer is `dAtA[:n]`. -/
def RegisterAccountMemo.Marshal (m : RegisterAccountMemo) : Run Bytes :=
  let size := m.Size
  let dAtA := List.replicate size 0
  (slice dAtA 0 size).bind fun buffer =>
    (m.MarshalToSizedBuffer buffer).bind fun written => slice written.1 0 written.2

/-- Whether a Go `int`, given by its 64 bits, is negative. -/
def isNegative (x : Nat) : Bool := decide (2 ^ 63 ≤ x % 2 ^ 64)

/-- The conversion `int32(x)` of a 64-bit value. -/
def int32 (x : Nat) : Int :=
  if x % 2 ^ 32 < 2 ^ 31 then ((x % 2 ^ 32 : Nat) : Int) else ((x % 2 ^ 32 : Nat) : Int) - 2 ^ 32

/-- The loop `for shift := uint(0); ; shift += 7` that reads a varint into a
64-bit value, from `iNdEx` on; it answers the value and the index after the last
byte read. The source has one copy of it wherever a varint is read (into a
`uint64` or into an `int`, which hold the same 64 bits). -/
def decodeVarint (dAtA : Bytes) : Nat → Nat → Nat → Nat → Run (Nat × Nat)
  | 0, _, _, _ => .outOfFuel
  | fuel + 1, shift, iNdEx, value =>
    if shift ≥ 64 then .error .ErrIntOverflowPacket
    else if iNdEx ≥ dAtA.length then .error .ErrUnexpectedEOF
    else
      match dAtA[iNdEx]? with
      | none => .panic
      | some b =>
        if b < 0x80 then .ok ((value ||| ((b &&& 0x7F) <<< shift)) % 2 ^ 64, iNdEx + 1)
        else
          decodeVarint dAtA fuel (shift + 7) (iNdEx + 1)
            ((value ||| ((b &&& 0x7F) <<< shift)) % 2 ^ 64)

/-- Read a varint from `iNdEx` on: the loop leaves at the eleventh round at the
latest, where the shift has reached 70. -/
def readVarint (dAtA : Bytes) (iNdEx : Nat) : Run (Nat × Nat) := decodeVarint dAtA 11 0 iNdEx 0

/-- The loop `for iNdEx < l` of `skipPacket`, with the index and the depth of the
groups open: a tag is read, the field is passed over according to its wire type,
and the loop ends when no group is open. An index is a Go `int`: a sum is taken
modulo 2^64 and is negative from 2^63 on. -/
def skipPacketLoop (dAtA : Bytes) : Nat → Nat → Nat → Run Nat
  | 0, _, _ => .outOfFuel
  | fuel + 1, iNdEx, depth =>
    if iNdEx < dAtA.length then
      (readVarint dAtA iNdEx).bind fun tag =>
        let wireType := tag.1 &&& 0x7
        let stepped : Run (Nat × Nat) :=
          if wireType = 0 then (readVarint dAtA tag.2).bind fun value => .ok (value.2, depth)
          else if wireType = 1 then .ok ((tag.2 + 8) % 2 ^ 64, depth)
          else if wireType = 2 then
            (readVarint dAtA tag.2).bind fun length =>
              if isNegative length.1 then .error .ErrInvalidLengthPacket
              else .ok ((length.2 + length.1) % 2 ^ 64, depth)
          else if wireType = 3 then .ok (tag.2, depth + 1)
          else if wireType = 4 then
            if depth = 0 then .error .ErrUnexpectedEndOfGroupPacket else .ok (tag.2, depth - 1)
          else if wireType = 5 then .ok ((tag.2 + 4) % 2 ^ 64, depth)
          else .error (.illegalWireType wireType)
        stepped.bind fun next =>
          if isNegative next.1 then .error .ErrInvalidLengthPacket
          else if next.2 = 0 then .ok next.1
          else skipPacketLoop dAtA fuel next.1 next.2
    else .error .ErrUnexpectedEOF

/-- The length of the field that starts the slice; a round of the loop reads at
least one byte, so the loop ends within as many rounds as the slice has bytes. -/
def skipPacket (dAtA : Bytes) : Run Nat := skipPacketLoop dAtA (dAtA.length + 1) 0 0

/-- The head of a round of an `Unmarshal` loop: the tag is read and taken apart
into field number and wire type, and the two are checked. -/
def readTag (message : String) (dAtA : Bytes) (iNdEx : Nat) : Run (Int × Nat × Nat) :=
  (readVarint dAtA iNdEx).bind fun wire =>
    let fieldNum := int32 (wire.1 >>> 3)
    let wireType := wire.1 &&& 0x7
    if wireType = 4 then .error (.endGroup message)
    else if fieldNum ≤ 0 then .error (.illegalTag message fieldNum wire.1)
    else .ok (fieldNum, wireType, wire.2)

/-- The length of a string or message field is read and checked; the answer is
where the field starts and where it ends (`iNdEx` and `postIndex`). -/
def readLength (dAtA : Bytes) (iNdEx : Nat) : Run (Nat × Nat) :=
  (readVarint dAtA iNdEx).bind fun length =>
    if isNegative length.1 then .error .ErrInvalidLengthPacket
    else if isNegative (length.2 + length.1) then .error .ErrInvalidLengthPacket
    else if (length.2 + length.1) % 2 ^ 64 > dAtA.length then .error .ErrUnexpectedEOF
    else .ok (length.2, (length.2 + length.1) % 2 ^ 64)

/-- The `default` branch of an `Unmarshal` loop: the field that starts at
`preIndex` is passed over; the answer is the index after it. -/
def skipField (dAtA : Bytes) (preIndex : Nat) : Run Nat :=
  (slice dAtA preIndex dAtA.length).bind fun rest =>
    (skipPacket rest).bind fun skippy =>
      if isNegative skippy ∨ isNegative (preIndex + skippy) then
        .error .ErrInvalidLengthPacket
      else if (preIndex + skippy) % 2 ^ 64 > dAtA.length then .error .ErrUnexpectedEOF
      else .ok ((preIndex + skippy) % 2 ^ 64)

/-- The loop `for iNdEx < l` of `Unmarshal`, with the message and the index: a tag
is read, field 1 is the recipient, field 2 the channel, any other field is passed
over. -/
def RegisterAccountData.unmarshalLoop (dAtA : Bytes) :
    Nat → RegisterAccountData → Nat → Run RegisterAccountData
  | 0, _, _ => .outOfFuel
  | fuel + 1, m, iNdEx =>
    if iNdEx < dAtA.length then
      (readTag "RegisterAccountData" dAtA iNdEx).bind fun tag =>
        if tag.1 = 1 then
          if tag.2.1 ≠ 2 then .error (.wrongWireType tag.2.1 "Recipient")
          else
            (readLength dAtA tag.2.2).bind fun bounds =>
              (slice dAtA bounds.1 bounds.2).bind fun text =>
                RegisterAccountData.unmarshalLoop dAtA fuel { m with Recipient := text } bounds.2
        else if tag.1 = 2 then
          if tag.2.1 ≠ 2 then .error (.wrongWireType tag.2.1 "Channel")
          else
            (readLength dAtA tag.2.2).bind fun bounds =>
              (slice dAtA bounds.1 bounds.2).bind fun text =>
                RegisterAccountData.unmarshalLoop dAtA fuel { m with Channel := text } bounds.2
        else
          (skipField dAtA iNdEx).bind fun next =>
            RegisterAccountData.unmarshalLoop dAtA fuel m next
    else if iNdEx > dAtA.length then .error .ErrUnexpectedEOF
    else .ok m

/-- Read the fields of the slice into the message; a round of the loop reads at
least one byte, so the loop ends within as many rounds as the slice has bytes. The
answer is the message as the call leaves it when it returns no error. -/
def RegisterAccountData.Unmarshal (m : RegisterAccountData) (dAtA : Bytes) :
    Run RegisterAccountData :=
  RegisterAccountData.unmarshalLoop dAtA (dAtA.length + 1) m 0

/-- The loop `for iNdEx < l` of `Unmarshal` of the wrapper: field 1 is read into
`Forwarding`, made first if it is nil; any other field is passed over. -/
def RegisterAccountMemo_RegisterAccountDataWrapper.unmarshalLoop (dAtA : Bytes) :
    Nat → RegisterAccountMemo_RegisterAccountDataWrapper → Nat →
      Run RegisterAccountMemo_RegisterAccountDataWrapper
  | 0, _, _ => .outOfFuel
  | fuel + 1, m, iNdEx =>
    if iNdEx < dAtA.length then
      (readTag "RegisterAccountDataWrapper" dAtA iNdEx).bind fun tag =>
        if tag.1 = 1 then
          if tag.2.1 ≠ 2 then .error (.wrongWireType tag.2.1 "Forwarding")
          else
            (readLength dAtA tag.2.2).bind fun bounds =>
              (slice dAtA bounds.1 bounds.2).bind fun inner =>
                ((m.Forwarding.getD ⟨[], []⟩).Unmarshal inner).bind fun forwarding =>
                  RegisterAccountMemo_RegisterAccountDataWrapper.unmarshalLoop dAtA fuel
                    { m with Forwarding := some forwarding } bounds.2
        else
          (skipField dAtA iNdEx).bind fun next =>
            RegisterAccountMemo_RegisterAccountDataWrapper.unmarshalLoop dAtA fuel m next
    else if iNdEx > dAtA.length then .error .ErrUnexpectedEOF
    else .ok m

/-- Read the fields of the slice into the wrapper. -/
def RegisterAccountMemo_RegisterAccountDataWrapper.Unmarshal
    (m : RegisterAccountMemo_RegisterAccountDataWrapper) (dAtA : Bytes) :
    Run RegisterAccountMemo_RegisterAccountDataWrapper :=
  RegisterAccountMemo_RegisterAccountDataWrapper.unmarshalLoop dAtA (dAtA.length + 1) m 0

/-- The loop `for iNdEx < l` of `Unmarshal` of the memo: field 1 is read into
`Noble`, made first if it is nil; any other field is passed over. -/
def RegisterAccountMemo.unmarshalLoop (dAtA : Bytes) :
    Nat → RegisterAccountMemo → Nat → Run RegisterAccountMemo
  | 0, _, _ => .outOfFuel
  | fuel + 1, m, iNdEx =>
    if iNdEx < dAtA.length then
      (readTag "RegisterAccountMemo" dAtA iNdEx).bind fun tag =>
        if tag.1 = 1 then
          if tag.2.1 ≠ 2 then .error (.wrongWireType tag.2.1 "Noble")
          else
            (readLength dAtA tag.2.2).bind fun bounds =>
              (slice dAtA bounds.1 bounds.2).bind fun inner =>
                ((m.Noble.getD ⟨none⟩).Unmarshal inner).bind fun noble =>
                  RegisterAccountMemo.unmarshalLoop dAtA fuel { m with Noble := some noble }
                    bounds.2
        else
          (skipField dAtA iNdEx).bind fun next =>
            RegisterAccountMemo.unmarshalLoop dAtA fuel m next
    else if iNdEx > dAtA.length then .error .ErrUnexpectedEOF
    else .ok m

/-- Read the fields of the slice into the memo. -/
def RegisterAccountMemo.Unmarshal (m : RegisterAccountMemo) (dAtA : Bytes) :
    Run RegisterAccountMemo :=
  RegisterAccountMemo.unmarshalLoop dAtA (dAtA.length + 1) m 0

/-! ## What the packet code is compared with -/

/-- The property of a run that ended with a value, a given property of the value,
or with an error returned: it neither panicked nor used up the fuel of the
model. -/
def Run.Safe {α : Type} (P : α → Prop) : Run α → Prop
  | .ok v => P v
  | .error _ => True
  | .panic => False
  | .outOfFuel => False

/-- The bytes of a varint, lowest seven bits first, for a value that takes at most
`rounds` bytes. -/
def varintBytes : Nat → Nat → Bytes
  | 0, _ => []
  | rounds + 1, v =>
    if v ≥ 1 <<< 7 then ((v &&& 0x7f ||| 0x80) % 256) :: varintBytes rounds (v >>> 7)
    else [v % 256]

/-- The bytes a string field is written as. -/
def encodeString (tag : Nat) (s : Bytes) : Bytes :=
  if s.length > 0 then tag :: (varintBytes 10 (s.length % 2 ^ 64) ++ s) else []

/-- The bytes a `RegisterAccountData` is written as: the recipient, then the
channel. -/
def RegisterAccountData.encode (m : RegisterAccountData) : Bytes :=
  encodeString 0xa m.Recipient ++ encodeString 0x12 m.Channel

/-- The bytes a wrapper is written as. -/
def RegisterAccountMemo_RegisterAccountDataWrapper.encode
    (m : RegisterAccountMemo_RegisterAccountDataWrapper) : Bytes :=
  match m.Forwarding with
  | some forwarding =>
    0xa :: (varintBytes 10 (forwarding.Size % 2 ^ 64) ++ forwarding.encode)
  | none => []

/-- The bytes a `RegisterAccountMemo` is written as. -/
def RegisterAccountMemo.encode (m : RegisterAccountMemo) : Bytes :=
  match m.Noble with
  | some noble => 0xa :: (varintBytes 10 (noble.Size % 2 ^ 64) ++ noble.encode)
  | none => []

/-! ## States reached through the handlers of the memo store -/

/-- States reached from an empty memo store through `RegisterAccount` and
`SetMemo` calls. -/
inductive MemoReachable (env : Env) : State → Prop where
  | start (s : State) (hempty : s.Memos = []) : MemoReachable env s
  | register (s : State) (msg : MsgRegisterAccount) (h : MemoReachable env s) :
      MemoReachable env (RegisterAccount env s msg).state
  | setMemo (s : State) (msg : MsgSetMemo) (h : MemoReachable env s) :
      MemoReachable env (SetMemo env s msg).state

/-- States reached from an empty memo store through `RegisterAccount` calls and
`SetMemo` calls that delete (empty memo) or address a denom that already has an
entry, so that no `SetMemo` adds a denom. -/
inductive MemoReachableNoNewDenom (env : Env) : State → Prop where
  | start (s : State) (hempty : s.Memos = []) : MemoReachableNoNewDenom env s
  | register (s : State) (msg : MsgRegisterAccount) (h : MemoReachableNoNewDenom env s) :
      MemoReachableNoNewDenom env (RegisterAccount env s msg).state
  | setMemo (s : State) (msg : MsgSetMemo) (h : MemoReachableNoNewDenom env s)
      (hold : len msg.Memo = 0 ∨
        GetMemo s (env.AddressString
          (env.GenerateAddress msg.Channel msg.Recipient msg.Fallback)) msg.Denom ≠ none) :
      MemoReachableNoNewDenom env (SetMemo env s msg).state

/-! ## A concrete chain, for evaluating the handlers -/

/-- Denoms of the shape the ledger accepts by default: a letter followed by 2 to
127 letters, digits or one of `/:._-`. -/
def defaultValidateDenom (denom : String) : Option String :=
  match denom.data with
  | [] => some ("invalid denom: " ++ denom)
  | c :: cs =>
    if c.isAlpha ∧ 2 ≤ cs.length ∧ cs.length ≤ 127 ∧
        cs.all (fun d => d.isAlphanum || d ∈ ['/', ':', '.', '_', '-']) then none
    else some ("invalid denom: " ++ denom)

/-- A number written as that many letters `x` closed by a dot. -/
def encodeNat (n : Nat) : List Char := List.replicate n 'x' ++ ['.']

/-- Read a number written by `encodeNat`, and the text that follows it. -/
def decodeNat : List Char → Nat × List Char
  | [] => (0, [])
  | c :: rest => if c = 'x' then ((decodeNat rest).1 + 1, (decodeNat rest).2) else (0, rest)

/-- A coin written as the length of its denom, the denom, and the amount. -/
def encodeCoin (c : String × Nat) : List Char :=
  encodeNat c.1.data.length ++ (c.1.data ++ encodeNat c.2)

/-- Coins written one after the other. -/
def encodeCoins : Coins → List Char
  | [] => []
  | c :: rest => encodeCoin c ++ encodeCoins rest

/-- Read coins written by `encodeCoins`, at most `fuel` of them. -/
def decodeCoins : Nat → List Char → Coins
  | 0, _ => []
  | fuel + 1, text =>
    match text with
    | [] => []
    | c :: rest =>
      let size := decodeNat (c :: rest)
      let amount := decodeNat (size.2.drop size.1)
      (String.mk (size.2.take size.1), amount.1) :: decodeCoins fuel amount.2

/-- Coins as a normalising reader gives them: in the order of their denoms and
without the zero ones; no coins at all when a denom comes twice or is not valid. -/
def normalizeCoins (validate : String → Option String) (coins : Coins) : Coins :=
  if (coins.map Prod.fst).Nodup ∧ coins.all (fun c => (validate c.1).isNone) = true then
    Store.sortByKey (coins.filter (fun c => c.2 ≠ 0))
  else []

/-- A small environment: channel ids are `channel-` followed by something, a
recipient holds at most 2048 bytes, addresses print as `addr` followed by a letter
per byte, coins print as `encodeCoins` writes them and are read normalised, and the
transfer initiator accepts every request. -/
def sampleEnv : Env where
  IsValidChannelID c := "channel-".data.isPrefixOf c.data && c != "channel-"
  MaximumReceiverLength := 2048
  StringToBytes a :=
    if "addr".data.isPrefixOf a.data then some ((a.data.drop 4).map Char.toNat) else none
  AddressString a := String.mk ("addr".data ++ a.map Char.ofNat)
  GenerateAddress channel recipient fallback :=
    (channel.data ++ ['|'] ++ recipient.data ++ ['|'] ++ fallback.data).map Char.toNat
  ValidateDenom := defaultValidateDenom
  authority := "addrGOV"
  ParseCoinsNormalized text :=
    normalizeCoins defaultValidateDenom (decodeCoins text.data.length text.data)
  CoinsString coins := String.mk (encodeCoins coins)

/-- The address the sample environment derives for a route without fallback
on `channel-0`. -/
def sampleAddress (recipient : String) : AccAddress :=
  sampleEnv.GenerateAddress "channel-0" recipient ""

/-- A small chain: `channel-0` open and `channel-9` closed, two untouched base
accounts at derived addresses, one of them funded in an allowed denom, the other
only in a denom that is not allowed. -/
def sampleState : State where
  accounts :=
    [.baseAccount ⟨sampleAddress "funded", none, 1, 0⟩,
     .baseAccount ⟨sampleAddress "idle", none, 2, 0⟩]
  nextAccountNumber := 3
  balances := [((sampleAddress "funded", "uusdc"), 5), ((sampleAddress "idle", "ufoo"), 9)]
  channels := [((PortID, "channel-0"), ⟨.OPEN⟩), ((PortID, "channel-9"), ⟨.CLOSED⟩)]
  height := 7
  AllowedDenoms := ["uatom", "uusdc"]

/-- A registration of a fresh route with two initial memos. -/
def sampleMsg : MsgRegisterAccount where
  Signer := "addrS"
  Recipient := "iaa1recipient"
  Channel := "channel-0"
  Fallback := ""
  Memos := [⟨"uusdc", "cross-chain-usdc"⟩, ⟨"uatom", "forward-atom"⟩]

/-- A list of `n` memo entries, like the one of the test of the entry limit. -/
def sampleMemos (n : Nat) : List MemoEntry :=
  (List.range n).map (fun i => ⟨"denom-" ++ toString i, "memo-" ++ toString i⟩)

/-- A forwarding account of the sample chain with the fallback `addrFB`. -/
def sampleForwarding : ForwardingAccount where
  BaseAccount := ⟨sampleEnv.GenerateAddress "channel-0" "bob" "addrFB", none, 4, 0⟩
  Channel := "channel-0"
  Recipient := "bob"
  CreatedAt := 7
  Fallback := "addrFB"

/-- The sample chain with that forwarding account registered and holding 50 units
of an allowed denom and 3 units of a denom that is not allowed. -/
def sampleClearState : State :=
  { sampleState with
    accounts := sampleState.accounts ++ [.forwardingAccount sampleForwarding]
    balances := sampleState.balances ++
      [((sampleForwarding.BaseAccount.Address, "uusdc"), 50),
       ((sampleForwarding.BaseAccount.Address, "ufoo"), 3)] }

/-- A request to clear the sample forwarding account. -/
def sampleClearMsg (fallback : Bool) : MsgClearAccount where
  Signer := "addrS"
  Address := "addrchannel-0|bob|addrFB"
  Fallback := fallback

/-- The sample chain after a registration with the full `MaxMemoEntries` initial
memos. -/
def sampleFullState : State :=
  (RegisterAccount sampleEnv sampleState { sampleMsg with Memos := sampleMemos 10 }).state

/-- A forwarding account of the sample chain on the closed channel. -/
def sampleClosedForwarding : ForwardingAccount where
  BaseAccount := ⟨sampleEnv.GenerateAddress "channel-9" "carol" "", none, 5, 0⟩
  Channel := "channel-9"
  Recipient := "carol"
  CreatedAt := 7
  Fallback := ""

/-- The sample chain before a sweep, at block time 1000: the forwarding account on
the open channel (50 `uusdc`, 3 `ufoo`) and the one on the closed channel
(8 `uusdc`) are both queued. -/
def sampleSweepState : State :=
  { sampleClearState with
    accounts := sampleClearState.accounts ++ [.forwardingAccount sampleClosedForwarding]
    balances := sampleClearState.balances ++
      [((sampleClosedForwarding.BaseAccount.Address, "uusdc"), 8)]
    PendingForwards :=
      [("addrchannel-9|carol|", sampleClosedForwarding),
       ("addrchannel-0|bob|addrFB", sampleForwarding)]
    blockTime := 1000 }

/-- The sample environment with a transfer initiator that refuses every request
for the denom `ufoo`. -/
def samplePickyEnv : Env :=
  { sampleEnv with
    Transfer := fun _ msg => if msg.Token.1 = "ufoo" then some "denom not supported" else none }

/-- A genesis state whose totals are not all texts of coins. -/
def sampleGenesis : GenesisState where
  NumOfAccounts := [("channel-0", 2), ("channel-9", 1)]
  NumOfForwards := [("channel-0", 18446744073709551615)]
  TotalForwarded := [("channel-0", "50uusdc"), ("channel-9", "not coins at all")]

/-- The sample chain with a sender that holds 250 `uusdc`. -/
def sampleRichState : State :=
  { sampleState with
    balances := sampleState.balances ++ [((sampleAddress "rich", "uusdc"), 250)] }

/-- The sample chain after the sample registration and a send of 100 `uusdc` from
that sender to the registered address. -/
def sampleFundedState : State :=
  (SendCoins sampleEnv (RegisterAccount sampleEnv sampleRichState sampleMsg).state
    (sampleAddress "rich")
    (sampleEnv.GenerateAddress "channel-0" "iaa1recipient" "") [("uusdc", 100)]).getD {}

/-! ## Facts about the collections and the ledger -/

/-- The order on texts is the strict lexicographic one: unfolded on two non-empty
lists of characters. -/
theorem ltChars_cons (a b : Char) (as bs : List Char) :
    ltChars (a :: as) (b :: bs) = true ↔
      a.toNat < b.toNat ∨ (a.toNat = b.toNat ∧ ltChars as bs = true) := by
  simp [ltChars]

theorem ltChars_irrefl : ∀ a : List Char, ltChars a a = false
  | [] => rfl
  | c :: cs => by
    have ih := ltChars_irrefl cs
    cases h : ltChars (c :: cs) (c :: cs) with
    | false => rfl
    | true =>
      rcases (ltChars_cons c c cs cs).1 h with h1 | ⟨_, h2⟩
      · omega
      · rw [ih] at h2
        cases h2

theorem ltChars_trans : ∀ a b c : List Char,
    ltChars a b = true → ltChars b c = true → ltChars a c = true
  | [], [], _, hab, _ => by simp [ltChars] at hab
  | _ :: _, [], _, hab, _ => by simp [ltChars] at hab
  | _, _ :: _, [], _, hbc => by simp [ltChars] at hbc
  | [], _ :: _, _ :: _, _, _ => rfl
  | x :: xs, y :: ys, z :: zs, hab, hbc => by
    rcases (ltChars_cons x y xs ys).1 hab with h1 | ⟨h1, h2⟩
    · rcases (ltChars_cons y z ys zs).1 hbc with h3 | ⟨h3, _⟩
      · exact (ltChars_cons x z xs zs).2 (Or.inl (by omega))
      · exact (ltChars_cons x z xs zs).2 (Or.inl (by omega))
    · rcases (ltChars_cons y z ys zs).1 hbc with h3 | ⟨h3, h4⟩
      · exact (ltChars_cons x z xs zs).2 (Or.inl (by omega))
      · exact (ltChars_cons x z xs zs).2
          (Or.inr ⟨by omega, ltChars_trans xs ys zs h2 h4⟩)

theorem strLt_asymm (a b : String) (h : strLt a b = true) : strLt b a = false := by
  cases hba : strLt b a with
  | false => rfl
  | true =>
    have := ltChars_trans _ _ _ h hba
    rw [ltChars_irrefl] at this
    cases this

theorem Store.mem_insertByKey {ν : Type} (e x : String × ν) :
    ∀ l : List (String × ν), x ∈ Store.insertByKey e l ↔ x = e ∨ x ∈ l
  | [] => by simp [Store.insertByKey]
  | y :: rest => by
    have ih := Store.mem_insertByKey e x rest
    by_cases h : strLt e.1 y.1 = true
    · simp [Store.insertByKey, h]
    · simp only [Store.insertByKey, h, if_false, List.mem_cons, ih, Bool.false_eq_true]
      tauto

/-- Sorting by key keeps exactly the entries of the list. -/
theorem Store.mem_sortByKey {ν : Type} (x : String × ν) :
    ∀ l : List (String × ν), x ∈ Store.sortByKey l ↔ x ∈ l
  | [] => by simp [Store.sortByKey]
  | y :: rest => by
    have ih := Store.mem_sortByKey x rest
    simp only [Store.sortByKey, Store.mem_insertByKey, ih, List.mem_cons]

theorem Store.sorted_insertByKey {ν : Type} (e : String × ν) :
    ∀ l : List (String × ν), l.Pairwise (fun a b => strLt b.1 a.1 = false) →
      (Store.insertByKey e l).Pairwise (fun a b => strLt b.1 a.1 = false)
  | [], _ => by simp [Store.insertByKey]
  | y :: rest, hl => by
    have hy := List.pairwise_cons.1 hl
    by_cases h : strLt e.1 y.1 = true
    · simp only [Store.insertByKey, h, if_true]
      refine List.pairwise_cons.2 ⟨?_, hl⟩
      intro z hz
      rcases List.mem_cons.1 hz with hz | hz
      · subst hz
        exact strLt_asymm _ _ h
      · cases hze : strLt z.1 e.1 with
        | false => rfl
        | true =>
          have hzy : strLt z.1 y.1 = true := ltChars_trans _ _ _ hze h
          rw [hy.1 z hz] at hzy
          cases hzy
    · simp only [Store.insertByKey, h, if_false, Bool.false_eq_true]
      refine List.pairwise_cons.2 ⟨?_, Store.sorted_insertByKey e rest hy.2⟩
      intro z hz
      rcases (Store.mem_insertByKey e z rest).1 hz with hz | hz
      · subst hz
        simpa using h
      · exact hy.1 z hz

/-- Sorting by key gives a list in ascending order of the keys: no entry has a
key below the key of an entry before it. -/
theorem Store.sorted_sortByKey {ν : Type} :
    ∀ l : List (String × ν),
      (Store.sortByKey l).Pairwise (fun a b => strLt b.1 a.1 = false)
  | [] => by simp [Store.sortByKey]
  | y :: rest => by
    simp only [Store.sortByKey]
    exact Store.sorted_insertByKey y _ (Store.sorted_sortByKey rest)

/-- A value read under a key is an entry of the collection. -/
theorem Store.mem_of_get {κ ν : Type} [DecidableEq κ] (k : κ) (v : ν) :
    ∀ l : List (κ × ν), Store.get l k = some v → (k, v) ∈ l
  | [], h => by simp [Store.get] at h
  | (k', v') :: rest, h => by
    by_cases hk : k' = k
    · simp only [Store.get, hk, if_true, Option.some.injEq] at h
      rw [hk, h]
      exact List.mem_cons_self _ _
    · simp only [Store.get, hk, if_false] at h
      exact List.mem_cons_of_mem _ (Store.mem_of_get k v rest h)

/-- With pairwise different keys, an entry of the collection is the value read
under its key. -/
theorem Store.get_of_mem {κ ν : Type} [DecidableEq κ] (k : κ) (v : ν) :
    ∀ l : List (κ × ν), (l.map Prod.fst).Nodup → (k, v) ∈ l → Store.get l k = some v
  | [], _, h => by cases h
  | (k', v') :: rest, hnd, h => by
    have hnd' : k' ∉ rest.map Prod.fst ∧ (rest.map Prod.fst).Nodup := List.nodup_cons.1 hnd
    rcases List.mem_cons.1 h with h | h
    · have hk : k' = k := (congrArg Prod.fst h).symm
      have hv : v' = v := (congrArg Prod.snd h).symm
      simp only [Store.get, hk, hv, if_true]
    · have hk : k' ≠ k := by
        intro hk
        exact hnd'.1 (hk ▸ List.mem_map_of_mem Prod.fst h)
      simp only [Store.get, hk, if_false]
      exact Store.get_of_mem k v rest hnd'.2 h

/-- An entry of a collection after a write is the entry written or one that was
there. -/
theorem Store.mem_set {κ ν : Type} [DecidableEq κ] (k : κ) (v : ν) (c : κ × ν) :
    ∀ m : List (κ × ν), c ∈ Store.set m k v → c = (k, v) ∨ c ∈ m
  | [], h => by
    simp only [Store.set, List.mem_singleton] at h
    exact Or.inl h
  | (k', v') :: rest, h => by
    by_cases hk : k' = k
    · simp only [Store.set, hk, if_true, List.mem_cons] at h
      rcases h with h | h
      · exact Or.inl h
      · exact Or.inr (List.mem_cons_of_mem _ h)
    · simp only [Store.set, hk, if_false, List.mem_cons] at h
      rcases h with h | h
      · exact Or.inr (h ▸ List.mem_cons_self _ _)
      · rcases Store.mem_set k v c rest h with h' | h'
        · exact Or.inl h'
        · exact Or.inr (List.mem_cons_of_mem _ h')

theorem Store.perm_insertByKey {ν : Type} (e : String × ν) :
    ∀ l : List (String × ν), (Store.insertByKey e l).Perm (e :: l)
  | [] => by simp [Store.insertByKey]
  | y :: rest => by
    by_cases h : strLt e.1 y.1 = true
    · simp [Store.insertByKey, h]
    · simp only [Store.insertByKey, h, if_false, Bool.false_eq_true]
      exact ((Store.perm_insertByKey e rest).cons y).trans (List.Perm.swap e y rest)

/-- Sorting by key rearranges the entries of the list. -/
theorem Store.perm_sortByKey {ν : Type} :
    ∀ l : List (String × ν), (Store.sortByKey l).Perm l
  | [] => by simp [Store.sortByKey]
  | y :: rest => by
    simp only [Store.sortByKey]
    exact (Store.perm_insertByKey y _).trans ((Store.perm_sortByKey rest).cons y)

/-- The allowed denoms read are exactly the denoms the state keeps. -/
theorem mem_GetAllowedDenoms (s : State) (d : String) :
    d ∈ GetAllowedDenoms s ↔ d ∈ s.AllowedDenoms := by
  unfold GetAllowedDenoms
  simp only [List.mem_map]
  constructor
  · rintro ⟨e, he, rfl⟩
    obtain ⟨x, hx, rfl⟩ := List.mem_map.1 ((Store.mem_sortByKey e _).1 he)
    exact hx
  · intro hd
    exact ⟨(d, ()), (Store.mem_sortByKey _ _).2 (List.mem_map.2 ⟨d, hd, rfl⟩), rfl⟩

theorem Store.get_set_self {κ ν : Type} [DecidableEq κ] (m : List (κ × ν)) (k : κ) (v : ν) :
    Store.get (Store.set m k v) k = some v := by
  induction m with
  | nil => simp [Store.set, Store.get]
  | cons p rest ih =>
    obtain ⟨k', v'⟩ := p
    by_cases h : k' = k
    · simp [Store.set, Store.get, h]
    · simp [Store.set, Store.get, h, ih]

/-- Writing a key leaves the value under every other key alone. -/
theorem Store.get_set_of_ne {κ ν : Type} [DecidableEq κ] (m : List (κ × ν)) (k j : κ) (v : ν)
    (h : j ≠ k) : Store.get (Store.set m k v) j = Store.get m j := by
  induction m with
  | nil => simp [Store.set, Store.get, Ne.symm h]
  | cons p rest ih =>
    obtain ⟨k', v'⟩ := p
    by_cases hk : k' = k
    · subst hk
      simp [Store.set, Store.get, Ne.symm h]
    · by_cases hj : k' = j
      · subst hj
        simp [Store.set, Store.get, hk]
      · simp [Store.set, Store.get, hk, hj, ih]

/-- An account written to the store is found under its own address. -/
theorem find_setAccountIn_self (accounts : List AccountI) (acc : AccountI) :
    (setAccountIn accounts acc).find? (fun a => a.GetAddress == acc.GetAddress) = some acc := by
  induction accounts with
  | nil => simp [setAccountIn]
  | cons a rest ih =>
    by_cases h : a.GetAddress = acc.GetAddress
    · simp [setAccountIn, h]
    · simp [setAccountIn, h, ih]

/-- After `SetAccount` the account is the one stored at its address. -/
theorem GetAccount_SetAccount_self (s : State) (acc : AccountI) :
    GetAccount (SetAccount s acc) acc.GetAddress = some acc := by
  simp only [GetAccount, SetAccount]
  exact find_setAccountIn_self s.accounts acc

/-- The account stored at an address has that address. -/
theorem GetAccount_address {s : State} {address : AccAddress} {acc : AccountI}
    (h : GetAccount s address = some acc) : acc.GetAddress = address := by
  have := List.find?_some h
  simpa using this

/-- C1: an account is eligible for registration at an address exactly when it has
no key and sequence 0, or carries the sentinel key of that very address (with any
sequence); so a key-less account with a non-zero sequence, the sentinel of another
address and every ordinary key are refused. -/
theorem ValidateAccountFields_none_iff (env : Env) (account : AccountI) (address : AccAddress) :
    (ValidateAccountFields env account address = none ↔
      (account.GetPubKey = none ∧ account.GetSequence = 0) ∨
        account.GetPubKey = some (.ForwardingPubKey address)) ∧
    (account.GetPubKey = none → account.GetSequence ≠ 0 →
      ValidateAccountFields env account address =
        some ("attempting to register an existing user account with address: " ++
          env.AddressString address)) ∧
    (∀ other : AccAddress, other ≠ address →
      account.GetPubKey = some (.ForwardingPubKey other) →
      ValidateAccountFields env account address ≠ none) ∧
    (∀ (keyType : String) (bytes : List Nat),
      account.GetPubKey = some (.ordinary keyType bytes) →
      ValidateAccountFields env account address ≠ none) := by
  unfold ValidateAccountFields
  refine ⟨?_, ?_, ?_, ?_⟩
  · cases hk : account.GetPubKey with
    | none => simp
    | some pk => cases pk <;> simp [PubKey.Equals]
  · intro hk hs
    simp [hk, hs]
  · intro other ho hk
    simp [hk, PubKey.Equals, ho]
  · intro keyType bytes hk
    simp [hk, PubKey.Equals]

/-- The loop of the validation accepts the entries exactly when each obeys the
rules, none has a denom seen before, and their denoms are pairwise different. -/
theorem validateMemoLoop_none_iff (env : Env) (entries : List MemoEntry) :
    ∀ seen : List String, validateMemoLoop env seen entries = none ↔
      (∀ e ∈ entries, (e.Denom ≠ "" ∧ env.ValidateDenom e.Denom = none ∧
        1 ≤ len e.Memo ∧ len e.Memo ≤ MaxMemoLength) ∧ e.Denom ∉ seen) ∧
      (entries.map MemoEntry.Denom).Nodup := by
  induction entries with
  | nil => intro seen; simp [validateMemoLoop]
  | cons entry rest ih =>
    intro seen
    unfold validateMemoLoop
    by_cases h1 : entry.Denom = ""
    · simp [h1]
    by_cases h2 : entry.Denom ∈ seen
    · simp [h1, h2]
    by_cases h3 : len entry.Memo = 0
    · simp [h1, h2, h3]
    by_cases h4 : len entry.Memo > MaxMemoLength
    · simp only [h1, h2, h3, h4, if_true, if_false]
      constructor
      · intro h; cases h
      · intro h
        have := (h.1 entry (List.mem_cons_self _ _)).1.2.2.2
        omega
    cases h5 : env.ValidateDenom entry.Denom with
    | some err => simp [h1, h2, h3, h4, h5]
    | none =>
      simp only [h1, h2, h3, h4, h5, if_false]
      rw [ih (entry.Denom :: seen)]
      simp only [List.mem_cons, List.map_cons, List.nodup_cons, List.mem_map, not_or,
        forall_eq_or_imp]
      constructor
      · rintro ⟨hall, hnd⟩
        refine ⟨⟨⟨⟨h1, h5, by omega, by omega⟩, h2⟩, fun e he => ⟨(hall e he).1, (hall e he).2.2⟩⟩, ?_, hnd⟩
        rintro ⟨e, he, hde⟩
        exact (hall e he).2.1 hde
      · rintro ⟨⟨_, hall⟩, hnot, hnd⟩
        refine ⟨fun e he => ⟨(hall e he).1, ?_, (hall e he).2⟩, hnd⟩
        intro hde
        exact hnot ⟨e, he, hde⟩

/-- The memo validation accepts a list exactly when it obeys the four rules. -/
theorem validateMemoEntries_eq_none_iff (env : Env) (entries : List MemoEntry) :
    validateMemoEntries env entries = none ↔
      entries.length ≤ MaxMemoEntries ∧
      (∀ e ∈ entries, e.Denom ≠ "" ∧ env.ValidateDenom e.Denom = none ∧
        1 ≤ len e.Memo ∧ len e.Memo ≤ MaxMemoLength) ∧
      (entries.map MemoEntry.Denom).Nodup := by
  unfold validateMemoEntries
  by_cases hlen : entries.length > MaxMemoEntries
  · simp only [hlen, if_true]
    constructor
    · intro h; cases h
    · intro h; omega
  · simp only [hlen, if_false, validateMemoLoop_none_iff]
    constructor
    · rintro ⟨hall, hnd⟩
      exact ⟨by omega, fun e he => (hall e he).1, hnd⟩
    · rintro ⟨_, hall, hnd⟩
      exact ⟨fun e he => ⟨hall e he, by simp⟩, hnd⟩

/-- More than `MaxMemoEntries` entries are refused with the error of the limit. -/
theorem validateMemoEntries_too_many (env : Env) (entries : List MemoEntry)
    (h : entries.length > MaxMemoEntries) :
    validateMemoEntries env entries = some "cannot register more than 10 memos" := by
  simp only [validateMemoEntries, h, if_true]
  decide

/-- C7: the initial memos of a registration are accepted exactly when there are
at most `MaxMemoEntries` (10) of them, every denom is non-empty and passes the
denom check of the ledger, no denom occurs twice, and every memo holds between 1
and `MaxMemoLength` (1024) bytes; ten valid entries pass, eleven or more never do. -/
theorem validateMemoEntries_none_iff (env : Env) (entries : List MemoEntry) :
    (validateMemoEntries env entries = none ↔
      entries.length ≤ MaxMemoEntries ∧
      (∀ e ∈ entries, e.Denom ≠ "" ∧ env.ValidateDenom e.Denom = none ∧
        1 ≤ len e.Memo ∧ len e.Memo ≤ MaxMemoLength) ∧
      (entries.map MemoEntry.Denom).Nodup) ∧
    MaxMemoEntries = 10 ∧ MaxMemoLength = 1024 ∧
    (entries.length = 10 →
      (∀ e ∈ entries, e.Denom ≠ "" ∧ env.ValidateDenom e.Denom = none ∧
        1 ≤ len e.Memo ∧ len e.Memo ≤ 1024) →
      (entries.map MemoEntry.Denom).Nodup → validateMemoEntries env entries = none) ∧
    (11 ≤ entries.length →
      validateMemoEntries env entries = some "cannot register more than 10 memos") := by
  refine ⟨validateMemoEntries_eq_none_iff env entries, rfl, rfl, ?_, ?_⟩
  · intro hlen hall hnd
    exact (validateMemoEntries_eq_none_iff env entries).2
      ⟨by simp [MaxMemoEntries, hlen], hall, hnd⟩
  · intro hlen
    exact validateMemoEntries_too_many env entries (by simp only [MaxMemoEntries]; omega)

/-! ## Facts about the registration handler -/

/-- Storing memos touches the memo collection only. -/
theorem foldl_setMemoEntry (addr : String) (entries : List MemoEntry) :
    ∀ s : State, entries.foldl (setMemoEntry addr) s =
      { s with Memos := (entries.foldl
          (fun m e => Store.set m (addr, e.Denom) e.Memo) s.Memos) } := by
  induction entries with
  | nil => intro s; rfl
  | cons e rest ih => intro s; simp only [List.foldl_cons, ih, setMemoEntry]

/-- The empty list of memos is valid. -/
theorem validateMemoEntries_nil (env : Env) : validateMemoEntries env [] = none := by
  simp [validateMemoEntries, validateMemoLoop]

/-- The error of `setInitialMemos` is the verdict of the validation. -/
theorem setInitialMemos_err (env : Env) (s : State) (address : AccAddress)
    (entries : List MemoEntry) :
    (setInitialMemos env s address entries).2 = validateMemoEntries env entries := by
  unfold setInitialMemos
  by_cases h : entries.length = 0
  · have : entries = [] := List.length_eq_zero.mp h
    subst this
    simp [validateMemoEntries_nil]
  · simp only [h, if_false]
    cases hv : validateMemoEntries env entries <;> simp

/-- A refused list of memos leaves the state as it was. -/
theorem setInitialMemos_state_of_err (env : Env) (s : State) (address : AccAddress)
    (entries : List MemoEntry) (h : validateMemoEntries env entries ≠ none) :
    (setInitialMemos env s address entries).1 = s := by
  unfold setInitialMemos
  by_cases h0 : entries.length = 0
  · simp [h0]
  · simp only [h0, if_false]
    cases hv : validateMemoEntries env entries with
    | none => exact absurd hv h
    | some e => rfl

/-- An accepted list of memos is written entry by entry to the memo collection. -/
theorem setInitialMemos_state_of_ok (env : Env) (s : State) (address : AccAddress)
    (entries : List MemoEntry) (h : validateMemoEntries env entries = none) :
    (setInitialMemos env s address entries).1 =
      { s with Memos := (entries.foldl
          (fun m e => Store.set m (env.AddressString address, e.Denom) e.Memo) s.Memos) } := by
  unfold setInitialMemos
  by_cases h0 : entries.length = 0
  · have : entries = [] := List.length_eq_zero.mp h0
    subst this
    simp
  · simp only [h0, if_false, h, foldl_setMemoEntry]

/-- The error of the tail of a registration is the verdict of the memo validation. -/
theorem finishRegistration_err (env : Env) (s : State) (address : AccAddress)
    (msg : MsgRegisterAccount) :
    (finishRegistration env s address msg).err = validateMemoEntries env msg.Memos := by
  have h := setInitialMemos_err env s address msg.Memos
  unfold finishRegistration
  rcases hs : setInitialMemos env s address msg.Memos with ⟨s1, e⟩
  rw [hs] at h
  cases e with
  | none => simpa [Emit] using h
  | some err => simpa using h

/-- A tail refused for its memos writes nothing and answers nothing. -/
theorem finishRegistration_of_err (env : Env) (s : State) (address : AccAddress)
    (msg : MsgRegisterAccount) (h : validateMemoEntries env msg.Memos ≠ none) :
    (finishRegistration env s address msg).state = s ∧
      (finishRegistration env s address msg).resp = none := by
  have h1 := setInitialMemos_err env s address msg.Memos
  have h2 := setInitialMemos_state_of_err env s address msg.Memos h
  unfold finishRegistration
  rcases hs : setInitialMemos env s address msg.Memos with ⟨s1, e⟩
  rw [hs] at h1 h2
  cases e with
  | none => exact absurd h1.symm h
  | some err => exact ⟨h2, rfl⟩

/-- A tail with valid memos writes them, records the event and answers the address. -/
theorem finishRegistration_of_ok (env : Env) (s : State) (address : AccAddress)
    (msg : MsgRegisterAccount) (h : validateMemoEntries env msg.Memos = none) :
    (finishRegistration env s address msg).state =
      { s with
        Memos := (msg.Memos.foldl
          (fun m e => Store.set m (env.AddressString address, e.Denom) e.Memo) s.Memos),
        events := s.events ++ [.AccountRegistered (env.AddressString address)
          msg.Channel msg.Recipient msg.Fallback] } ∧
      (finishRegistration env s address msg).resp = some ⟨env.AddressString address⟩ := by
  have h1 := setInitialMemos_err env s address msg.Memos
  have h2 := setInitialMemos_state_of_ok env s address msg.Memos h
  unfold finishRegistration
  rcases hs : setInitialMemos env s address msg.Memos with ⟨s1, e⟩
  rw [hs] at h1 h2
  cases e with
  | none =>
    simp only at h2
    subst h2
    exact ⟨rfl, rfl⟩
  | some err => rw [h] at h1; cases h1

/-- On a forwarding account the loop over the allowed denoms enqueues the account
exactly when some allowed denom has a non-zero balance. -/
theorem enqueueIfFunded_forwarding (env : Env) (address : AccAddress)
    (account : ForwardingAccount) (s : State) (denoms : List String) :
    enqueueIfFunded env address (.forwardingAccount account) s denoms =
      if ∃ d ∈ denoms, GetBalance s address d ≠ 0 then SetPendingForward env s account
      else s := by
  induction denoms with
  | nil => simp [enqueueIfFunded]
  | cons d rest ih =>
    unfold enqueueIfFunded
    by_cases h : GetBalance s address d = 0
    · simp only [h, ne_eq, not_true_eq_false, if_false, ih, List.mem_cons, exists_eq_or_imp]
      simp
    · simp [h]

/-- The ways through `RegisterAccount`: either a check before the first write
fails and nothing has changed, or the checks pass and the call ends in
`finishRegistration`, on the upgrade path or on the path of a fresh account. -/
theorem RegisterAccount_paths (env : Env) (s : State) (msg : MsgRegisterAccount) :
    ((RegisterAccount env s msg).state = s ∧ (RegisterAccount env s msg).resp = none ∧
      (RegisterAccount env s msg).err ≠ none) ∨
    (env.IsValidChannelID msg.Channel = true ∧
      len msg.Recipient ≤ env.MaximumReceiverLength ∧
      ¬(msg.Fallback ≠ "" ∧ env.StringToBytes msg.Fallback = none) ∧
      GetChannel s PortID msg.Channel = some ⟨.OPEN⟩ ∧
      ((∃ account : BaseAccount,
          GetAccount s (env.GenerateAddress msg.Channel msg.Recipient msg.Fallback) =
            some (.baseAccount account) ∧
          ValidateAccountFields env (.baseAccount account)
            (env.GenerateAddress msg.Channel msg.Recipient msg.Fallback) = none ∧
          RegisterAccount env s msg =
            finishRegistration env
              (enqueueIfFunded env (env.GenerateAddress msg.Channel msg.Recipient msg.Fallback)
                (.forwardingAccount ⟨account, msg.Channel, msg.Recipient, s.height, msg.Fallback⟩)
                (IncrementNumOfAccounts (SetAccount s (.forwardingAccount
                  ⟨account, msg.Channel, msg.Recipient, s.height, msg.Fallback⟩)) msg.Channel)
                (GetAllowedDenoms s))
              (env.GenerateAddress msg.Channel msg.Recipient msg.Fallback) msg) ∨
        (GetAccount s (env.GenerateAddress msg.Channel msg.Recipient msg.Fallback) = none ∧
          RegisterAccount env s msg =
            finishRegistration env
              (IncrementNumOfAccounts
                (SetAccount { s with nextAccountNumber := s.nextAccountNumber + 1 }
                  (.forwardingAccount
                    ⟨⟨env.GenerateAddress msg.Channel msg.Recipient msg.Fallback, none,
                        s.nextAccountNumber, 0⟩,
                      msg.Channel, msg.Recipient, s.height, msg.Fallback⟩))
                msg.Channel)
              (env.GenerateAddress msg.Channel msg.Recipient msg.Fallback) msg))) := by
  by_cases h1 : env.IsValidChannelID msg.Channel = true
  swap
  · left; simp [RegisterAccount, h1]
  by_cases h2 : len msg.Recipient > env.MaximumReceiverLength
  · left; simp [RegisterAccount, h1, h2]
  by_cases h3 : msg.Fallback ≠ "" ∧ env.StringToBytes msg.Fallback = none
  · left; simp [RegisterAccount, h1, h2, h3]
  cases hc : GetChannel s PortID msg.Channel with
  | none => left; simp [RegisterAccount, h1, h2, h3, hc]
  | some channel =>
    by_cases h4 : channel.State ≠ .OPEN
    · left; simp [RegisterAccount, h1, h2, h3, hc, h4]
    have h4' : channel = ⟨.OPEN⟩ := by
      cases channel; simp only [ne_eq, not_not] at h4; simp [h4]
    subst h4'
    cases ha : GetAccount s (env.GenerateAddress msg.Channel msg.Recipient msg.Fallback) with
    | none =>
      right
      refine ⟨h1, by omega, h3, rfl, Or.inr ⟨rfl, ?_⟩⟩
      unfold RegisterAccount
      simp only [h1, h2, h3, hc, ha, Bool.not_true, Bool.false_eq_true, if_false, ne_eq,
        not_true_eq_false]
      rfl
    | some rawAccount =>
      cases hv : ValidateAccountFields env rawAccount
          (env.GenerateAddress msg.Channel msg.Recipient msg.Fallback) with
      | some err => left; simp [RegisterAccount, h1, h2, h3, hc, ha, hv]
      | none =>
        cases rawAccount with
        | baseAccount account =>
          right
          refine ⟨h1, by omega, h3, rfl, Or.inl ⟨account, rfl, hv, ?_⟩⟩
          unfold RegisterAccount
          simp only [h1, h2, h3, hc, ha, hv, Bool.not_true, Bool.false_eq_true, if_false,
            ne_eq, not_true_eq_false]
          rfl
        | forwardingAccount fa => left; simp [RegisterAccount, h1, h2, h3, hc, ha, hv]
        | other typeName account => left; simp [RegisterAccount, h1, h2, h3, hc, ha, hv]

/-- Eligibility looks at the base account only. -/
theorem ValidateAccountFields_forwarding (env : Env) (account : ForwardingAccount)
    (address : AccAddress) :
    ValidateAccountFields env (.forwardingAccount account) address =
      ValidateAccountFields env (.baseAccount account.BaseAccount) address := rfl

/-- What a successful `RegisterAccount` leaves behind: the forwarding account
built over a base account (the one stored at the derived address, or a fresh
one), written to the account store; the queue holding it when the upgrade path
finds a balance; the memos written; nothing else of the ledger touched. -/
theorem RegisterAccount_ok (env : Env) (s : State) (msg : MsgRegisterAccount)
    (hok : (RegisterAccount env s msg).err = none) :
    ∃ base : BaseAccount,
      (GetAccount s (env.GenerateAddress msg.Channel msg.Recipient msg.Fallback) =
          some (.baseAccount base) ∨
        (GetAccount s (env.GenerateAddress msg.Channel msg.Recipient msg.Fallback) = none ∧
          base = ⟨env.GenerateAddress msg.Channel msg.Recipient msg.Fallback, none,
            s.nextAccountNumber, 0⟩)) ∧
      base.Address = env.GenerateAddress msg.Channel msg.Recipient msg.Fallback ∧
      ValidateAccountFields env (.baseAccount base)
        (env.GenerateAddress msg.Channel msg.Recipient msg.Fallback) = none ∧
      env.IsValidChannelID msg.Channel = true ∧
      len msg.Recipient ≤ env.MaximumReceiverLength ∧
      ¬(msg.Fallback ≠ "" ∧ env.StringToBytes msg.Fallback = none) ∧
      GetChannel s PortID msg.Channel = some ⟨.OPEN⟩ ∧
      validateMemoEntries env msg.Memos = none ∧
      (RegisterAccount env s msg).resp =
        some ⟨env.AddressString (env.GenerateAddress msg.Channel msg.Recipient msg.Fallback)⟩ ∧
      (RegisterAccount env s msg).state.accounts =
        setAccountIn s.accounts (.forwardingAccount
          ⟨base, msg.Channel, msg.Recipient, s.height, msg.Fallback⟩) ∧
      (RegisterAccount env s msg).state.channels = s.channels ∧
      (RegisterAccount env s msg).state.balances = s.balances ∧
      (RegisterAccount env s msg).state.AllowedDenoms = s.AllowedDenoms ∧
      (RegisterAccount env s msg).state.Memos =
        msg.Memos.foldl (fun m e => Store.set m
          (env.AddressString (env.GenerateAddress msg.Channel msg.Recipient msg.Fallback),
            e.Denom) e.Memo) s.Memos ∧
      (RegisterAccount env s msg).state.PendingForwards =
        if (GetAccount s (env.GenerateAddress msg.Channel msg.Recipient msg.Fallback)).isSome ∧
            ∃ d ∈ GetAllowedDenoms s,
              GetBalance s (env.GenerateAddress msg.Channel msg.Recipient msg.Fallback) d ≠ 0
        then Store.set s.PendingForwards
          (env.AddressString (env.GenerateAddress msg.Channel msg.Recipient msg.Fallback))
          ⟨base, msg.Channel, msg.Recipient, s.height, msg.Fallback⟩
        else s.PendingForwards := by
  rcases RegisterAccount_paths env s msg with ⟨_, _, herr⟩ | ⟨h1, h2, h3, h4, hpath⟩
  · exact absurd hok herr
  rcases hpath with ⟨account, ha, hv, hR⟩ | ⟨ha, hR⟩
  · have hval : validateMemoEntries env msg.Memos = none := by
      rw [hR, finishRegistration_err] at hok; exact hok
    have haddr : account.Address = env.GenerateAddress msg.Channel msg.Recipient msg.Fallback :=
      GetAccount_address ha
    refine ⟨account, Or.inl ha, haddr, hv, h1, h2, h3, h4, hval, ?_⟩
    rw [hR]
    obtain ⟨hst, hresp⟩ := finishRegistration_of_ok env _ _ msg hval
    rw [hst, hresp, enqueueIfFunded_forwarding]
    refine ⟨rfl, ?_⟩
    by_cases hb : ∃ d ∈ GetAllowedDenoms s,
        GetBalance s (env.GenerateAddress msg.Channel msg.Recipient msg.Fallback) d ≠ 0
    · have hb' : ∃ d ∈ GetAllowedDenoms s,
          GetBalance (IncrementNumOfAccounts (SetAccount s (.forwardingAccount
            ⟨account, msg.Channel, msg.Recipient, s.height, msg.Fallback⟩)) msg.Channel)
            (env.GenerateAddress msg.Channel msg.Recipient msg.Fallback) d ≠ 0 := hb
      rw [if_pos hb', if_pos ⟨by simp [ha], hb⟩]
      refine ⟨rfl, rfl, rfl, rfl, rfl, ?_⟩
      simp only [SetPendingForward, haddr]
      rfl
    · have hb' : ¬ ∃ d ∈ GetAllowedDenoms s,
          GetBalance (IncrementNumOfAccounts (SetAccount s (.forwardingAccount
            ⟨account, msg.Channel, msg.Recipient, s.height, msg.Fallback⟩)) msg.Channel)
            (env.GenerateAddress msg.Channel msg.Recipient msg.Fallback) d ≠ 0 := hb
      rw [if_neg hb', if_neg (fun h => hb h.2)]
      exact ⟨rfl, rfl, rfl, rfl, rfl, rfl⟩
  · have hval : validateMemoEntries env msg.Memos = none := by
      rw [hR, finishRegistration_err] at hok; exact hok
    refine ⟨_, Or.inr ⟨ha, rfl⟩, rfl, ?_, h1, h2, h3, h4, hval, ?_⟩
    · simp [ValidateAccountFields, AccountI.GetPubKey, AccountI.GetSequence, AccountI.base]
    rw [hR]
    obtain ⟨hst, hresp⟩ := finishRegistration_of_ok env _ _ msg hval
    rw [hst, hresp, if_neg (by simp [ha])]
    exact ⟨rfl, rfl, rfl, rfl, rfl, rfl, rfl⟩

/-- No error of the memo validation starts with the letter `r`. -/
theorem validateMemoLoop_err_head (env : Env) (entries : List MemoEntry) :
    ∀ (seen : List String) (e : String),
      validateMemoLoop env seen entries = some e → e.data.head? ≠ some 'r' := by
  induction entries with
  | nil => intro seen e h; simp [validateMemoLoop] at h
  | cons entry rest ih =>
    intro seen e h
    unfold validateMemoLoop at h
    split_ifs at h with h1 h2 h3 h4
    · cases h; simp
    · cases h; simp [String.data_append]
    · cases h; simp [String.data_append]
    · cases h; simp [String.data_append]
    · cases h5 : env.ValidateDenom entry.Denom with
      | some err =>
        rw [h5] at h
        cases h
        simp [String.data_append]
      | none =>
        rw [h5] at h
        exact ih _ e h

/-- No error of `validateMemoEntries` starts with the letter `r`. -/
theorem validateMemoEntries_err_head (env : Env) (entries : List MemoEntry) (e : String)
    (h : validateMemoEntries env entries = some e) : e.data.head? ≠ some 'r' := by
  unfold validateMemoEntries at h
  split_ifs at h
  · cases h; simp [String.data_append]
  · exact validateMemoLoop_err_head env entries [] e h

/-- The error of `RegisterAccount`, by the check that raises it; the last case is
the call that reaches the memos. -/
theorem RegisterAccount_err_cases (env : Env) (s : State) (msg : MsgRegisterAccount) :
    (env.IsValidChannelID msg.Channel = false ∧
      (RegisterAccount env s msg).err = some "invalid channel") ∨
    (len msg.Recipient > env.MaximumReceiverLength ∧
      (RegisterAccount env s msg).err = some ("recipient address must not exceed " ++
        toString env.MaximumReceiverLength ++ " bytes")) ∨
    (len msg.Recipient ≤ env.MaximumReceiverLength ∧
      ((RegisterAccount env s msg).err = some "invalid fallback address" ∨
        (RegisterAccount env s msg).err = some ("channel does not exist: " ++ msg.Channel) ∨
        (∃ channel : Channel, (RegisterAccount env s msg).err =
          some ("channel is not open: " ++ msg.Channel ++ ", " ++ channel.State.String)) ∨
        (RegisterAccount env s msg).err =
          some ("attempting to register an existing user account with address: " ++
            env.AddressString (env.GenerateAddress msg.Channel msg.Recipient msg.Fallback)) ∨
        (RegisterAccount env s msg).err = some "account has already been registered" ∨
        (∃ typeName : String, (RegisterAccount env s msg).err =
          some ("unsupported account type: " ++ typeName)) ∨
        (RegisterAccount env s msg).err = validateMemoEntries env msg.Memos)) := by
  by_cases h1 : env.IsValidChannelID msg.Channel = true
  swap
  · left; simp [RegisterAccount, h1]
  by_cases h2 : len msg.Recipient > env.MaximumReceiverLength
  · right; left; simp [RegisterAccount, h1, h2]
  right; right
  refine ⟨by omega, ?_⟩
  by_cases h3 : msg.Fallback ≠ "" ∧ env.StringToBytes msg.Fallback = none
  · left; simp [RegisterAccount, h1, h2, h3]
  cases hc : GetChannel s PortID msg.Channel with
  | none => right; left; simp [RegisterAccount, h1, h2, h3, hc]
  | some channel =>
    by_cases h4 : channel.State ≠ .OPEN
    · right; right; left; exact ⟨channel, by simp [RegisterAccount, h1, h2, h3, hc, h4]⟩
    cases ha : GetAccount s (env.GenerateAddress msg.Channel msg.Recipient msg.Fallback) with
    | none =>
      right; right; right; right; right; right
      have hR : RegisterAccount env s msg = finishRegistration env
          (IncrementNumOfAccounts
            (SetAccount { s with nextAccountNumber := s.nextAccountNumber + 1 }
              (.forwardingAccount
                ⟨⟨env.GenerateAddress msg.Channel msg.Recipient msg.Fallback, none,
                    s.nextAccountNumber, 0⟩,
                  msg.Channel, msg.Recipient, s.height, msg.Fallback⟩))
            msg.Channel)
          (env.GenerateAddress msg.Channel msg.Recipient msg.Fallback) msg := by
        unfold RegisterAccount
        simp only [h1, h2, h3, hc, ha, h4, Bool.not_true, Bool.false_eq_true, if_false]
        rfl
      rw [hR, finishRegistration_err]
    | some rawAccount =>
      cases hv : ValidateAccountFields env rawAccount
          (env.GenerateAddress msg.Channel msg.Recipient msg.Fallback) with
      | some err =>
        right; right; right; left
        have : err = "attempting to register an existing user account with address: " ++
            env.AddressString (env.GenerateAddress msg.Channel msg.Recipient msg.Fallback) := by
          unfold ValidateAccountFields at hv
          simp only at hv
          split_ifs at hv
          cases hv
          rfl
        simp [RegisterAccount, h1, h2, h3, hc, h4, ha, hv, this]
      | none =>
        cases rawAccount with
        | baseAccount account =>
          right; right; right; right; right; right
          have hR : RegisterAccount env s msg = finishRegistration env
              (enqueueIfFunded env (env.GenerateAddress msg.Channel msg.Recipient msg.Fallback)
                (.forwardingAccount ⟨account, msg.Channel, msg.Recipient, s.height, msg.Fallback⟩)
                (IncrementNumOfAccounts (SetAccount s (.forwardingAccount
                  ⟨account, msg.Channel, msg.Recipient, s.height, msg.Fallback⟩)) msg.Channel)
                (GetAllowedDenoms s))
              (env.GenerateAddress msg.Channel msg.Recipient msg.Fallback) msg := by
            unfold RegisterAccount
            simp only [h1, h2, h3, hc, ha, hv, h4, Bool.not_true, Bool.false_eq_true, if_false]
            rfl
          rw [hR, finishRegistration_err]
        | forwardingAccount fa =>
          right; right; right; right; left
          simp [RegisterAccount, h1, h2, h3, hc, h4, ha, hv]
        | other typeName account =>
          right; right; right; right; right; left
          exact ⟨typeName, by simp [RegisterAccount, h1, h2, h3, hc, h4, ha, hv]⟩

/-- C2, as the claim states it, fails: the sample registration succeeds, the channel
closes, and the same registration made again on the state the first one left,
which still holds the account, is refused with the error of the channel check, not
with "account has already been registered". -/
theorem RegisterAccount_again_on_closed_channel :
    (RegisterAccount sampleEnv sampleState sampleMsg).err = none ∧
    GetAccount
        { (RegisterAccount sampleEnv sampleState sampleMsg).state with
          channels := [((PortID, "channel-0"), ⟨.CLOSED⟩)] }
        (sampleEnv.GenerateAddress sampleMsg.Channel sampleMsg.Recipient sampleMsg.Fallback) =
      GetAccount (RegisterAccount sampleEnv sampleState sampleMsg).state
        (sampleEnv.GenerateAddress sampleMsg.Channel sampleMsg.Recipient sampleMsg.Fallback) ∧
    (RegisterAccount sampleEnv
        { (RegisterAccount sampleEnv sampleState sampleMsg).state with
          channels := [((PortID, "channel-0"), ⟨.CLOSED⟩)] } sampleMsg).err =
      some "channel is not open: channel-0, STATE_CLOSED" ∧
    (RegisterAccount sampleEnv
        { (RegisterAccount sampleEnv sampleState sampleMsg).state with
          channels := [((PortID, "channel-0"), ⟨.CLOSED⟩)] } sampleMsg).err ≠
      some "account has already been registered" := by
  decide

/-- C2, amended: once a registration of a triple has succeeded, a registration of
the same triple (whatever its signer and memos), made on a later state that still
holds the account the first call stored, fails and leaves the whole state, in
particular the account store, the per-channel counter, the pending queue and the
memo store, unchanged; the error is "account has already been registered" when the
channel is still OPEN in that state, and the error of the channel check otherwise,
which comes first. -/
theorem RegisterAccount_same_triple_again (env : Env) (s later : State)
    (msg again : MsgRegisterAccount)
    (hok : (RegisterAccount env s msg).err = none)
    (hchannel : again.Channel = msg.Channel) (hrecipient : again.Recipient = msg.Recipient)
    (hfallback : again.Fallback = msg.Fallback)
    (hacc : GetAccount later (env.GenerateAddress msg.Channel msg.Recipient msg.Fallback) =
      GetAccount (RegisterAccount env s msg).state
        (env.GenerateAddress msg.Channel msg.Recipient msg.Fallback)) :
    (RegisterAccount env later again).err ≠ none ∧
    (RegisterAccount env later again).resp = none ∧
    (RegisterAccount env later again).state = later ∧
    (GetChannel later PortID msg.Channel = some ⟨.OPEN⟩ →
      (RegisterAccount env later again).err = some "account has already been registered") ∧
    (GetChannel later PortID msg.Channel = none →
      (RegisterAccount env later again).err = some ("channel does not exist: " ++ msg.Channel)) ∧
    (∀ channel : Channel, GetChannel later PortID msg.Channel = some channel →
      channel.State ≠ .OPEN →
      (RegisterAccount env later again).err =
        some ("channel is not open: " ++ msg.Channel ++ ", " ++ channel.State.String)) := by
  obtain ⟨base, _, haddr, hv, h1, h2, h3, _, _, _, haccs, _, _⟩ :=
    RegisterAccount_ok env s msg hok
  have hget : GetAccount later (env.GenerateAddress msg.Channel msg.Recipient msg.Fallback) =
      some (.forwardingAccount ⟨base, msg.Channel, msg.Recipient, s.height, msg.Fallback⟩) := by
    rw [hacc]
    simp only [GetAccount, haccs]
    have := find_setAccountIn_self s.accounts
      (.forwardingAccount ⟨base, msg.Channel, msg.Recipient, s.height, msg.Fallback⟩)
    simpa [AccountI.GetAddress, AccountI.base, haddr] using this
  have h2' : ¬ len msg.Recipient > env.MaximumReceiverLength := by omega
  have hv' : ValidateAccountFields env
      (.forwardingAccount ⟨base, msg.Channel, msg.Recipient, s.height, msg.Fallback⟩)
      (env.GenerateAddress msg.Channel msg.Recipient msg.Fallback) = none := hv
  have hfails : (RegisterAccount env later again).state = later ∧
      (RegisterAccount env later again).resp = none ∧
      (RegisterAccount env later again).err ≠ none := by
    rcases RegisterAccount_paths env later again with h | ⟨_, _, _, _, hpath⟩
    · exact h
    · exfalso
      rw [hchannel, hrecipient, hfallback, hget] at hpath
      rcases hpath with ⟨_, h, _⟩ | ⟨h, _⟩ <;> cases h
  refine ⟨hfails.2.2, hfails.2.1, hfails.1, ?_, ?_, ?_⟩
  · intro hopen
    unfold RegisterAccount
    simp only [hchannel, hrecipient, hfallback, h1, h2', h3, hopen, hget, hv', Bool.not_true,
      Bool.false_eq_true, if_false, ne_eq, not_true_eq_false]
  · intro hnone
    unfold RegisterAccount
    simp only [hchannel, hrecipient, hfallback, h1, h2', h3, hnone, Bool.not_true,
      Bool.false_eq_true, if_false]
  · intro channel hsome hstate
    unfold RegisterAccount
    simp only [hchannel, hrecipient, hfallback, h1, h2', h3, hsome, hstate, Bool.not_true,
      Bool.false_eq_true, if_false, if_true, ne_eq, not_false_eq_true]

/-- On the sample chain: the sample registration succeeds, and registering the same
route again with another signer and no memos is refused without any change, as
already registered since the channel is still open. -/
theorem RegisterAccount_same_triple_again_witness :
    (RegisterAccount sampleEnv sampleState sampleMsg).err = none ∧
    (RegisterAccount sampleEnv (RegisterAccount sampleEnv sampleState sampleMsg).state
        { sampleMsg with Signer := "addrT", Memos := [] }).err =
      some "account has already been registered" ∧
    (RegisterAccount sampleEnv (RegisterAccount sampleEnv sampleState sampleMsg).state
        { sampleMsg with Signer := "addrT", Memos := [] }).state =
      (RegisterAccount sampleEnv sampleState sampleMsg).state :=
  have h := RegisterAccount_same_triple_again sampleEnv sampleState
    (RegisterAccount sampleEnv sampleState sampleMsg).state sampleMsg
    { sampleMsg with Signer := "addrT", Memos := [] } (by decide) rfl rfl rfl rfl
  ⟨by decide, h.2.2.2.1 (by decide), h.2.2.1⟩

/-- C3: `RegisterAccount` fails and leaves the state exactly as it was whenever
the channel id is not valid, the recipient is longer than `MaximumReceiverLength`
bytes, the fallback is non-empty and does not decode, the channel does not exist,
or the channel is not OPEN; a recipient of at most (so also of exactly) that length
is never answered with the error of the length check. -/
theorem RegisterAccount_rejects_bad_route (env : Env) (s : State) (msg : MsgRegisterAccount) :
    ((env.IsValidChannelID msg.Channel = false ∨
        len msg.Recipient > env.MaximumReceiverLength ∨
        (msg.Fallback ≠ "" ∧ env.StringToBytes msg.Fallback = none) ∨
        GetChannel s PortID msg.Channel = none ∨
        (∃ channel : Channel, GetChannel s PortID msg.Channel = some channel ∧
          channel.State ≠ .OPEN)) →
      (RegisterAccount env s msg).err ≠ none ∧ (RegisterAccount env s msg).resp = none ∧
        (RegisterAccount env s msg).state = s) ∧
    (env.IsValidChannelID msg.Channel = true →
      len msg.Recipient > env.MaximumReceiverLength →
      (RegisterAccount env s msg).err = some ("recipient address must not exceed " ++
        toString env.MaximumReceiverLength ++ " bytes")) ∧
    (len msg.Recipient ≤ env.MaximumReceiverLength →
      (RegisterAccount env s msg).err ≠ some ("recipient address must not exceed " ++
        toString env.MaximumReceiverLength ++ " bytes")) := by
  refine ⟨?_, ?_, ?_⟩
  · intro hbad
    rcases RegisterAccount_paths env s msg with ⟨hst, hresp, herr⟩ | ⟨h1, h2, h3, h4, _⟩
    · exact ⟨herr, hresp, hst⟩
    · exfalso
      rcases hbad with h | h | h | h | ⟨channel, hc, hne⟩
      · rw [h1] at h; cases h
      · omega
      · exact h3 h
      · rw [h4] at h; cases h
      · rw [h4] at hc
        cases hc
        exact hne rfl
  · intro h1 h2
    simp [RegisterAccount, h1, h2]
  · intro hle herr
    have hhead : ∀ e : String, (RegisterAccount env s msg).err = some e →
        e.data.head? ≠ some 'r' := by
      intro e he
      rcases RegisterAccount_err_cases env s msg with
        ⟨_, h⟩ | ⟨hgt, _⟩ | ⟨_, h | h | ⟨_, h⟩ | h | h | ⟨_, h⟩ | h⟩
      · rw [h] at he; cases he; simp
      · omega
      · rw [h] at he; cases he; simp
      · rw [h] at he; cases he; simp [String.data_append]
      · rw [h] at he; cases he; simp [String.data_append]
      · rw [h] at he; cases he; simp [String.data_append]
      · rw [h] at he; cases he; simp
      · rw [h] at he; cases he; simp [String.data_append]
      · rw [h] at he
        exact validateMemoEntries_err_head env msg.Memos e he
    exact hhead _ herr (by simp [String.data_append])

/-- On the sample chain: a registration over the closed channel is refused without
any change. -/
theorem RegisterAccount_rejects_bad_route_witness :
    (RegisterAccount sampleEnv sampleState { sampleMsg with Channel := "channel-9" }).err ≠ none ∧
    (RegisterAccount sampleEnv sampleState { sampleMsg with Channel := "channel-9" }).resp = none ∧
    (RegisterAccount sampleEnv sampleState { sampleMsg with Channel := "channel-9" }).state =
      sampleState :=
  (RegisterAccount_rejects_bad_route sampleEnv sampleState
    { sampleMsg with Channel := "channel-9" }).1
    (Or.inr (Or.inr (Or.inr (Or.inr ⟨⟨.CLOSED⟩, by decide, by decide⟩))))

/-- C4: after a successful `RegisterAccount` the account stored at the derived
address is a forwarding account with the channel, recipient and fallback of the
message and the current block height as `CreatedAt`, built over the base account
it came from: the pre-existing base account, unchanged, on the upgrade path, or
the account the ledger has just created (next account number, sequence 0) when
none existed; so account number and sequence are those of that base account. -/
theorem RegisterAccount_stores_forwarding_account (env : Env) (s : State)
    (msg : MsgRegisterAccount) (hok : (RegisterAccount env s msg).err = none) :
    ∃ fa : ForwardingAccount,
      GetAccount (RegisterAccount env s msg).state
          (env.GenerateAddress msg.Channel msg.Recipient msg.Fallback) =
        some (.forwardingAccount fa) ∧
      fa.Channel = msg.Channel ∧ fa.Recipient = msg.Recipient ∧
      fa.Fallback = msg.Fallback ∧ fa.CreatedAt = GetHeight s ∧
      (∀ old : AccountI,
        GetAccount s (env.GenerateAddress msg.Channel msg.Recipient msg.Fallback) = some old →
        old = .baseAccount fa.BaseAccount ∧
          fa.BaseAccount.AccountNumber = old.GetAccountNumber ∧
          fa.BaseAccount.Sequence = old.GetSequence) ∧
      (GetAccount s (env.GenerateAddress msg.Channel msg.Recipient msg.Fallback) = none →
        fa.BaseAccount =
          (NewAccountWithAddress s
            (env.GenerateAddress msg.Channel msg.Recipient msg.Fallback)).2.base ∧
        fa.BaseAccount.AccountNumber = s.nextAccountNumber ∧
        fa.BaseAccount.Sequence = 0) := by
  obtain ⟨base, hfrom, haddr, _, _, _, _, _, _, _, haccs, _⟩ :=
    RegisterAccount_ok env s msg hok
  refine ⟨⟨base, msg.Channel, msg.Recipient, s.height, msg.Fallback⟩, ?_, rfl, rfl, rfl, rfl,
    ?_, ?_⟩
  · simp only [GetAccount, haccs]
    have := find_setAccountIn_self s.accounts
      (.forwardingAccount ⟨base, msg.Channel, msg.Recipient, s.height, msg.Fallback⟩)
    simpa [AccountI.GetAddress, AccountI.base, haddr] using this
  · intro old hold
    rcases hfrom with h | ⟨h, _⟩
    · rw [h] at hold
      cases hold
      exact ⟨rfl, rfl, rfl⟩
    · rw [h] at hold; cases hold
  · intro hnone
    rcases hfrom with h | ⟨_, hb⟩
    · rw [h] at hnone; cases hnone
    · subst hb
      exact ⟨rfl, rfl, rfl⟩

/-- On the sample chain: the sample registration stores a forwarding account
created at height 7 with the next account number, 3. -/
theorem RegisterAccount_stores_forwarding_account_witness :
    (RegisterAccount sampleEnv sampleState sampleMsg).err = none ∧
    ∃ fa : ForwardingAccount,
      GetAccount (RegisterAccount sampleEnv sampleState sampleMsg).state
          (sampleAddress "iaa1recipient") = some (.forwardingAccount fa) ∧
      fa.Channel = "channel-0" ∧ fa.CreatedAt = 7 ∧ fa.BaseAccount.AccountNumber = 3 :=
  have h := RegisterAccount_stores_forwarding_account sampleEnv sampleState sampleMsg
    (by decide)
  ⟨by decide, h.elim fun fa hfa =>
    ⟨fa, hfa.1, hfa.2.1, hfa.2.2.2.2.1, (hfa.2.2.2.2.2.2 (by decide)).2.1⟩⟩

/-- C5, as the claim states it, fails: a registration over the funded base account
of the sample chain with an invalid memo denom returns an error after the account
store, the per-channel counter and the pending queue have been written. -/
theorem RegisterAccount_error_after_writes :
    (RegisterAccount sampleEnv sampleState
        { sampleMsg with Recipient := "funded", Memos := [⟨"u", "memo"⟩] }).err =
      some "invalid denom u: invalid denom: u" ∧
    (RegisterAccount sampleEnv sampleState
        { sampleMsg with Recipient := "funded", Memos := [⟨"u", "memo"⟩] }).state.accounts ≠
      sampleState.accounts ∧
    (RegisterAccount sampleEnv sampleState
        { sampleMsg with Recipient := "funded", Memos := [⟨"u", "memo"⟩] }).state.NumOfAccounts ≠
      sampleState.NumOfAccounts ∧
    (RegisterAccount sampleEnv sampleState
        { sampleMsg with Recipient := "funded", Memos := [⟨"u", "memo"⟩] }).state.PendingForwards ≠
      sampleState.PendingForwards := by
  decide

/-- C5, amended: a `RegisterAccount` call that returns an error leaves the memo
store as it was, and leaves the whole state (account store, per-channel counter,
pending queue, memo store) as it was unless the error is the one raised by the
validation of the initial memos; in particular whenever the initial memos are
valid. -/
theorem RegisterAccount_error_state (env : Env) (s : State) (msg : MsgRegisterAccount)
    (herr : (RegisterAccount env s msg).err ≠ none) :
    (RegisterAccount env s msg).resp = none ∧
    (RegisterAccount env s msg).state.Memos = s.Memos ∧
    ((RegisterAccount env s msg).err ≠ validateMemoEntries env msg.Memos →
      (RegisterAccount env s msg).state = s) ∧
    (validateMemoEntries env msg.Memos = none → (RegisterAccount env s msg).state = s) := by
  rcases RegisterAccount_paths env s msg with ⟨hst, hresp, _⟩ | ⟨_, _, _, _, hpath⟩
  · exact ⟨hresp, by rw [hst], fun _ => hst, fun _ => hst⟩
  · rcases hpath with ⟨account, _, _, hR⟩ | ⟨_, hR⟩
    · have hv : validateMemoEntries env msg.Memos ≠ none := by
        rw [hR, finishRegistration_err] at herr; exact herr
      obtain ⟨hst, hresp⟩ := finishRegistration_of_err env
        (enqueueIfFunded env (env.GenerateAddress msg.Channel msg.Recipient msg.Fallback)
          (.forwardingAccount ⟨account, msg.Channel, msg.Recipient, s.height, msg.Fallback⟩)
          (IncrementNumOfAccounts (SetAccount s (.forwardingAccount
            ⟨account, msg.Channel, msg.Recipient, s.height, msg.Fallback⟩)) msg.Channel)
          (GetAllowedDenoms s))
        (env.GenerateAddress msg.Channel msg.Recipient msg.Fallback) msg hv
      refine ⟨by rw [hR]; exact hresp, ?_, ?_, fun h => absurd h hv⟩
      · rw [hR, hst, enqueueIfFunded_forwarding]
        split <;> rfl
      · intro hne
        exact absurd (by rw [hR, finishRegistration_err]) hne
    · have hv : validateMemoEntries env msg.Memos ≠ none := by
        rw [hR, finishRegistration_err] at herr; exact herr
      obtain ⟨hst, hresp⟩ := finishRegistration_of_err env
        (IncrementNumOfAccounts
          (SetAccount { s with nextAccountNumber := s.nextAccountNumber + 1 }
            (.forwardingAccount
              ⟨⟨env.GenerateAddress msg.Channel msg.Recipient msg.Fallback, none,
                  s.nextAccountNumber, 0⟩,
                msg.Channel, msg.Recipient, s.height, msg.Fallback⟩))
          msg.Channel)
        (env.GenerateAddress msg.Channel msg.Recipient msg.Fallback) msg hv
      refine ⟨by rw [hR]; exact hresp, ?_, ?_, fun h => absurd h hv⟩
      · rw [hR, hst]
        rfl
      · intro hne
        exact absurd (by rw [hR, finishRegistration_err]) hne

/-- On the sample chain: a registration with an undecodable fallback is refused
without any change. -/
theorem RegisterAccount_error_state_witness :
    (RegisterAccount sampleEnv sampleState { sampleMsg with Fallback := "nowhere" }).err =
      some "invalid fallback address" ∧
    (RegisterAccount sampleEnv sampleState { sampleMsg with Fallback := "nowhere" }).state =
      sampleState :=
  have h := RegisterAccount_error_state sampleEnv sampleState
    { sampleMsg with Fallback := "nowhere" } (by decide)
  ⟨by decide, h.2.2.2 (by decide)⟩

/-- C6: when `RegisterAccount` succeeds in upgrading a pre-existing base account,
the forwarding account it stored is in the pending queue, under its address, if
the address holds a non-zero balance in some allowed denom; if the balance is zero
in every allowed denom the queue is as it was before the call. -/
theorem RegisterAccount_upgrade_enqueues (env : Env) (s : State) (msg : MsgRegisterAccount)
    (base : BaseAccount)
    (hok : (RegisterAccount env s msg).err = none)
    (hbase : GetAccount s (env.GenerateAddress msg.Channel msg.Recipient msg.Fallback) =
      some (.baseAccount base)) :
    ((∃ d ∈ GetAllowedDenoms s,
        GetBalance s (env.GenerateAddress msg.Channel msg.Recipient msg.Fallback) d ≠ 0) →
      ∃ fa : ForwardingAccount,
        GetAccount (RegisterAccount env s msg).state
            (env.GenerateAddress msg.Channel msg.Recipient msg.Fallback) =
          some (.forwardingAccount fa) ∧
        fa.BaseAccount = base ∧
        Store.get (RegisterAccount env s msg).state.PendingForwards
            (env.AddressString (env.GenerateAddress msg.Channel msg.Recipient msg.Fallback)) =
          some fa) ∧
    ((∀ d ∈ GetAllowedDenoms s,
        GetBalance s (env.GenerateAddress msg.Channel msg.Recipient msg.Fallback) d = 0) →
      (RegisterAccount env s msg).state.PendingForwards = s.PendingForwards) := by
  obtain ⟨b, hfrom, haddr, _, _, _, _, _, _, _, haccs, _, _, _, _, hpend⟩ :=
    RegisterAccount_ok env s msg hok
  have hb : b = base := by
    rcases hfrom with h | ⟨h, _⟩
    · rw [hbase] at h
      cases h
      rfl
    · rw [hbase] at h; cases h
  subst hb
  constructor
  · intro hfunded
    refine ⟨⟨b, msg.Channel, msg.Recipient, s.height, msg.Fallback⟩, ?_, rfl, ?_⟩
    · simp only [GetAccount, haccs]
      have := find_setAccountIn_self s.accounts
        (.forwardingAccount ⟨b, msg.Channel, msg.Recipient, s.height, msg.Fallback⟩)
      simpa [AccountI.GetAddress, AccountI.base, haddr] using this
    · rw [hpend, if_pos ⟨by simp [hbase], hfunded⟩]
      exact Store.get_set_self _ _ _
  · intro hzero
    rw [hpend, if_neg]
    rintro ⟨_, d, hd, hne⟩
    exact hne (hzero d hd)

/-- On the sample chain: upgrading the funded base account enqueues it, upgrading
the account without an allowed balance leaves the queue empty. -/
theorem RegisterAccount_upgrade_enqueues_witness :
    (∃ fa : ForwardingAccount,
      GetAccount (RegisterAccount sampleEnv sampleState
          { sampleMsg with Recipient := "funded" }).state (sampleAddress "funded") =
        some (.forwardingAccount fa) ∧
      fa.BaseAccount = ⟨sampleAddress "funded", none, 1, 0⟩ ∧
      Store.get (RegisterAccount sampleEnv sampleState
          { sampleMsg with Recipient := "funded" }).state.PendingForwards
          (sampleEnv.AddressString (sampleAddress "funded")) = some fa) ∧
    (RegisterAccount sampleEnv sampleState
        { sampleMsg with Recipient := "idle" }).state.PendingForwards =
      sampleState.PendingForwards :=
  ⟨(RegisterAccount_upgrade_enqueues sampleEnv sampleState
      { sampleMsg with Recipient := "funded" } ⟨sampleAddress "funded", none, 1, 0⟩
      (by decide) (by decide)).1 ⟨"uusdc", by decide, by decide⟩,
   (RegisterAccount_upgrade_enqueues sampleEnv sampleState
      { sampleMsg with Recipient := "idle" } ⟨sampleAddress "idle", none, 2, 0⟩
      (by decide) (by decide)).2 (by decide)⟩

/-- C8, as the claim states it, fails: with eleven initial memos on a closed
channel the error is the one of the channel check, and it does not say "cannot
register more than". -/
theorem RegisterAccount_too_many_memos_other_error :
    (sampleMemos 11).length > MaxMemoEntries ∧
    (RegisterAccount sampleEnv sampleState
        { sampleMsg with Channel := "channel-9", Memos := sampleMemos 11 }).err =
      some "channel is not open: channel-9, STATE_CLOSED" ∧
    ¬ ("cannot register more than".data <:+:
        "channel is not open: channel-9, STATE_CLOSED".data) := by
  decide

/-- C8, amended: a `RegisterAccount` call whose initial memos break a memo rule
(more than `MaxMemoEntries` entries, a duplicate denom, an empty or invalid denom,
an empty memo, a memo longer than `MaxMemoLength`) fails and leaves the memo store
unchanged, so no entry of the batch is written; with more than `MaxMemoEntries`
entries the error is "cannot register more than 10 memos" when the call passes the
checks made before the memos (channel id, recipient, fallback, open channel, and
an account at the derived address that is absent or an eligible base account). -/
theorem RegisterAccount_rejects_bad_memos (env : Env) (s : State) (msg : MsgRegisterAccount)
    (hbad : msg.Memos.length > MaxMemoEntries ∨
      ¬ (msg.Memos.map MemoEntry.Denom).Nodup ∨
      ∃ e ∈ msg.Memos, e.Denom = "" ∨ env.ValidateDenom e.Denom ≠ none ∨
        len e.Memo = 0 ∨ len e.Memo > MaxMemoLength) :
    (RegisterAccount env s msg).err ≠ none ∧
    (RegisterAccount env s msg).resp = none ∧
    (RegisterAccount env s msg).state.Memos = s.Memos ∧
    (msg.Memos.length > MaxMemoEntries →
      env.IsValidChannelID msg.Channel = true →
      len msg.Recipient ≤ env.MaximumReceiverLength →
      (msg.Fallback = "" ∨ env.StringToBytes msg.Fallback ≠ none) →
      GetChannel s PortID msg.Channel = some ⟨.OPEN⟩ →
      (GetAccount s (env.GenerateAddress msg.Channel msg.Recipient msg.Fallback) = none ∨
        ∃ base : BaseAccount,
          GetAccount s (env.GenerateAddress msg.Channel msg.Recipient msg.Fallback) =
            some (.baseAccount base) ∧
          ValidateAccountFields env (.baseAccount base)
            (env.GenerateAddress msg.Channel msg.Recipient msg.Fallback) = none) →
      (RegisterAccount env s msg).err = some "cannot register more than 10 memos") := by
  have hv : validateMemoEntries env msg.Memos ≠ none := by
    intro h
    obtain ⟨hlen, hall, hnd⟩ := (validateMemoEntries_eq_none_iff env msg.Memos).1 h
    rcases hbad with h | h | ⟨e, he, h | h | h | h⟩
    · omega
    · exact h hnd
    · exact (hall e he).1 h
    · exact h (hall e he).2.1
    · have := (hall e he).2.2.1; omega
    · have := (hall e he).2.2.2; omega
  have herr : (RegisterAccount env s msg).err ≠ none := by
    rcases RegisterAccount_paths env s msg with ⟨_, _, h⟩ | ⟨_, _, _, _, hpath⟩
    · exact h
    · rcases hpath with ⟨_, _, _, hR⟩ | ⟨_, hR⟩ <;>
        (rw [hR, finishRegistration_err]; exact hv)
  refine ⟨herr, ?_, ?_, ?_⟩
  · rcases RegisterAccount_paths env s msg with ⟨_, h, _⟩ | ⟨_, _, _, _, hpath⟩
    · exact h
    · rcases hpath with ⟨_, _, _, hR⟩ | ⟨_, hR⟩ <;>
        (rw [hR]; exact (finishRegistration_of_err env _ _ msg hv).2)
  · rcases RegisterAccount_paths env s msg with ⟨h, _, _⟩ | ⟨_, _, _, _, hpath⟩
    · rw [h]
    · rcases hpath with ⟨_, _, _, hR⟩ | ⟨_, hR⟩
      · rw [hR, (finishRegistration_of_err env _ _ msg hv).1, enqueueIfFunded_forwarding]
        split <;> rfl
      · rw [hR, (finishRegistration_of_err env _ _ msg hv).1]
        rfl
  · intro hlen h1 h2 h3 h4 hacc
    have h2' : ¬ len msg.Recipient > env.MaximumReceiverLength := by omega
    have h3' : ¬ (msg.Fallback ≠ "" ∧ env.StringToBytes msg.Fallback = none) := by
      rintro ⟨ha, hb⟩
      rcases h3 with h | h
      · exact ha h
      · exact h hb
    have hE : (RegisterAccount env s msg).err = validateMemoEntries env msg.Memos := by
      rcases hacc with ha | ⟨base, ha, hval⟩
      · unfold RegisterAccount
        simp only [h1, h2', h3', h4, ha, Bool.not_true, Bool.false_eq_true, if_false, ne_eq,
          not_true_eq_false]
        exact finishRegistration_err _ _ _ _
      · unfold RegisterAccount
        simp only [h1, h2', h3', h4, ha, hval, Bool.not_true, Bool.false_eq_true, if_false,
          ne_eq, not_true_eq_false]
        exact finishRegistration_err _ _ _ _
    rw [hE]
    exact validateMemoEntries_too_many env msg.Memos hlen

/-- On the sample chain: eleven initial memos are refused with the error of the
limit and none of them is stored. -/
theorem RegisterAccount_rejects_bad_memos_witness :
    (RegisterAccount sampleEnv sampleState { sampleMsg with Memos := sampleMemos 11 }).err =
      some "cannot register more than 10 memos" ∧
    (RegisterAccount sampleEnv sampleState
      { sampleMsg with Memos := sampleMemos 11 }).state.Memos = [] :=
  have h := RegisterAccount_rejects_bad_memos sampleEnv sampleState
    { sampleMsg with Memos := sampleMemos 11 } (Or.inl (by decide))
  ⟨h.2.2.2 (by decide) (by decide) (by decide) (Or.inl rfl) (by decide) (Or.inl (by decide)),
   h.2.2.1⟩

/-- Writing a batch of memos leaves the entry of a denom outside the batch alone. -/
theorem get_foldl_set_of_not_mem (addr denom : String) (entries : List MemoEntry)
    (hnot : denom ∉ entries.map MemoEntry.Denom) :
    ∀ m : List ((String × String) × String),
      Store.get (entries.foldl (fun m e => Store.set m (addr, e.Denom) e.Memo) m) (addr, denom) =
        Store.get m (addr, denom) := by
  induction entries with
  | nil => intro m; rfl
  | cons x rest ih =>
    intro m
    simp only [List.map_cons, List.mem_cons, not_or] at hnot
    rw [List.foldl_cons, ih hnot.2]
    apply Store.get_set_of_ne
    intro h
    exact hnot.1 (congrArg Prod.snd h)

/-- After writing a batch of memos with pairwise different denoms, every entry of
the batch is read back. -/
theorem get_foldl_set_of_mem (addr : String) (entries : List MemoEntry)
    (hnd : (entries.map MemoEntry.Denom).Nodup) (entry : MemoEntry) (hmem : entry ∈ entries) :
    ∀ m : List ((String × String) × String),
      Store.get (entries.foldl (fun m e => Store.set m (addr, e.Denom) e.Memo) m)
        (addr, entry.Denom) = some entry.Memo := by
  induction entries with
  | nil => cases hmem
  | cons x rest ih =>
    intro m
    simp only [List.map_cons, List.nodup_cons] at hnd
    rw [List.foldl_cons]
    rcases List.mem_cons.mp hmem with h | h
    · subst h
      rw [get_foldl_set_of_not_mem addr entry.Denom rest hnd.1]
      exact Store.get_set_self _ _ _
    · exact ih hnd.2 h _

/-- C9: after a successful `RegisterAccount` with a list of initial memos (of at
most `MaxMemoEntries` entries, as success requires), the memo looked up at the
returned address and the denom of any entry of the list is that entry's memo. -/
theorem RegisterAccount_stores_initial_memos (env : Env) (s : State) (msg : MsgRegisterAccount)
    (hok : (RegisterAccount env s msg).err = none) :
    msg.Memos.length ≤ MaxMemoEntries ∧
    ∃ address : String, (RegisterAccount env s msg).resp = some ⟨address⟩ ∧
      ∀ entry ∈ msg.Memos,
        GetMemo (RegisterAccount env s msg).state address entry.Denom = some entry.Memo := by
  obtain ⟨_, _, _, _, _, _, _, _, hval, hresp, _, _, _, _, hmemos, _⟩ :=
    RegisterAccount_ok env s msg hok
  obtain ⟨hlen, _, hnd⟩ := (validateMemoEntries_eq_none_iff env msg.Memos).1 hval
  refine ⟨hlen, _, hresp, ?_⟩
  intro entry hmem
  simp only [GetMemo, hmemos]
  exact get_foldl_set_of_mem _ msg.Memos hnd entry hmem s.Memos

/-- On the sample chain: both memos of the sample registration are read back. -/
theorem RegisterAccount_stores_initial_memos_witness :
    GetMemo (RegisterAccount sampleEnv sampleState sampleMsg).state
        "addrchannel-0|iaa1recipient|" "uusdc" = some "cross-chain-usdc" ∧
    GetMemo (RegisterAccount sampleEnv sampleState sampleMsg).state
        "addrchannel-0|iaa1recipient|" "uatom" = some "forward-atom" :=
  have h := RegisterAccount_stores_initial_memos sampleEnv sampleState sampleMsg (by decide)
  h.2.elim fun address ha =>
    have hadr : address = "addrchannel-0|iaa1recipient|" := by
      have h1 := ha.1
      have h2 : (RegisterAccount sampleEnv sampleState sampleMsg).resp =
          some ⟨"addrchannel-0|iaa1recipient|"⟩ := by decide
      rw [h2] at h1
      injection h1 with h1
      injection h1 with h1
      exact h1.symm
    ⟨hadr ▸ ha.2 ⟨"uusdc", "cross-chain-usdc"⟩ (by decide),
     hadr ▸ ha.2 ⟨"uatom", "forward-atom"⟩ (by decide)⟩

/-- C10: on an existing forwarding account and with a valid denom, a `SetMemo`
whose signer is neither the recipient, nor the fallback, nor the authority fails
with the error of the owner check and leaves the state, so the memo store,
unchanged, whatever the memo is (empty, oversized or neither). -/
theorem SetMemo_requires_owner (env : Env) (s : State) (msg : MsgSetMemo)
    (account : ForwardingAccount)
    (hdenom : env.ValidateDenom msg.Denom = none)
    (hacc : GetAccount s (env.GenerateAddress msg.Channel msg.Recipient msg.Fallback) =
      some (.forwardingAccount account))
    (hsigner : msg.Signer ≠ msg.Recipient ∧ msg.Signer ≠ msg.Fallback ∧
      msg.Signer ≠ env.authority) :
    (SetMemo env s msg).err = some
        "only the forwarding account\x27s receiver or fallback account can modify memos" ∧
      (SetMemo env s msg).resp = none ∧
      (SetMemo env s msg).state = s ∧
      (SetMemo env s msg).state.Memos = s.Memos := by
  have hif : msg.Signer ≠ msg.Recipient ∧ msg.Signer ≠ msg.Fallback ∧
      msg.Signer ≠ env.authority := hsigner
  unfold SetMemo
  simp only [hdenom, hacc]
  rw [if_pos hif]
  exact ⟨rfl, rfl, rfl, rfl⟩

/-- On the sample chain: a stranger deleting a memo of the registered account is
refused and the memos stay. -/
theorem SetMemo_requires_owner_witness :
    (SetMemo sampleEnv (RegisterAccount sampleEnv sampleState sampleMsg).state
        ⟨"addrMallory", "iaa1recipient", "channel-0", "", "uusdc", ""⟩).err = some
      "only the forwarding account\x27s receiver or fallback account can modify memos" ∧
    (SetMemo sampleEnv (RegisterAccount sampleEnv sampleState sampleMsg).state
        ⟨"addrMallory", "iaa1recipient", "channel-0", "", "uusdc", ""⟩).state.Memos =
      (RegisterAccount sampleEnv sampleState sampleMsg).state.Memos :=
  have h := SetMemo_requires_owner sampleEnv
    (RegisterAccount sampleEnv sampleState sampleMsg).state
    ⟨"addrMallory", "iaa1recipient", "channel-0", "", "uusdc", ""⟩
    ⟨⟨sampleAddress "iaa1recipient", none, 3, 0⟩, "channel-0", "iaa1recipient", 7, ""⟩
    (by decide) (by decide) (by decide)
  ⟨h.1, h.2.2.2⟩

/-! ## Facts about deleting, listing and counting memos -/

/-- A deleted key is not found. -/
theorem Store.get_remove_self {κ ν : Type} [DecidableEq κ] (m : List (κ × ν)) (k : κ) :
    Store.get (Store.remove m k) k = none := by
  induction m with
  | nil => rfl
  | cons p rest ih =>
    obtain ⟨k', v'⟩ := p
    by_cases h : k' = k
    · simp [Store.remove, h, ih]
    · simp [Store.remove, Store.get, h, ih]

/-- Deleting a key leaves the value under every other key alone. -/
theorem Store.get_remove_of_ne {κ ν : Type} [DecidableEq κ] (m : List (κ × ν)) (k j : κ)
    (h : j ≠ k) : Store.get (Store.remove m k) j = Store.get m j := by
  induction m with
  | nil => rfl
  | cons p rest ih =>
    obtain ⟨k', v'⟩ := p
    by_cases hk : k' = k
    · subst hk
      simp [Store.remove, Store.get, Ne.symm h, ih]
    · by_cases hj : k' = j
      · subst hj
        simp [Store.remove, Store.get, hk]
      · simp [Store.remove, Store.get, hk, hj, ih]

/-- Writing under an address string leaves the entries of every other address
string as they were, in the same order. -/
theorem filter_set_of_ne (m : List ((String × String) × String)) (k : String × String)
    (v a : String) (h : k.1 ≠ a) :
    (Store.set m k v).filter (fun e => e.1.1 = a) = m.filter (fun e => e.1.1 = a) := by
  induction m with
  | nil => simp [Store.set, h]
  | cons p rest ih =>
    obtain ⟨k', v'⟩ := p
    by_cases hk : k' = k
    · subst hk
      simp [Store.set, h]
    · simp [Store.set, hk, List.filter_cons, ih]

/-- Deleting under an address string leaves the entries of every other address
string as they were. -/
theorem filter_remove_of_ne (m : List ((String × String) × String)) (k : String × String)
    (a : String) (h : k.1 ≠ a) :
    (Store.remove m k).filter (fun e => e.1.1 = a) = m.filter (fun e => e.1.1 = a) := by
  induction m with
  | nil => rfl
  | cons p rest ih =>
    obtain ⟨k', v'⟩ := p
    by_cases hk : k' = k
    · subst hk
      simp [Store.remove, h, ih]
    · simp [Store.remove, hk, List.filter_cons, ih]

/-- Writing a key adds one entry to its address string when the key is new, and
none when it is there already. -/
theorem length_filter_set (m : List ((String × String) × String)) (k : String × String)
    (v : String) :
    ((Store.set m k v).filter (fun e => e.1.1 = k.1)).length =
      (m.filter (fun e => e.1.1 = k.1)).length + (if Store.get m k = none then 1 else 0) := by
  induction m with
  | nil => simp [Store.set, Store.get]
  | cons p rest ih =>
    obtain ⟨k', v'⟩ := p
    by_cases hk : k' = k
    · subst hk
      simp [Store.set, Store.get]
    · by_cases ha : k'.1 = k.1
      · simp [Store.set, Store.get, hk, ha, ih]
        split <;> omega
      · simp [Store.set, Store.get, hk, ha, ih]

/-- Deleting a key never adds an entry. -/
theorem length_filter_remove_le (m : List ((String × String) × String)) (k : String × String)
    (a : String) :
    ((Store.remove m k).filter (fun e => e.1.1 = a)).length ≤
      (m.filter (fun e => e.1.1 = a)).length := by
  induction m with
  | nil => simp [Store.remove]
  | cons p rest ih =>
    obtain ⟨k', v'⟩ := p
    by_cases hk : k' = k
    · subst hk
      simp only [Store.remove, if_true, List.filter_cons]
      split
      · simp only [List.length_cons]; omega
      · exact ih
    · simp only [Store.remove, hk, if_false, List.filter_cons]
      split
      · simp only [List.length_cons]; omega
      · exact ih

/-! ## Facts about `SetMemo` -/

/-- The byte length of a string of `n` letters `a`. -/
theorem len_replicate (n : Nat) : len (String.mk (List.replicate n 'a')) = n := by
  have hgo : ∀ k : Nat, String.utf8ByteSize.go (List.replicate k 'a') = k := by
    intro k
    induction k with
    | zero => rfl
    | succ k ih =>
      simp only [List.replicate_succ, String.utf8ByteSize.go, ih]
      rfl
  exact hgo n

/-- An authorized `SetMemo` on a forwarding account with a valid denom comes down
to the write of the memo, followed by the event when the write is accepted. -/
theorem SetMemo_authorized (env : Env) (s : State) (msg : MsgSetMemo)
    (account : ForwardingAccount)
    (hdenom : env.ValidateDenom msg.Denom = none)
    (hacc : GetAccount s (env.GenerateAddress msg.Channel msg.Recipient msg.Fallback) =
      some (.forwardingAccount account))
    (hsigner : msg.Signer = msg.Recipient ∨ msg.Signer = msg.Fallback ∨
      msg.Signer = env.authority) :
    SetMemo env s msg =
      match writeMemo s
        (env.AddressString (env.GenerateAddress msg.Channel msg.Recipient msg.Fallback),
          msg.Denom) msg.Memo with
      | (s1, some err) => ⟨s1, none, some err⟩
      | (s1, none) =>
        ⟨{ s1 with events := s1.events ++ [.MemoSet
            (env.AddressString (env.GenerateAddress msg.Channel msg.Recipient msg.Fallback))
            msg.Denom msg.Memo] }, some ⟨⟩, none⟩ := by
  have hif : ¬ (msg.Signer ≠ msg.Recipient ∧ msg.Signer ≠ msg.Fallback ∧
      msg.Signer ≠ env.authority) := by
    rintro ⟨h1, h2, h3⟩
    rcases hsigner with h | h | h
    · exact h1 h
    · exact h2 h
    · exact h3 h
  unfold SetMemo
  simp only [hdenom, hacc]
  rw [if_neg hif]
  rfl

/-- An authorized `SetMemo` with a memo of 1 to `MaxMemoLength` bytes stores it. -/
theorem SetMemo_store (env : Env) (s : State) (msg : MsgSetMemo)
    (account : ForwardingAccount)
    (hdenom : env.ValidateDenom msg.Denom = none)
    (hacc : GetAccount s (env.GenerateAddress msg.Channel msg.Recipient msg.Fallback) =
      some (.forwardingAccount account))
    (hsigner : msg.Signer = msg.Recipient ∨ msg.Signer = msg.Fallback ∨
      msg.Signer = env.authority)
    (hmin : 1 ≤ len msg.Memo) (hmax : len msg.Memo ≤ MaxMemoLength) :
    (SetMemo env s msg).err = none ∧ (SetMemo env s msg).resp = some ⟨⟩ ∧
      (SetMemo env s msg).state = { s with
        Memos := Store.set s.Memos
          (env.AddressString (env.GenerateAddress msg.Channel msg.Recipient msg.Fallback),
            msg.Denom) msg.Memo,
        events := s.events ++ [.MemoSet
          (env.AddressString (env.GenerateAddress msg.Channel msg.Recipient msg.Fallback))
          msg.Denom msg.Memo] } := by
  have h0 : ¬ len msg.Memo = 0 := by omega
  have h1 : ¬ len msg.Memo > MaxMemoLength := by omega
  rw [SetMemo_authorized env s msg account hdenom hacc hsigner]
  simp only [writeMemo, h0, h1, if_false]
  refine ⟨?_, ?_, ?_⟩ <;> first | rfl | trivial

/-- An authorized `SetMemo` with an empty memo deletes the entry. -/
theorem SetMemo_delete (env : Env) (s : State) (msg : MsgSetMemo)
    (account : ForwardingAccount)
    (hdenom : env.ValidateDenom msg.Denom = none)
    (hacc : GetAccount s (env.GenerateAddress msg.Channel msg.Recipient msg.Fallback) =
      some (.forwardingAccount account))
    (hsigner : msg.Signer = msg.Recipient ∨ msg.Signer = msg.Fallback ∨
      msg.Signer = env.authority)
    (hempty : len msg.Memo = 0) :
    (SetMemo env s msg).err = none ∧ (SetMemo env s msg).resp = some ⟨⟩ ∧
      (SetMemo env s msg).state = { s with
        Memos := Store.remove s.Memos
          (env.AddressString (env.GenerateAddress msg.Channel msg.Recipient msg.Fallback),
            msg.Denom),
        events := s.events ++ [.MemoSet
          (env.AddressString (env.GenerateAddress msg.Channel msg.Recipient msg.Fallback))
          msg.Denom msg.Memo] } := by
  rw [SetMemo_authorized env s msg account hdenom hacc hsigner]
  simp only [writeMemo, hempty, if_true]
  refine ⟨?_, ?_, ?_⟩ <;> first | rfl | trivial

/-- An authorized `SetMemo` with a memo of more than `MaxMemoLength` bytes is
refused and changes nothing. -/
theorem SetMemo_too_long (env : Env) (s : State) (msg : MsgSetMemo)
    (account : ForwardingAccount)
    (hdenom : env.ValidateDenom msg.Denom = none)
    (hacc : GetAccount s (env.GenerateAddress msg.Channel msg.Recipient msg.Fallback) =
      some (.forwardingAccount account))
    (hsigner : msg.Signer = msg.Recipient ∨ msg.Signer = msg.Fallback ∨
      msg.Signer = env.authority)
    (hlong : len msg.Memo > MaxMemoLength) :
    (SetMemo env s msg).err = some "memo exceeds maximum length of 1024 characters" ∧
      (SetMemo env s msg).resp = none ∧ (SetMemo env s msg).state = s := by
  have h0 : ¬ len msg.Memo = 0 := by omega
  rw [SetMemo_authorized env s msg account hdenom hacc hsigner]
  simp only [writeMemo, h0, hlong, if_true, if_false]
  refine ⟨?_, ?_, ?_⟩ <;> first | rfl | trivial

/-- C11: a `SetMemo` on an existing forwarding account with a valid denom, a memo
of 1 to `MaxMemoLength` bytes and a signer that is the recipient, the fallback or
the authority succeeds, and afterwards the memo stored at (account address, denom)
is the memo of the request, whether or not an entry was there before. -/
theorem SetMemo_upserts (env : Env) (s : State) (msg : MsgSetMemo)
    (account : ForwardingAccount)
    (hdenom : env.ValidateDenom msg.Denom = none)
    (hacc : GetAccount s (env.GenerateAddress msg.Channel msg.Recipient msg.Fallback) =
      some (.forwardingAccount account))
    (hsigner : msg.Signer = msg.Recipient ∨ msg.Signer = msg.Fallback ∨
      msg.Signer = env.authority)
    (hmin : 1 ≤ len msg.Memo) (hmax : len msg.Memo ≤ MaxMemoLength) :
    (SetMemo env s msg).err = none ∧ (SetMemo env s msg).resp = some ⟨⟩ ∧
      GetMemo (SetMemo env s msg).state
        (env.AddressString (env.GenerateAddress msg.Channel msg.Recipient msg.Fallback))
        msg.Denom = some msg.Memo := by
  obtain ⟨herr, hresp, hst⟩ := SetMemo_store env s msg account hdenom hacc hsigner hmin hmax
  refine ⟨herr, hresp, ?_⟩
  rw [hst]
  exact Store.get_set_self _ _ _

/-- On the sample chain: the recipient sets a first memo, then the authority
overwrites it. -/
theorem SetMemo_upserts_witness :
    GetMemo (SetMemo sampleEnv sampleClearState
        ⟨"bob", "bob", "channel-0", "addrFB", "uusdc", "owner-memo"⟩).state
      "addrchannel-0|bob|addrFB" "uusdc" = some "owner-memo" ∧
    GetMemo (SetMemo sampleEnv
        (SetMemo sampleEnv sampleClearState
          ⟨"bob", "bob", "channel-0", "addrFB", "uusdc", "owner-memo"⟩).state
        ⟨"addrGOV", "bob", "channel-0", "addrFB", "uusdc", "updated"⟩).state
      "addrchannel-0|bob|addrFB" "uusdc" = some "updated" :=
  ⟨(SetMemo_upserts sampleEnv sampleClearState
      ⟨"bob", "bob", "channel-0", "addrFB", "uusdc", "owner-memo"⟩ sampleForwarding
      (by decide) (by decide) (by decide) (by decide) (by decide)).2.2,
   (SetMemo_upserts sampleEnv
      (SetMemo sampleEnv sampleClearState
        ⟨"bob", "bob", "channel-0", "addrFB", "uusdc", "owner-memo"⟩).state
      ⟨"addrGOV", "bob", "channel-0", "addrFB", "uusdc", "updated"⟩ sampleForwarding
      (by decide) (by decide) (by decide) (by decide) (by decide)).2.2⟩

/-- C12: an authorized `SetMemo` with an empty memo on an existing forwarding
account with a valid denom succeeds whether or not an entry exists at (account
address, denom); afterwards a lookup there finds nothing and every other entry is
as before. A pair never written is not found either: no lookup succeeds in the
empty memo store, and a registration without initial memos writes none. -/
theorem SetMemo_empty_deletes (env : Env) (s : State) (msg : MsgSetMemo)
    (account : ForwardingAccount)
    (hdenom : env.ValidateDenom msg.Denom = none)
    (hacc : GetAccount s (env.GenerateAddress msg.Channel msg.Recipient msg.Fallback) =
      some (.forwardingAccount account))
    (hsigner : msg.Signer = msg.Recipient ∨ msg.Signer = msg.Fallback ∨
      msg.Signer = env.authority)
    (hempty : len msg.Memo = 0) :
    (SetMemo env s msg).err = none ∧ (SetMemo env s msg).resp = some ⟨⟩ ∧
      GetMemo (SetMemo env s msg).state
        (env.AddressString (env.GenerateAddress msg.Channel msg.Recipient msg.Fallback))
        msg.Denom = none ∧
      (∀ address denom : String,
        (address, denom) ≠
          (env.AddressString (env.GenerateAddress msg.Channel msg.Recipient msg.Fallback),
            msg.Denom) →
        GetMemo (SetMemo env s msg).state address denom = GetMemo s address denom) ∧
      (∀ address denom : String, GetMemo { s with Memos := [] } address denom = none) ∧
      (∀ (register : MsgRegisterAccount) (address denom : String), register.Memos = [] →
        GetMemo (RegisterAccount env s register).state address denom =
          GetMemo s address denom) := by
  obtain ⟨herr, hresp, hst⟩ := SetMemo_delete env s msg account hdenom hacc hsigner hempty
  refine ⟨herr, hresp, ?_, ?_, fun _ _ => rfl, ?_⟩
  · rw [hst]
    exact Store.get_remove_self _ _
  · intro address denom hne
    rw [hst]
    exact Store.get_remove_of_ne _ _ _ hne
  · intro register address denom hnil
    have hmemos : (RegisterAccount env s register).state.Memos = s.Memos := by
      rcases RegisterAccount_paths env s register with ⟨h, _, _⟩ | ⟨_, _, _, _, hpath⟩
      · rw [h]
      · have hval : validateMemoEntries env register.Memos = none := by
          rw [hnil]; exact validateMemoEntries_nil env
        rcases hpath with ⟨_, _, _, hR⟩ | ⟨_, hR⟩
        · rw [hR, (finishRegistration_of_ok env _ _ register hval).1, hnil,
            enqueueIfFunded_forwarding]
          split <;> rfl
        · rw [hR, (finishRegistration_of_ok env _ _ register hval).1, hnil]
          rfl
    simp only [GetMemo, hmemos]

/-- On the sample chain: the recipient sets a memo and deletes it again, and
deletes a memo that was never set. -/
theorem SetMemo_empty_deletes_witness :
    GetMemo (SetMemo sampleEnv
        (SetMemo sampleEnv sampleClearState
          ⟨"bob", "bob", "channel-0", "addrFB", "uusdc", "owner-memo"⟩).state
        ⟨"bob", "bob", "channel-0", "addrFB", "uusdc", ""⟩).state
      "addrchannel-0|bob|addrFB" "uusdc" = none ∧
    (SetMemo sampleEnv sampleClearState
      ⟨"bob", "bob", "channel-0", "addrFB", "unused", ""⟩).err = none :=
  ⟨(SetMemo_empty_deletes sampleEnv
      (SetMemo sampleEnv sampleClearState
        ⟨"bob", "bob", "channel-0", "addrFB", "uusdc", "owner-memo"⟩).state
      ⟨"bob", "bob", "channel-0", "addrFB", "uusdc", ""⟩ sampleForwarding
      (by decide) (by decide) (by decide) (by decide)).2.2.1,
   (SetMemo_empty_deletes sampleEnv sampleClearState
      ⟨"bob", "bob", "channel-0", "addrFB", "unused", ""⟩ sampleForwarding
      (by decide) (by decide) (by decide) (by decide)).1⟩

/-- C13: on an existing forwarding account, with a valid denom and an authorized
signer, a memo of more than `MaxMemoLength` (1024) bytes makes `SetMemo` fail and
leaves the state, so the entry at (account address, denom) and the rest of the
memo store, unchanged; a memo of exactly 1024 bytes is accepted and stored. -/
theorem SetMemo_length_bound (env : Env) (s : State) (msg : MsgSetMemo)
    (account : ForwardingAccount)
    (hdenom : env.ValidateDenom msg.Denom = none)
    (hacc : GetAccount s (env.GenerateAddress msg.Channel msg.Recipient msg.Fallback) =
      some (.forwardingAccount account))
    (hsigner : msg.Signer = msg.Recipient ∨ msg.Signer = msg.Fallback ∨
      msg.Signer = env.authority) :
    (len msg.Memo > 1024 →
      (SetMemo env s msg).err = some "memo exceeds maximum length of 1024 characters" ∧
      (SetMemo env s msg).resp = none ∧ (SetMemo env s msg).state = s ∧
      (SetMemo env s msg).state.Memos = s.Memos) ∧
    (len msg.Memo = 1024 →
      (SetMemo env s msg).err = none ∧ (SetMemo env s msg).resp = some ⟨⟩ ∧
      GetMemo (SetMemo env s msg).state
        (env.AddressString (env.GenerateAddress msg.Channel msg.Recipient msg.Fallback))
        msg.Denom = some msg.Memo) := by
  constructor
  · intro hlong
    obtain ⟨herr, hresp, hst⟩ :=
      SetMemo_too_long env s msg account hdenom hacc hsigner hlong
    exact ⟨herr, hresp, hst, by rw [hst]⟩
  · intro hexact
    obtain ⟨herr, hresp, hst⟩ := SetMemo_store env s msg account hdenom hacc hsigner
      (by omega) (by simp [MaxMemoLength, hexact])
    refine ⟨herr, hresp, ?_⟩
    rw [hst]
    exact Store.get_set_self _ _ _

/-- On the sample chain: a memo of 1025 bytes is refused and one of 1024 bytes is
stored. -/
theorem SetMemo_length_bound_witness :
    (SetMemo sampleEnv sampleClearState
      ⟨"bob", "bob", "channel-0", "addrFB", "uusdc",
        String.mk (List.replicate 1025 'a')⟩).state = sampleClearState ∧
    GetMemo (SetMemo sampleEnv sampleClearState
        ⟨"bob", "bob", "channel-0", "addrFB", "uusdc",
          String.mk (List.replicate 1024 'a')⟩).state
      "addrchannel-0|bob|addrFB" "uusdc" = some (String.mk (List.replicate 1024 'a')) :=
  ⟨((SetMemo_length_bound sampleEnv sampleClearState
      ⟨"bob", "bob", "channel-0", "addrFB", "uusdc", String.mk (List.replicate 1025 'a')⟩
      sampleForwarding (by decide) (by decide) (by decide)).1
      (by rw [len_replicate]; decide)).2.2.1,
   ((SetMemo_length_bound sampleEnv sampleClearState
      ⟨"bob", "bob", "channel-0", "addrFB", "uusdc", String.mk (List.replicate 1024 'a')⟩
      sampleForwarding (by decide) (by decide) (by decide)).2
      (len_replicate 1024)).2.2⟩

/-! ## What the handlers write to the account store and the memo store -/

/-- Writing an account leaves the account found at every other address alone. -/
theorem find_setAccountIn_of_ne (accounts : List AccountI) (acc : AccountI)
    (address : AccAddress) (h : acc.GetAddress ≠ address) :
    (setAccountIn accounts acc).find? (fun a => a.GetAddress == address) =
      accounts.find? (fun a => a.GetAddress == address) := by
  induction accounts with
  | nil => simp [setAccountIn, h]
  | cons a rest ih =>
    by_cases ha : a.GetAddress = acc.GetAddress
    · have ha' : a.GetAddress ≠ address := by rw [ha]; exact h
      simp [setAccountIn, ha, h, ha']
    · by_cases hb : a.GetAddress = address
      · subst hb
        simp [setAccountIn, ha]
      · simp [setAccountIn, ha, hb, ih]

/-- Whatever its outcome, `RegisterAccount` either changes nothing, or writes the
forwarding account over an absent or base account at the derived address and
then leaves the memo store alone (refused memos) or writes the valid initial
memos under the address string. -/
theorem RegisterAccount_writes (env : Env) (s : State) (msg : MsgRegisterAccount) :
    (RegisterAccount env s msg).state = s ∨
    ∃ base : BaseAccount,
      base.Address = env.GenerateAddress msg.Channel msg.Recipient msg.Fallback ∧
      (GetAccount s (env.GenerateAddress msg.Channel msg.Recipient msg.Fallback) = none ∨
        GetAccount s (env.GenerateAddress msg.Channel msg.Recipient msg.Fallback) =
          some (.baseAccount base)) ∧
      (RegisterAccount env s msg).state.accounts =
        setAccountIn s.accounts (.forwardingAccount
          ⟨base, msg.Channel, msg.Recipient, s.height, msg.Fallback⟩) ∧
      ((RegisterAccount env s msg).state.Memos = s.Memos ∨
        (validateMemoEntries env msg.Memos = none ∧
          (RegisterAccount env s msg).state.Memos =
            msg.Memos.foldl (fun m e => Store.set m
              (env.AddressString (env.GenerateAddress msg.Channel msg.Recipient msg.Fallback),
                e.Denom) e.Memo) s.Memos)) := by
  rcases RegisterAccount_paths env s msg with ⟨h, _, _⟩ | ⟨_, _, _, _, hpath⟩
  · exact Or.inl h
  right
  rcases hpath with ⟨account, ha, _, hR⟩ | ⟨ha, hR⟩
  · refine ⟨account, GetAccount_address ha, Or.inr ha, ?_⟩
    cases hv : validateMemoEntries env msg.Memos with
    | none =>
      rw [hR, (finishRegistration_of_ok env _ _ msg hv).1, enqueueIfFunded_forwarding]
      split
      · exact ⟨rfl, Or.inr ⟨rfl, rfl⟩⟩
      · exact ⟨rfl, Or.inr ⟨rfl, rfl⟩⟩
    | some e =>
      have hv' : validateMemoEntries env msg.Memos ≠ none := by rw [hv]; simp
      rw [hR, (finishRegistration_of_err env _ _ msg hv').1, enqueueIfFunded_forwarding]
      split
      · exact ⟨rfl, Or.inl rfl⟩
      · exact ⟨rfl, Or.inl rfl⟩
  · refine ⟨⟨env.GenerateAddress msg.Channel msg.Recipient msg.Fallback, none,
      s.nextAccountNumber, 0⟩, rfl, Or.inl ha, ?_⟩
    cases hv : validateMemoEntries env msg.Memos with
    | none =>
      rw [hR, (finishRegistration_of_ok env _ _ msg hv).1]
      exact ⟨rfl, Or.inr ⟨rfl, rfl⟩⟩
    | some e =>
      have hv' : validateMemoEntries env msg.Memos ≠ none := by rw [hv]; simp
      rw [hR, (finishRegistration_of_err env _ _ msg hv').1]
      exact ⟨rfl, Or.inl rfl⟩

/-- Whatever its outcome, `SetMemo` leaves the account store alone and either
leaves the memo store alone too, or, on a forwarding account, deletes the entry of
its pair (empty memo) or writes its non-empty memo there. -/
theorem SetMemo_writes (env : Env) (s : State) (msg : MsgSetMemo) :
    (SetMemo env s msg).state.accounts = s.accounts ∧
    ((SetMemo env s msg).state.Memos = s.Memos ∨
      ∃ account : ForwardingAccount,
        GetAccount s (env.GenerateAddress msg.Channel msg.Recipient msg.Fallback) =
          some (.forwardingAccount account) ∧
        ((len msg.Memo = 0 ∧ (SetMemo env s msg).state.Memos = Store.remove s.Memos
            (env.AddressString (env.GenerateAddress msg.Channel msg.Recipient msg.Fallback),
              msg.Denom)) ∨
          (len msg.Memo ≠ 0 ∧ (SetMemo env s msg).state.Memos = Store.set s.Memos
            (env.AddressString (env.GenerateAddress msg.Channel msg.Recipient msg.Fallback),
              msg.Denom) msg.Memo))) := by
  cases hd : env.ValidateDenom msg.Denom with
  | some e => simp [SetMemo, hd]
  | none =>
    cases ha : GetAccount s (env.GenerateAddress msg.Channel msg.Recipient msg.Fallback) with
    | none => simp [SetMemo, hd, ha]
    | some raw =>
      cases raw with
      | baseAccount b => simp [SetMemo, hd, ha]
      | other t b => simp [SetMemo, hd, ha]
      | forwardingAccount account =>
        by_cases hsig : msg.Signer = msg.Recipient ∨ msg.Signer = msg.Fallback ∨
            msg.Signer = env.authority
        · by_cases h0 : len msg.Memo = 0
          · obtain ⟨_, _, hst⟩ := SetMemo_delete env s msg account hd ha hsig h0
            rw [hst]
            exact ⟨rfl, Or.inr ⟨account, rfl, Or.inl ⟨h0, rfl⟩⟩⟩
          · by_cases h1 : len msg.Memo > MaxMemoLength
            · obtain ⟨_, _, hst⟩ := SetMemo_too_long env s msg account hd ha hsig h1
              rw [hst]
              exact ⟨rfl, Or.inl rfl⟩
            · obtain ⟨_, _, hst⟩ := SetMemo_store env s msg account hd ha hsig
                (by omega) (by omega)
              rw [hst]
              exact ⟨rfl, Or.inr ⟨account, rfl, Or.inr ⟨h0, rfl⟩⟩⟩
        · have hif : msg.Signer ≠ msg.Recipient ∧ msg.Signer ≠ msg.Fallback ∧
              msg.Signer ≠ env.authority := by
            refine ⟨fun h => hsig (Or.inl h), fun h => hsig (Or.inr (Or.inl h)),
              fun h => hsig (Or.inr (Or.inr h))⟩
          unfold SetMemo
          simp only [hd, ha]
          rw [if_pos hif]
          exact ⟨rfl, Or.inl rfl⟩

/-- Writing a batch of memos under an address string leaves the entries of every
other address string as they were. -/
theorem filter_foldl_set_of_ne (addr a : String) (h : addr ≠ a) (entries : List MemoEntry) :
    ∀ m : List ((String × String) × String),
      (entries.foldl (fun m e => Store.set m (addr, e.Denom) e.Memo) m).filter
          (fun e => e.1.1 = a) = m.filter (fun e => e.1.1 = a) := by
  induction entries with
  | nil => intro m; rfl
  | cons x rest ih =>
    intro m
    rw [List.foldl_cons, ih, filter_set_of_ne _ _ _ _ h]

/-- Writing a batch of memos under an address string leaves every lookup at
another address string as it was. -/
theorem get_foldl_set_of_ne (addr a d : String) (h : addr ≠ a) (entries : List MemoEntry) :
    ∀ m : List ((String × String) × String),
      Store.get (entries.foldl (fun m e => Store.set m (addr, e.Denom) e.Memo) m) (a, d) =
        Store.get m (a, d) := by
  induction entries with
  | nil => intro m; rfl
  | cons x rest ih =>
    intro m
    rw [List.foldl_cons, ih]
    apply Store.get_set_of_ne
    intro hk
    exact h (congrArg Prod.fst hk).symm

/-- C15: on a forwarding account that already holds `MaxMemoEntries` memos, an
authorized `SetMemo` with a valid denom and a memo of 1 to `MaxMemoLength` bytes
succeeds and stores the memo: on a denom not used yet the account then holds
`MaxMemoEntries + 1` memos (no limit on the number of entries applies), on a denom
in use the entry is overwritten and the number stays; other entries are untouched. -/
theorem SetMemo_no_entry_limit (env : Env) (s : State) (msg : MsgSetMemo)
    (account : ForwardingAccount)
    (hdenom : env.ValidateDenom msg.Denom = none)
    (hacc : GetAccount s (env.GenerateAddress msg.Channel msg.Recipient msg.Fallback) =
      some (.forwardingAccount account))
    (hsigner : msg.Signer = msg.Recipient ∨ msg.Signer = msg.Fallback ∨
      msg.Signer = env.authority)
    (hmin : 1 ≤ len msg.Memo) (hmax : len msg.Memo ≤ MaxMemoLength)
    (hfull : (GetMemos s (env.AddressString
      (env.GenerateAddress msg.Channel msg.Recipient msg.Fallback))).length = MaxMemoEntries) :
    (SetMemo env s msg).err = none ∧
    GetMemo (SetMemo env s msg).state
      (env.AddressString (env.GenerateAddress msg.Channel msg.Recipient msg.Fallback))
      msg.Denom = some msg.Memo ∧
    (GetMemo s (env.AddressString
        (env.GenerateAddress msg.Channel msg.Recipient msg.Fallback)) msg.Denom = none →
      (GetMemos (SetMemo env s msg).state (env.AddressString
        (env.GenerateAddress msg.Channel msg.Recipient msg.Fallback))).length =
          MaxMemoEntries + 1) ∧
    (GetMemo s (env.AddressString
        (env.GenerateAddress msg.Channel msg.Recipient msg.Fallback)) msg.Denom ≠ none →
      (GetMemos (SetMemo env s msg).state (env.AddressString
        (env.GenerateAddress msg.Channel msg.Recipient msg.Fallback))).length =
          MaxMemoEntries) ∧
    (∀ address denom : String,
      (address, denom) ≠
        (env.AddressString (env.GenerateAddress msg.Channel msg.Recipient msg.Fallback),
          msg.Denom) →
      GetMemo (SetMemo env s msg).state address denom = GetMemo s address denom) := by
  obtain ⟨herr, _, hst⟩ := SetMemo_store env s msg account hdenom hacc hsigner hmin hmax
  have hlen := length_filter_set s.Memos
    (env.AddressString (env.GenerateAddress msg.Channel msg.Recipient msg.Fallback),
      msg.Denom) msg.Memo
  simp only [GetMemos, List.length_map] at hfull
  refine ⟨herr, ?_, ?_, ?_, ?_⟩
  · rw [hst]
    exact Store.get_set_self _ _ _
  · intro hnew
    rw [hst]
    simp only [GetMemo] at hnew
    simp only [GetMemos, List.length_map]
    rw [hlen, if_pos hnew]
    exact congrArg (· + 1) hfull
  · intro hused
    rw [hst]
    simp only [GetMemo] at hused
    simp only [GetMemos, List.length_map]
    rw [hlen, if_neg hused]
    exact hfull
  · intro address denom hne
    rw [hst]
    exact Store.get_set_of_ne _ _ _ _ hne

/-- On the sample chain, after a registration with ten initial memos: a memo on
the new denom `extra` is stored as the eleventh entry, and a memo on the used denom
`denom-0` replaces the entry there. -/
theorem SetMemo_no_entry_limit_witness :
    (GetMemos (SetMemo sampleEnv sampleFullState
        ⟨"iaa1recipient", "iaa1recipient", "channel-0", "", "extra", "new-memo"⟩).state
      "addrchannel-0|iaa1recipient|").length = 11 ∧
    GetMemo (SetMemo sampleEnv sampleFullState
        ⟨"iaa1recipient", "iaa1recipient", "channel-0", "", "denom-0", "updated"⟩).state
      "addrchannel-0|iaa1recipient|" "denom-0" = some "updated" :=
  ⟨(SetMemo_no_entry_limit sampleEnv sampleFullState
      ⟨"iaa1recipient", "iaa1recipient", "channel-0", "", "extra", "new-memo"⟩
      ⟨⟨sampleAddress "iaa1recipient", none, 3, 0⟩, "channel-0", "iaa1recipient", 7, ""⟩
      (by decide) (by decide) (by decide) (by decide) (by decide) (by decide)).2.2.1
      (by decide),
   (SetMemo_no_entry_limit sampleEnv sampleFullState
      ⟨"iaa1recipient", "iaa1recipient", "channel-0", "", "denom-0", "updated"⟩
      ⟨⟨sampleAddress "iaa1recipient", none, 3, 0⟩, "channel-0", "iaa1recipient", 7, ""⟩
      (by decide) (by decide) (by decide) (by decide) (by decide) (by decide)).2.1⟩

/-- C16: the list of the memos of an address string holds exactly the (denom,
memo) pairs stored under that address string, none stored under another one; and a
registration (with its initial memos) or a `SetMemo` for an account with another
address string, whatever its outcome, changes neither that list nor any lookup under
the address string. -/
theorem memos_of_other_address_untouched (env : Env) (s : State) (a1 : String) :
    (∀ e : MemoEntry, e ∈ GetMemos s a1 ↔ ((a1, e.Denom), e.Memo) ∈ s.Memos) ∧
    (∀ msg : MsgRegisterAccount,
      env.AddressString (env.GenerateAddress msg.Channel msg.Recipient msg.Fallback) ≠ a1 →
      GetMemos (RegisterAccount env s msg).state a1 = GetMemos s a1 ∧
      ∀ denom : String,
        GetMemo (RegisterAccount env s msg).state a1 denom = GetMemo s a1 denom) ∧
    (∀ msg : MsgSetMemo,
      env.AddressString (env.GenerateAddress msg.Channel msg.Recipient msg.Fallback) ≠ a1 →
      GetMemos (SetMemo env s msg).state a1 = GetMemos s a1 ∧
      ∀ denom : String, GetMemo (SetMemo env s msg).state a1 denom = GetMemo s a1 denom) := by
  refine ⟨?_, ?_, ?_⟩
  · intro e
    simp only [GetMemos, List.mem_map, List.mem_filter, decide_eq_true_eq]
    constructor
    · rintro ⟨⟨⟨a, d⟩, m⟩, ⟨hmem, ha⟩, rfl⟩
      simp only at ha
      subst ha
      exact hmem
    · intro hmem
      exact ⟨((a1, e.Denom), e.Memo), ⟨hmem, rfl⟩, rfl⟩
  · intro msg hne
    rcases RegisterAccount_writes env s msg with h | ⟨_, _, _, _, h | ⟨_, h⟩⟩
    · rw [h]
      exact ⟨rfl, fun _ => rfl⟩
    · simp only [GetMemos, GetMemo, h]
      exact ⟨trivial, fun _ => trivial⟩
    · simp only [GetMemos, GetMemo, h]
      exact ⟨by rw [filter_foldl_set_of_ne _ _ hne], fun d => get_foldl_set_of_ne _ _ d hne _ _⟩
  · intro msg hne
    obtain ⟨_, h | ⟨_, _, ⟨_, h⟩ | ⟨_, h⟩⟩⟩ := SetMemo_writes env s msg
    · simp only [GetMemos, GetMemo, h]
      exact ⟨trivial, fun _ => trivial⟩
    · simp only [GetMemos, GetMemo, h]
      refine ⟨by rw [filter_remove_of_ne _ _ _ hne], fun d => ?_⟩
      apply Store.get_remove_of_ne
      intro hk
      exact hne (congrArg Prod.fst hk).symm
    · simp only [GetMemos, GetMemo, h]
      refine ⟨by rw [filter_set_of_ne _ _ _ _ hne], fun d => ?_⟩
      apply Store.get_set_of_ne
      intro hk
      exact hne (congrArg Prod.fst hk).symm

/-- On the sample chain: registering a second account with a memo of its own
leaves the list of the first account at its two memos. -/
theorem memos_of_other_address_untouched_witness :
    GetMemos (RegisterAccount sampleEnv (RegisterAccount sampleEnv sampleState sampleMsg).state
        { sampleMsg with Recipient := "iaa1recipienttwo",
                         Memos := [⟨"uosmo", "memo-osmo"⟩] }).state
      "addrchannel-0|iaa1recipient|" =
    [⟨"uusdc", "cross-chain-usdc"⟩, ⟨"uatom", "forward-atom"⟩] :=
  (((memos_of_other_address_untouched sampleEnv
      (RegisterAccount sampleEnv sampleState sampleMsg).state
      "addrchannel-0|iaa1recipient|").2.1
      { sampleMsg with Recipient := "iaa1recipienttwo", Memos := [⟨"uosmo", "memo-osmo"⟩] }
      (by decide)).1).trans (by decide)

/-! ## The number of memos of an address -/

/-- A batch of memos written under an address string adds at most one entry per
entry of the batch. -/
theorem length_filter_foldl_set_le (addr : String) (entries : List MemoEntry) :
    ∀ m : List ((String × String) × String),
      ((entries.foldl (fun m e => Store.set m (addr, e.Denom) e.Memo) m).filter
          (fun e => e.1.1 = addr)).length ≤
        (m.filter (fun e => e.1.1 = addr)).length + entries.length := by
  induction entries with
  | nil => intro m; simp
  | cons x rest ih =>
    intro m
    rw [List.foldl_cons]
    have h1 := ih (Store.set m (addr, x.Denom) x.Memo)
    have h2 := length_filter_set m (addr, x.Denom) x.Memo
    simp only at h2
    rw [h2] at h1
    simp only [List.length_cons]
    split at h1 <;> omega

/-- Overwriting an entry that is there keeps the number of entries of every
address string. -/
theorem length_filter_set_of_some (m : List ((String × String) × String))
    (k : String × String) (v a : String) (h : Store.get m k ≠ none) :
    ((Store.set m k v).filter (fun e => e.1.1 = a)).length =
      (m.filter (fun e => e.1.1 = a)).length := by
  by_cases ha : k.1 = a
  · subst ha
    rw [length_filter_set, if_neg h]
    rfl
  · rw [filter_set_of_ne _ _ _ _ ha]

/-- The invariant behind the bound: as long as no `SetMemo` adds a denom, every
address string with memos is the one of a derived address that holds a forwarding
account, and it has at most `MaxMemoEntries` memos. -/
theorem memo_invariant (env : Env)
    (hinj : ∀ c r f c' r' f' : String,
      env.AddressString (env.GenerateAddress c r f) =
        env.AddressString (env.GenerateAddress c' r' f') →
      env.GenerateAddress c r f = env.GenerateAddress c' r' f')
    (s : State) (h : MemoReachableNoNewDenom env s) :
    ∀ key : String,
      ((s.Memos.filter (fun e => e.1.1 = key)).length ≠ 0 →
        ∃ (c r f : String) (fa : ForwardingAccount),
          key = env.AddressString (env.GenerateAddress c r f) ∧
          GetAccount s (env.GenerateAddress c r f) = some (.forwardingAccount fa)) ∧
      (s.Memos.filter (fun e => e.1.1 = key)).length ≤ MaxMemoEntries := by
  induction h with
  | start s hempty =>
    intro key
    simp [hempty]
  | register s msg _ ih =>
    intro key
    rcases RegisterAccount_writes env s msg with hsame | ⟨base, hbase, hold, haccs, hmemos⟩
    · rw [hsame]
      exact ih key
    -- forwarding accounts of the old state are still there
    have hkeep : ∀ (a : AccAddress) (fa : ForwardingAccount),
        GetAccount s a = some (.forwardingAccount fa) →
        GetAccount (RegisterAccount env s msg).state a = some (.forwardingAccount fa) := by
      intro a fa hfa
      have hne : env.GenerateAddress msg.Channel msg.Recipient msg.Fallback ≠ a := by
        intro heq
        rw [← heq] at hfa
        rcases hold with h | h <;> rw [h] at hfa <;> cases hfa
      simp only [GetAccount, haccs]
      rw [find_setAccountIn_of_ne _ _ _ (by simpa [AccountI.GetAddress, AccountI.base, hbase]
        using hne)]
      exact hfa
    have hnew : GetAccount (RegisterAccount env s msg).state
        (env.GenerateAddress msg.Channel msg.Recipient msg.Fallback) =
        some (.forwardingAccount ⟨base, msg.Channel, msg.Recipient, s.height, msg.Fallback⟩) := by
      simp only [GetAccount, haccs]
      have := find_setAccountIn_self s.accounts
        (.forwardingAccount ⟨base, msg.Channel, msg.Recipient, s.height, msg.Fallback⟩)
      simpa [AccountI.GetAddress, AccountI.base, hbase] using this
    rcases hmemos with hm | ⟨hval, hm⟩
    · rw [hm]
      refine ⟨fun hpos => ?_, (ih key).2⟩
      obtain ⟨c, r, f, fa, hkey, hfa⟩ := (ih key).1 hpos
      exact ⟨c, r, f, fa, hkey, hkeep _ fa hfa⟩
    · rw [hm]
      by_cases hk : env.AddressString
          (env.GenerateAddress msg.Channel msg.Recipient msg.Fallback) = key
      · subst hk
        -- the address had no memos before: it held no forwarding account
        have hzero : (s.Memos.filter (fun e => e.1.1 = env.AddressString
            (env.GenerateAddress msg.Channel msg.Recipient msg.Fallback))).length = 0 := by
          by_contra hpos
          obtain ⟨c, r, f, fa, hkey, hfa⟩ := (ih _).1 hpos
          rw [← hinj _ _ _ _ _ _ hkey] at hfa
          rcases hold with h | h <;> rw [h] at hfa <;> cases hfa
        refine ⟨fun _ => ⟨msg.Channel, msg.Recipient, msg.Fallback, _, rfl, hnew⟩, ?_⟩
        have hle := length_filter_foldl_set_le (env.AddressString
          (env.GenerateAddress msg.Channel msg.Recipient msg.Fallback)) msg.Memos s.Memos
        have hlen := ((validateMemoEntries_eq_none_iff env msg.Memos).1 hval).1
        omega
      · rw [filter_foldl_set_of_ne _ _ hk]
        refine ⟨fun hpos => ?_, (ih key).2⟩
        obtain ⟨c, r, f, fa, hkey, hfa⟩ := (ih key).1 hpos
        exact ⟨c, r, f, fa, hkey, hkeep _ fa hfa⟩
  | setMemo s msg _ hold ih =>
    intro key
    obtain ⟨haccs, hm | ⟨account, _, ⟨_, hm⟩ | ⟨hne, hm⟩⟩⟩ := SetMemo_writes env s msg
    · simp only [GetAccount, haccs, hm]
      exact ih key
    · simp only [GetAccount, haccs, hm]
      have hle := length_filter_remove_le s.Memos
        (env.AddressString (env.GenerateAddress msg.Channel msg.Recipient msg.Fallback),
          msg.Denom) key
      refine ⟨fun hpos => (ih key).1 (by omega), ?_⟩
      have := (ih key).2
      omega
    · have hused : Store.get s.Memos
          (env.AddressString (env.GenerateAddress msg.Channel msg.Recipient msg.Fallback),
            msg.Denom) ≠ none := by
        rcases hold with h | h
        · exact absurd h hne
        · exact h
      simp only [GetAccount, haccs, hm]
      rw [length_filter_set_of_some _ _ _ _ hused]
      exact ih key

/-- The sample environment prints different derived addresses differently. -/
theorem sampleEnv_address_injective (c r f c' r' f' : String)
    (h : sampleEnv.AddressString (sampleEnv.GenerateAddress c r f) =
      sampleEnv.AddressString (sampleEnv.GenerateAddress c' r' f')) :
    sampleEnv.GenerateAddress c r f = sampleEnv.GenerateAddress c' r' f' := by
  have hround : ∀ l : List Char, (l.map Char.toNat).map Char.ofNat = l := by
    intro l
    induction l with
    | nil => rfl
    | cons x rest ih => simp [ih]
  simp only [sampleEnv, hround] at h ⊢
  have hdata := congrArg String.data h
  simp only [List.append_cancel_left_eq] at hdata
  rw [hdata]

/-- C14, as the claim states it, fails: on the sample chain a registration with
ten initial memos followed by a `SetMemo` on a new denom reaches a state in which
the address carries eleven memos with pairwise different denoms. -/
theorem memo_count_exceeds_limit :
    MemoReachable sampleEnv
      (SetMemo sampleEnv sampleFullState
        ⟨"iaa1recipient", "iaa1recipient", "channel-0", "", "extra", "new-memo"⟩).state ∧
    (GetMemos (SetMemo sampleEnv sampleFullState
        ⟨"iaa1recipient", "iaa1recipient", "channel-0", "", "extra", "new-memo"⟩).state
      "addrchannel-0|iaa1recipient|").length = 11 ∧
    ((GetMemos (SetMemo sampleEnv sampleFullState
        ⟨"iaa1recipient", "iaa1recipient", "channel-0", "", "extra", "new-memo"⟩).state
      "addrchannel-0|iaa1recipient|").map MemoEntry.Denom).Nodup ∧
    MaxMemoEntries = 10 :=
  ⟨.setMemo _ _ (.register _ _ (.start sampleState rfl)), by decide, by decide, rfl⟩

/-- C14, amended: in every state reached from an empty memo store through
`RegisterAccount` calls and `SetMemo` calls that delete or address a denom already
in use, every address string carries at most `MaxMemoEntries` (10) memos, given
that different derived addresses print differently. -/
theorem memo_count_bounded_without_new_denoms (env : Env)
    (hinj : ∀ c r f c' r' f' : String,
      env.AddressString (env.GenerateAddress c r f) =
        env.AddressString (env.GenerateAddress c' r' f') →
      env.GenerateAddress c r f = env.GenerateAddress c' r' f')
    (s : State) (h : MemoReachableNoNewDenom env s) (address : String) :
    (GetMemos s address).length ≤ MaxMemoEntries := by
  simp only [GetMemos, List.length_map]
  exact (memo_invariant env hinj s h address).2

/-- On the sample chain: after a registration with ten initial memos and the
overwriting of one of them the address carries at most ten memos. -/
theorem memo_count_bounded_without_new_denoms_witness :
    (GetMemos (SetMemo sampleEnv sampleFullState
        ⟨"iaa1recipient", "iaa1recipient", "channel-0", "", "denom-0", "updated"⟩).state
      "addrchannel-0|iaa1recipient|").length ≤ 10 :=
  memo_count_bounded_without_new_denoms sampleEnv sampleEnv_address_injective _
    (.setMemo _ _ (.register _ _ (.start sampleState rfl)) (Or.inr (by decide)))
    "addrchannel-0|iaa1recipient|"

/-! ## Facts about coins and the send of the ledger -/

/-- The amount a set of coins holds in a denom, 0 when it holds none. -/
theorem Coins.get_Add (coins : Coins) (coin : String × Nat) (d : String) :
    (Store.get (Coins.Add coins coin) d).getD 0 =
      (Store.get coins d).getD 0 + (if coin.1 = d then coin.2 else 0) := by
  unfold Coins.Add
  by_cases h0 : coin.2 = 0
  · simp [h0]
  · simp only [h0, if_false]
    by_cases hd : coin.1 = d
    · subst hd
      simp [Store.get_set_self]
    · rw [Store.get_set_of_ne _ _ _ _ (Ne.symm hd)]
      simp [hd]

/-- Writing a key keeps the keys pairwise different. -/
theorem Store.nodup_keys_set {κ ν : Type} [DecidableEq κ] (m : List (κ × ν)) (k : κ) (v : ν)
    (h : (m.map Prod.fst).Nodup) : ((Store.set m k v).map Prod.fst).Nodup := by
  have hkeys : ∀ m : List (κ × ν), ∀ j : κ, j ∈ (Store.set m k v).map Prod.fst →
      j = k ∨ j ∈ m.map Prod.fst := by
    intro m
    induction m with
    | nil => intro j hj; simp [Store.set] at hj; exact Or.inl hj
    | cons p rest ih =>
      obtain ⟨k', v'⟩ := p
      intro j hj
      by_cases hk : k' = k
      · simp only [Store.set, hk, if_true, List.map_cons, List.mem_cons] at hj
        rcases hj with h | h
        · exact Or.inl h
        · exact Or.inr (by simp [h])
      · simp only [Store.set, hk, if_false, List.map_cons, List.mem_cons] at hj
        rcases hj with h | h
        · exact Or.inr (by simp [h])
        · rcases ih j h with h' | h'
          · exact Or.inl h'
          · exact Or.inr (by simp [h'])
  induction m with
  | nil => simp [Store.set]
  | cons p rest ih =>
    obtain ⟨k', v'⟩ := p
    simp only [List.map_cons, List.nodup_cons] at h
    by_cases hk : k' = k
    · subst hk
      simpa [Store.set] using h
    · simp only [Store.set, hk, if_false, List.map_cons, List.nodup_cons]
      refine ⟨fun hmem => ?_, ih h.2⟩
      rcases hkeys rest k' hmem with h' | h'
      · exact hk h'
      · exact h.1 h'

/-- Adding a coin keeps the denoms of a set of coins pairwise different. -/
theorem Coins.nodup_Add (coins : Coins) (coin : String × Nat)
    (h : (coins.map Prod.fst).Nodup) : ((Coins.Add coins coin).map Prod.fst).Nodup := by
  unfold Coins.Add
  split
  · exact h
  · exact Store.nodup_keys_set _ _ _ h

/-- Adding a coin keeps every amount of the set positive. -/
theorem Coins.pos_Add (coins : Coins) (coin : String × Nat)
    (h : ∀ c ∈ coins, 0 < c.2) : ∀ c ∈ Coins.Add coins coin, 0 < c.2 := by
  have hmem : ∀ (m : List (String × Nat)) (k : String) (v : Nat) (c : String × Nat),
      c ∈ Store.set m k v → c ∈ m ∨ c = (k, v) := by
    intro m k v
    induction m with
    | nil => intro c hc; simp [Store.set] at hc; exact Or.inr hc
    | cons p rest ih =>
      obtain ⟨k', v'⟩ := p
      intro c hc
      by_cases hk : k' = k
      · simp only [Store.set, hk, if_true, List.mem_cons] at hc
        rcases hc with h | h
        · exact Or.inr h
        · exact Or.inl (by simp [h])
      · simp only [Store.set, hk, if_false, List.mem_cons] at hc
        rcases hc with h | h
        · exact Or.inl (by simp [h])
        · rcases ih c h with h' | h'
          · exact Or.inl (by simp [h'])
          · exact Or.inr h'
  unfold Coins.Add
  by_cases h0 : coin.2 = 0
  · simpa [h0] using h
  · simp only [h0, if_false]
    intro c hc
    rcases hmem _ _ _ c hc with h' | h'
    · exact h c h'
    · rw [h']
      simp only
      omega

/-- A set of coins with positive amounts only is zero exactly when it is empty. -/
theorem Coins.IsZero_of_pos (coins : Coins) (h : ∀ c ∈ coins, 0 < c.2) :
    coins.IsZero = true ↔ coins = [] := by
  constructor
  · intro hz
    cases coins with
    | nil => rfl
    | cons c rest =>
      simp only [Coins.IsZero, List.all_cons, Bool.and_eq_true, beq_iff_eq] at hz
      have := h c (List.mem_cons_self _ _)
      omega
  · intro he
    subst he
    rfl

/-- The sum over a list of denoms: denoms pairwise different, amounts positive,
and the amount of a denom is the balance once per occurrence of the denom. -/
theorem foldl_Add_spec (bal : String → Nat) (denoms : List String) :
    ∀ coins : Coins, (coins.map Prod.fst).Nodup → (∀ c ∈ coins, 0 < c.2) →
      ((denoms.foldl (fun total d => Coins.Add total (d, bal d)) coins).map Prod.fst).Nodup ∧
      (∀ c ∈ denoms.foldl (fun total d => Coins.Add total (d, bal d)) coins, 0 < c.2) ∧
      ∀ d : String,
        (Store.get (denoms.foldl (fun total d => Coins.Add total (d, bal d)) coins) d).getD 0 =
          (Store.get coins d).getD 0 + denoms.count d * bal d := by
  induction denoms with
  | nil => intro coins hnd hpos; exact ⟨hnd, hpos, fun d => by simp⟩
  | cons x rest ih =>
    intro coins hnd hpos
    rw [List.foldl_cons]
    obtain ⟨h1, h2, h3⟩ := ih (Coins.Add coins (x, bal x)) (Coins.nodup_Add _ _ hnd)
      (Coins.pos_Add _ _ hpos)
    refine ⟨h1, h2, fun d => ?_⟩
    rw [h3 d, Coins.get_Add, List.count_cons]
    by_cases hx : x = d
    · subst hx
      simp only [if_true, beq_self_eq_true]
      rw [Nat.add_mul]
      omega
    · have hx' : (x == d) = false := by simpa using hx
      simp only [hx, if_false, hx']
      simp

/-- A balance just written is the balance read. -/
theorem GetBalance_setBalance_self (s : State) (a : AccAddress) (d : String) (n : Nat) :
    GetBalance (setBalance s a d n) a d = n := by
  unfold setBalance GetBalance
  by_cases h : n = 0
  · simp [h, Store.get_remove_self]
  · simp [h, Store.get_set_self]

/-- Writing a balance leaves every other balance alone. -/
theorem GetBalance_setBalance_of_ne (s : State) (a a' : AccAddress) (d d' : String) (n : Nat)
    (h : (a', d') ≠ (a, d)) :
    GetBalance (setBalance s a d n) a' d' = GetBalance s a' d' := by
  unfold setBalance GetBalance
  by_cases h0 : n = 0
  · simp [h0, Store.get_remove_of_ne _ _ _ h]
  · simp [h0, Store.get_set_of_ne _ _ _ _ h]

/-- Writing a balance touches the balances only. -/
theorem setBalance_frame (s : State) (a : AccAddress) (d : String) (n : Nat) :
    (setBalance s a d n).PendingForwards = s.PendingForwards ∧
    (setBalance s a d n).accounts = s.accounts ∧
    (setBalance s a d n).Memos = s.Memos ∧
    (setBalance s a d n).AllowedDenoms = s.AllowedDenoms ∧
    (setBalance s a d n).events = s.events := by
  unfold setBalance
  split <;> exact ⟨rfl, rfl, rfl, rfl, rfl⟩

/-- A successful withdrawal of coins with pairwise different denoms: every coin was
covered, the balance of the address in a denom went down by the amount of the coin,
and nothing else changed. -/
theorem subUnlockedCoins_spec (a : AccAddress) (coins : Coins) :
    ∀ s s' : State, (coins.map Prod.fst).Nodup → subUnlockedCoins a s coins = some s' →
      (∀ d : String, (Store.get coins d).getD 0 ≤ GetBalance s a d ∧
        GetBalance s' a d = GetBalance s a d - (Store.get coins d).getD 0) ∧
      (∀ (a' : AccAddress) (d : String), a' ≠ a → GetBalance s' a' d = GetBalance s a' d) ∧
      s'.PendingForwards = s.PendingForwards ∧ s'.events = s.events := by
  induction coins with
  | nil =>
    intro s s' _ h
    simp only [subUnlockedCoins, Option.some.injEq] at h
    subst h
    simp [Store.get]
  | cons c rest ih =>
    obtain ⟨x, n⟩ := c
    intro s s' hnd h
    simp only [List.map_cons, List.nodup_cons] at hnd
    unfold subUnlockedCoins at h
    by_cases hlt : GetBalance s a x < n
    · simp [hlt] at h
    · simp only [hlt, if_false] at h
      obtain ⟨h1, h2, h3, h4⟩ := ih _ s' hnd.2 h
      have hx : Store.get rest x = none := by
        have : ∀ m : List (String × Nat), x ∉ m.map Prod.fst → Store.get m x = none := by
          intro m
          induction m with
          | nil => intro _; rfl
          | cons p tl ihm =>
            obtain ⟨k, v⟩ := p
            intro hk
            simp only [List.map_cons, List.mem_cons, not_or] at hk
            simp [Store.get, Ne.symm hk.1, ihm hk.2]
        exact this rest hnd.1
      refine ⟨fun d => ?_, fun a' d ha' => ?_, ?_, ?_⟩
      · by_cases hd : x = d
        · subst hd
          have := h1 x
          rw [hx, GetBalance_setBalance_self] at this
          simp only [Store.get, if_true, Option.getD_some]
          simp only [Option.getD_none] at this
          constructor
          · omega
          · rw [this.2]; omega
        · have := h1 d
          rw [GetBalance_setBalance_of_ne _ _ _ _ _ _ (by simp [Ne.symm hd])] at this
          simpa [Store.get, hd] using this
      · rw [h2 a' d ha', GetBalance_setBalance_of_ne _ _ _ _ _ _ (by simp [ha'])]
      · rw [h3, (setBalance_frame _ _ _ _).1]
      · rw [h4, (setBalance_frame _ _ _ _).2.2.2.2]

/-- A deposit of coins with pairwise different denoms: the balance of the address
in a denom goes up by the amount of the coin, and nothing else changes. -/
theorem addCoins_spec (a : AccAddress) (coins : Coins) :
    ∀ s : State, (coins.map Prod.fst).Nodup →
      (∀ d : String, GetBalance (addCoins a s coins) a d =
        GetBalance s a d + (Store.get coins d).getD 0) ∧
      (∀ (a' : AccAddress) (d : String), a' ≠ a →
        GetBalance (addCoins a s coins) a' d = GetBalance s a' d) ∧
      (addCoins a s coins).PendingForwards = s.PendingForwards ∧
      (addCoins a s coins).events = s.events := by
  induction coins with
  | nil => intro s _; simp [addCoins, Store.get]
  | cons c rest ih =>
    obtain ⟨x, n⟩ := c
    intro s hnd
    simp only [List.map_cons, List.nodup_cons] at hnd
    unfold addCoins
    obtain ⟨h1, h2, h3, h4⟩ := ih (setBalance s a x (GetBalance s a x + n)) hnd.2
    have hx : Store.get rest x = none := by
      have : ∀ m : List (String × Nat), x ∉ m.map Prod.fst → Store.get m x = none := by
        intro m
        induction m with
        | nil => intro _; rfl
        | cons p tl ihm =>
          obtain ⟨k, v⟩ := p
          intro hk
          simp only [List.map_cons, List.mem_cons, not_or] at hk
          simp [Store.get, Ne.symm hk.1, ihm hk.2]
      exact this rest hnd.1
    refine ⟨fun d => ?_, fun a' d ha' => ?_, ?_, ?_⟩
    · by_cases hd : x = d
      · subst hd
        rw [h1 x, hx, GetBalance_setBalance_self]
        simp [Store.get]
      · rw [h1 d, GetBalance_setBalance_of_ne _ _ _ _ _ _ (by simp [Ne.symm hd])]
        simp [Store.get, hd]
    · rw [h2 a' d ha', GetBalance_setBalance_of_ne _ _ _ _ _ _ (by simp [ha'])]
    · rw [h3, (setBalance_frame _ _ _ _).1]
    · rw [h4, (setBalance_frame _ _ _ _).2.2.2.2]

/-- The receive hook leaves the balances and the events alone and writes the queue
at most under the address string of the receiver. -/
theorem SendRestrictionFn_frame (env : Env) (s : State) (fromAddr toAddr : AccAddress)
    (amt : Coins) :
    (SendRestrictionFn env s fromAddr toAddr amt).2 = (toAddr, none) ∧
    (SendRestrictionFn env s fromAddr toAddr amt).1.balances = s.balances ∧
    (SendRestrictionFn env s fromAddr toAddr amt).1.events = s.events ∧
    ∀ key : String, key ≠ env.AddressString toAddr →
      Store.get (SendRestrictionFn env s fromAddr toAddr amt).1.PendingForwards key =
        Store.get s.PendingForwards key := by
  unfold SendRestrictionFn
  cases h : GetAccount s toAddr with
  | none => exact ⟨rfl, rfl, rfl, fun _ _ => rfl⟩
  | some raw =>
    cases raw with
    | baseAccount b => exact ⟨rfl, rfl, rfl, fun _ _ => rfl⟩
    | other t b => exact ⟨rfl, rfl, rfl, fun _ _ => rfl⟩
    | forwardingAccount account =>
      refine ⟨rfl, rfl, rfl, fun key hkey => ?_⟩
      have haddr : account.BaseAccount.Address = toAddr := GetAccount_address h
      simp only [SetPendingForward, haddr]
      exact Store.get_set_of_ne _ _ _ _ hkey

/-! ## Facts about `ClearAccount` -/

/-- The sum of the allowed balances of an address: pairwise different denoms,
positive amounts, and per denom the balance once per occurrence in the allowed
list. -/
theorem totalAllowedBalance_spec (s : State) (address : AccAddress) :
    ((totalAllowedBalance s address).map Prod.fst).Nodup ∧
    (∀ c ∈ totalAllowedBalance s address, 0 < c.2) ∧
    ∀ d : String, (Store.get (totalAllowedBalance s address) d).getD 0 =
      (GetAllowedDenoms s).count d * GetBalance s address d := by
  obtain ⟨h1, h2, h3⟩ := foldl_Add_spec (GetBalance s address) (GetAllowedDenoms s) NewCoins
    (by simp [NewCoins]) (by simp [NewCoins])
  refine ⟨h1, h2, fun d => ?_⟩
  have := h3 d
  simpa [NewCoins, Store.get] using this

/-- The sum of the allowed balances is zero exactly when every allowed balance is. -/
theorem totalAllowedBalance_IsZero_iff (s : State) (address : AccAddress) :
    (totalAllowedBalance s address).IsZero = true ↔
      ∀ d ∈ GetAllowedDenoms s, GetBalance s address d = 0 := by
  obtain ⟨_, hpos, hget⟩ := totalAllowedBalance_spec s address
  rw [Coins.IsZero_of_pos _ hpos]
  constructor
  · intro hnil d hd
    have h := hget d
    rw [hnil] at h
    simp only [Store.get, Option.getD_none] at h
    have hc : 0 < (GetAllowedDenoms s).count d := List.count_pos_iff.mpr hd
    rcases Nat.eq_zero_or_pos (GetBalance s address d) with h0 | h0
    · exact h0
    · have := Nat.mul_pos hc h0
      omega
  · intro hzero
    cases htot : totalAllowedBalance s address with
    | nil => rfl
    | cons c rest =>
      exfalso
      obtain ⟨k, v⟩ := c
      have hv : 0 < v := by
        have := hpos (k, v) (by rw [htot]; exact List.mem_cons_self _ _)
        exact this
      have h := hget k
      rw [htot] at h
      simp only [Store.get, if_true, Option.getD_some] at h
      by_cases hk : k ∈ GetAllowedDenoms s
      · rw [hzero k hk] at h
        omega
      · rw [List.count_eq_zero_of_not_mem hk] at h
        omega

/-- A `ClearAccount` on a forwarding account with a non-zero allowed balance, with
the fallback flag off or no fallback configured, enqueues the account. -/
theorem ClearAccount_deferred (env : Env) (s : State) (msg : MsgClearAccount)
    (address : AccAddress) (account : ForwardingAccount)
    (haddr : env.StringToBytes msg.Address = some address)
    (hacc : GetAccount s address = some (.forwardingAccount account))
    (hfunded : ∃ d ∈ GetAllowedDenoms s, GetBalance s address d ≠ 0)
    (hdefer : msg.Fallback = false ∨ account.Fallback = "") :
    ClearAccount env s msg = ⟨SetPendingForward env s account, some ⟨⟩, none⟩ := by
  have hz : ¬ (totalAllowedBalance s address).IsZero = true := by
    rw [totalAllowedBalance_IsZero_iff]
    obtain ⟨d, hd, hne⟩ := hfunded
    exact fun h => hne (h d hd)
  have hd : (!msg.Fallback || decide (account.Fallback = "")) = true := by
    rcases hdefer with h | h <;> simp [h]
  unfold ClearAccount
  simp only [haddr, hacc, hz, hd, if_true, if_false]
  rfl

/-- C17: `ClearAccount` fails and leaves the whole state (balances, pending queue
and everything else) as it was when the address string does not decode, when no
account is stored at the address, when the account is not a forwarding account,
and when the balances of the account over the allowed denoms sum to zero; in the
last case the error is "account does not require clearing", whatever the account
holds in denoms that are not allowed. -/
theorem ClearAccount_rejects (env : Env) (s : State) (msg : MsgClearAccount) :
    (env.StringToBytes msg.Address = none →
      (ClearAccount env s msg).err = some "invalid account address" ∧
      (ClearAccount env s msg).resp = none ∧ (ClearAccount env s msg).state = s) ∧
    (∀ address : AccAddress, env.StringToBytes msg.Address = some address →
      GetAccount s address = none →
      (ClearAccount env s msg).err = some "account does not exist" ∧
      (ClearAccount env s msg).resp = none ∧ (ClearAccount env s msg).state = s) ∧
    (∀ (address : AccAddress) (raw : AccountI),
      env.StringToBytes msg.Address = some address → GetAccount s address = some raw →
      (∀ account : ForwardingAccount, raw ≠ .forwardingAccount account) →
      (ClearAccount env s msg).err = some "account is not a forwarding account" ∧
      (ClearAccount env s msg).resp = none ∧ (ClearAccount env s msg).state = s) ∧
    (∀ (address : AccAddress) (account : ForwardingAccount),
      env.StringToBytes msg.Address = some address →
      GetAccount s address = some (.forwardingAccount account) →
      ((GetAllowedDenoms s).map (GetBalance s address)).sum = 0 →
      (ClearAccount env s msg).err = some "account does not require clearing" ∧
      (ClearAccount env s msg).resp = none ∧ (ClearAccount env s msg).state = s) := by
  refine ⟨?_, ?_, ?_, ?_⟩
  · intro h
    simp [ClearAccount, h]
  · intro address h hacc
    simp [ClearAccount, h, hacc]
  · intro address raw h hacc hnot
    cases raw with
    | forwardingAccount account => exact absurd rfl (hnot account)
    | baseAccount b => simp [ClearAccount, h, hacc]
    | other t b => simp [ClearAccount, h, hacc]
  · intro address account h hacc hsum
    have hz : (totalAllowedBalance s address).IsZero = true := by
      rw [totalAllowedBalance_IsZero_iff]
      intro d hd
      have hall := List.sum_eq_zero_iff.mp hsum
      exact hall _ (List.mem_map.mpr ⟨d, hd, rfl⟩)
    unfold ClearAccount
    simp only [h, hacc, hz, if_true]
    exact ⟨trivial, trivial, trivial⟩

/-- On the sample chain with `uatom` as the only allowed denom: the forwarding
account holds 50 `uusdc` and 3 `ufoo`, none of them allowed, and is not cleared. -/
theorem ClearAccount_rejects_witness :
    GetBalance { sampleClearState with AllowedDenoms := ["uatom"] }
      sampleForwarding.BaseAccount.Address "uusdc" = 50 ∧
    (ClearAccount sampleEnv { sampleClearState with AllowedDenoms := ["uatom"] }
      (sampleClearMsg true)).err = some "account does not require clearing" ∧
    (ClearAccount sampleEnv { sampleClearState with AllowedDenoms := ["uatom"] }
      (sampleClearMsg true)).state = { sampleClearState with AllowedDenoms := ["uatom"] } :=
  have h := (ClearAccount_rejects sampleEnv { sampleClearState with AllowedDenoms := ["uatom"] }
    (sampleClearMsg true)).2.2.2 sampleForwarding.BaseAccount.Address sampleForwarding
    (by decide) (by decide) (by decide)
  ⟨by decide, h.1, h.2.2⟩

/-- C18: a `ClearAccount` on a forwarding account with a non-zero balance in some
allowed denom, with the fallback flag off or with no fallback configured on the
account, succeeds; afterwards the account is in the pending queue under its
address, and no balance of any address has changed. -/
theorem ClearAccount_enqueues (env : Env) (s : State) (msg : MsgClearAccount)
    (address : AccAddress) (account : ForwardingAccount)
    (haddr : env.StringToBytes msg.Address = some address)
    (hacc : GetAccount s address = some (.forwardingAccount account))
    (hfunded : ∃ d ∈ GetAllowedDenoms s, GetBalance s address d ≠ 0)
    (hdefer : msg.Fallback = false ∨ account.Fallback = "") :
    (ClearAccount env s msg).err = none ∧ (ClearAccount env s msg).resp = some ⟨⟩ ∧
    Store.get (ClearAccount env s msg).state.PendingForwards (env.AddressString address) =
      some account ∧
    (ClearAccount env s msg).state.balances = s.balances ∧
    (∀ (a : AccAddress) (d : String),
      GetBalance (ClearAccount env s msg).state a d = GetBalance s a d) := by
  rw [ClearAccount_deferred env s msg address account haddr hacc hfunded hdefer]
  have hown : account.BaseAccount.Address = address := GetAccount_address hacc
  refine ⟨rfl, rfl, ?_, rfl, fun _ _ => rfl⟩
  simp only [SetPendingForward, hown]
  exact Store.get_set_self _ _ _

/-- On the sample chain: clearing the funded forwarding account without the
fallback flag enqueues it and moves no funds. -/
theorem ClearAccount_enqueues_witness :
    Store.get (ClearAccount sampleEnv sampleClearState (sampleClearMsg false)).state.PendingForwards
      "addrchannel-0|bob|addrFB" = some sampleForwarding ∧
    (ClearAccount sampleEnv sampleClearState (sampleClearMsg false)).state.balances =
      sampleClearState.balances :=
  have h := ClearAccount_enqueues sampleEnv sampleClearState (sampleClearMsg false)
    sampleForwarding.BaseAccount.Address sampleForwarding (by decide) (by decide)
    ⟨"uusdc", by decide, by decide⟩ (Or.inl rfl)
  ⟨h.2.2.1, h.2.2.2.1⟩

/-- C20: a `SetAllowedDenoms` whose signer is not the authority fails with the
authority error (`ErrInvalidAuthority`, wrapped with the expected and the actual
signer) and leaves the state, so the allowed denoms, unchanged, whatever the list
of denoms is: the list is not looked at before the signer. -/
theorem SetAllowedDenoms_requires_authority (env : Env) (s : State)
    (msg : MsgSetAllowedDenoms) (hsigner : msg.Signer ≠ env.authority) :
    (SetAllowedDenoms env s msg).err =
      some ("expected " ++ env.authority ++ ", got " ++ msg.Signer ++ ": " ++
        env.ErrInvalidAuthority) ∧
    (SetAllowedDenoms env s msg).resp = none ∧
    (SetAllowedDenoms env s msg).state = s ∧
    GetAllowedDenoms (SetAllowedDenoms env s msg).state = GetAllowedDenoms s := by
  unfold SetAllowedDenoms
  rw [if_pos hsigner]
  exact ⟨rfl, rfl, rfl, rfl⟩

/-- On the sample chain: an empty list, which the validation would refuse, sent
by a signer that is not the authority gets the authority error. -/
theorem SetAllowedDenoms_requires_authority_witness :
    ValidateAllowedDenoms sampleEnv [] ≠ none ∧
    (SetAllowedDenoms sampleEnv sampleState ⟨"addrX", []⟩).err =
      some "expected addrGOV, got addrX: signer is not authority" ∧
    (SetAllowedDenoms sampleEnv sampleState ⟨"addrX", []⟩).state = sampleState :=
  have h := SetAllowedDenoms_requires_authority sampleEnv sampleState ⟨"addrX", []⟩
    (by decide)
  ⟨by decide, h.1, h.2.2.1⟩

/-- A successful send of the ledger, coins with pairwise different denoms: the
sender covered every coin and lost its amount, the receiver (another address)
gained it, no other balance moved, the queue changed at most under the address
string of the receiver, and no event was emitted. -/
theorem SendCoins_spec (env : Env) (s s' : State) (fromAddr toAddr : AccAddress)
    (amt : Coins) (hnd : (amt.map Prod.fst).Nodup) (hne : toAddr ≠ fromAddr)
    (hsend : SendCoins env s fromAddr toAddr amt = some s') :
    (∀ d : String, (Store.get amt d).getD 0 ≤ GetBalance s fromAddr d ∧
      GetBalance s' fromAddr d = GetBalance s fromAddr d - (Store.get amt d).getD 0 ∧
      GetBalance s' toAddr d = GetBalance s toAddr d + (Store.get amt d).getD 0) ∧
    (∀ (a : AccAddress) (d : String), a ≠ fromAddr → a ≠ toAddr →
      GetBalance s' a d = GetBalance s a d) ∧
    (∀ key : String, key ≠ env.AddressString toAddr →
      Store.get s'.PendingForwards key = Store.get s.PendingForwards key) ∧
    s'.events = s.events := by
  obtain ⟨hret, hbal, hev, hq⟩ := SendRestrictionFn_frame env s fromAddr toAddr amt
  have hsame : ∀ (a : AccAddress) (d : String),
      GetBalance (SendRestrictionFn env s fromAddr toAddr amt).1 a d = GetBalance s a d := by
    intro a d
    simp only [GetBalance, hbal]
  unfold SendCoins at hsend
  simp only [hret] at hsend
  cases hsub : subUnlockedCoins fromAddr (SendRestrictionFn env s fromAddr toAddr amt).1 amt with
  | none => rw [hsub] at hsend; cases hsend
  | some s2 =>
    rw [hsub] at hsend
    simp only [Option.some.injEq] at hsend
    subst hsend
    obtain ⟨h1, h2, h3, h4⟩ := subUnlockedCoins_spec fromAddr amt _ s2 hnd hsub
    obtain ⟨g1, g2, g3, g4⟩ := addCoins_spec toAddr amt s2 hnd
    refine ⟨fun d => ⟨?_, ?_, ?_⟩, fun a d hf ht => ?_, fun key hkey => ?_, ?_⟩
    · have := (h1 d).1
      rw [hsame] at this
      exact this
    · rw [g2 fromAddr d (Ne.symm hne), (h1 d).2, hsame]
    · rw [g1 d, h2 toAddr d hne, hsame]
    · rw [g2 a d ht, h2 a d hf, hsame]
    · rw [g3, h3]
      exact hq key hkey
    · rw [g4, h4, hev]

/-- C19: a `ClearAccount` with the fallback flag on a forwarding account that has a
fallback printing differently from the account, and a non-zero balance in some
allowed denom, when it succeeds (so the send of the ledger succeeded): the account
holds 0 in every allowed denom, the fallback has gained in every allowed denom
what the account held there, balances in denoms that are not allowed and balances
of other addresses are as before, and the entry of the pending queue under the
address of the account is as before (the account is not enqueued). -/
theorem ClearAccount_to_fallback (env : Env) (s : State) (msg : MsgClearAccount)
    (address fallback : AccAddress) (account : ForwardingAccount)
    (haddr : env.StringToBytes msg.Address = some address)
    (hacc : GetAccount s address = some (.forwardingAccount account))
    (hflag : msg.Fallback = true)
    (hfb : account.Fallback ≠ "")
    (hdec : env.StringToBytes account.Fallback = some fallback)
    (hprint : env.AddressString fallback ≠ env.AddressString address)
    (hfunded : ∃ d ∈ GetAllowedDenoms s, GetBalance s address d ≠ 0)
    (hok : (ClearAccount env s msg).err = none) :
    (∀ d ∈ GetAllowedDenoms s, GetBalance (ClearAccount env s msg).state address d = 0) ∧
    (∀ d ∈ GetAllowedDenoms s,
      GetBalance (ClearAccount env s msg).state fallback d =
        GetBalance s fallback d + GetBalance s address d) ∧
    (∀ (a : AccAddress) (d : String), d ∉ GetAllowedDenoms s →
      GetBalance (ClearAccount env s msg).state a d = GetBalance s a d) ∧
    (∀ (a : AccAddress) (d : String), a ≠ address → a ≠ fallback →
      GetBalance (ClearAccount env s msg).state a d = GetBalance s a d) ∧
    Store.get (ClearAccount env s msg).state.PendingForwards (env.AddressString address) =
      Store.get s.PendingForwards (env.AddressString address) ∧
    (ClearAccount env s msg).resp = some ⟨⟩ := by
  have hne : fallback ≠ address := fun h => hprint (by rw [h])
  have hz : ¬ (totalAllowedBalance s address).IsZero = true := by
    rw [totalAllowedBalance_IsZero_iff]
    obtain ⟨d, hd, hd0⟩ := hfunded
    exact fun h => hd0 (h d hd)
  have hd : ¬ ((!msg.Fallback || decide (account.Fallback = "")) = true) := by
    simp [hflag, hfb]
  obtain ⟨hnd, _, hget⟩ := totalAllowedBalance_spec s address
  cases hsend : SendCoins env s address fallback (totalAllowedBalance s address) with
  | none =>
    exfalso
    have : (ClearAccount env s msg).err =
        some "failed to clear balance to fallback account" := by
      unfold ClearAccount
      simp only [haddr, hacc, hz, hd, hdec, hsend, Bool.false_eq_true, if_false]
    rw [this] at hok
    cases hok
  | some s1 =>
    have hR : ClearAccount env s msg =
        ⟨{ s1 with events := s1.events ++ [.AccountCleared msg.Address account.Fallback] },
          some ⟨⟩, none⟩ := by
      unfold ClearAccount
      simp only [haddr, hacc, hz, hd, hdec, hsend, Bool.false_eq_true, if_false]
      rfl
    obtain ⟨h1, h2, h3, _⟩ := SendCoins_spec env s s1 address fallback _ hnd hne hsend
    have hread : ∀ (a : AccAddress) (d : String),
        GetBalance (ClearAccount env s msg).state a d = GetBalance s1 a d := by
      intro a d
      rw [hR]
      rfl
    have hamount : ∀ d ∈ GetAllowedDenoms s,
        (Store.get (totalAllowedBalance s address) d).getD 0 = GetBalance s address d := by
      intro d hmem
      have hle := (h1 d).1
      rw [hget d] at hle ⊢
      have hc : 0 < (GetAllowedDenoms s).count d := List.count_pos_iff.mpr hmem
      have hge := Nat.le_mul_of_pos_left (GetBalance s address d) hc
      omega
    have hnone : ∀ d : String, d ∉ GetAllowedDenoms s →
        (Store.get (totalAllowedBalance s address) d).getD 0 = 0 := by
      intro d hmem
      rw [hget d, List.count_eq_zero_of_not_mem hmem]
      simp
    refine ⟨fun d hmem => ?_, fun d hmem => ?_, fun a d hmem => ?_, fun a d ha hf => ?_, ?_, ?_⟩
    · rw [hread, (h1 d).2.1, hamount d hmem]
      omega
    · rw [hread, (h1 d).2.2, hamount d hmem]
    · rw [hread]
      by_cases ha : a = address
      · subst ha
        rw [(h1 d).2.1, hnone d hmem]
        omega
      · by_cases hf : a = fallback
        · subst hf
          rw [(h1 d).2.2, hnone d hmem]
          omega
        · exact h2 a d ha hf
    · rw [hread]
      exact h2 a d ha hf
    · rw [hR]
      exact h3 _ (Ne.symm hprint)
    · rw [hR]

/-- On the sample chain: clearing the forwarding account to its fallback moves its
50 `uusdc` to the fallback, keeps its 3 units of the denom that is not allowed,
and leaves the queue empty. -/
theorem ClearAccount_to_fallback_witness :
    GetBalance (ClearAccount sampleEnv sampleClearState (sampleClearMsg true)).state
      sampleForwarding.BaseAccount.Address "uusdc" = 0 ∧
    GetBalance (ClearAccount sampleEnv sampleClearState (sampleClearMsg true)).state
      [70, 66] "uusdc" = 0 + 50 ∧
    GetBalance (ClearAccount sampleEnv sampleClearState (sampleClearMsg true)).state
      sampleForwarding.BaseAccount.Address "ufoo" = 3 ∧
    Store.get (ClearAccount sampleEnv sampleClearState (sampleClearMsg true)).state.PendingForwards
      "addrchannel-0|bob|addrFB" = none :=
  have h := ClearAccount_to_fallback sampleEnv sampleClearState (sampleClearMsg true)
    sampleForwarding.BaseAccount.Address [70, 66] sampleForwarding
    (by decide) (by decide) rfl (by decide) (by decide) (by decide)
    ⟨"uusdc", by decide, by decide⟩ (by decide)
  ⟨h.1 "uusdc" (by decide), h.2.1 "uusdc" (by decide),
   h.2.2.1 sampleForwarding.BaseAccount.Address "ufoo" (by decide), h.2.2.2.2.1⟩

/-! ## Facts about the allowed denoms, the receive hook and the queue -/

/-- Setting denoms one by one adds exactly them to the key set and touches nothing
else. -/
theorem foldl_setAllowedDenom (denoms : List String) :
    ∀ s : State,
      (∀ d : String, d ∈ (denoms.foldl setAllowedDenom s).AllowedDenoms ↔
        d ∈ s.AllowedDenoms ∨ d ∈ denoms) ∧
      (denoms.foldl setAllowedDenom s).events = s.events ∧
      (denoms.foldl setAllowedDenom s).balances = s.balances ∧
      (denoms.foldl setAllowedDenom s).PendingForwards = s.PendingForwards := by
  induction denoms with
  | nil => intro s; simp
  | cons x rest ih =>
    intro s
    rw [List.foldl_cons]
    obtain ⟨h1, h2, h3, h4⟩ := ih (setAllowedDenom s x)
    refine ⟨fun d => ?_, h2, h3, h4⟩
    rw [h1 d]
    unfold setAllowedDenom
    by_cases hx : x ∈ s.AllowedDenoms
    · simp only [hx, if_true, List.mem_cons]
      constructor
      · rintro (h | h)
        · exact Or.inl h
        · exact Or.inr (Or.inr h)
      · rintro (h | h | h)
        · exact Or.inl h
        · exact Or.inl (h ▸ hx)
        · exact Or.inr h
    · simp only [hx, if_false, List.mem_append, List.mem_singleton, List.mem_cons,
        List.not_mem_nil, or_false]
      tauto

/-- C21: after a successful `SetAllowedDenoms` the allowed denoms are exactly the
denoms of the request (each requested denom is allowed, no other denom is, so none
of the former ones that the request leaves out), and the event emitted carries the
list of the allowed denoms as it was before the call and the requested list. -/
theorem SetAllowedDenoms_replaces (env : Env) (s : State) (msg : MsgSetAllowedDenoms)
    (hok : (SetAllowedDenoms env s msg).err = none) :
    (∀ d : String, d ∈ GetAllowedDenoms (SetAllowedDenoms env s msg).state ↔ d ∈ msg.Denoms) ∧
    (∀ d : String, d ∈ GetAllowedDenoms s → d ∉ msg.Denoms →
      d ∉ GetAllowedDenoms (SetAllowedDenoms env s msg).state) ∧
    (SetAllowedDenoms env s msg).state.events =
      s.events ++ [.AllowedDenomsConfigured (GetAllowedDenoms s) msg.Denoms] ∧
    (SetAllowedDenoms env s msg).resp = some ⟨⟩ := by
  by_cases hsig : msg.Signer ≠ env.authority
  · exfalso
    unfold SetAllowedDenoms at hok
    rw [if_pos hsig] at hok
    cases hok
  cases hv : ValidateAllowedDenoms env msg.Denoms with
  | some e =>
    exfalso
    unfold SetAllowedDenoms at hok
    rw [if_neg hsig] at hok
    simp only [hv] at hok
    cases hok
  | none =>
    have hR : SetAllowedDenoms env s msg =
        ⟨{ (msg.Denoms.foldl setAllowedDenom { s with AllowedDenoms := [] }) with
            events := (msg.Denoms.foldl setAllowedDenom { s with AllowedDenoms := [] }).events ++
              [.AllowedDenomsConfigured (GetAllowedDenoms s) msg.Denoms] },
          some ⟨⟩, none⟩ := by
      unfold SetAllowedDenoms
      rw [if_neg hsig]
      simp only [hv]
      rfl
    obtain ⟨h1, h2, _, _⟩ := foldl_setAllowedDenom msg.Denoms { s with AllowedDenoms := [] }
    have hmem : ∀ d : String,
        d ∈ GetAllowedDenoms (SetAllowedDenoms env s msg).state ↔ d ∈ msg.Denoms := by
      intro d
      rw [hR, mem_GetAllowedDenoms]
      simp only
      rw [h1 d]
      simp
    refine ⟨hmem, fun d _ hnot hin => hnot ((hmem d).1 hin), ?_, ?_⟩
    · rw [hR]
      simp only
      rw [h2]
    · rw [hR]

/-- On the sample chain: the authority replaces `uatom`, `uusdc` by `uusdc`,
`ufoo`; `uatom` is no longer allowed, and the two new denoms are read in the order
of their keys, `ufoo` first. -/
theorem SetAllowedDenoms_replaces_witness :
    GetAllowedDenoms (SetAllowedDenoms sampleEnv sampleState
      ⟨"addrGOV", ["uusdc", "ufoo"]⟩).state = ["ufoo", "uusdc"] ∧
    "uatom" ∉ GetAllowedDenoms (SetAllowedDenoms sampleEnv sampleState
      ⟨"addrGOV", ["uusdc", "ufoo"]⟩).state ∧
    (SetAllowedDenoms sampleEnv sampleState ⟨"addrGOV", ["uusdc", "ufoo"]⟩).state.events =
      [.AllowedDenomsConfigured ["uatom", "uusdc"] ["uusdc", "ufoo"]] :=
  have h := SetAllowedDenoms_replaces sampleEnv sampleState ⟨"addrGOV", ["uusdc", "ufoo"]⟩
    (by decide)
  ⟨by decide, h.2.1 "uatom" (by decide) (by decide), h.2.2.1⟩

/-- C22: whatever the sender, the receiver, the amount and the state,
`SendRestrictionFn` returns the receiver it was given and no error: it never
redirects and never rejects a transfer. -/
theorem SendRestrictionFn_returns_receiver (env : Env) (s : State)
    (fromAddr toAddr : AccAddress) (amt : Coins) :
    (SendRestrictionFn env s fromAddr toAddr amt).2.1 = toAddr ∧
    (SendRestrictionFn env s fromAddr toAddr amt).2.2 = none := by
  have h := (SendRestrictionFn_frame env s fromAddr toAddr amt).1
  rw [h]
  exact ⟨rfl, rfl⟩

/-- C23: `SendRestrictionFn` changes the state only by enqueuing. When the
receiver holds a forwarding account, the state afterwards is the state before with
that account written to the pending queue under the address of the receiver: the
queue maps the address to the account, its other entries and all the rest of the
state (balances, accounts, counters, requests to the transfer initiator) are as
before. When the receiver holds no account, or an account of another type, the
state is as before. Sender and amount play no part. -/
theorem SendRestrictionFn_only_enqueues (env : Env) (s : State)
    (fromAddr toAddr : AccAddress) (amt : Coins) :
    (∀ account : ForwardingAccount,
      GetAccount s toAddr = some (.forwardingAccount account) →
      (SendRestrictionFn env s fromAddr toAddr amt).1 =
        { s with PendingForwards :=
            Store.set s.PendingForwards (env.AddressString toAddr) account } ∧
      Store.get (SendRestrictionFn env s fromAddr toAddr amt).1.PendingForwards
        (env.AddressString toAddr) = some account ∧
      (∀ key : String, key ≠ env.AddressString toAddr →
        Store.get (SendRestrictionFn env s fromAddr toAddr amt).1.PendingForwards key =
          Store.get s.PendingForwards key) ∧
      (SendRestrictionFn env s fromAddr toAddr amt).1.balances = s.balances ∧
      (SendRestrictionFn env s fromAddr toAddr amt).1.accounts = s.accounts ∧
      (SendRestrictionFn env s fromAddr toAddr amt).1.NumOfAccounts = s.NumOfAccounts ∧
      (SendRestrictionFn env s fromAddr toAddr amt).1.NumOfForwards = s.NumOfForwards ∧
      (SendRestrictionFn env s fromAddr toAddr amt).1.TotalForwarded = s.TotalForwarded ∧
      (SendRestrictionFn env s fromAddr toAddr amt).1.transfers = s.transfers) ∧
    (GetAccount s toAddr = none → (SendRestrictionFn env s fromAddr toAddr amt).1 = s) ∧
    (∀ raw : AccountI, GetAccount s toAddr = some raw →
      (∀ account : ForwardingAccount, raw ≠ .forwardingAccount account) →
      (SendRestrictionFn env s fromAddr toAddr amt).1 = s) ∧
    (∀ (otherFrom : AccAddress) (otherAmt : Coins),
      SendRestrictionFn env s otherFrom toAddr otherAmt =
        SendRestrictionFn env s fromAddr toAddr amt) := by
  refine ⟨?_, ?_, ?_, fun _ _ => rfl⟩
  · intro account hacc
    have haddr : account.BaseAccount.Address = toAddr := GetAccount_address hacc
    have hst : (SendRestrictionFn env s fromAddr toAddr amt).1 =
        { s with PendingForwards :=
            Store.set s.PendingForwards (env.AddressString toAddr) account } := by
      unfold SendRestrictionFn
      simp only [hacc, SetPendingForward, haddr]
    rw [hst]
    exact ⟨rfl, Store.get_set_self _ _ _, fun key hkey => Store.get_set_of_ne _ _ _ _ hkey,
      rfl, rfl, rfl, rfl, rfl, rfl⟩
  · intro hnone
    unfold SendRestrictionFn
    simp only [hnone]
  · intro raw hraw hnot
    unfold SendRestrictionFn
    cases raw with
    | forwardingAccount account => exact absurd rfl (hnot account)
    | baseAccount b => simp only [hraw]
    | other t b => simp only [hraw]

/-- On the sample chain: a transfer to the forwarding account enqueues it, a
transfer to a base account changes nothing. -/
theorem SendRestrictionFn_only_enqueues_witness :
    Store.get (SendRestrictionFn sampleEnv sampleClearState [1] sampleForwarding.BaseAccount.Address
      [("uusdc", 100)]).1.PendingForwards "addrchannel-0|bob|addrFB" = some sampleForwarding ∧
    (SendRestrictionFn sampleEnv sampleClearState [1] (sampleAddress "funded")
      [("uusdc", 100)]).1 = sampleClearState :=
  ⟨((SendRestrictionFn_only_enqueues sampleEnv sampleClearState [1]
      sampleForwarding.BaseAccount.Address [("uusdc", 100)]).1 sampleForwarding
      (by decide)).2.1,
   (SendRestrictionFn_only_enqueues sampleEnv sampleClearState [1] (sampleAddress "funded")
      [("uusdc", 100)]).2.2.1 (.baseAccount ⟨sampleAddress "funded", none, 1, 0⟩) (by decide)
      (by intro account h; cases h)⟩

/-- Writing the same value under the same key twice is writing it once. -/
theorem Store.set_set_self {κ ν : Type} [DecidableEq κ] (m : List (κ × ν)) (k : κ) (v : ν) :
    Store.set (Store.set m k v) k v = Store.set m k v := by
  induction m with
  | nil => simp [Store.set]
  | cons p rest ih =>
    obtain ⟨k', v'⟩ := p
    by_cases h : k' = k
    · simp [Store.set, h]
    · simp [Store.set, h, ih]

/-- Enqueuing an account twice is enqueuing it once. -/
theorem SetPendingForward_twice (env : Env) (s : State) (account : ForwardingAccount) :
    SetPendingForward env (SetPendingForward env s account) account =
      SetPendingForward env s account := by
  simp only [SetPendingForward, Store.set_set_self]

/-- A withdrawal leaves the pending queue alone. -/
theorem subUnlockedCoins_queue (a : AccAddress) (coins : Coins) :
    ∀ s s' : State, subUnlockedCoins a s coins = some s' →
      s'.PendingForwards = s.PendingForwards := by
  induction coins with
  | nil =>
    intro s s' h
    simp only [subUnlockedCoins, Option.some.injEq] at h
    rw [← h]
  | cons c rest ih =>
    obtain ⟨x, n⟩ := c
    intro s s' h
    unfold subUnlockedCoins at h
    by_cases hlt : GetBalance s a x < n
    · simp [hlt] at h
    · simp only [hlt, if_false] at h
      rw [ih _ s' h, (setBalance_frame _ _ _ _).1]

/-- A deposit leaves the pending queue alone. -/
theorem addCoins_queue (a : AccAddress) (coins : Coins) :
    ∀ s : State, (addCoins a s coins).PendingForwards = s.PendingForwards := by
  induction coins with
  | nil => intro s; rfl
  | cons c rest ih =>
    obtain ⟨x, n⟩ := c
    intro s
    unfold addCoins
    rw [ih, (setBalance_frame _ _ _ _).1]

/-- The receive hook leaves the queue as it is or writes one entry. -/
theorem SendRestrictionFn_queue (env : Env) (s : State) (fromAddr toAddr : AccAddress)
    (amt : Coins) :
    (SendRestrictionFn env s fromAddr toAddr amt).1.PendingForwards = s.PendingForwards ∨
    ∃ (key : String) (account : ForwardingAccount),
      (SendRestrictionFn env s fromAddr toAddr amt).1.PendingForwards =
        Store.set s.PendingForwards key account := by
  unfold SendRestrictionFn
  cases h : GetAccount s toAddr with
  | none => exact Or.inl rfl
  | some raw =>
    cases raw with
    | baseAccount b => exact Or.inl rfl
    | other t b => exact Or.inl rfl
    | forwardingAccount account => exact Or.inr ⟨_, account, rfl⟩

/-- Whatever its outcome, `ClearAccount` leaves the queue as it is or writes one
entry. -/
theorem ClearAccount_queue (env : Env) (s : State) (msg : MsgClearAccount) :
    (ClearAccount env s msg).state.PendingForwards = s.PendingForwards ∨
    ∃ (key : String) (account : ForwardingAccount),
      (ClearAccount env s msg).state.PendingForwards =
        Store.set s.PendingForwards key account := by
  cases ha : env.StringToBytes msg.Address with
  | none => left; simp [ClearAccount, ha]
  | some address =>
    cases hacc : GetAccount s address with
    | none => left; simp [ClearAccount, ha, hacc]
    | some raw =>
      cases raw with
      | baseAccount b => left; simp [ClearAccount, ha, hacc]
      | other t b => left; simp [ClearAccount, ha, hacc]
      | forwardingAccount account =>
        by_cases hz : (totalAllowedBalance s address).IsZero = true
        · left
          unfold ClearAccount
          simp only [ha, hacc, hz, if_true]
        by_cases hd : (!msg.Fallback || decide (account.Fallback = "")) = true
        · right
          refine ⟨env.AddressString account.BaseAccount.Address, account, ?_⟩
          unfold ClearAccount
          simp only [ha, hacc, hz, hd, Bool.false_eq_true, if_true, if_false]
          rfl
        cases hf : env.StringToBytes account.Fallback with
        | none =>
          left
          unfold ClearAccount
          simp only [ha, hacc, hz, hd, hf, Bool.false_eq_true, if_false]
        | some fallback =>
          cases hsend : SendCoins env s address fallback (totalAllowedBalance s address) with
          | none =>
            left
            unfold ClearAccount
            simp only [ha, hacc, hz, hd, hf, hsend, Bool.false_eq_true, if_false]
          | some s1 =>
            have hR : (ClearAccount env s msg).state.PendingForwards = s1.PendingForwards := by
              unfold ClearAccount
              simp only [ha, hacc, hz, hd, hf, hsend, Bool.false_eq_true, if_false]
              rfl
            have hq : s1.PendingForwards =
                (SendRestrictionFn env s address fallback
                  (totalAllowedBalance s address)).1.PendingForwards := by
              unfold SendCoins at hsend
              simp only [(SendRestrictionFn_frame env s address fallback _).1] at hsend
              cases hsub : subUnlockedCoins address
                  (SendRestrictionFn env s address fallback (totalAllowedBalance s address)).1
                  (totalAllowedBalance s address) with
              | none => rw [hsub] at hsend; cases hsend
              | some s2 =>
                rw [hsub] at hsend
                simp only [Option.some.injEq] at hsend
                rw [← hsend, addCoins_queue, subUnlockedCoins_queue _ _ _ _ hsub]
            rw [hR, hq]
            exact SendRestrictionFn_queue env s address fallback _

/-- Whatever its outcome, `RegisterAccount` leaves the queue as it is or writes
one entry. -/
theorem RegisterAccount_queue (env : Env) (s : State) (msg : MsgRegisterAccount) :
    (RegisterAccount env s msg).state.PendingForwards = s.PendingForwards ∨
    ∃ (key : String) (account : ForwardingAccount),
      (RegisterAccount env s msg).state.PendingForwards =
        Store.set s.PendingForwards key account := by
  rcases RegisterAccount_paths env s msg with ⟨h, _, _⟩ | ⟨_, _, _, _, hpath⟩
  · rw [h]
    exact Or.inl rfl
  rcases hpath with ⟨account, _, _, hR⟩ | ⟨_, hR⟩
  · cases hv : validateMemoEntries env msg.Memos with
    | none =>
      rw [hR, (finishRegistration_of_ok env _ _ msg hv).1, enqueueIfFunded_forwarding]
      split
      · exact Or.inr ⟨_, _, rfl⟩
      · exact Or.inl rfl
    | some e =>
      have hv' : validateMemoEntries env msg.Memos ≠ none := by rw [hv]; simp
      rw [hR, (finishRegistration_of_err env _ _ msg hv').1, enqueueIfFunded_forwarding]
      split
      · exact Or.inr ⟨_, _, rfl⟩
      · exact Or.inl rfl
  · cases hv : validateMemoEntries env msg.Memos with
    | none =>
      rw [hR, (finishRegistration_of_ok env _ _ msg hv).1]
      exact Or.inl rfl
    | some e =>
      have hv' : validateMemoEntries env msg.Memos ≠ none := by rw [hv]; simp
      rw [hR, (finishRegistration_of_err env _ _ msg hv').1]
      exact Or.inl rfl

/-- C24: enqueuing is an idempotent upsert keyed by the address. Enqueuing an
account twice in a row, by two `SendRestrictionFn` calls for the same receiver or
by two deferred `ClearAccount` calls for the same address, leaves the queue (and
the state) as after the first; and a queue that holds at most one entry per
address, as the empty queue does, still does after an enqueue, a
`SendRestrictionFn`, a `ClearAccount` or a `RegisterAccount`. -/
theorem enqueue_idempotent (env : Env) (s : State) :
    (∀ account : ForwardingAccount,
      (SetPendingForward env (SetPendingForward env s account) account).PendingForwards =
        (SetPendingForward env s account).PendingForwards) ∧
    (∀ (fromAddr toAddr otherFrom : AccAddress) (amt otherAmt : Coins),
      (SendRestrictionFn env (SendRestrictionFn env s fromAddr toAddr amt).1
        otherFrom toAddr otherAmt).1 = (SendRestrictionFn env s fromAddr toAddr amt).1) ∧
    (∀ (msg again : MsgClearAccount) (address : AccAddress) (account : ForwardingAccount),
      env.StringToBytes msg.Address = some address → again.Address = msg.Address →
      GetAccount s address = some (.forwardingAccount account) →
      (∃ d ∈ GetAllowedDenoms s, GetBalance s address d ≠ 0) →
      (msg.Fallback = false ∨ account.Fallback = "") →
      (again.Fallback = false ∨ account.Fallback = "") →
      (ClearAccount env (ClearAccount env s msg).state again).state =
        (ClearAccount env s msg).state) ∧
    ((([] : List (String × ForwardingAccount)).map Prod.fst).Nodup) ∧
    ((s.PendingForwards.map Prod.fst).Nodup →
      (∀ account : ForwardingAccount,
        ((SetPendingForward env s account).PendingForwards.map Prod.fst).Nodup) ∧
      (∀ (fromAddr toAddr : AccAddress) (amt : Coins),
        ((SendRestrictionFn env s fromAddr toAddr amt).1.PendingForwards.map Prod.fst).Nodup) ∧
      (∀ msg : MsgClearAccount,
        ((ClearAccount env s msg).state.PendingForwards.map Prod.fst).Nodup) ∧
      (∀ msg : MsgRegisterAccount,
        ((RegisterAccount env s msg).state.PendingForwards.map Prod.fst).Nodup)) := by
  refine ⟨fun account => by rw [SetPendingForward_twice], ?_, ?_, List.nodup_nil, ?_⟩
  · intro fromAddr toAddr otherFrom amt otherAmt
    cases h : GetAccount s toAddr with
    | none =>
      have h1 : (SendRestrictionFn env s fromAddr toAddr amt).1 = s := by
        unfold SendRestrictionFn; simp only [h]
      rw [h1]
      unfold SendRestrictionFn
      simp only [h]
    | some raw =>
      cases raw with
      | baseAccount b =>
        have h1 : (SendRestrictionFn env s fromAddr toAddr amt).1 = s := by
          unfold SendRestrictionFn; simp only [h]
        rw [h1]
        unfold SendRestrictionFn
        simp only [h]
      | other t b =>
        have h1 : (SendRestrictionFn env s fromAddr toAddr amt).1 = s := by
          unfold SendRestrictionFn; simp only [h]
        rw [h1]
        unfold SendRestrictionFn
        simp only [h]
      | forwardingAccount account =>
        have h1 : (SendRestrictionFn env s fromAddr toAddr amt).1 =
            SetPendingForward env s account := by
          unfold SendRestrictionFn; simp only [h]
        rw [h1]
        have h2 : GetAccount (SetPendingForward env s account) toAddr =
            some (.forwardingAccount account) := h
        unfold SendRestrictionFn
        simp only [h2]
        exact SetPendingForward_twice env s account
  · intro msg again address account haddr hsame hacc hfunded hdefer hdefer'
    rw [ClearAccount_deferred env s msg address account haddr hacc hfunded hdefer]
    rw [ClearAccount_deferred env (SetPendingForward env s account) again address account
      (by rw [hsame]; exact haddr) hacc hfunded hdefer']
    exact SetPendingForward_twice env s account
  · intro hnd
    refine ⟨fun account => Store.nodup_keys_set _ _ _ hnd, fun fromAddr toAddr amt => ?_,
      fun msg => ?_, fun msg => ?_⟩
    · rcases SendRestrictionFn_queue env s fromAddr toAddr amt with h | ⟨k, v, h⟩
      · rw [h]; exact hnd
      · rw [h]; exact Store.nodup_keys_set _ _ _ hnd
    · rcases ClearAccount_queue env s msg with h | ⟨k, v, h⟩
      · rw [h]; exact hnd
      · rw [h]; exact Store.nodup_keys_set _ _ _ hnd
    · rcases RegisterAccount_queue env s msg with h | ⟨k, v, h⟩
      · rw [h]; exact hnd
      · rw [h]; exact Store.nodup_keys_set _ _ _ hnd

/-- On the sample chain: after two deferred clearings, or two transfers to the
forwarding account, the queue holds the account once. -/
theorem enqueue_idempotent_witness :
    (ClearAccount sampleEnv (ClearAccount sampleEnv sampleClearState
        (sampleClearMsg false)).state (sampleClearMsg false)).state.PendingForwards =
      [("addrchannel-0|bob|addrFB", sampleForwarding)] ∧
    (SendRestrictionFn sampleEnv (SendRestrictionFn sampleEnv sampleClearState [1]
        sampleForwarding.BaseAccount.Address [("uusdc", 1)]).1 [2]
        sampleForwarding.BaseAccount.Address [("uusdc", 2)]).1.PendingForwards =
      [("addrchannel-0|bob|addrFB", sampleForwarding)] :=
  have h := enqueue_idempotent sampleEnv sampleClearState
  ⟨(congrArg State.PendingForwards
      (h.2.2.1 (sampleClearMsg false) (sampleClearMsg false)
        sampleForwarding.BaseAccount.Address sampleForwarding (by decide) rfl (by decide)
        ⟨"uusdc", by decide, by decide⟩ (Or.inl rfl) (Or.inl rfl))).trans (by decide),
   (congrArg State.PendingForwards
      (h.2.1 [1] sampleForwarding.BaseAccount.Address [2] [("uusdc", 1)]
        [("uusdc", 2)])).trans (by decide)⟩

/-! ## Facts about the sweep -/

theorem SweepFrame.refl (s : State) : SweepFrame s s :=
  ⟨rfl, rfl, rfl, rfl, rfl, rfl, rfl, rfl, rfl, rfl, rfl⟩

theorem SweepFrame.trans {s s1 s2 : State} (h1 : SweepFrame s s1) (h2 : SweepFrame s1 s2) :
    SweepFrame s s2 := by
  obtain ⟨a1, a2, a3, a4, a5, a6, a7, a8, a9, a10, a11⟩ := h1
  obtain ⟨b1, b2, b3, b4, b5, b6, b7, b8, b9, b10, b11⟩ := h2
  exact ⟨b1.trans a1, b2.trans a2, b3.trans a3, b4.trans a4, b5.trans a5, b6.trans a6,
    b7.trans a7, b8.trans a8, b9.trans a9, b10.trans a10, b11.trans a11⟩

theorem acceptedOn_nil (channel : String) : acceptedOn channel [] = 0 := rfl

theorem acceptedOn_cons (channel : String) (r : MsgTransfer × Option String)
    (rest : List (MsgTransfer × Option String)) :
    acceptedOn channel (r :: rest) =
      (if r.2 = none ∧ r.1.SourceChannel = channel then 1 else 0) + acceptedOn channel rest := by
  unfold acceptedOn
  by_cases h : r.2 = none ∧ r.1.SourceChannel = channel
  · simp only [List.filter_cons, h, and_self, decide_True, if_true, List.length_cons]
    omega
  · simp only [List.filter_cons, h, decide_False, if_false]
    simp

theorem acceptedOn_append (channel : String) (a b : List (MsgTransfer × Option String)) :
    acceptedOn channel (a ++ b) = acceptedOn channel a + acceptedOn channel b := by
  unfold acceptedOn
  rw [List.filter_append, List.length_append]

theorem acceptedAmount_nil (channel denom : String) : acceptedAmount channel denom [] = 0 := rfl

theorem acceptedAmount_cons (channel denom : String) (r : MsgTransfer × Option String)
    (rest : List (MsgTransfer × Option String)) :
    acceptedAmount channel denom (r :: rest) =
      (if r.2 = none ∧ r.1.SourceChannel = channel ∧ r.1.Token.1 = denom then r.1.Token.2
        else 0) + acceptedAmount channel denom rest := by
  unfold acceptedAmount
  by_cases h : r.2 = none ∧ r.1.SourceChannel = channel ∧ r.1.Token.1 = denom
  · simp only [List.filter_cons, h, and_self, decide_True, if_true, List.map_cons,
      List.sum_cons]
  · simp only [List.filter_cons, h, decide_False, if_false]
    simp

theorem acceptedAmount_append (channel denom : String)
    (a b : List (MsgTransfer × Option String)) :
    acceptedAmount channel denom (a ++ b) =
      acceptedAmount channel denom a + acceptedAmount channel denom b := by
  unfold acceptedAmount
  rw [List.filter_append, List.map_append, List.sum_append]

/-- Two counter updates in a row, each a plain copy when nothing was accepted and
a sum modulo 2^64 otherwise, make one update by the sum. -/
theorem counter_compose (x x1 x2 k1 k2 : Nat)
    (h1 : x1 = if k1 = 0 then x else (x + k1) % 2 ^ 64)
    (h2 : x2 = if k2 = 0 then x1 else (x1 + k2) % 2 ^ 64) :
    x2 = if k1 + k2 = 0 then x else (x + (k1 + k2)) % 2 ^ 64 := by
  by_cases hk1 : k1 = 0
  · subst hk1
    simp only [if_true] at h1
    subst h1
    simpa using h2
  · by_cases hk2 : k2 = 0
    · subst hk2
      simp only [if_true] at h2
      subst h2
      simpa [hk1] using h1
    · have hk : ¬ (k1 + k2 = 0) := by omega
      simp only [hk1, if_false] at h1
      simp only [hk2, if_false] at h2
      simp only [hk, if_false]
      rw [h2, h1, Nat.add_mod, Nat.mod_mod, ← Nat.add_mod, Nat.add_assoc]

/-- The request built for a balance depends on the state through the block time
only. -/
theorem transferRequest_congr (env : Env) (s s' : State) (forward : ForwardingAccount)
    (balance : String × Nat) (h : s'.blockTime = s.blockTime) :
    transferRequest env s' forward balance = transferRequest env s forward balance := by
  simp only [transferRequest, h]

/-- The forward counter after an increment. -/
theorem GetNumOfForwards_Increment (s : State) (channel ch : String) :
    GetNumOfForwards (IncrementNumOfForwards s channel) ch =
      if ch = channel then (GetNumOfForwards s channel + 1) % 2 ^ 64
      else GetNumOfForwards s ch := by
  unfold IncrementNumOfForwards GetNumOfForwards
  by_cases h : ch = channel
  · subst h
    simp [Store.get_set_self]
  · simp [h, Store.get_set_of_ne _ _ _ _ h]

/-- The balances read for an address are exactly the non-zero entries the ledger
holds for it. -/
theorem mem_GetAllBalances (s : State) (address : AccAddress) (coin : String × Nat) :
    coin ∈ GetAllBalances s address ↔
      ((address, coin.1), coin.2) ∈ s.balances ∧ coin.2 ≠ 0 := by
  unfold GetAllBalances
  rw [Store.mem_sortByKey]
  simp only [List.mem_map, List.mem_filter, decide_eq_true_eq]
  constructor
  · rintro ⟨e, ⟨he, ha, hz⟩, rfl⟩
    obtain ⟨⟨a, d⟩, n⟩ := e
    simp only at ha hz ⊢
    subst ha
    exact ⟨he, hz⟩
  · rintro ⟨he, hz⟩
    exact ⟨((address, coin.1), coin.2), ⟨he, rfl, hz⟩, rfl⟩

/-- The denom of a coin of a set after an addition is the denom added or a denom of
the set. -/
theorem Coins.valid_Add (validate : String → Option String) (coins : Coins)
    (coin : String × Nat) (hcoins : ∀ c ∈ coins, validate c.1 = none)
    (hcoin : validate coin.1 = none) : ∀ c ∈ Coins.Add coins coin, validate c.1 = none := by
  intro c hc
  unfold Coins.Add at hc
  by_cases h0 : coin.2 = 0
  · rw [if_pos h0] at hc
    exact hcoins c hc
  · rw [if_neg h0] at hc
    rcases Store.mem_set _ _ c coins hc with h | h
    · rw [h]
      exact hcoin
    · exact hcoins c h

/-- The total of a channel after an increment by a coin of a valid denom, with a
reader and a printer of coins that agree: in every denom, the amount it held plus
the amount of the coin when the coin is of that denom. -/
theorem GetTotalForwarded_Increment (env : Env) (hcodec : CoinsCodec env)
    (s : State) (channel ch : String) (coin : String × Nat)
    (hvalid : env.ValidateDenom coin.1 = none) (d : String) :
    (Store.get (GetTotalForwarded env (IncrementTotalForwarded env s channel coin) ch) d).getD 0 =
      if ch = channel then
        (Store.get (GetTotalForwarded env s channel) d).getD 0 +
          (if coin.1 = d then coin.2 else 0)
      else (Store.get (GetTotalForwarded env s ch) d).getD 0 := by
  by_cases h : ch = channel
  · subst h
    have hread : GetTotalForwarded env (IncrementTotalForwarded env s ch coin) ch =
        env.ParseCoinsNormalized
          (env.CoinsString (Coins.Add (GetTotalForwarded env s ch) coin)) := by
      simp only [GetTotalForwarded, IncrementTotalForwarded, Store.get_set_self,
        Option.getD_some]
    have hold : ((GetTotalForwarded env s ch).map Prod.fst).Nodup ∧
        ∀ c ∈ GetTotalForwarded env s ch, env.ValidateDenom c.1 = none :=
      hcodec.1 ((Store.get s.TotalForwarded ch).getD "")
    rw [hread, if_pos rfl,
      hcodec.2 (Coins.Add (GetTotalForwarded env s ch) coin) (Coins.nodup_Add _ coin hold.1)
        (Coins.valid_Add env.ValidateDenom _ coin hold.2 hvalid) d,
      Coins.get_Add]
  · have hread : GetTotalForwarded env (IncrementTotalForwarded env s channel coin) ch =
        GetTotalForwarded env s ch := by
      simp only [GetTotalForwarded, IncrementTotalForwarded, Store.get_set_of_ne _ _ _ _ h]
    rw [hread, if_neg h]

/-- The inner loop of the sweep over the balances of one account: one request per
balance, in their order, is added to the requests received; the forward counter of
a channel moves by the number of those accepted on it, its total by their tokens;
nothing else is written. -/
theorem forwardBalances_spec (env : Env) (forward : ForwardingAccount) (coins : Coins) :
    ∀ s : State, ∃ issued : List (MsgTransfer × Option String),
      SweepFrame s (forwardBalances env forward s coins) ∧
      (forwardBalances env forward s coins).transfers = s.transfers ++ issued ∧
      issued.map Prod.fst = coins.map (transferRequest env s forward) ∧
      (∀ ch : String, GetNumOfForwards (forwardBalances env forward s coins) ch =
        if acceptedOn ch issued = 0 then GetNumOfForwards s ch
        else (GetNumOfForwards s ch + acceptedOn ch issued) % 2 ^ 64) ∧
      (CoinsCodec env → (∀ c ∈ coins, env.ValidateDenom c.1 = none) →
        ∀ ch d : String,
          (Store.get (GetTotalForwarded env (forwardBalances env forward s coins) ch) d).getD 0 =
            (Store.get (GetTotalForwarded env s ch) d).getD 0 + acceptedAmount ch d issued) := by
  induction coins with
  | nil =>
    intro s
    exact ⟨[], SweepFrame.refl s, by simp [forwardBalances], rfl,
      fun ch => by simp [forwardBalances, acceptedOn_nil],
      fun _ _ ch d => by simp [forwardBalances, acceptedAmount_nil]⟩
  | cons coin rest ih =>
    intro s
    cases herr : env.Transfer s (transferRequest env s forward coin) with
    | some e =>
      -- a rejected request: only the log grows
      have hstep : forwardBalances env forward s (coin :: rest) =
          forwardBalances env forward
            { s with transfers := s.transfers ++
                [(transferRequest env s forward coin, some e)] } rest := by
        rw [forwardBalances]
        simp only [Transfer, herr]
      obtain ⟨issued, hframe, hlog, hreq, hnum, htot⟩ :=
        ih { s with transfers := s.transfers ++
          [(transferRequest env s forward coin, some e)] }
      refine ⟨(transferRequest env s forward coin, some e) :: issued, ?_, ?_, ?_, ?_, ?_⟩
      · rw [hstep]
        exact SweepFrame.trans ⟨rfl, rfl, rfl, rfl, rfl, rfl, rfl, rfl, rfl, rfl, rfl⟩ hframe
      · rw [hstep, hlog]
        simp
      · rw [List.map_cons, List.map_cons, hreq]
        congr 1
      · intro ch
        rw [hstep, hnum ch, acceptedOn_cons]
        simp only [reduceCtorEq, false_and, if_false, Nat.zero_add]
        rfl
      · intro hcodec hvalid ch d
        rw [hstep, htot hcodec (fun c hc => hvalid c (List.mem_cons_of_mem _ hc)) ch d,
          acceptedAmount_cons]
        simp only [reduceCtorEq, false_and, if_false, Nat.zero_add]
        rfl
    | none =>
      -- an accepted request: the log grows, the counter and the total move
      have hstep : forwardBalances env forward s (coin :: rest) =
          forwardBalances env forward
            (IncrementTotalForwarded env
              (IncrementNumOfForwards
                { s with transfers := s.transfers ++
                    [(transferRequest env s forward coin, none)] } forward.Channel)
              forward.Channel coin) rest := by
        rw [forwardBalances]
        simp only [Transfer, herr]
      obtain ⟨issued, hframe, hlog, hreq, hnum, htot⟩ :=
        ih (IncrementTotalForwarded env
          (IncrementNumOfForwards
            { s with transfers := s.transfers ++
                [(transferRequest env s forward coin, none)] } forward.Channel)
          forward.Channel coin)
      refine ⟨(transferRequest env s forward coin, none) :: issued, ?_, ?_, ?_, ?_, ?_⟩
      · rw [hstep]
        exact SweepFrame.trans ⟨rfl, rfl, rfl, rfl, rfl, rfl, rfl, rfl, rfl, rfl, rfl⟩ hframe
      · rw [hstep, hlog]
        simp [IncrementTotalForwarded, IncrementNumOfForwards]
      · rw [List.map_cons, List.map_cons, hreq]
        congr 1
      · intro ch
        rw [hstep]
        have h1 : GetNumOfForwards (IncrementTotalForwarded env
            (IncrementNumOfForwards
              { s with transfers := s.transfers ++
                  [(transferRequest env s forward coin, none)] } forward.Channel)
            forward.Channel coin) ch =
            if (if ch = forward.Channel then 1 else 0) = 0 then GetNumOfForwards s ch
            else (GetNumOfForwards s ch + (if ch = forward.Channel then 1 else 0)) % 2 ^ 64 := by
          have := GetNumOfForwards_Increment
            { s with transfers := s.transfers ++
                [(transferRequest env s forward coin, none)] } forward.Channel ch
          by_cases hch : ch = forward.Channel
          · subst hch
            simp only [if_true] at this ⊢
            exact this
          · simp only [hch, if_false] at this ⊢
            exact this
        have h2 := counter_compose _ _ _ _ _ h1 (hnum ch)
        rw [h2, acceptedOn_cons]
        have hc : (if ((transferRequest env s forward coin, (none : Option String)).2 = none ∧
            (transferRequest env s forward coin, (none : Option String)).1.SourceChannel = ch)
            then 1 else 0) = (if ch = forward.Channel then 1 else 0) := by
          by_cases hch : ch = forward.Channel
          · subst hch
            simp [transferRequest]
          · have : ¬ forward.Channel = ch := fun h => hch h.symm
            simp [transferRequest, hch, this]
        rw [hc]
      · intro hcodec hvalid ch d
        rw [hstep, htot hcodec (fun c hc => hvalid c (List.mem_cons_of_mem _ hc)) ch d,
          acceptedAmount_cons]
        have h1 := GetTotalForwarded_Increment env hcodec
          (IncrementNumOfForwards
            { s with transfers := s.transfers ++
                [(transferRequest env s forward coin, none)] } forward.Channel)
          forward.Channel ch coin (hvalid coin (List.mem_cons_self _ _)) d
        rw [h1]
        by_cases hch : ch = forward.Channel
        · subst hch
          simp only [if_true]
          have : GetTotalForwarded env
              (IncrementNumOfForwards
                { s with transfers := s.transfers ++
                    [(transferRequest env s forward coin, none)] } forward.Channel)
              forward.Channel = GetTotalForwarded env s forward.Channel := rfl
          rw [this]
          simp [transferRequest]
          omega
        · have hne : ¬ forward.Channel = ch := fun h => hch h.symm
          simp only [hch, if_false]
          have : GetTotalForwarded env
              (IncrementNumOfForwards
                { s with transfers := s.transfers ++
                    [(transferRequest env s forward coin, none)] } forward.Channel)
              ch = GetTotalForwarded env s ch := rfl
          rw [this]
          simp [transferRequest, hne]

/-- The requests expected for an account depend on the channels, the balances and
the block time only, which the sweep does not write. -/
theorem accountRequests_congr (env : Env) (s s' : State) (forward : ForwardingAccount)
    (h : SweepFrame s s') : accountRequests env s' forward = accountRequests env s forward := by
  obtain ⟨_, _, hbal, hch, _, _, _, _, _, _, htime⟩ := h
  have hreq : transferRequest env s' forward = transferRequest env s forward := by
    funext coin
    exact transferRequest_congr env s s' forward coin htime
  simp only [accountRequests, GetChannel, GetAllBalances, hbal, hch, hreq]

/-- One account of the sweep: the requests expected for it are added to the
requests received, the statistics move by the accepted ones, nothing else is
written. -/
theorem forwardAccount_spec (env : Env) (s : State) (forward : ForwardingAccount) :
    ∃ issued : List (MsgTransfer × Option String),
      SweepFrame s (forwardAccount env s forward) ∧
      (forwardAccount env s forward).transfers = s.transfers ++ issued ∧
      issued.map Prod.fst = accountRequests env s forward ∧
      (∀ ch : String, GetNumOfForwards (forwardAccount env s forward) ch =
        if acceptedOn ch issued = 0 then GetNumOfForwards s ch
        else (GetNumOfForwards s ch + acceptedOn ch issued) % 2 ^ 64) ∧
      (CoinsCodec env → (∀ e ∈ s.balances, env.ValidateDenom e.1.2 = none) →
        ∀ ch d : String,
          (Store.get (GetTotalForwarded env (forwardAccount env s forward) ch) d).getD 0 =
            (Store.get (GetTotalForwarded env s ch) d).getD 0 + acceptedAmount ch d issued) := by
  by_cases hopen : ((GetChannel s PortID forward.Channel).getD ⟨.UNINITIALIZED⟩).State ≠ .OPEN
  · have hs : forwardAccount env s forward = s := by
      simp only [forwardAccount]
      exact if_pos hopen
    have hr : accountRequests env s forward = [] := by
      simp only [accountRequests]
      exact if_pos hopen
    rw [hs, hr]
    exact ⟨[], SweepFrame.refl s, by simp, rfl, fun ch => by simp [acceptedOn_nil],
      fun _ _ ch d => by simp [acceptedAmount_nil]⟩
  · have hs : forwardAccount env s forward =
        forwardBalances env forward s (GetAllBalances s forward.BaseAccount.Address) := by
      simp only [forwardAccount]
      exact if_neg hopen
    have hr : accountRequests env s forward =
        (GetAllBalances s forward.BaseAccount.Address).map (transferRequest env s forward) := by
      simp only [accountRequests]
      exact if_neg hopen
    rw [hs, hr]
    obtain ⟨issued, hframe, hlog, hreq, hnum, htot⟩ := forwardBalances_spec env forward
      (GetAllBalances s forward.BaseAccount.Address) s
    refine ⟨issued, hframe, hlog, hreq, hnum, fun hcodec hvalid => htot hcodec ?_⟩
    intro c hc
    exact hvalid _ ((mem_GetAllBalances s _ c).1 hc).1

/-- The loop of the sweep over a list of accounts: the requests expected for them
on the state before the loop are added, account after account, to the requests
received, the statistics move by the accepted ones, nothing else is written. -/
theorem forwardAll_spec (env : Env) (forwards : List ForwardingAccount) :
    ∀ s : State, ∃ issued : List (MsgTransfer × Option String),
      SweepFrame s (forwards.foldl (forwardAccount env) s) ∧
      (forwards.foldl (forwardAccount env) s).transfers = s.transfers ++ issued ∧
      issued.map Prod.fst = (forwards.map (accountRequests env s)).flatten ∧
      (∀ ch : String, GetNumOfForwards (forwards.foldl (forwardAccount env) s) ch =
        if acceptedOn ch issued = 0 then GetNumOfForwards s ch
        else (GetNumOfForwards s ch + acceptedOn ch issued) % 2 ^ 64) ∧
      (CoinsCodec env → (∀ e ∈ s.balances, env.ValidateDenom e.1.2 = none) →
        ∀ ch d : String,
          (Store.get (GetTotalForwarded env (forwards.foldl (forwardAccount env) s) ch) d).getD 0 =
            (Store.get (GetTotalForwarded env s ch) d).getD 0 + acceptedAmount ch d issued) := by
  induction forwards with
  | nil =>
    intro s
    exact ⟨[], SweepFrame.refl s, by simp, rfl, fun ch => by simp [acceptedOn_nil],
      fun _ _ ch d => by simp [acceptedAmount_nil]⟩
  | cons forward rest ih =>
    intro s
    obtain ⟨i1, hf1, hl1, hr1, hn1, ht1⟩ := forwardAccount_spec env s forward
    obtain ⟨i2, hf2, hl2, hr2, hn2, ht2⟩ := ih (forwardAccount env s forward)
    refine ⟨i1 ++ i2, ?_, ?_, ?_, ?_, ?_⟩
    · exact SweepFrame.trans hf1 hf2
    · rw [List.foldl_cons, hl2, hl1, List.append_assoc]
    · rw [List.map_append, hr1, hr2, List.map_cons, List.flatten_cons]
      congr 2
      apply List.map_congr_left
      intro f _
      exact accountRequests_congr env s _ f hf1
    · intro ch
      rw [List.foldl_cons, acceptedOn_append]
      exact counter_compose _ _ _ _ _ (hn1 ch) (hn2 ch)
    · intro hcodec hvalid ch d
      have hvalid' : ∀ e ∈ (forwardAccount env s forward).balances,
          env.ValidateDenom e.1.2 = none := by
        rw [hf1.2.2.1]
        exact hvalid
      rw [List.foldl_cons, ht2 hcodec hvalid' ch d, ht1 hcodec hvalid ch d,
        acceptedAmount_append]
      omega

/-- The accounts read from the queue are exactly the accounts stored in it. -/
theorem mem_GetPendingForwards (s : State) (forward : ForwardingAccount) :
    forward ∈ GetPendingForwards s ↔ ∃ key, (key, forward) ∈ s.PendingForwards := by
  unfold GetPendingForwards
  simp only [List.mem_map]
  constructor
  · rintro ⟨e, he, rfl⟩
    exact ⟨e.1, (Store.mem_sortByKey e _).1 he⟩
  · rintro ⟨key, he⟩
    exact ⟨(key, forward), (Store.mem_sortByKey _ _).2 he, rfl⟩

/-- An account whose channel is not open is passed over: the state is left as it
is. -/
theorem forwardAccount_not_open (env : Env) (s : State) (forward : ForwardingAccount)
    (h : ((GetChannel s PortID forward.Channel).getD ⟨.UNINITIALIZED⟩).State ≠ .OPEN) :
    forwardAccount env s forward = s := by
  simp only [forwardAccount]
  exact if_pos h

/-- The requests expected for an account: one per balance when its channel is
open, none otherwise. -/
theorem mem_accountRequests (env : Env) (s : State) (forward : ForwardingAccount)
    (msg : MsgTransfer) :
    msg ∈ accountRequests env s forward ↔
      ((GetChannel s PortID forward.Channel).getD ⟨.UNINITIALIZED⟩).State = .OPEN ∧
      ∃ coin ∈ GetAllBalances s forward.BaseAccount.Address,
        msg = transferRequest env s forward coin := by
  by_cases h : ((GetChannel s PortID forward.Channel).getD ⟨.UNINITIALIZED⟩).State = .OPEN
  · have hr : accountRequests env s forward =
        (GetAllBalances s forward.BaseAccount.Address).map (transferRequest env s forward) := by
      simp only [accountRequests]
      exact if_neg (fun hne => hne h)
    rw [hr, List.mem_map]
    constructor
    · rintro ⟨coin, hc, rfl⟩
      exact ⟨h, coin, hc, rfl⟩
    · rintro ⟨_, coin, hc, rfl⟩
      exact ⟨coin, hc, rfl⟩
  · have hr : accountRequests env s forward = [] := by
      simp only [accountRequests]
      exact if_pos h
    rw [hr]
    simp [h]

/-- No request of a list is on the channel: none was accepted on it. -/
theorem acceptedOn_eq_zero (channel : String) (issued : List (MsgTransfer × Option String))
    (h : ∀ r ∈ issued, r.1.SourceChannel ≠ channel) : acceptedOn channel issued = 0 := by
  unfold acceptedOn
  rw [List.length_eq_zero, List.filter_eq_nil_iff]
  intro r hr
  simp [h r hr]

theorem decodeNat_encodeNat (n : Nat) (rest : List Char) :
    decodeNat (encodeNat n ++ rest) = (n, rest) := by
  induction n with
  | zero => simp [encodeNat, decodeNat]
  | succ n ih =>
    have h : encodeNat (n + 1) ++ rest = 'x' :: (encodeNat n ++ rest) := by
      simp [encodeNat, List.replicate_succ]
    rw [h, decodeNat, ih]
    simp

theorem length_encodeCoins : ∀ coins : Coins, coins.length ≤ (encodeCoins coins).length
  | [] => Nat.le_refl _
  | c :: rest => by
    have ih := length_encodeCoins rest
    simp only [encodeCoins, encodeCoin, encodeNat, List.length_cons, List.length_append,
      List.length_replicate, List.length_nil]
    omega

theorem decodeCoins_encodeCoins : ∀ (coins : Coins) (fuel : Nat), coins.length ≤ fuel →
    decodeCoins fuel (encodeCoins coins) = coins
  | [], fuel, _ => by cases fuel <;> simp [decodeCoins, encodeCoins]
  | c :: rest, 0, h => by simp at h
  | c :: rest, fuel + 1, h => by
    have ih := decodeCoins_encodeCoins rest fuel (by simpa using h)
    have htext : encodeCoins (c :: rest) =
        encodeNat c.1.data.length ++ (c.1.data ++ (encodeNat c.2 ++ encodeCoins rest)) := by
      simp [encodeCoins, encodeCoin, List.append_assoc]
    have hstep : ∀ text : List Char, text ≠ [] → decodeCoins (fuel + 1) text =
        (String.mk ((decodeNat text).2.take (decodeNat text).1),
          (decodeNat ((decodeNat text).2.drop (decodeNat text).1)).1) ::
          decodeCoins fuel (decodeNat ((decodeNat text).2.drop (decodeNat text).1)).2 := by
      intro text ht
      cases text with
      | nil => exact absurd rfl ht
      | cons a as => rfl
    have hne : encodeCoins (c :: rest) ≠ [] := by
      rw [htext]
      simp [encodeNat]
    rw [hstep _ hne, htext, decodeNat_encodeNat]
    simp only [List.take_left, List.drop_left, decodeNat_encodeNat, ih]

/-- In coins of pairwise different denoms, sorting the coins and dropping the zero
ones changes the amount of no denom. -/
theorem amount_normalize (coins : Coins) (hnd : (coins.map Prod.fst).Nodup) (d : String) :
    (Store.get (Store.sortByKey (coins.filter (fun c => c.2 ≠ 0))) d).getD 0 =
      (Store.get coins d).getD 0 := by
  have hperm := Store.perm_sortByKey (coins.filter (fun c => c.2 ≠ 0))
  have hsub : (coins.filter (fun c => c.2 ≠ 0)).Sublist coins := List.filter_sublist _
  have hnd' : ((Store.sortByKey (coins.filter (fun c => c.2 ≠ 0))).map Prod.fst).Nodup :=
    ((hperm.map Prod.fst).nodup_iff).2 (List.Nodup.sublist (hsub.map Prod.fst) hnd)
  have hmem : ∀ v : Nat, (d, v) ∈ Store.sortByKey (coins.filter (fun c => c.2 ≠ 0)) ↔
      (d, v) ∈ coins ∧ v ≠ 0 := by
    intro v
    rw [Store.mem_sortByKey]
    simp [List.mem_filter]
  cases hget : Store.get (Store.sortByKey (coins.filter (fun c => c.2 ≠ 0))) d with
  | some w =>
    have hw := (hmem w).1 (Store.mem_of_get d w _ hget)
    rw [Store.get_of_mem d w coins hnd hw.1]
  | none =>
    cases hc : Store.get coins d with
    | none => rfl
    | some v =>
      by_cases hv : v = 0
      · simp [hv]
      · exfalso
        have hsome := Store.get_of_mem d v _ hnd'
          ((hmem v).2 ⟨Store.mem_of_get d v coins hc, hv⟩)
        rw [hget] at hsome
        cases hsome

/-- The reader and the printer of coins of the sample environment agree: what is
read has pairwise different, valid denoms, and coins of pairwise different, valid
denoms keep their amounts through printing and reading, which sorts them and drops
the zero ones. -/
theorem sampleEnv_codec : CoinsCodec sampleEnv := by
  constructor
  · intro text
    show ((normalizeCoins defaultValidateDenom
        (decodeCoins text.data.length text.data)).map Prod.fst).Nodup ∧
      ∀ c ∈ normalizeCoins defaultValidateDenom (decodeCoins text.data.length text.data),
        defaultValidateDenom c.1 = none
    generalize decodeCoins text.data.length text.data = coins
    unfold normalizeCoins
    by_cases hcond : (coins.map Prod.fst).Nodup ∧
        coins.all (fun c => (defaultValidateDenom c.1).isNone) = true
    · rw [if_pos hcond]
      have hperm := Store.perm_sortByKey (coins.filter (fun c => c.2 ≠ 0))
      have hsub : (coins.filter (fun c => c.2 ≠ 0)).Sublist coins := List.filter_sublist _
      refine ⟨((hperm.map Prod.fst).nodup_iff).2
        (List.Nodup.sublist (hsub.map Prod.fst) hcond.1), ?_⟩
      intro c hc
      have hin : c ∈ coins := hsub.subset ((Store.mem_sortByKey c _).1 hc)
      have := List.all_eq_true.1 hcond.2 c hin
      simpa using this
    · rw [if_neg hcond]
      exact ⟨List.nodup_nil, fun c hc => by cases hc⟩
  · intro coins hnd hvalid d
    show (Store.get (normalizeCoins defaultValidateDenom
        (decodeCoins (encodeCoins coins).length (encodeCoins coins))) d).getD 0 =
      (Store.get coins d).getD 0
    rw [decodeCoins_encodeCoins coins _ (length_encodeCoins coins)]
    have hcond : (coins.map Prod.fst).Nodup ∧
        coins.all (fun c => (defaultValidateDenom c.1).isNone) = true := by
      refine ⟨hnd, List.all_eq_true.2 ?_⟩
      intro c hc
      have hv : defaultValidateDenom c.1 = none := hvalid c hc
      simp [hv]
    unfold normalizeCoins
    rw [if_pos hcond]
    exact amount_normalize coins hnd d

/-- C25: a queued account whose channel is not OPEN when the sweep runs (a channel
that is not found reads as not open) is passed over. The sweep is the sweep of the
remaining queued accounts, before and after it in the queue; the requests made are
those of the remaining accounts and none of them is on the channel of the account;
the balances, the forward counter of the channel and the queue (no entry is
written back) are as before. -/
theorem ExecuteForwards_skips_not_open (env : Env) (s : State)
    (forward : ForwardingAccount) (before after : List ForwardingAccount)
    (hqueue : GetPendingForwards s = before ++ forward :: after)
    (hclosed : ((GetChannel s PortID forward.Channel).getD ⟨.UNINITIALIZED⟩).State ≠ .OPEN) :
    ExecuteForwards env s = (before ++ after).foldl (forwardAccount env) s ∧
    (∃ issued : List (MsgTransfer × Option String),
      (ExecuteForwards env s).transfers = s.transfers ++ issued ∧
      issued.map Prod.fst = ((before ++ after).map (accountRequests env s)).flatten ∧
      ∀ r ∈ issued, r.1.SourceChannel ≠ forward.Channel) ∧
    (ExecuteForwards env s).balances = s.balances ∧
    GetNumOfForwards (ExecuteForwards env s) forward.Channel =
      GetNumOfForwards s forward.Channel ∧
    (ExecuteForwards env s).PendingForwards = s.PendingForwards := by
  have hskip : ExecuteForwards env s = (before ++ after).foldl (forwardAccount env) s := by
    unfold ExecuteForwards
    rw [hqueue, List.foldl_append, List.foldl_cons, List.foldl_append]
    obtain ⟨_, hframe, _⟩ := forwardAll_spec env before s
    have hch : (before.foldl (forwardAccount env) s).channels = s.channels := hframe.2.2.2.1
    have hclosed' : ((GetChannel (before.foldl (forwardAccount env) s) PortID
        forward.Channel).getD ⟨.UNINITIALIZED⟩).State ≠ .OPEN := by
      simp only [GetChannel, hch]
      exact hclosed
    rw [forwardAccount_not_open env _ forward hclosed']
  obtain ⟨issued, hframe, hlog, hreq, hnum, _⟩ := forwardAll_spec env (before ++ after) s
  have hchan : ∀ r ∈ issued, r.1.SourceChannel ≠ forward.Channel := by
    intro r hr heq
    have hmem : r.1 ∈ ((before ++ after).map (accountRequests env s)).flatten := by
      rw [← hreq]
      exact List.mem_map_of_mem Prod.fst hr
    obtain ⟨reqs, hreqs, hin⟩ := List.mem_flatten.1 hmem
    obtain ⟨other, _, rfl⟩ := List.mem_map.1 hreqs
    obtain ⟨hopen, coin, _, hmsg⟩ := (mem_accountRequests env s other r.1).1 hin
    have hsame : other.Channel = forward.Channel := by
      rw [← heq, hmsg]
      rfl
    rw [hsame] at hopen
    exact hclosed hopen
  rw [hskip]
  refine ⟨rfl, ⟨issued, hlog, hreq, hchan⟩, hframe.2.2.1, ?_, hframe.2.2.2.2.2.2.1⟩
  rw [hnum forward.Channel, acceptedOn_eq_zero _ _ hchan]
  rfl

/-- The sample sweep: the account on the closed `channel-9` is queued after the
account on `channel-0`, and is passed over. -/
theorem ExecuteForwards_skips_not_open_witness :
    GetPendingForwards sampleSweepState = [sampleForwarding] ++ sampleClosedForwarding :: [] ∧
    ((GetChannel sampleSweepState PortID sampleClosedForwarding.Channel).getD
      ⟨.UNINITIALIZED⟩).State ≠ .OPEN ∧
    (ExecuteForwards sampleEnv sampleSweepState =
        ([sampleForwarding] ++ []).foldl (forwardAccount sampleEnv) sampleSweepState ∧
      (∃ issued : List (MsgTransfer × Option String),
        (ExecuteForwards sampleEnv sampleSweepState).transfers =
          sampleSweepState.transfers ++ issued ∧
        issued.map Prod.fst =
          (([sampleForwarding] ++ []).map (accountRequests sampleEnv sampleSweepState)).flatten ∧
        ∀ r ∈ issued, r.1.SourceChannel ≠ sampleClosedForwarding.Channel) ∧
      (ExecuteForwards sampleEnv sampleSweepState).balances = sampleSweepState.balances ∧
      GetNumOfForwards (ExecuteForwards sampleEnv sampleSweepState)
          sampleClosedForwarding.Channel =
        GetNumOfForwards sampleSweepState sampleClosedForwarding.Channel ∧
      (ExecuteForwards sampleEnv sampleSweepState).PendingForwards =
        sampleSweepState.PendingForwards) :=
  ⟨by decide, by decide,
    ExecuteForwards_skips_not_open sampleEnv sampleSweepState sampleClosedForwarding
      [sampleForwarding] [] (by decide) (by decide)⟩

/-- C26, as stated, fails: on the sample chain only `uatom` and `uusdc` are allowed,
the queued account on the open channel holds 3 `ufoo`, and the sweep asks the
transfer initiator, which accepts, to forward them. -/
theorem ExecuteForwards_forwards_unlisted_denom :
    sampleSweepState.AllowedDenoms = ["uatom", "uusdc"] ∧
    (ExecuteForwards sampleEnv sampleSweepState).transfers.map
        (fun r => (r.1.Sender, r.1.Token, r.2)) =
      [(sampleEnv.AddressString sampleForwarding.BaseAccount.Address, ("ufoo", 3), none),
       (sampleEnv.AddressString sampleForwarding.BaseAccount.Address, ("uusdc", 50), none)] := by
  decide

/-- C26, amended: every request made by the sweep carries a token of positive
amount, which is a balance the ledger holds for a queued account on an open
channel, and the request is made on that channel from that account; conversely
every non-zero balance of a queued account on an open channel, whatever its denom,
is put in a request. The allowed denoms are not read. -/
theorem ExecuteForwards_forwards_every_balance (env : Env) (s : State) :
    ∃ issued : List (MsgTransfer × Option String),
      (ExecuteForwards env s).transfers = s.transfers ++ issued ∧
      (∀ r ∈ issued, 0 < r.1.Token.2 ∧
        ∃ forward ∈ GetPendingForwards s,
          ((GetChannel s PortID forward.Channel).getD ⟨.UNINITIALIZED⟩).State = .OPEN ∧
          ((forward.BaseAccount.Address, r.1.Token.1), r.1.Token.2) ∈ s.balances ∧
          r.1.SourceChannel = forward.Channel ∧
          r.1.Sender = env.AddressString forward.BaseAccount.Address) ∧
      (∀ forward ∈ GetPendingForwards s,
        ((GetChannel s PortID forward.Channel).getD ⟨.UNINITIALIZED⟩).State = .OPEN →
        ∀ (denom : String) (amount : Nat),
          ((forward.BaseAccount.Address, denom), amount) ∈ s.balances → amount ≠ 0 →
          ∃ r ∈ issued, r.1.Token = (denom, amount) ∧ r.1.SourceChannel = forward.Channel ∧
            r.1.Sender = env.AddressString forward.BaseAccount.Address) := by
  obtain ⟨issued, _, hlog, hreq, _, _⟩ := forwardAll_spec env (GetPendingForwards s) s
  refine ⟨issued, hlog, ?_, ?_⟩
  · intro r hr
    have hmem : r.1 ∈ ((GetPendingForwards s).map (accountRequests env s)).flatten := by
      rw [← hreq]
      exact List.mem_map_of_mem Prod.fst hr
    obtain ⟨reqs, hreqs, hin⟩ := List.mem_flatten.1 hmem
    obtain ⟨forward, hforward, rfl⟩ := List.mem_map.1 hreqs
    obtain ⟨hopen, coin, hcoin, hmsg⟩ := (mem_accountRequests env s forward r.1).1 hin
    obtain ⟨hbal, hpos⟩ := (mem_GetAllBalances s _ coin).1 hcoin
    rw [hmsg]
    exact ⟨Nat.pos_of_ne_zero hpos, forward, hforward, hopen, hbal, rfl, rfl⟩
  · intro forward hforward hopen denom amount hbal hpos
    have hcoin : (denom, amount) ∈ GetAllBalances s forward.BaseAccount.Address :=
      (mem_GetAllBalances s _ (denom, amount)).2 ⟨hbal, hpos⟩
    have hmem : transferRequest env s forward (denom, amount) ∈ issued.map Prod.fst := by
      rw [hreq]
      exact List.mem_flatten.2 ⟨_, List.mem_map_of_mem _ hforward,
        (mem_accountRequests env s forward _).2 ⟨hopen, _, hcoin, rfl⟩⟩
    obtain ⟨r, hr, hfst⟩ := List.mem_map.1 hmem
    exact ⟨r, hr, by rw [hfst]; rfl, by rw [hfst]; rfl, by rw [hfst]; rfl⟩

/-- C27: the requests the sweep adds to those received by the transfer initiator
are, for the queued accounts in their order, none for an account whose channel is
not OPEN and exactly one per coin of the balances read for an account whose
channel is OPEN, whatever the initiator answered to the earlier ones; each carries
the port `transfer`, the channel of the account, the coin, the address of the
account as sender, its recipient as receiver, the zero timeout height, the block
time in nanoseconds plus the default relative timeout modulo 2^64, and an empty
memo. With an empty queue the state is left as it is. -/
theorem ExecuteForwards_requests (env : Env) (s : State) :
    (∃ issued : List (MsgTransfer × Option String),
      (ExecuteForwards env s).transfers = s.transfers ++ issued ∧
      issued.map Prod.fst =
        ((GetPendingForwards s).map (fun forward =>
          if ((GetChannel s PortID forward.Channel).getD ⟨.UNINITIALIZED⟩).State ≠ .OPEN
          then []
          else (GetAllBalances s forward.BaseAccount.Address).map (fun coin =>
            ({ SourcePort := "transfer"
               SourceChannel := forward.Channel
               Token := coin
               Sender := env.AddressString forward.BaseAccount.Address
               Receiver := forward.Recipient
               TimeoutHeight := (0, 0)
               TimeoutTimestamp :=
                 ((s.blockTime % 2 ^ 64).toNat + env.DefaultRelativePacketTimeoutTimestamp) %
                   2 ^ 64
               Memo := "" } : MsgTransfer)))).flatten) ∧
    (s.PendingForwards = [] → ExecuteForwards env s = s) := by
  constructor
  · obtain ⟨issued, _, hlog, hreq, _, _⟩ := forwardAll_spec env (GetPendingForwards s) s
    exact ⟨issued, hlog, hreq⟩
  · intro hempty
    simp only [ExecuteForwards, GetPendingForwards, hempty, Store.sortByKey, List.map_nil,
      List.foldl_nil]

/-- C28: over a sweep the forward counter of every channel moves by the number of
requests on that channel that the transfer initiator accepted (a 64-bit counter:
the sum is taken modulo 2^64, and is the plain sum below that bound), the total
forwarded of every channel moves, in every denom, by the sum of the accepted
tokens of that denom on that channel, a rejected request counts for nothing in
either, and the account counters are not written. The total is kept as text: its
part is stated for a reader and a printer of coins that agree on coins of pairwise
different, valid denoms (`CoinsCodec`, which asks nothing of the order of the
coins) and a ledger that holds valid denoms only. -/
theorem ExecuteForwards_statistics (env : Env) (s : State) :
    ∃ issued : List (MsgTransfer × Option String),
      (ExecuteForwards env s).transfers = s.transfers ++ issued ∧
      (∀ ch : String, GetNumOfForwards (ExecuteForwards env s) ch =
        if acceptedOn ch issued = 0 then GetNumOfForwards s ch
        else (GetNumOfForwards s ch + acceptedOn ch issued) % 2 ^ 64) ∧
      (∀ ch : String, GetNumOfForwards s ch + acceptedOn ch issued < 2 ^ 64 →
        GetNumOfForwards (ExecuteForwards env s) ch =
          GetNumOfForwards s ch + acceptedOn ch issued) ∧
      (CoinsCodec env → (∀ e ∈ s.balances, env.ValidateDenom e.1.2 = none) →
        ∀ ch d : String,
          (Store.get (GetTotalForwarded env (ExecuteForwards env s) ch) d).getD 0 =
            (Store.get (GetTotalForwarded env s ch) d).getD 0 + acceptedAmount ch d issued) ∧
      (ExecuteForwards env s).NumOfAccounts = s.NumOfAccounts := by
  obtain ⟨issued, hframe, hlog, _, hnum, htot⟩ :=
    forwardAll_spec env (GetPendingForwards s) s
  refine ⟨issued, hlog, hnum, ?_, htot, hframe.2.2.2.2.2.1⟩
  intro ch hbound
  have h : GetNumOfForwards (ExecuteForwards env s) ch =
      if acceptedOn ch issued = 0 then GetNumOfForwards s ch
      else (GetNumOfForwards s ch + acceptedOn ch issued) % 2 ^ 64 := hnum ch
  by_cases hz : acceptedOn ch issued = 0
  · rw [h, hz]
    rfl
  · rw [h, if_neg hz]
    exact Nat.mod_eq_of_lt hbound

/-- The sample sweep, with a reader of coins that sorts them and drops the zero
ones and a ledger of valid denoms: the two requests of the account on `channel-0`
are accepted and counted, and the total of the channel, empty before, reads as
3 `ufoo` and 50 `uusdc`. -/
theorem ExecuteForwards_statistics_witness :
    CoinsCodec sampleEnv ∧
    (∀ e ∈ sampleSweepState.balances, sampleEnv.ValidateDenom e.1.2 = none) ∧
    GetNumOfForwards (ExecuteForwards sampleEnv sampleSweepState) "channel-0" = 2 ∧
    GetTotalForwarded sampleEnv (ExecuteForwards sampleEnv sampleSweepState) "channel-0" =
      [("ufoo", 3), ("uusdc", 50)] ∧
    ∃ issued : List (MsgTransfer × Option String),
      (ExecuteForwards sampleEnv sampleSweepState).transfers =
        sampleSweepState.transfers ++ issued ∧
      (∀ ch : String, GetNumOfForwards (ExecuteForwards sampleEnv sampleSweepState) ch =
        if acceptedOn ch issued = 0 then GetNumOfForwards sampleSweepState ch
        else (GetNumOfForwards sampleSweepState ch + acceptedOn ch issued) % 2 ^ 64) ∧
      (∀ ch : String, GetNumOfForwards sampleSweepState ch + acceptedOn ch issued < 2 ^ 64 →
        GetNumOfForwards (ExecuteForwards sampleEnv sampleSweepState) ch =
          GetNumOfForwards sampleSweepState ch + acceptedOn ch issued) ∧
      (CoinsCodec sampleEnv →
        (∀ e ∈ sampleSweepState.balances, sampleEnv.ValidateDenom e.1.2 = none) →
        ∀ ch d : String,
          (Store.get (GetTotalForwarded sampleEnv
              (ExecuteForwards sampleEnv sampleSweepState) ch) d).getD 0 =
            (Store.get (GetTotalForwarded sampleEnv sampleSweepState ch) d).getD 0 +
              acceptedAmount ch d issued) ∧
      (ExecuteForwards sampleEnv sampleSweepState).NumOfAccounts =
        sampleSweepState.NumOfAccounts :=
  ⟨sampleEnv_codec, by decide, by decide, by decide,
    ExecuteForwards_statistics sampleEnv sampleSweepState⟩

/-- Two texts neither of which comes before the other are the same text. -/
theorem ltChars_total : ∀ a b : List Char, ltChars a b = false → ltChars b a = false → a = b
  | [], [], _, _ => rfl
  | [], _ :: _, h, _ => by simp [ltChars] at h
  | _ :: _, [], _, h => by simp [ltChars] at h
  | a :: as, b :: bs, hab, hba => by
    have h1 : ¬ (a.toNat < b.toNat ∨ (a.toNat = b.toNat ∧ ltChars as bs = true)) := by
      rw [← ltChars_cons, hab]
      simp
    have h2 : ¬ (b.toNat < a.toNat ∨ (b.toNat = a.toNat ∧ ltChars bs as = true)) := by
      rw [← ltChars_cons, hba]
      simp
    have heq : a.toNat = b.toNat := by omega
    have hc : a = b := Char.ext (UInt32.ext heq)
    have has : ltChars as bs = false := by
      cases h : ltChars as bs with
      | false => rfl
      | true => exact absurd (Or.inr ⟨heq, h⟩) h1
    have hbs : ltChars bs as = false := by
      cases h : ltChars bs as with
      | false => rfl
      | true => exact absurd (Or.inr ⟨heq.symm, h⟩) h2
    rw [hc, ltChars_total as bs has hbs]

theorem strLt_total (a b : String) (hab : strLt a b = false) (hba : strLt b a = false) :
    a = b :=
  String.ext (ltChars_total a.data b.data hab hba)

/-- The allowed denoms are read in ascending order: no denom comes before a denom
read before it. -/
theorem sorted_GetAllowedDenoms (s : State) :
    (GetAllowedDenoms s).Pairwise (fun a b => strLt b a = false) := by
  unfold GetAllowedDenoms
  rw [List.pairwise_map]
  exact Store.sorted_sortByKey _

/-- In a list in ascending order, of two members the one that does not come after
the other in the order of the texts is found no later in the list. -/
theorem indexOf_le_of_sorted (a b : String) :
    ∀ l : List String, l.Pairwise (fun x y => strLt y x = false) → a ∈ l → b ∈ l →
      strLt b a = false → l.indexOf a ≤ l.indexOf b
  | [], _, ha, _, _ => by cases ha
  | x :: rest, hl, ha, hb, hab => by
    obtain ⟨hx, hrest⟩ := List.pairwise_cons.1 hl
    by_cases hxa : x = a
    · rw [List.indexOf_cons_eq _ hxa]
      exact Nat.zero_le _
    · have ha' : a ∈ rest := by
        rcases List.mem_cons.1 ha with h | h
        · exact absurd h.symm hxa
        · exact h
      by_cases hxb : x = b
      · exfalso
        have h1 : strLt a x = false := hx a ha'
        rw [hxb] at h1
        exact hxa (hxb.trans (strLt_total a b h1 hab).symm)
      · have hb' : b ∈ rest := by
          rcases List.mem_cons.1 hb with h | h
          · exact absurd h.symm hxb
          · exact h
        rw [List.indexOf_cons_ne _ hxa, List.indexOf_cons_ne _ hxb]
        exact Nat.succ_le_succ (indexOf_le_of_sorted a b rest hrest ha' hb' hab)

/-- C29: the requests of a sweep are those of the queued accounts, one account
after the other in the order of the queue, which is the ascending order of its
keys; the requests of one account come in the order in which their denoms appear in
the list of the allowed denoms: of two requests of the account whose denoms are
both in the list, the earlier one carries the denom found no later in the list.
The requests of an account carry the balances read for it, in their order; the
balances and the allowed denoms are both read in the ascending order of the
denoms. -/
theorem ExecuteForwards_order (env : Env) (s : State) :
    (∃ issued : List (MsgTransfer × Option String),
      (ExecuteForwards env s).transfers = s.transfers ++ issued ∧
      issued.map Prod.fst = ((GetPendingForwards s).map (accountRequests env s)).flatten) ∧
    GetPendingForwards s = (Store.sortByKey s.PendingForwards).map Prod.snd ∧
    (Store.sortByKey s.PendingForwards).Pairwise (fun a b => strLt b.1 a.1 = false) ∧
    (∀ forward : ForwardingAccount,
      ((accountRequests env s forward).map (fun msg => msg.Token.1)).Pairwise
        (fun earlier later =>
          earlier ∈ GetAllowedDenoms s → later ∈ GetAllowedDenoms s →
            (GetAllowedDenoms s).indexOf earlier ≤ (GetAllowedDenoms s).indexOf later)) ∧
    (∀ forward : ForwardingAccount,
      ((GetChannel s PortID forward.Channel).getD ⟨.UNINITIALIZED⟩).State = .OPEN →
      (accountRequests env s forward).map (fun msg => msg.Token) =
        GetAllBalances s forward.BaseAccount.Address) ∧
    (∀ address : AccAddress,
      (GetAllBalances s address).Pairwise (fun a b => strLt b.1 a.1 = false)) ∧
    (GetAllowedDenoms s).Pairwise (fun a b => strLt b a = false) := by
  have hbalances : ∀ forward : ForwardingAccount,
      ((GetChannel s PortID forward.Channel).getD ⟨.UNINITIALIZED⟩).State = .OPEN →
      (accountRequests env s forward).map (fun msg => msg.Token) =
        GetAllBalances s forward.BaseAccount.Address := by
    intro forward hopen
    have hr : accountRequests env s forward =
        (GetAllBalances s forward.BaseAccount.Address).map (transferRequest env s forward) := by
      simp only [accountRequests]
      exact if_neg (fun hne => hne hopen)
    rw [hr, List.map_map]
    exact List.map_id _
  refine ⟨?_, rfl, Store.sorted_sortByKey _, ?_, hbalances,
    fun _ => Store.sorted_sortByKey _, sorted_GetAllowedDenoms s⟩
  · obtain ⟨issued, _, hlog, hreq, _, _⟩ := forwardAll_spec env (GetPendingForwards s) s
    exact ⟨issued, hlog, hreq⟩
  · intro forward
    by_cases hopen : ((GetChannel s PortID forward.Channel).getD ⟨.UNINITIALIZED⟩).State = .OPEN
    · have hdenoms : (accountRequests env s forward).map (fun msg => msg.Token.1) =
          (GetAllBalances s forward.BaseAccount.Address).map Prod.fst := by
        rw [← hbalances forward hopen, List.map_map]
        rfl
      rw [hdenoms, List.pairwise_map]
      refine List.Pairwise.imp ?_ (Store.sorted_sortByKey _)
      intro a b hab ha hb
      exact indexOf_le_of_sorted a.1 b.1 _ (sorted_GetAllowedDenoms s) ha hb hab
    · have hr : accountRequests env s forward = [] := by
        simp only [accountRequests]
        exact if_pos hopen
      rw [hr]
      exact List.Pairwise.nil

/-- On the sample chain, once the authority has set the allowed denoms to `uusdc`,
`ufoo`: they are read as `ufoo`, `uusdc`, and the queued account holding both is
swept `ufoo` first, then `uusdc`. -/
theorem ExecuteForwards_order_witness :
    GetAllowedDenoms (SetAllowedDenoms sampleEnv sampleSweepState
      ⟨"addrGOV", ["uusdc", "ufoo"]⟩).state = ["ufoo", "uusdc"] ∧
    (ExecuteForwards sampleEnv (SetAllowedDenoms sampleEnv sampleSweepState
        ⟨"addrGOV", ["uusdc", "ufoo"]⟩).state).transfers.map
        (fun r => (r.1.Sender, r.1.Token.1)) =
      [(sampleEnv.AddressString sampleForwarding.BaseAccount.Address, "ufoo"),
       (sampleEnv.AddressString sampleForwarding.BaseAccount.Address, "uusdc")] ∧
    ((accountRequests sampleEnv (SetAllowedDenoms sampleEnv sampleSweepState
        ⟨"addrGOV", ["uusdc", "ufoo"]⟩).state sampleForwarding).map
          (fun msg => msg.Token.1)).Pairwise
      (fun earlier later =>
        earlier ∈ GetAllowedDenoms (SetAllowedDenoms sampleEnv sampleSweepState
          ⟨"addrGOV", ["uusdc", "ufoo"]⟩).state →
        later ∈ GetAllowedDenoms (SetAllowedDenoms sampleEnv sampleSweepState
          ⟨"addrGOV", ["uusdc", "ufoo"]⟩).state →
          (GetAllowedDenoms (SetAllowedDenoms sampleEnv sampleSweepState
            ⟨"addrGOV", ["uusdc", "ufoo"]⟩).state).indexOf earlier ≤
          (GetAllowedDenoms (SetAllowedDenoms sampleEnv sampleSweepState
            ⟨"addrGOV", ["uusdc", "ufoo"]⟩).state).indexOf later) :=
  ⟨by decide, by decide,
   (ExecuteForwards_order sampleEnv (SetAllowedDenoms sampleEnv sampleSweepState
      ⟨"addrGOV", ["uusdc", "ufoo"]⟩).state).2.2.2.1 sampleForwarding⟩

/-- C30, as stated, fails: after the sweep of the sample chain the two queued
accounts are still in the queue. -/
theorem ExecuteForwards_keeps_queue_sample :
    (ExecuteForwards sampleEnv sampleSweepState).PendingForwards =
      [("addrchannel-9|carol|", sampleClosedForwarding),
       ("addrchannel-0|bob|addrFB", sampleForwarding)] := by
  decide

/-- C30, amended: the sweep reads every entry of the queue and removes none, the
queue after the sweep is the queue before it; its entries go with the transient
store at the end of the block. -/
theorem ExecuteForwards_keeps_queue (env : Env) (s : State) :
    (ExecuteForwards env s).PendingForwards = s.PendingForwards ∧
    (∀ forward : ForwardingAccount,
      forward ∈ GetPendingForwards s ↔ ∃ key, (key, forward) ∈ s.PendingForwards) := by
  obtain ⟨_, hframe, _⟩ := forwardAll_spec env (GetPendingForwards s) s
  exact ⟨hframe.2.2.2.2.2.2.1, mem_GetPendingForwards s⟩

/-- An account of the store after a write is the account written or one that was
there. -/
theorem mem_setAccountIn (acc x : AccountI) :
    ∀ l : List AccountI, x ∈ setAccountIn l acc → x = acc ∨ x ∈ l
  | [], h => by
    simp only [setAccountIn, List.mem_singleton] at h
    exact Or.inl h
  | a :: rest, h => by
    by_cases ha : a.GetAddress = acc.GetAddress
    · simp only [setAccountIn, ha, if_true, List.mem_cons] at h
      rcases h with h | h
      · exact Or.inl h
      · exact Or.inr (List.mem_cons_of_mem _ h)
    · simp only [setAccountIn, ha, if_false, List.mem_cons] at h
      rcases h with h | h
      · exact Or.inr (h ▸ List.mem_cons_self _ _)
      · rcases mem_setAccountIn acc x rest h with h | h
        · exact Or.inl h
        · exact Or.inr (List.mem_cons_of_mem _ h)

/-- C32: after a successful `RegisterAccount` the address of the response (as the
text it prints as) and the address of the forwarding account stored are the
address derived from channel, recipient and fallback of the message, the stored
account carrying that very triple; a second successful call with the same triple,
whatever its signer, its memos and the state it runs on, answers the same address;
and every forwarding account found in the account store after a call, successful
or not, was there before or has the address derived from its own channel,
recipient and fallback. -/
theorem RegisterAccount_address_derived (env : Env) (s : State) (msg : MsgRegisterAccount)
    (hok : (RegisterAccount env s msg).err = none) :
    (RegisterAccount env s msg).resp =
      some ⟨env.AddressString (env.GenerateAddress msg.Channel msg.Recipient msg.Fallback)⟩ ∧
    (∃ fa : ForwardingAccount,
      GetAccount (RegisterAccount env s msg).state
          (env.GenerateAddress msg.Channel msg.Recipient msg.Fallback) =
        some (.forwardingAccount fa) ∧
      fa.Channel = msg.Channel ∧ fa.Recipient = msg.Recipient ∧ fa.Fallback = msg.Fallback ∧
      fa.BaseAccount.Address = env.GenerateAddress fa.Channel fa.Recipient fa.Fallback) ∧
    (∀ (other : State) (again : MsgRegisterAccount),
      again.Channel = msg.Channel → again.Recipient = msg.Recipient →
      again.Fallback = msg.Fallback → (RegisterAccount env other again).err = none →
      (RegisterAccount env other again).resp = (RegisterAccount env s msg).resp ∧
      ∃ fa : ForwardingAccount,
        GetAccount (RegisterAccount env other again).state
            (env.GenerateAddress msg.Channel msg.Recipient msg.Fallback) =
          some (.forwardingAccount fa) ∧
        fa.BaseAccount.Address = env.GenerateAddress msg.Channel msg.Recipient msg.Fallback) ∧
    (∀ (other : State) (any : MsgRegisterAccount) (fa : ForwardingAccount),
      AccountI.forwardingAccount fa ∈ (RegisterAccount env other any).state.accounts →
      AccountI.forwardingAccount fa ∈ other.accounts ∨
        fa.BaseAccount.Address = env.GenerateAddress fa.Channel fa.Recipient fa.Fallback) := by
  have stored : ∀ (t : State) (m : MsgRegisterAccount), (RegisterAccount env t m).err = none →
      (RegisterAccount env t m).resp =
        some ⟨env.AddressString (env.GenerateAddress m.Channel m.Recipient m.Fallback)⟩ ∧
      ∃ fa : ForwardingAccount,
        GetAccount (RegisterAccount env t m).state
            (env.GenerateAddress m.Channel m.Recipient m.Fallback) =
          some (.forwardingAccount fa) ∧
        fa.Channel = m.Channel ∧ fa.Recipient = m.Recipient ∧ fa.Fallback = m.Fallback ∧
        fa.BaseAccount.Address = env.GenerateAddress m.Channel m.Recipient m.Fallback := by
    intro t m h
    obtain ⟨base, _, hbase, _, _, _, _, _, _, hresp, hacc, _⟩ := RegisterAccount_ok env t m h
    refine ⟨hresp, ⟨base, m.Channel, m.Recipient, t.height, m.Fallback⟩, ?_, rfl, rfl, rfl, hbase⟩
    have hw := GetAccount_SetAccount_self t
      (.forwardingAccount ⟨base, m.Channel, m.Recipient, t.height, m.Fallback⟩)
    have haddr : (AccountI.forwardingAccount
        ⟨base, m.Channel, m.Recipient, t.height, m.Fallback⟩).GetAddress =
        env.GenerateAddress m.Channel m.Recipient m.Fallback := hbase
    rw [haddr] at hw
    unfold GetAccount at hw ⊢
    rw [hacc]
    exact hw
  refine ⟨(stored s msg hok).1, ?_, ?_, ?_⟩
  · obtain ⟨fa, hget, hc, hr, hf, ha⟩ := (stored s msg hok).2
    exact ⟨fa, hget, hc, hr, hf, by rw [hc, hr, hf]; exact ha⟩
  · intro other again hc hr hf hagain
    obtain ⟨hresp, fa, hget, _, _, _, ha⟩ := stored other again hagain
    rw [hc, hr, hf] at hresp hget ha
    exact ⟨hresp.trans (stored s msg hok).1.symm, fa, hget, ha⟩
  · intro other any fa hmem
    rcases RegisterAccount_writes env other any with h | ⟨base, hbase, _, hacc, _⟩
    · rw [h] at hmem
      exact Or.inl hmem
    · rw [hacc] at hmem
      rcases mem_setAccountIn _ _ _ hmem with h | h
      · right
        injection h with h
        rw [h]
        exact hbase
      · exact Or.inl h

/-- The registration of the sample route on the sample chain succeeds. -/
theorem RegisterAccount_address_derived_witness :
    (RegisterAccount sampleEnv sampleState sampleMsg).err = none ∧
    (RegisterAccount sampleEnv sampleState sampleMsg).resp =
      some ⟨"addrchannel-0|iaa1recipient|"⟩ :=
  ⟨by decide,
    (RegisterAccount_address_derived sampleEnv sampleState sampleMsg (by decide)).1.trans
      (by decide)⟩

/-- C35: on an existing forwarding account and with a valid denom, `SetMemo` passes
the check of the signer (it does not answer the error of that check) exactly when
the signer is, as a string, the recipient of the message, its fallback or the
authority; so with an empty fallback in the message a request signed by the empty
string passes, and its memo is written like that of any authorized signer. -/
theorem SetMemo_authorization_iff (env : Env) (s : State) (msg : MsgSetMemo)
    (account : ForwardingAccount)
    (hdenom : env.ValidateDenom msg.Denom = none)
    (hacc : GetAccount s (env.GenerateAddress msg.Channel msg.Recipient msg.Fallback) =
      some (.forwardingAccount account)) :
    ((SetMemo env s msg).err ≠ some
        "only the forwarding account\x27s receiver or fallback account can modify memos" ↔
      (msg.Signer = msg.Recipient ∨ msg.Signer = msg.Fallback ∨
        msg.Signer = env.authority)) ∧
    (msg.Fallback = "" → msg.Signer = "" →
      (SetMemo env s msg).err ≠ some
        "only the forwarding account\x27s receiver or fallback account can modify memos" ∧
      (0 < len msg.Memo → len msg.Memo ≤ MaxMemoLength →
        (SetMemo env s msg).err = none ∧
        GetMemo (SetMemo env s msg).state
          (env.AddressString (env.GenerateAddress msg.Channel msg.Recipient msg.Fallback))
          msg.Denom = some msg.Memo)) := by
  have pass : (msg.Signer = msg.Recipient ∨ msg.Signer = msg.Fallback ∨
      msg.Signer = env.authority) →
      (SetMemo env s msg).err ≠ some
        "only the forwarding account\x27s receiver or fallback account can modify memos" := by
    intro hsigner
    rw [SetMemo_authorized env s msg account hdenom hacc hsigner]
    unfold writeMemo
    by_cases h0 : len msg.Memo = 0
    · simp [h0]
    · by_cases hlong : len msg.Memo > MaxMemoLength
      · simp only [h0, hlong, if_true, if_false]
        decide
      · simp [h0, hlong]
  refine ⟨⟨?_, pass⟩, ?_⟩
  · intro herr
    by_contra hno
    have hsigner : msg.Signer ≠ msg.Recipient ∧ msg.Signer ≠ msg.Fallback ∧
        msg.Signer ≠ env.authority := by
      refine ⟨fun h => hno (Or.inl h), fun h => hno (Or.inr (Or.inl h)),
        fun h => hno (Or.inr (Or.inr h))⟩
    exact herr (SetMemo_requires_owner env s msg account hdenom hacc hsigner).1
  · intro hfb hsig
    have hsigner : msg.Signer = msg.Recipient ∨ msg.Signer = msg.Fallback ∨
        msg.Signer = env.authority := Or.inr (Or.inl (hsig.trans hfb.symm))
    refine ⟨pass hsigner, ?_⟩
    intro hpos hle
    have h0 : ¬ len msg.Memo = 0 := by omega
    have hlong : ¬ len msg.Memo > MaxMemoLength := by omega
    rw [SetMemo_authorized env s msg account hdenom hacc hsigner]
    simp only [writeMemo, h0, hlong, if_false]
    exact ⟨trivial, Store.get_set_self _ _ _⟩

/-- On the sample chain the account of `carol` on `channel-9` has no fallback, and
a `SetMemo` signed by the empty string writes its memo. -/
theorem SetMemo_authorization_iff_witness :
    sampleEnv.ValidateDenom "uusdc" = none ∧
    GetAccount sampleSweepState (sampleEnv.GenerateAddress "channel-9" "carol" "") =
      some (.forwardingAccount sampleClosedForwarding) ∧
    (SetMemo sampleEnv sampleSweepState ⟨"", "carol", "channel-9", "", "uusdc", "hello"⟩).err =
      none ∧
    GetMemo (SetMemo sampleEnv sampleSweepState
        ⟨"", "carol", "channel-9", "", "uusdc", "hello"⟩).state
      "addrchannel-9|carol|" "uusdc" = some "hello" :=
  have h := (SetMemo_authorization_iff sampleEnv sampleSweepState
    ⟨"", "carol", "channel-9", "", "uusdc", "hello"⟩ sampleClosedForwarding
    (by decide) (by decide)).2 rfl rfl
  ⟨by decide, by decide, (h.2 (by decide) (by decide)).1,
    (h.2 (by decide) (by decide)).2.trans (by decide)⟩

/-- A write under a key the collection does not hold adds the entry at the end. -/
theorem Store.set_of_not_mem {κ ν : Type} [DecidableEq κ] (k : κ) (v : ν) :
    ∀ l : List (κ × ν), k ∉ l.map Prod.fst → Store.set l k v = l ++ [(k, v)]
  | [], _ => rfl
  | (k', v') :: rest, h => by
    have hk : ¬ k' = k := fun e => h (by simp [e])
    have hrest : k ∉ rest.map Prod.fst := fun e => h (by simp at e ⊢; exact Or.inr e)
    simp only [Store.set, hk, if_false, Store.set_of_not_mem k v rest hrest, List.cons_append]

/-- Writing, one after the other, entries with pairwise different keys that the
collection does not hold adds them at the end, in their order. -/
theorem Store.foldl_set_fresh {κ ν : Type} [DecidableEq κ] :
    ∀ (entries acc : List (κ × ν)), (entries.map Prod.fst).Nodup →
      (∀ e ∈ entries, e.1 ∉ acc.map Prod.fst) →
      entries.foldl (fun m e => Store.set m e.1 e.2) acc = acc ++ entries
  | [], acc, _, _ => by simp
  | e :: rest, acc, hnd, hfresh => by
    have hnd' : e.1 ∉ rest.map Prod.fst ∧ (rest.map Prod.fst).Nodup :=
      List.nodup_cons.1 hnd
    rw [List.foldl_cons, Store.set_of_not_mem e.1 e.2 acc (hfresh e (List.mem_cons_self _ _))]
    rw [Store.foldl_set_fresh rest (acc ++ [(e.1, e.2)]) hnd'.2]
    · simp
    · intro x hx hmem
      rw [List.map_append, List.mem_append] at hmem
      rcases hmem with hmem | hmem
      · exact hfresh x (List.mem_cons_of_mem _ hx) hmem
      · simp only [List.map_cons, List.map_nil, List.mem_singleton] at hmem
        exact hnd'.1 (hmem ▸ List.mem_map_of_mem Prod.fst hx)

/-- The three loops of `InitGenesis`, each on its own collection. -/
theorem InitGenesis_fields (s : State) (genesis : GenesisState) :
    InitGenesis s genesis =
      { s with
        NumOfAccounts :=
          genesis.NumOfAccounts.foldl (fun m e => Store.set m e.1 e.2) s.NumOfAccounts
        NumOfForwards :=
          genesis.NumOfForwards.foldl (fun m e => Store.set m e.1 e.2) s.NumOfForwards
        TotalForwarded :=
          genesis.TotalForwarded.foldl (fun m e => Store.set m e.1 e.2) s.TotalForwarded } := by
  have h1 : ∀ (l : List (String × Nat)) (st : State),
      l.foldl (fun st e => { st with NumOfAccounts := Store.set st.NumOfAccounts e.1 e.2 }) st =
        { st with NumOfAccounts := l.foldl (fun m e => Store.set m e.1 e.2) st.NumOfAccounts } := by
    intro l
    induction l with
    | nil => intro st; rfl
    | cons e rest ih => intro st; rw [List.foldl_cons, ih]; rfl
  have h2 : ∀ (l : List (String × Nat)) (st : State),
      l.foldl (fun st e => { st with NumOfForwards := Store.set st.NumOfForwards e.1 e.2 }) st =
        { st with NumOfForwards := l.foldl (fun m e => Store.set m e.1 e.2) st.NumOfForwards } := by
    intro l
    induction l with
    | nil => intro st; rfl
    | cons e rest ih => intro st; rw [List.foldl_cons, ih]; rfl
  have h3 : ∀ (l : List (String × String)) (st : State),
      l.foldl (fun st e => { st with TotalForwarded := Store.set st.TotalForwarded e.1 e.2 }) st =
        { st with TotalForwarded :=
            l.foldl (fun m e => Store.set m e.1 e.2) st.TotalForwarded } := by
    intro l
    induction l with
    | nil => intro st; rfl
    | cons e rest ih => intro st; rw [List.foldl_cons, ih]; rfl
  unfold InitGenesis
  simp only [h1, h2, h3]

/-- C34: for every genesis state (a Go map holds a key once), `InitGenesis` on a
store whose three collections are empty, followed by `ExportGenesis`, gives the
genesis state back: the three maps are those of the genesis state, entry for
entry and so lookup for lookup. `InitGenesis` is a total function without error
result that stores every value as it is given, and writes nothing but the three
collections. -/
theorem genesis_roundtrip (s : State) (genesis : GenesisState)
    (hempty : s.NumOfAccounts = [] ∧ s.NumOfForwards = [] ∧ s.TotalForwarded = [])
    (haccounts : (genesis.NumOfAccounts.map Prod.fst).Nodup)
    (hforwards : (genesis.NumOfForwards.map Prod.fst).Nodup)
    (htotals : (genesis.TotalForwarded.map Prod.fst).Nodup) :
    ExportGenesis (InitGenesis s genesis) = genesis ∧
    (∀ channel : String,
      Store.get (ExportGenesis (InitGenesis s genesis)).NumOfAccounts channel =
        Store.get genesis.NumOfAccounts channel ∧
      Store.get (ExportGenesis (InitGenesis s genesis)).NumOfForwards channel =
        Store.get genesis.NumOfForwards channel ∧
      Store.get (ExportGenesis (InitGenesis s genesis)).TotalForwarded channel =
        Store.get genesis.TotalForwarded channel) ∧
    InitGenesis s genesis =
      { s with NumOfAccounts := genesis.NumOfAccounts
               NumOfForwards := genesis.NumOfForwards
               TotalForwarded := genesis.TotalForwarded } := by
  obtain ⟨h1, h2, h3⟩ := hempty
  have hinit : InitGenesis s genesis =
      { s with NumOfAccounts := genesis.NumOfAccounts
               NumOfForwards := genesis.NumOfForwards
               TotalForwarded := genesis.TotalForwarded } := by
    rw [InitGenesis_fields, h1, h2, h3,
      Store.foldl_set_fresh _ [] haccounts (by simp),
      Store.foldl_set_fresh _ [] hforwards (by simp),
      Store.foldl_set_fresh _ [] htotals (by simp)]
    simp
  have hexport : ExportGenesis (InitGenesis s genesis) = genesis := by
    rw [hinit]
    rfl
  refine ⟨hexport, ?_, hinit⟩
  intro channel
  rw [hexport]
  exact ⟨rfl, rfl, rfl⟩

/-- The sample genesis state, with a counter at the top of the 64-bit range and a
total that is no text of coins, comes back from the empty store. -/
theorem genesis_roundtrip_witness :
    ExportGenesis (InitGenesis {} sampleGenesis) = sampleGenesis ∧
    Store.get (ExportGenesis (InitGenesis {} sampleGenesis)).TotalForwarded "channel-9" =
      some "not coins at all" :=
  have h := genesis_roundtrip {} sampleGenesis ⟨rfl, rfl, rfl⟩ (by decide) (by decide)
    (by decide)
  ⟨h.1, (h.2.1 "channel-9").2.2.trans (by decide)⟩

/-- The answers recorded by the inner loop of the sweep are answers of the transfer
initiator to the requests they are recorded with. -/
theorem forwardBalances_answers (env : Env) (forward : ForwardingAccount) (coins : Coins) :
    ∀ s : State, ∃ issued : List (MsgTransfer × Option String),
      (forwardBalances env forward s coins).transfers = s.transfers ++ issued ∧
      ∀ r ∈ issued, ∃ st : State, r.2 = env.Transfer st r.1 := by
  induction coins with
  | nil => intro s; exact ⟨[], by simp [forwardBalances], by simp⟩
  | cons coin rest ih =>
    intro s
    cases herr : env.Transfer s (transferRequest env s forward coin) with
    | some e =>
      have hstep : forwardBalances env forward s (coin :: rest) =
          forwardBalances env forward
            { s with transfers := s.transfers ++
                [(transferRequest env s forward coin, some e)] } rest := by
        rw [forwardBalances]
        simp only [Transfer, herr]
      obtain ⟨issued, hlog, hans⟩ :=
        ih { s with transfers := s.transfers ++
          [(transferRequest env s forward coin, some e)] }
      refine ⟨(transferRequest env s forward coin, some e) :: issued, ?_, ?_⟩
      · rw [hstep, hlog]
        simp
      · intro r hr
        rcases List.mem_cons.1 hr with hr | hr
        · exact ⟨s, by rw [hr]; exact herr.symm⟩
        · exact hans r hr
    | none =>
      have hstep : forwardBalances env forward s (coin :: rest) =
          forwardBalances env forward
            (IncrementTotalForwarded env
              (IncrementNumOfForwards
                { s with transfers := s.transfers ++
                    [(transferRequest env s forward coin, none)] } forward.Channel)
              forward.Channel coin) rest := by
        rw [forwardBalances]
        simp only [Transfer, herr]
      obtain ⟨issued, hlog, hans⟩ :=
        ih (IncrementTotalForwarded env
          (IncrementNumOfForwards
            { s with transfers := s.transfers ++
                [(transferRequest env s forward coin, none)] } forward.Channel)
          forward.Channel coin)
      refine ⟨(transferRequest env s forward coin, none) :: issued, ?_, ?_⟩
      · rw [hstep, hlog]
        simp [IncrementTotalForwarded, IncrementNumOfForwards]
      · intro r hr
        rcases List.mem_cons.1 hr with hr | hr
        · exact ⟨s, by rw [hr]; exact herr.symm⟩
        · exact hans r hr

/-- The answers recorded by the loop of the sweep over a list of accounts are
answers of the transfer initiator to the requests they are recorded with. -/
theorem forwardAll_answers (env : Env) (forwards : List ForwardingAccount) :
    ∀ s : State, ∃ issued : List (MsgTransfer × Option String),
      (forwards.foldl (forwardAccount env) s).transfers = s.transfers ++ issued ∧
      ∀ r ∈ issued, ∃ st : State, r.2 = env.Transfer st r.1 := by
  induction forwards with
  | nil => intro s; exact ⟨[], by simp, by simp⟩
  | cons forward rest ih =>
    intro s
    have h1 : ∃ issued : List (MsgTransfer × Option String),
        (forwardAccount env s forward).transfers = s.transfers ++ issued ∧
        ∀ r ∈ issued, ∃ st : State, r.2 = env.Transfer st r.1 := by
      by_cases hopen :
          ((GetChannel s PortID forward.Channel).getD ⟨.UNINITIALIZED⟩).State ≠ .OPEN
      · rw [forwardAccount_not_open env s forward hopen]
        exact ⟨[], by simp, by simp⟩
      · have hs : forwardAccount env s forward =
            forwardBalances env forward s (GetAllBalances s forward.BaseAccount.Address) := by
          simp only [forwardAccount]
          exact if_neg hopen
        rw [hs]
        exact forwardBalances_answers env forward _ s
    obtain ⟨i1, hl1, ha1⟩ := h1
    obtain ⟨i2, hl2, ha2⟩ := ih (forwardAccount env s forward)
    refine ⟨i1 ++ i2, by rw [List.foldl_cons, hl2, hl1, List.append_assoc], ?_⟩
    intro r hr
    rcases List.mem_append.1 hr with hr | hr
    · exact ha1 r hr
    · exact ha2 r hr

/-- The number of accepted requests on a channel does not depend on the order of
the requests. -/
theorem acceptedOn_perm (channel : String) {a b : List (MsgTransfer × Option String)}
    (h : a.Perm b) : acceptedOn channel a = acceptedOn channel b := by
  unfold acceptedOn
  exact (h.filter _).length_eq

/-- The accepted amount of a denom on a channel does not depend on the order of
the requests. -/
theorem acceptedAmount_perm (channel denom : String)
    {a b : List (MsgTransfer × Option String)} (h : a.Perm b) :
    acceptedAmount channel denom a = acceptedAmount channel denom b := by
  unfold acceptedAmount
  exact ((h.filter _).map _).sum_eq

/-- C33: the effects of the sweep do not depend on the order in which the queued
accounts are gone through. With a transfer initiator whose answer depends on the
request only, going through the accounts of the queue in any other order makes the
same requests with the same answers, up to their order, and leaves the same
forward counter on every channel as `ExecuteForwards` does; and the same total
forwarded, denom by denom, on every channel, for a reader and a printer of coins
that agree on coins of pairwise different, valid denoms (`CoinsCodec`) and a ledger
that holds valid denoms only. -/
theorem ExecuteForwards_order_independent (env : Env) (s : State)
    (order : List ForwardingAccount)
    (hpure : ∀ (a b : State) (msg : MsgTransfer), env.Transfer a msg = env.Transfer b msg)
    (hperm : order.Perm (GetPendingForwards s)) :
    ∃ issued reordered : List (MsgTransfer × Option String),
      (ExecuteForwards env s).transfers = s.transfers ++ issued ∧
      (order.foldl (forwardAccount env) s).transfers = s.transfers ++ reordered ∧
      reordered.Perm issued ∧
      (reordered.map Prod.fst).Perm (issued.map Prod.fst) ∧
      (∀ ch : String, GetNumOfForwards (order.foldl (forwardAccount env) s) ch =
        GetNumOfForwards (ExecuteForwards env s) ch) ∧
      (CoinsCodec env → (∀ e ∈ s.balances, env.ValidateDenom e.1.2 = none) →
        ∀ ch d : String,
          (Store.get (GetTotalForwarded env (order.foldl (forwardAccount env) s) ch) d).getD 0 =
            (Store.get (GetTotalForwarded env (ExecuteForwards env s) ch) d).getD 0) := by
  have answered : ∀ (forwards : List ForwardingAccount) (issued : List (MsgTransfer × Option String)),
      (forwards.foldl (forwardAccount env) s).transfers = s.transfers ++ issued →
      issued = (issued.map Prod.fst).map (fun msg => (msg, env.Transfer s msg)) := by
    intro forwards issued hlog
    obtain ⟨other, hlog', hans⟩ := forwardAll_answers env forwards s
    have hsame : issued = other := List.append_cancel_left (hlog.symm.trans hlog')
    rw [List.map_map]
    refine (List.map_id _).symm.trans (List.map_congr_left ?_)
    intro r hr
    obtain ⟨st, hst⟩ := hans r (hsame ▸ hr)
    show r = (r.1, env.Transfer s r.1)
    rw [hpure s st r.1, ← hst]
  obtain ⟨issued, _, hlog, hreq, hnum, htot⟩ := forwardAll_spec env (GetPendingForwards s) s
  obtain ⟨reordered, _, hlog', hreq', hnum', htot'⟩ := forwardAll_spec env order s
  have hreqs : (reordered.map Prod.fst).Perm (issued.map Prod.fst) := by
    rw [hreq, hreq']
    exact (hperm.map _).flatten
  have hall : reordered.Perm issued := by
    rw [answered order reordered hlog', answered (GetPendingForwards s) issued hlog]
    exact hreqs.map _
  refine ⟨issued, reordered, hlog, hlog', hall, hreqs, ?_, ?_⟩
  · intro ch
    have h : GetNumOfForwards (ExecuteForwards env s) ch =
        if acceptedOn ch issued = 0 then GetNumOfForwards s ch
        else (GetNumOfForwards s ch + acceptedOn ch issued) % 2 ^ 64 := hnum ch
    rw [h, hnum' ch, acceptedOn_perm ch hall]
  · intro hcodec hvalid ch d
    have h : (Store.get (GetTotalForwarded env (ExecuteForwards env s) ch) d).getD 0 =
        (Store.get (GetTotalForwarded env s ch) d).getD 0 + acceptedAmount ch d issued :=
      htot hcodec hvalid ch d
    rw [h, htot' hcodec hvalid ch d, acceptedAmount_perm ch d hall]

/-- The sample sweep with the two queued accounts taken the other way round, with a
reader of coins that sorts them and drops the zero ones and a ledger of valid
denoms. -/
theorem ExecuteForwards_order_independent_witness :
    [sampleClosedForwarding, sampleForwarding].Perm (GetPendingForwards sampleSweepState) ∧
    CoinsCodec sampleEnv ∧
    (∀ e ∈ sampleSweepState.balances, sampleEnv.ValidateDenom e.1.2 = none) ∧
    ∃ issued reordered : List (MsgTransfer × Option String),
      (ExecuteForwards sampleEnv sampleSweepState).transfers =
        sampleSweepState.transfers ++ issued ∧
      ([sampleClosedForwarding, sampleForwarding].foldl (forwardAccount sampleEnv)
        sampleSweepState).transfers = sampleSweepState.transfers ++ reordered ∧
      reordered.Perm issued ∧
      (reordered.map Prod.fst).Perm (issued.map Prod.fst) ∧
      (∀ ch : String,
        GetNumOfForwards ([sampleClosedForwarding, sampleForwarding].foldl
            (forwardAccount sampleEnv) sampleSweepState) ch =
          GetNumOfForwards (ExecuteForwards sampleEnv sampleSweepState) ch) ∧
      (CoinsCodec sampleEnv →
        (∀ e ∈ sampleSweepState.balances, sampleEnv.ValidateDenom e.1.2 = none) →
        ∀ ch d : String,
          (Store.get (GetTotalForwarded sampleEnv
            ([sampleClosedForwarding, sampleForwarding].foldl
              (forwardAccount sampleEnv) sampleSweepState) ch) d).getD 0 =
            (Store.get (GetTotalForwarded sampleEnv
              (ExecuteForwards sampleEnv sampleSweepState) ch) d).getD 0) :=
  have hperm : [sampleClosedForwarding, sampleForwarding].Perm
      (GetPendingForwards sampleSweepState) := by
    have h : GetPendingForwards sampleSweepState = [sampleForwarding, sampleClosedForwarding] := by
      decide
    rw [h]
    exact List.Perm.swap _ _ _
  ⟨hperm, sampleEnv_codec, by decide,
    ExecuteForwards_order_independent sampleEnv sampleSweepState
      [sampleClosedForwarding, sampleForwarding] (fun _ _ _ => rfl) hperm⟩

/-- An address for which the ledger lists no balance holds 0 of every denom. -/
theorem GetBalance_of_no_balances (s : State) (address : AccAddress)
    (h : GetAllBalances s address = []) (denom : String) : GetBalance s address denom = 0 := by
  unfold GetBalance
  cases hget : Store.get s.balances (address, denom) with
  | none => rfl
  | some v =>
    by_contra hv
    have hmem : (denom, v) ∈ GetAllBalances s address :=
      (mem_GetAllBalances s address (denom, v)).2
        ⟨Store.mem_of_get _ _ _ hget, by simpa using hv⟩
    rw [h] at hmem
    cases hmem

/-- A balance written for another address leaves the balances listed for an address
as they were. -/
theorem GetAllBalances_setBalance_of_ne (s : State) (a other : AccAddress) (d : String)
    (n : Nat) (h : other ≠ a) :
    GetAllBalances (setBalance s other d n) a = GetAllBalances s a := by
  have hset : ∀ (l : List ((AccAddress × String) × Nat)) (v : Nat),
      (Store.set l (other, d) v).filter (fun e => e.1.1 = a ∧ e.2 ≠ 0) =
        l.filter (fun e => e.1.1 = a ∧ e.2 ≠ 0) := by
    intro l v
    induction l with
    | nil => simp [Store.set, h]
    | cons p rest ih =>
      obtain ⟨k', v'⟩ := p
      by_cases hk : k' = (other, d)
      · subst hk
        simp [Store.set, h]
      · simp only [Store.set, hk, if_false, List.filter_cons, ih]
  have hrem : ∀ l : List ((AccAddress × String) × Nat),
      (Store.remove l (other, d)).filter (fun e => e.1.1 = a ∧ e.2 ≠ 0) =
        l.filter (fun e => e.1.1 = a ∧ e.2 ≠ 0) := by
    intro l
    induction l with
    | nil => rfl
    | cons p rest ih =>
      obtain ⟨k', v'⟩ := p
      by_cases hk : k' = (other, d)
      · subst hk
        simp only [Store.remove, if_true, ih]
        rw [List.filter_cons]
        simp [h]
      · simp only [Store.remove, hk, if_false, List.filter_cons, ih]
  unfold GetAllBalances setBalance
  by_cases h0 : n = 0
  · simp only [h0, if_true, hrem]
  · simp only [h0, if_false, hset]

/-- The first non-zero balance written for an address the ledger lists no balance
for is the one balance listed for it afterwards. -/
theorem GetAllBalances_setBalance_first (s : State) (a : AccAddress) (d : String) (n : Nat)
    (hnone : GetAllBalances s a = []) (hn : n ≠ 0) :
    GetAllBalances (setBalance s a d n) a = [(d, n)] := by
  have hfilter : s.balances.filter (fun e => e.1.1 = a ∧ e.2 ≠ 0) = [] := by
    have hlen : ∀ l : List (String × Nat), Store.sortByKey l = [] → l = [] := by
      intro l hl
      cases l with
      | nil => rfl
      | cons x rest =>
        have hx : x ∈ Store.sortByKey (x :: rest) :=
          (Store.mem_sortByKey x _).2 (List.mem_cons_self _ _)
        rw [hl] at hx
        cases hx
    exact List.map_eq_nil_iff.1 (hlen _ hnone)
  have hset : ∀ l : List ((AccAddress × String) × Nat),
      l.filter (fun e => e.1.1 = a ∧ e.2 ≠ 0) = [] →
      (Store.set l (a, d) n).filter (fun e => e.1.1 = a ∧ e.2 ≠ 0) = [((a, d), n)] := by
    intro l hl
    induction l with
    | nil => simp [Store.set, hn]
    | cons p rest ih =>
      obtain ⟨k', v'⟩ := p
      have hp : ¬ (k'.1 = a ∧ v' ≠ 0) := by
        intro hp
        rw [List.filter_cons] at hl
        simp [hp] at hl
      have hrest : rest.filter (fun e => e.1.1 = a ∧ e.2 ≠ 0) = [] := by
        rw [List.filter_cons] at hl
        simpa [hp] using hl
      by_cases hk : k' = (a, d)
      · subst hk
        simp only [Store.set, if_true]
        rw [List.filter_cons, hrest]
        simp [hn]
      · simp only [Store.set, hk, if_false, List.filter_cons, ih hrest]
        simp [hp]
  unfold GetAllBalances setBalance
  simp only [hn, if_false, hset _ hfilter, List.map_cons, List.map_nil, Store.sortByKey,
    Store.insertByKey]

/-- Whatever its outcome, `RegisterAccount` leaves the channels, the balances, the
forward statistics, the recorded requests and the block time as they are. -/
theorem RegisterAccount_sweep_fields (env : Env) (s : State) (msg : MsgRegisterAccount) :
    (RegisterAccount env s msg).state.channels = s.channels ∧
    (RegisterAccount env s msg).state.balances = s.balances ∧
    (RegisterAccount env s msg).state.NumOfForwards = s.NumOfForwards ∧
    (RegisterAccount env s msg).state.TotalForwarded = s.TotalForwarded ∧
    (RegisterAccount env s msg).state.transfers = s.transfers ∧
    (RegisterAccount env s msg).state.blockTime = s.blockTime := by
  rcases RegisterAccount_paths env s msg with ⟨h, _, _⟩ | ⟨_, _, _, _, hpath⟩
  · rw [h]
    exact ⟨rfl, rfl, rfl, rfl, rfl, rfl⟩
  rcases hpath with ⟨account, _, _, hR⟩ | ⟨_, hR⟩
  · cases hv : validateMemoEntries env msg.Memos with
    | none =>
      rw [hR, (finishRegistration_of_ok env _ _ msg hv).1, enqueueIfFunded_forwarding]
      split <;> exact ⟨rfl, rfl, rfl, rfl, rfl, rfl⟩
    | some e =>
      have hv' : validateMemoEntries env msg.Memos ≠ none := by rw [hv]; simp
      rw [hR, (finishRegistration_of_err env _ _ msg hv').1, enqueueIfFunded_forwarding]
      split <;> exact ⟨rfl, rfl, rfl, rfl, rfl, rfl⟩
  · cases hv : validateMemoEntries env msg.Memos with
    | none =>
      rw [hR, (finishRegistration_of_ok env _ _ msg hv).1]
      exact ⟨rfl, rfl, rfl, rfl, rfl, rfl⟩
    | some e =>
      have hv' : validateMemoEntries env msg.Memos ≠ none := by rw [hv]; simp
      rw [hR, (finishRegistration_of_err env _ _ msg hv').1]
      exact ⟨rfl, rfl, rfl, rfl, rfl, rfl⟩

/-- Writing a balance writes the balances only. -/
theorem setBalance_eq (s : State) (a : AccAddress) (d : String) (n : Nat) :
    setBalance s a d n = { s with balances := (setBalance s a d n).balances } := by
  unfold setBalance
  split <;> rfl

/-- C31: end to end. On a chain with an empty queue, on which the derived address
holds nothing yet, let `RegisterAccount` succeed for a channel and a recipient (the
channel is then OPEN; in particular with no fallback), let a ledger send, which runs
the receive hook, move 100 units of one denom from a sender to the registered
address, and let `ExecuteForwards` run once with a transfer initiator that accepts
every request. Then the transfer initiator has received exactly one more request:
100 units of that denom, from the registered address to the recipient of the
account, on port `transfer` and the channel of the account, accepted; and the
forward counter of the channel has gone up by exactly 1. -/
theorem register_send_sweep (env : Env) (s s2 : State) (msg : MsgRegisterAccount)
    (sender : AccAddress) (denom : String)
    (haccept : ∀ (st : State) (request : MsgTransfer), env.Transfer st request = none)
    (hqueue : s.PendingForwards = [])
    (hfresh : GetAllBalances s
      (env.GenerateAddress msg.Channel msg.Recipient msg.Fallback) = [])
    (hcount : GetNumOfForwards s msg.Channel + 1 < 2 ^ 64)
    (hreg : (RegisterAccount env s msg).err = none)
    (hsend : SendCoins env (RegisterAccount env s msg).state sender
      (env.GenerateAddress msg.Channel msg.Recipient msg.Fallback) [(denom, 100)] = some s2) :
    GetChannel s PortID msg.Channel = some ⟨.OPEN⟩ ∧
    (ExecuteForwards env s2).transfers = s.transfers ++
      [(({ SourcePort := "transfer"
           SourceChannel := msg.Channel
           Token := (denom, 100)
           Sender := env.AddressString
             (env.GenerateAddress msg.Channel msg.Recipient msg.Fallback)
           Receiver := msg.Recipient
           TimeoutHeight := (0, 0)
           TimeoutTimestamp :=
             ((s.blockTime % 2 ^ 64).toNat + env.DefaultRelativePacketTimeoutTimestamp) % 2 ^ 64
           Memo := "" } : MsgTransfer), none)] ∧
    GetNumOfForwards (ExecuteForwards env s2) msg.Channel =
      GetNumOfForwards s msg.Channel + 1 := by
  obtain ⟨base, _, hbase, _, _, _, _, hchan, _, _, haccts, _, _, _, _, hq⟩ :=
    RegisterAccount_ok env s msg hreg
  obtain ⟨hch1, hbal1, hnum1, _, htr1, htime1⟩ := RegisterAccount_sweep_fields env s msg
  have hzero := GetBalance_of_no_balances s _ hfresh
  -- the state after the registration
  have hget1 : GetAccount (RegisterAccount env s msg).state
      (env.GenerateAddress msg.Channel msg.Recipient msg.Fallback) =
      some (.forwardingAccount ⟨base, msg.Channel, msg.Recipient, s.height, msg.Fallback⟩) := by
    have hw := GetAccount_SetAccount_self s
      (.forwardingAccount ⟨base, msg.Channel, msg.Recipient, s.height, msg.Fallback⟩)
    have haddr : (AccountI.forwardingAccount
        ⟨base, msg.Channel, msg.Recipient, s.height, msg.Fallback⟩).GetAddress =
        env.GenerateAddress msg.Channel msg.Recipient msg.Fallback := hbase
    rw [haddr] at hw
    unfold GetAccount at hw ⊢
    rw [haccts]
    exact hw
  have hq1 : (RegisterAccount env s msg).state.PendingForwards = [] := by
    rw [hq, if_neg, hqueue]
    rintro ⟨_, d, _, hd⟩
    exact hd (hzero d)
  -- the send: the hook enqueues the account, the coins move
  have hbalq : ∀ (a : AccAddress) (d : String),
      GetBalance (SetPendingForward env (RegisterAccount env s msg).state
        ⟨base, msg.Channel, msg.Recipient, s.height, msg.Fallback⟩) a d = GetBalance s a d := by
    intro a d
    simp only [GetBalance, SetPendingForward, hbal1]
  have hallq : GetAllBalances (SetPendingForward env (RegisterAccount env s msg).state
      ⟨base, msg.Channel, msg.Recipient, s.height, msg.Fallback⟩)
      (env.GenerateAddress msg.Channel msg.Recipient msg.Fallback) = [] := by
    rw [← hfresh]
    simp only [GetAllBalances, SetPendingForward, hbal1]
  unfold SendCoins at hsend
  simp only [SendRestrictionFn, hget1, subUnlockedCoins, addCoins] at hsend
  by_cases hlt : GetBalance (SetPendingForward env (RegisterAccount env s msg).state
      ⟨base, msg.Channel, msg.Recipient, s.height, msg.Fallback⟩) sender denom < 100
  · simp [hlt] at hsend
  simp only [hlt, if_false, Option.some.injEq] at hsend
  have hne : sender ≠ env.GenerateAddress msg.Channel msg.Recipient msg.Fallback := by
    intro h
    rw [hbalq, h, hzero] at hlt
    exact hlt (by decide)
  have hne' : (env.GenerateAddress msg.Channel msg.Recipient msg.Fallback, denom) ≠
      (sender, denom) := fun h => hne (Prod.mk.inj h).1.symm
  rw [GetBalance_setBalance_of_ne _ _ _ _ _ _ hne', hbalq (env.GenerateAddress msg.Channel msg.Recipient msg.Fallback) denom, hzero,
    Nat.zero_add] at hsend
  have hall2 : GetAllBalances s2
      (env.GenerateAddress msg.Channel msg.Recipient msg.Fallback) = [(denom, 100)] := by
    rw [← hsend]
    refine GetAllBalances_setBalance_first _ _ _ _ ?_ (by decide)
    rw [GetAllBalances_setBalance_of_ne _ _ _ _ _ hne, hallq]
  have hs2 : s2 = { (RegisterAccount env s msg).state with
      balances := s2.balances
      PendingForwards := [(env.AddressString base.Address,
        ⟨base, msg.Channel, msg.Recipient, s.height, msg.Fallback⟩)] } := by
    have h : s2 = { (SetPendingForward env (RegisterAccount env s msg).state
        ⟨base, msg.Channel, msg.Recipient, s.height, msg.Fallback⟩) with
        balances := s2.balances } := by
      rw [← hsend, setBalance_eq, setBalance_eq _ sender]
    rw [h]
    simp only [SetPendingForward, hq1, Store.set]
  -- the sweep
  have hpending : GetPendingForwards s2 =
      [⟨base, msg.Channel, msg.Recipient, s.height, msg.Fallback⟩] := by
    rw [hs2]
    simp only [GetPendingForwards, Store.sortByKey, Store.insertByKey, List.map]
  have hopen : ¬ ((GetChannel s2 PortID msg.Channel).getD ⟨.UNINITIALIZED⟩).State ≠ .OPEN := by
    have h : GetChannel s2 PortID msg.Channel = some ⟨.OPEN⟩ := by
      rw [hs2]
      simp only [GetChannel, hch1]
      exact hchan
    rw [h]
    simp
  have htr2 : s2.transfers = s.transfers := by rw [hs2]; exact htr1
  have htime2 : s2.blockTime = s.blockTime := by rw [hs2]; exact htime1
  have hnum2 : s2.NumOfForwards = s.NumOfForwards := by rw [hs2]; exact hnum1
  have hsweep : ExecuteForwards env s2 =
      IncrementTotalForwarded env
        (IncrementNumOfForwards
          { s2 with transfers := s2.transfers ++
            [(transferRequest env s2 ⟨base, msg.Channel, msg.Recipient, s.height, msg.Fallback⟩
              (denom, 100), none)] } msg.Channel)
        msg.Channel (denom, 100) := by
    unfold ExecuteForwards
    rw [hpending, List.foldl_cons, List.foldl_nil]
    simp only [forwardAccount]
    rw [if_neg hopen, hbase, hall2]
    simp only [forwardBalances, Transfer, haccept]
  refine ⟨hchan, ?_, ?_⟩
  · rw [hsweep]
    show s2.transfers ++ _ = _
    rw [htr2]
    simp only [transferRequest, htime2, hbase, PortID]
  · rw [hsweep]
    have h : GetNumOfForwards (IncrementTotalForwarded env
        (IncrementNumOfForwards
          { s2 with transfers := s2.transfers ++
            [(transferRequest env s2 ⟨base, msg.Channel, msg.Recipient, s.height, msg.Fallback⟩
              (denom, 100), none)] } msg.Channel)
        msg.Channel (denom, 100)) msg.Channel =
        (GetNumOfForwards s msg.Channel + 1) % 2 ^ 64 := by
      simp only [GetNumOfForwards, IncrementTotalForwarded, IncrementNumOfForwards,
        Store.get_set_self, Option.getD_some, hnum2]
    rw [h]
    exact Nat.mod_eq_of_lt hcount

/-- The sample registration on the sample chain, a send of 100 `uusdc` to the
registered address, and one sweep. -/
theorem register_send_sweep_witness :
    (RegisterAccount sampleEnv sampleRichState sampleMsg).err = none ∧
    SendCoins sampleEnv (RegisterAccount sampleEnv sampleRichState sampleMsg).state
        (sampleAddress "rich") (sampleEnv.GenerateAddress "channel-0" "iaa1recipient" "")
        [("uusdc", 100)] = some sampleFundedState ∧
    (ExecuteForwards sampleEnv sampleFundedState).transfers =
      [(⟨"transfer", "channel-0", ("uusdc", 100), "addrchannel-0|iaa1recipient|",
          "iaa1recipient", (0, 0), 600000000000, ""⟩, none)] ∧
    GetNumOfForwards (ExecuteForwards sampleEnv sampleFundedState) "channel-0" = 1 :=
  have h := register_send_sweep sampleEnv sampleRichState sampleFundedState sampleMsg
    (sampleAddress "rich") "uusdc" (fun _ _ => rfl) rfl (by decide) (by decide) (by decide)
    (by decide)
  ⟨by decide, by decide, h.2.1.trans (by decide), h.2.2⟩

/-! ## Facts about the size and the bytes of a varint -/

theorem Run.Safe.bind {α β : Type} {P : α → Prop} {Q : β → Prop} {r : Run α}
    {f : α → Run β} (h : Run.Safe P r) (hf : ∀ v, P v → Run.Safe Q (f v)) :
    Run.Safe Q (r.bind f) := by
  cases r with
  | ok v => exact hf v h
  | error e => trivial
  | panic => exact h
  | outOfFuel => exact h

theorem Run.Safe.mono {α : Type} {P Q : α → Prop} {r : Run α}
    (h : Run.Safe P r) (hPQ : ∀ v, P v → Q v) : Run.Safe Q r := by
  cases r with
  | ok v => exact hPQ v h
  | error e => trivial
  | panic => exact h
  | outOfFuel => exact h

/-- A safe run is a value or an error. -/
theorem Run.Safe.cases {α : Type} {P : α → Prop} {r : Run α} (h : Run.Safe P r) :
    (∃ v, r = .ok v ∧ P v) ∨ ∃ e, r = .error e := by
  cases r with
  | ok v => exact Or.inl ⟨v, rfl, h⟩
  | error e => exact Or.inr ⟨e, rfl⟩
  | panic => exact absurd h id
  | outOfFuel => exact absurd h id

/-- The number of bits of a value is at most `n` exactly when the value is below
`2 ^ n`. -/
theorem bitLen_le_iff : ∀ (width x n : Nat), x < 2 ^ width →
    (bitLen width x ≤ n ↔ x < 2 ^ n)
  | 0, x, n, h => by
    have hx : x = 0 := by simpa using h
    subst hx
    simp [bitLen, Nat.pos_pow_of_pos]
  | width + 1, x, n, h => by
    unfold bitLen
    by_cases hx : x = 0
    · subst hx
      simp [Nat.pos_pow_of_pos]
    · simp only [hx, if_false]
      have hhalf : x / 2 < 2 ^ width := by
        rw [Nat.pow_succ] at h
        omega
      cases n with
      | zero =>
        simp only [Nat.pow_zero]
        omega
      | succ n =>
        have ih := bitLen_le_iff width (x / 2) n hhalf
        rw [Nat.pow_succ]
        constructor
        · intro hle
          have := ih.1 (by omega)
          omega
        · intro hlt
          have := ih.2 (by omega)
          omega

theorem le_or_one (v : Nat) : v ≤ v ||| 1 :=
  Nat.le_of_testBit (fun i hi => by simp [hi])

theorem or_one_ne_zero (v : Nat) : v ||| 1 ≠ 0 := by
  intro h
  have h1 : (v ||| 1).testBit 0 = true := by simp [Nat.testBit_one_zero]
  rw [h] at h1
  simp at h1

/-- The size of a varint is at most `n` bytes exactly when the value is below
`2 ^ (7 * n)`. -/
theorem sovPacket_le_iff (v n : Nat) (hv : v < 2 ^ 64) (hn : 1 ≤ n) :
    sovPacket v ≤ n ↔ v < 2 ^ (7 * n) := by
  have h64 : v ||| 1 < 2 ^ 64 := Nat.or_lt_two_pow hv (by decide)
  have hbits := bitLen_le_iff 64 (v ||| 1) (7 * n) h64
  have hone : (1 : Nat) < 2 ^ (7 * n) := Nat.one_lt_two_pow (by omega)
  unfold sovPacket Len64
  constructor
  · intro h
    have h1 : bitLen 64 (v ||| 1) ≤ 7 * n := by omega
    exact Nat.lt_of_le_of_lt (le_or_one v) (hbits.1 h1)
  · intro h
    have h1 := hbits.2 (Nat.or_lt_two_pow h hone)
    omega

theorem sovPacket_pos (v : Nat) : 1 ≤ sovPacket v := by
  have h : 1 ≤ bitLen 64 (v ||| 1) := by
    unfold bitLen
    simp [or_one_ne_zero]
  unfold sovPacket Len64
  omega

theorem sovPacket_le_ten (v : Nat) (hv : v < 2 ^ 64) : sovPacket v ≤ 10 :=
  (sovPacket_le_iff v 10 hv (by decide)).2 (Nat.lt_of_lt_of_le hv (by decide))

theorem sovPacket_of_lt (v : Nat) (hv : v < 128) : sovPacket v = 1 := by
  have h := (sovPacket_le_iff v 1 (by omega) (Nat.le_refl 1)).2 (by simpa using hv)
  have := sovPacket_pos v
  omega

theorem sovPacket_of_ge (v : Nat) (hv : v < 2 ^ 64) (hge : 128 ≤ v) :
    sovPacket v = sovPacket (v / 128) + 1 := by
  have hdiv : v / 128 < 2 ^ 64 := Nat.lt_of_le_of_lt (Nat.div_le_self _ _) hv
  have hpos := sovPacket_pos (v / 128)
  have hshift : ∀ n, v / 128 < 2 ^ (7 * n) ↔ v < 2 ^ (7 * (n + 1)) := by
    intro n
    have : 2 ^ (7 * (n + 1)) = 2 ^ (7 * n) * 128 := by
      rw [Nat.mul_add, Nat.pow_add]
    rw [this, Nat.div_lt_iff_lt_mul (by decide)]
  have h2 : ¬ sovPacket v ≤ 1 := by
    rw [sovPacket_le_iff v 1 hv (Nat.le_refl 1)]
    simp
    omega
  have hle : sovPacket v ≤ sovPacket (v / 128) + 1 :=
    (sovPacket_le_iff v _ hv (by omega)).2
      ((hshift _).1 ((sovPacket_le_iff (v / 128) _ hdiv hpos).1 (Nat.le_refl _)))
  have hge' : sovPacket (v / 128) ≤ sovPacket v - 1 := by
    refine (sovPacket_le_iff (v / 128) _ hdiv (by omega)).2 ((hshift _).2 ?_)
    have h := (sovPacket_le_iff v (sovPacket v) hv (sovPacket_pos v)).1 (Nat.le_refl _)
    have he : sovPacket v - 1 + 1 = sovPacket v := by omega
    rw [he]
    exact h
  omega

/-- The bytes of the varint of a 64-bit value are as many as `sovPacket` says. -/
theorem length_varintBytes : ∀ (rounds v : Nat), v < 2 ^ (7 * rounds) → v < 2 ^ 64 →
    1 ≤ rounds → (varintBytes rounds v).length = sovPacket v
  | 0, _, _, _, h1 => absurd h1 (by decide)
  | rounds + 1, v, h, hv, _ => by
    unfold varintBytes
    by_cases hge : v ≥ 1 <<< 7
    · have hge' : 128 ≤ v := hge
      have hdiv : v / 128 < 2 ^ (7 * rounds) := by
        have : 2 ^ (7 * (rounds + 1)) = 2 ^ (7 * rounds) * 128 := by
          rw [Nat.mul_add, Nat.pow_add]
        rw [this] at h
        exact (Nat.div_lt_iff_lt_mul (by decide)).2 h
      have hdiv64 : v / 128 < 2 ^ 64 := Nat.lt_of_le_of_lt (Nat.div_le_self _ _) hv
      have hshr : v >>> 7 = v / 128 := Nat.shiftRight_eq_div_pow v 7
      have hrounds : 1 ≤ rounds := by
        cases rounds with
        | zero =>
          simp only [Nat.mul_zero, Nat.pow_zero] at hdiv
          omega
        | succ r => omega
      simp only [hge, if_true, List.length_cons, hshr,
        length_varintBytes rounds (v / 128) hdiv hdiv64 hrounds, sovPacket_of_ge v hv hge']
    · have hlt : v < 128 := by
        have : ¬ 128 ≤ v := hge
        omega
      simp only [hge, if_false, List.length_singleton, sovPacket_of_lt v hlt]

/-! ## Facts about `Marshal` -/

/-- A list of a given total length splits into two parts of the given lengths. -/
theorem exists_split {α : Type} (l : List α) (a b : Nat) (h : l.length = a + b) :
    ∃ l1 l2 : List α, l = l1 ++ l2 ∧ l1.length = a ∧ l2.length = b :=
  ⟨l.take a, l.drop a, (List.take_append_drop a l).symm, by simp [List.length_take]; omega,
    by simp [List.length_drop]; omega⟩

theorem setByte_append (pre post : Bytes) (x b : Nat) :
    setByte (pre ++ x :: post) pre.length b = .ok (pre ++ b :: post) := by
  unfold setByte
  have hlt : pre.length < (pre ++ x :: post).length := by simp
  rw [if_pos hlt]
  congr 1
  induction pre with
  | nil => rfl
  | cons p rest ih =>
    have : (rest.length < (rest ++ x :: post).length) := by simp
    simp only [List.cons_append, List.length_cons, List.set_cons_succ, ih this]

/-- The loop of `encodeVarintPacket` fills a gap of the size of the varint with the
bytes of the varint and touches nothing else. -/
theorem encodeVarintLoop_spec : ∀ (rounds : Nat) (pre gap post : Bytes) (v : Nat),
    1 ≤ rounds → v < 2 ^ (7 * rounds) → gap.length = (varintBytes rounds v).length →
    encodeVarintLoop rounds (pre ++ (gap ++ post)) pre.length v =
      .ok (pre ++ (varintBytes rounds v ++ post))
  | 0, _, _, _, _, h1, _, _ => absurd h1 (by decide)
  | rounds + 1, pre, gap, post, v, _, hv, hgap => by
    unfold encodeVarintLoop
    unfold varintBytes at hgap ⊢
    by_cases hge : v ≥ 1 <<< 7
    · simp only [hge, if_true, List.length_cons] at hgap ⊢
      cases gap with
      | nil => simp at hgap
      | cons x gap' =>
        have hlen : gap'.length = (varintBytes rounds (v >>> 7)).length := by
          simpa using hgap
        have hge' : 128 ≤ v := hge
        have hshr : v >>> 7 = v / 128 := Nat.shiftRight_eq_div_pow v 7
        have hdiv : v >>> 7 < 2 ^ (7 * rounds) := by
          have : 2 ^ (7 * (rounds + 1)) = 2 ^ (7 * rounds) * 128 := by
            rw [Nat.mul_add, Nat.pow_add]
          rw [this] at hv
          rw [hshr]
          exact (Nat.div_lt_iff_lt_mul (by decide)).2 hv
        have hrounds : 1 ≤ rounds := by
          cases rounds with
          | zero =>
            simp only [Nat.mul_zero, Nat.pow_zero] at hdiv
            rw [hshr] at hdiv
            omega
          | succ r => omega
        rw [List.cons_append, setByte_append]
        simp only [Run.bind]
        have ih := encodeVarintLoop_spec rounds (pre ++ [(v &&& 0x7f ||| 0x80) % 256]) gap' post
          (v >>> 7) hrounds hdiv hlen
        simp only [List.length_append, List.length_singleton, List.append_assoc,
          List.singleton_append] at ih
        rw [ih]
        simp
    · simp only [hge, if_false, List.length_singleton] at hgap ⊢
      cases gap with
      | nil => simp at hgap
      | cons x gap' =>
        have hnil : gap' = [] := by
          apply List.length_eq_zero.1
          simpa using hgap
        subst hnil
        rw [List.cons_append, setByte_append]
        simp

/-- The function `encodeVarintPacket` writes the bytes of the varint into the `sovPacket` bytes
before the offset, touches nothing else, and answers where they start. -/
theorem encodeVarintPacket_spec (pre gap post : Bytes) (v : Nat) (hv : v < 2 ^ 64)
    (hgap : gap.length = sovPacket v) :
    encodeVarintPacket (pre ++ (gap ++ post)) (pre.length + gap.length) v =
      .ok (pre ++ (varintBytes 10 v ++ post), pre.length) := by
  have hlen := length_varintBytes 10 v (Nat.lt_of_lt_of_le hv (by decide)) hv (by decide)
  unfold encodeVarintPacket
  have hnot : ¬ pre.length + gap.length < sovPacket v := by omega
  have hoff : pre.length + gap.length - sovPacket v = pre.length := by omega
  rw [if_neg hnot, hoff,
    encodeVarintLoop_spec 10 pre gap post v (by decide) (Nat.lt_of_lt_of_le hv (by decide))
      (hgap.trans hlen.symm)]
  rfl

theorem copyBefore_spec (pre gap post s : Bytes) (hgap : gap.length = s.length) :
    copyBefore (pre ++ (gap ++ post)) (pre.length + gap.length) s =
      .ok (pre ++ (s ++ post), pre.length) := by
  unfold copyBefore
  have hidx : pre.length + gap.length - s.length = pre.length := by omega
  have hnot : ¬ (pre.length + gap.length < s.length ∨
      (pre ++ (gap ++ post)).length < pre.length + gap.length - s.length) := by
    simp only [List.length_append]
    omega
  rw [if_neg hnot, hidx]
  have htake : s.take ((pre ++ (gap ++ post)).length - pre.length) = s := by
    apply List.take_of_length_le
    simp only [List.length_append]
    omega
  have hmin : min s.length ((pre ++ (gap ++ post)).length - pre.length) = s.length := by
    simp only [List.length_append]
    omega
  have hdrop : (pre ++ (gap ++ post)).drop (pre.length + s.length) = post := by
    rw [← hgap, ← List.append_assoc, ← List.length_append]
    exact List.drop_left _ _
  rw [htake, hmin, hdrop, List.take_left]
  simp

theorem setTagBefore_spec (pre post : Bytes) (x tag : Nat) :
    setTagBefore (pre ++ x :: post) (pre.length + 1) tag =
      .ok (pre ++ tag :: post, pre.length) := by
  unfold setTagBefore
  simp only [Nat.add_one_ne_zero, if_false, Nat.add_sub_cancel, setByte_append, Run.bind]

theorem length_encodeString (tag : Nat) (s : Bytes) :
    (encodeString tag s).length =
      if s.length > 0 then 1 + s.length + sovPacket (s.length % 2 ^ 64) else 0 := by
  unfold encodeString
  by_cases h : s.length > 0
  · have hv : s.length % 2 ^ 64 < 2 ^ 64 := Nat.mod_lt _ (by decide)
    simp only [h, if_true, List.length_cons, List.length_append,
      length_varintBytes 10 _ (Nat.lt_of_lt_of_le hv (by decide)) hv (by decide)]
    omega
  · simp only [h, if_false, List.length_nil]

/-- The block of a string field fills a gap of its size with the tag, the length
and the bytes of the string, and touches nothing else. -/
theorem marshalString_spec (pre gap post s : Bytes) (tag : Nat)
    (hgap : gap.length = (encodeString tag s).length) :
    marshalString (pre ++ (gap ++ post)) (pre.length + gap.length) tag s =
      .ok (pre ++ (encodeString tag s ++ post), pre.length) := by
  rw [length_encodeString] at hgap
  unfold marshalString encodeString
  by_cases h : s.length > 0
  · simp only [h, if_true] at hgap ⊢
    have hv : s.length % 2 ^ 64 < 2 ^ 64 := Nat.mod_lt _ (by decide)
    obtain ⟨g1, g23, hg, h1, h23⟩ := exists_split gap 1
      (sovPacket (s.length % 2 ^ 64) + s.length) (by omega)
    obtain ⟨g2, g3, hg', h2, h3⟩ := exists_split g23 (sovPacket (s.length % 2 ^ 64)) s.length h23
    obtain ⟨x, rfl⟩ : ∃ x, g1 = [x] := List.length_eq_one.1 h1
    subst hg hg'
    have e1 : pre ++ ([x] ++ (g2 ++ g3) ++ post) = (pre ++ ([x] ++ g2)) ++ (g3 ++ post) := by
      simp
    have i1 : pre.length + ([x] ++ (g2 ++ g3)).length = (pre ++ ([x] ++ g2)).length + g3.length := by
      simp only [List.length_append, List.length_singleton]
      omega
    rw [e1, i1, copyBefore_spec _ g3 post s h3]
    simp only [Run.bind]
    have e2 : pre ++ ([x] ++ g2) ++ (s ++ post) = (pre ++ [x]) ++ (g2 ++ (s ++ post)) := by simp
    have i2 : (pre ++ ([x] ++ g2)).length = (pre ++ [x]).length + g2.length := by
      simp only [List.length_append, List.length_singleton]
      omega
    rw [e2, i2, encodeVarintPacket_spec _ g2 _ _ hv h2]
    simp only [Run.bind]
    have e3 : pre ++ [x] ++ (varintBytes 10 (s.length % 2 ^ 64) ++ (s ++ post)) =
        pre ++ x :: (varintBytes 10 (s.length % 2 ^ 64) ++ (s ++ post)) := by simp
    have i3 : (pre ++ [x]).length = pre.length + 1 := by simp
    rw [e3, i3, setTagBefore_spec]
    simp
  · simp only [h, if_false] at hgap ⊢
    have hnil : gap = [] := List.length_eq_zero.1 hgap
    subst hnil
    simp

theorem RegisterAccountData.length_encode_data (m : RegisterAccountData) :
    m.encode.length = m.Size := by
  unfold RegisterAccountData.encode RegisterAccountData.Size
  simp only [List.length_append, length_encodeString]
  split <;> split <;> omega

/-- The `MarshalToSizedBuffer` of a `RegisterAccountData` fills the last `Size` bytes
of the buffer with the bytes of the message, touches nothing before them, and
answers `Size`. -/
theorem RegisterAccountData.MarshalToSizedBuffer_spec_data (m : RegisterAccountData)
    (pre gap : Bytes) (hgap : gap.length = m.Size) :
    m.MarshalToSizedBuffer (pre ++ gap) = .ok (pre ++ m.encode, m.Size) := by
  rw [← m.length_encode_data] at hgap
  unfold RegisterAccountData.encode at hgap
  rw [List.length_append] at hgap
  obtain ⟨g1, g2, hg, h1, h2⟩ := exists_split gap _ _ hgap
  subst hg
  unfold RegisterAccountData.MarshalToSizedBuffer
  have e1 : pre ++ (g1 ++ g2) = (pre ++ g1) ++ (g2 ++ []) := by simp
  have i1 : (pre ++ (g1 ++ g2)).length = (pre ++ g1).length + g2.length := by
    simp only [List.length_append]
    omega
  dsimp only
  rw [i1, e1, marshalString_spec _ g2 [] _ _ h2]
  simp only [Run.bind]
  have e2 : pre ++ g1 ++ (encodeString 18 m.Channel ++ []) =
      pre ++ (g1 ++ (encodeString 18 m.Channel ++ [])) := by simp
  have i2 : (pre ++ g1).length = pre.length + g1.length := by simp
  rw [e2, i2, marshalString_spec _ g1 _ _ _ h1]
  have hsize : pre.length + g1.length + g2.length - pre.length = m.Size := by
    rw [← m.length_encode_data]
    unfold RegisterAccountData.encode
    rw [List.length_append]
    omega
  simp only [Run.bind, RegisterAccountData.encode, List.append_nil, hsize]

/-- The block of a message field, once the message has filled the end of the
buffer with its bytes: the length and the tag are written before them. -/
theorem marshalNested_spec (pre g2 body dAtA : Bytes) (x : Nat) (inner : Run (Bytes × Nat))
    (hd : dAtA.length = pre.length + 1 + g2.length + body.length)
    (hinner : inner = .ok (pre ++ (x :: (g2 ++ body)), body.length))
    (h2 : g2.length = sovPacket (body.length % 2 ^ 64)) :
    marshalNested dAtA dAtA.length inner =
      .ok (pre ++ 0xa :: (varintBytes 10 (body.length % 2 ^ 64) ++ body), pre.length) := by
  have hv : body.length % 2 ^ 64 < 2 ^ 64 := Nat.mod_lt _ (by decide)
  unfold marshalNested
  rw [hinner]
  simp only [Run.bind]
  have hnot : ¬ dAtA.length < body.length := by omega
  rw [if_neg hnot, List.drop_length, List.append_nil]
  have e1 : pre ++ x :: (g2 ++ body) = (pre ++ [x]) ++ (g2 ++ body) := by simp
  have i1 : dAtA.length - body.length = (pre ++ [x]).length + g2.length := by
    simp only [List.length_append, List.length_singleton]
    omega
  rw [e1, i1, encodeVarintPacket_spec _ g2 _ _ hv h2]
  simp only [Run.bind]
  have e2 : pre ++ [x] ++ (varintBytes 10 (body.length % 2 ^ 64) ++ body) =
      pre ++ x :: (varintBytes 10 (body.length % 2 ^ 64) ++ body) := by simp
  have i2 : (pre ++ [x]).length = pre.length + 1 := by simp
  rw [e2, i2, setTagBefore_spec]

theorem RegisterAccountMemo_RegisterAccountDataWrapper.length_encode_wrapper
    (m : RegisterAccountMemo_RegisterAccountDataWrapper) : m.encode.length = m.Size := by
  unfold RegisterAccountMemo_RegisterAccountDataWrapper.encode
    RegisterAccountMemo_RegisterAccountDataWrapper.Size
  cases m.Forwarding with
  | none => rfl
  | some forwarding =>
    have hv : forwarding.Size % 2 ^ 64 < 2 ^ 64 := Nat.mod_lt _ (by decide)
    simp only [List.length_cons, List.length_append, forwarding.length_encode_data,
      length_varintBytes 10 _ (Nat.lt_of_lt_of_le hv (by decide)) hv (by decide)]
    omega

theorem RegisterAccountMemo.length_encode_memo (m : RegisterAccountMemo) :
    m.encode.length = m.Size := by
  unfold RegisterAccountMemo.encode RegisterAccountMemo.Size
  cases m.Noble with
  | none => rfl
  | some noble =>
    have hv : noble.Size % 2 ^ 64 < 2 ^ 64 := Nat.mod_lt _ (by decide)
    simp only [List.length_cons, List.length_append, noble.length_encode_wrapper,
      length_varintBytes 10 _ (Nat.lt_of_lt_of_le hv (by decide)) hv (by decide)]
    omega

/-- The `MarshalToSizedBuffer` of a wrapper fills the last `Size` bytes of the buffer
with the bytes of the message, touches nothing before them, and answers `Size`. -/
theorem RegisterAccountMemo_RegisterAccountDataWrapper.MarshalToSizedBuffer_spec_wrapper
    (m : RegisterAccountMemo_RegisterAccountDataWrapper) (pre gap : Bytes)
    (hgap : gap.length = m.Size) :
    m.MarshalToSizedBuffer (pre ++ gap) = .ok (pre ++ m.encode, m.Size) := by
  unfold RegisterAccountMemo_RegisterAccountDataWrapper.MarshalToSizedBuffer
    RegisterAccountMemo_RegisterAccountDataWrapper.encode
  unfold RegisterAccountMemo_RegisterAccountDataWrapper.Size at hgap ⊢
  cases hf : m.Forwarding with
  | none =>
    rw [hf] at hgap
    have hnil : gap = [] := List.length_eq_zero.1 hgap
    subst hnil
    simp
  | some forwarding =>
    rw [hf] at hgap
    dsimp only at hgap ⊢
    obtain ⟨g1, g23, hg, h1, h23⟩ := exists_split gap 1
      (sovPacket (forwarding.Size % 2 ^ 64) + forwarding.Size) (by omega)
    obtain ⟨g2, g3, hg', h2, h3⟩ := exists_split g23 _ _ h23
    obtain ⟨x, rfl⟩ : ∃ x, g1 = [x] := List.length_eq_one.1 h1
    subst hg hg'
    have hinner : forwarding.MarshalToSizedBuffer
        ((pre ++ ([x] ++ (g2 ++ g3))).take (pre ++ ([x] ++ (g2 ++ g3))).length) =
        .ok (pre ++ (x :: (g2 ++ forwarding.encode)), forwarding.encode.length) := by
      have e : pre ++ ([x] ++ (g2 ++ g3)) = (pre ++ (x :: g2)) ++ g3 := by simp
      rw [List.take_length, e, forwarding.MarshalToSizedBuffer_spec_data _ g3 h3,
        forwarding.length_encode_data]
      simp
    have hd : (pre ++ ([x] ++ (g2 ++ g3))).length =
        pre.length + 1 + g2.length + forwarding.encode.length := by
      simp only [List.length_append, List.length_singleton, forwarding.length_encode_data]
      omega
    rw [marshalNested_spec pre g2 forwarding.encode _ x _ hd hinner
      (by rw [forwarding.length_encode_data]; exact h2)]
    simp only [Run.bind, forwarding.length_encode_data]
    congr 2
    simp only [List.length_append, List.length_singleton]
    omega

/-- The `MarshalToSizedBuffer` of a memo fills the last `Size` bytes of the buffer
with the bytes of the message, touches nothing before them, and answers `Size`. -/
theorem RegisterAccountMemo.MarshalToSizedBuffer_spec_memo (m : RegisterAccountMemo)
    (pre gap : Bytes) (hgap : gap.length = m.Size) :
    m.MarshalToSizedBuffer (pre ++ gap) = .ok (pre ++ m.encode, m.Size) := by
  unfold RegisterAccountMemo.MarshalToSizedBuffer RegisterAccountMemo.encode
  unfold RegisterAccountMemo.Size at hgap ⊢
  cases hf : m.Noble with
  | none =>
    rw [hf] at hgap
    have hnil : gap = [] := List.length_eq_zero.1 hgap
    subst hnil
    simp
  | some noble =>
    rw [hf] at hgap
    dsimp only at hgap ⊢
    obtain ⟨g1, g23, hg, h1, h23⟩ := exists_split gap 1
      (sovPacket (noble.Size % 2 ^ 64) + noble.Size) (by omega)
    obtain ⟨g2, g3, hg', h2, h3⟩ := exists_split g23 _ _ h23
    obtain ⟨x, rfl⟩ : ∃ x, g1 = [x] := List.length_eq_one.1 h1
    subst hg hg'
    have hinner : noble.MarshalToSizedBuffer
        ((pre ++ ([x] ++ (g2 ++ g3))).take (pre ++ ([x] ++ (g2 ++ g3))).length) =
        .ok (pre ++ (x :: (g2 ++ noble.encode)), noble.encode.length) := by
      have e : pre ++ ([x] ++ (g2 ++ g3)) = (pre ++ (x :: g2)) ++ g3 := by simp
      rw [List.take_length, e, noble.MarshalToSizedBuffer_spec_wrapper _ g3 h3, noble.length_encode_wrapper]
      simp
    have hd : (pre ++ ([x] ++ (g2 ++ g3))).length =
        pre.length + 1 + g2.length + noble.encode.length := by
      simp only [List.length_append, List.length_singleton, noble.length_encode_wrapper]
      omega
    rw [marshalNested_spec pre g2 noble.encode _ x _ hd hinner
      (by rw [noble.length_encode_wrapper]; exact h2)]
    simp only [Run.bind, noble.length_encode_wrapper]
    congr 2
    simp only [List.length_append, List.length_singleton]
    omega

theorem slice_all (dAtA : Bytes) : slice dAtA 0 dAtA.length = .ok dAtA := by
  simp [slice]

theorem RegisterAccountData.Marshal_eq_data (m : RegisterAccountData) :
    m.Marshal = .ok m.encode := by
  unfold RegisterAccountData.Marshal
  have h := m.MarshalToSizedBuffer_spec_data [] (List.replicate m.Size 0) (by simp)
  have hs := slice_all (List.replicate m.Size 0)
  simp only [List.length_replicate] at hs
  simp only [List.nil_append] at h
  simp only [hs, Run.bind, h]
  rw [← m.length_encode_data]
  exact slice_all _

theorem RegisterAccountMemo_RegisterAccountDataWrapper.Marshal_eq_wrapper
    (m : RegisterAccountMemo_RegisterAccountDataWrapper) : m.Marshal = .ok m.encode := by
  unfold RegisterAccountMemo_RegisterAccountDataWrapper.Marshal
  have h := m.MarshalToSizedBuffer_spec_wrapper [] (List.replicate m.Size 0) (by simp)
  have hs := slice_all (List.replicate m.Size 0)
  simp only [List.length_replicate] at hs
  simp only [List.nil_append] at h
  simp only [hs, Run.bind, h]
  rw [← m.length_encode_wrapper]
  exact slice_all _

theorem RegisterAccountMemo.Marshal_eq_memo (m : RegisterAccountMemo) :
    m.Marshal = .ok m.encode := by
  unfold RegisterAccountMemo.Marshal
  have h := m.MarshalToSizedBuffer_spec_memo [] (List.replicate m.Size 0) (by simp)
  have hs := slice_all (List.replicate m.Size 0)
  simp only [List.length_replicate] at hs
  simp only [List.nil_append] at h
  simp only [hs, Run.bind, h]
  rw [← m.length_encode_memo]
  exact slice_all _

/-! ## Facts about `Unmarshal`: it ends, within the slice -/

theorem slice_ok (dAtA : Bytes) (lo hi : Nat) (h1 : lo ≤ hi) (h2 : hi ≤ dAtA.length) :
    slice dAtA lo hi = .ok ((dAtA.take hi).drop lo) := by
  unfold slice
  rw [if_pos ⟨h1, h2⟩]

theorem length_slice (dAtA : Bytes) (lo hi : Nat) (h2 : hi ≤ dAtA.length) :
    ((dAtA.take hi).drop lo).length = hi - lo := by
  simp only [List.length_drop, List.length_take]
  omega

/-- A Go `int` that is not negative is below `2 ^ 63`. -/
theorem lt_of_not_isNegative (x : Nat) (hx : x < 2 ^ 64) (h : ¬ isNegative x = true) :
    x < 2 ^ 63 := by
  unfold isNegative at h
  simp only [decide_eq_true_eq] at h
  rw [Nat.mod_eq_of_lt hx] at h
  omega

/-- The loop that reads a varint ends with a 64-bit value and an index past the one
it started at and within the slice, or with an error. -/
theorem decodeVarint_safe (dAtA : Bytes) : ∀ (fuel shift iNdEx value : Nat),
    1 ≤ fuel → 77 ≤ shift + 7 * fuel →
    Run.Safe (fun r => iNdEx < r.2 ∧ r.2 ≤ dAtA.length ∧ r.1 < 2 ^ 64)
      (decodeVarint dAtA fuel shift iNdEx value)
  | 0, _, _, _, h1, _ => absurd h1 (by decide)
  | fuel + 1, shift, iNdEx, value, _, hsum => by
    unfold decodeVarint
    by_cases hshift : shift ≥ 64
    · rw [if_pos hshift]
      trivial
    rw [if_neg hshift]
    by_cases hend : iNdEx ≥ dAtA.length
    · rw [if_pos hend]
      trivial
    rw [if_neg hend]
    have hlt : iNdEx < dAtA.length := by omega
    rw [List.getElem?_eq_getElem hlt]
    dsimp only
    by_cases hb : dAtA[iNdEx] < 0x80
    · rw [if_pos hb]
      exact ⟨by omega, by omega, Nat.mod_lt _ (by decide)⟩
    · rw [if_neg hb]
      have ih := decodeVarint_safe dAtA fuel (shift + 7) (iNdEx + 1)
        ((value ||| ((dAtA[iNdEx] &&& 0x7F) <<< shift)) % 2 ^ 64) (by omega) (by omega)
      exact ih.mono (fun r hr => ⟨by omega, hr.2.1, hr.2.2⟩)

theorem readVarint_safe (dAtA : Bytes) (iNdEx : Nat) :
    Run.Safe (fun r => iNdEx < r.2 ∧ r.2 ≤ dAtA.length ∧ r.1 < 2 ^ 64)
      (readVarint dAtA iNdEx) :=
  decodeVarint_safe dAtA 11 0 iNdEx 0 (by decide) (by decide)

/-- The head of a round reads at least one byte and stays within the slice. -/
theorem readTag_safe (message : String) (dAtA : Bytes) (iNdEx : Nat) :
    Run.Safe (fun t => iNdEx < t.2.2 ∧ t.2.2 ≤ dAtA.length) (readTag message dAtA iNdEx) := by
  unfold readTag
  refine (readVarint_safe dAtA iNdEx).bind ?_
  intro wire hwire
  dsimp only
  split
  · trivial
  · split
    · trivial
    · exact ⟨hwire.1, hwire.2.1⟩

/-- A length that is read and accepted gives bounds in order and within the
slice. -/
theorem readLength_safe (dAtA : Bytes) (iNdEx : Nat) (hl : dAtA.length < 2 ^ 63) :
    Run.Safe (fun b => iNdEx < b.1 ∧ b.1 ≤ b.2 ∧ b.2 ≤ dAtA.length)
      (readLength dAtA iNdEx) := by
  unfold readLength
  refine (readVarint_safe dAtA iNdEx).bind ?_
  intro length hlength
  by_cases hneg : isNegative length.1 = true
  · rw [if_pos hneg]
    trivial
  rw [if_neg hneg]
  have hlen := lt_of_not_isNegative _ hlength.2.2 hneg
  have hsum : (length.2 + length.1) % 2 ^ 64 = length.2 + length.1 :=
    Nat.mod_eq_of_lt (by omega)
  by_cases hneg2 : isNegative (length.2 + length.1) = true
  · rw [if_pos hneg2]
    trivial
  rw [if_neg hneg2, hsum]
  by_cases hpast : length.2 + length.1 > dAtA.length
  · rw [if_pos hpast]
    trivial
  · rw [if_neg hpast]
    exact ⟨hlength.1, by omega, by omega⟩

/-- The loop of `skipPacket` ends with an index past the one it started at, or with
an error. -/
theorem skipPacketLoop_safe (dAtA : Bytes) (hl : dAtA.length < 2 ^ 63) :
    ∀ (fuel iNdEx depth : Nat), 1 ≤ fuel → dAtA.length < fuel + iNdEx →
    Run.Safe (fun n => iNdEx < n ∧ n < 2 ^ 63) (skipPacketLoop dAtA fuel iNdEx depth)
  | 0, _, _, h1, _ => absurd h1 (by decide)
  | fuel + 1, iNdEx, depth, _, hfuel => by
    unfold skipPacketLoop
    by_cases hin : iNdEx < dAtA.length
    · rw [if_pos hin]
      refine (readVarint_safe dAtA iNdEx).bind ?_
      intro tag htag
      dsimp only
      have hstep : Run.Safe (fun next : Nat × Nat => tag.2 ≤ next.1 ∧ next.1 < 2 ^ 64)
          (if tag.1 &&& 0x7 = 0 then
            (readVarint dAtA tag.2).bind fun value => .ok (value.2, depth)
          else if tag.1 &&& 0x7 = 1 then .ok ((tag.2 + 8) % 2 ^ 64, depth)
          else if tag.1 &&& 0x7 = 2 then
            (readVarint dAtA tag.2).bind fun length =>
              if isNegative length.1 then .error .ErrInvalidLengthPacket
              else .ok ((length.2 + length.1) % 2 ^ 64, depth)
          else if tag.1 &&& 0x7 = 3 then .ok (tag.2, depth + 1)
          else if tag.1 &&& 0x7 = 4 then
            if depth = 0 then .error .ErrUnexpectedEndOfGroupPacket else .ok (tag.2, depth - 1)
          else if tag.1 &&& 0x7 = 5 then .ok ((tag.2 + 4) % 2 ^ 64, depth)
          else .error (.illegalWireType (tag.1 &&& 0x7))) := by
        split
        · refine (readVarint_safe dAtA tag.2).bind ?_
          intro value hvalue
          exact ⟨by omega, by omega⟩
        split
        · show tag.2 ≤ (tag.2 + 8) % 2 ^ 64 ∧ (tag.2 + 8) % 2 ^ 64 < 2 ^ 64
          omega
        split
        · refine (readVarint_safe dAtA tag.2).bind ?_
          intro length hlength
          by_cases hneg : isNegative length.1 = true
          · rw [if_pos hneg]
            trivial
          · rw [if_neg hneg]
            have hlen := lt_of_not_isNegative _ hlength.2.2 hneg
            show tag.2 ≤ (length.2 + length.1) % 2 ^ 64 ∧ (length.2 + length.1) % 2 ^ 64 < 2 ^ 64
            omega
        split
        · exact ⟨Nat.le_refl _, by omega⟩
        split
        · split
          · trivial
          · exact ⟨Nat.le_refl _, by omega⟩
        split
        · show tag.2 ≤ (tag.2 + 4) % 2 ^ 64 ∧ (tag.2 + 4) % 2 ^ 64 < 2 ^ 64
          omega
        · trivial
      refine hstep.bind ?_
      intro next hnext
      by_cases hneg : isNegative next.1 = true
      · rw [if_pos hneg]
        trivial
      rw [if_neg hneg]
      have hnext63 := lt_of_not_isNegative _ hnext.2 hneg
      by_cases hdepth : next.2 = 0
      · rw [if_pos hdepth]
        exact ⟨by omega, hnext63⟩
      · rw [if_neg hdepth]
        have ih := skipPacketLoop_safe dAtA hl fuel next.1 next.2 (by omega) (by omega)
        exact ih.mono (fun n hn => ⟨by omega, hn.2⟩)
    · rw [if_neg hin]
      trivial

/-- The function `skipPacket` ends with a length of at least 1, or with an error. -/
theorem skipPacket_safe (dAtA : Bytes) (hl : dAtA.length < 2 ^ 63) :
    Run.Safe (fun n => 1 ≤ n ∧ n < 2 ^ 63) (skipPacket dAtA) :=
  (skipPacketLoop_safe dAtA hl (dAtA.length + 1) 0 0 (by omega) (by omega)).mono
    (fun _ hn => ⟨hn.1, hn.2⟩)

/-- The `default` branch of a round passes over at least one byte and stays within
the slice. -/
theorem skipField_safe (dAtA : Bytes) (preIndex : Nat) (hl : dAtA.length < 2 ^ 63)
    (hpre : preIndex < dAtA.length) :
    Run.Safe (fun next => preIndex < next ∧ next ≤ dAtA.length) (skipField dAtA preIndex) := by
  unfold skipField
  rw [slice_ok dAtA preIndex dAtA.length (by omega) (Nat.le_refl _)]
  simp only [Run.bind]
  have hrest : ((dAtA.take dAtA.length).drop preIndex).length < 2 ^ 63 := by
    rw [length_slice _ _ _ (Nat.le_refl _)]
    omega
  refine (skipPacket_safe _ hrest).bind ?_
  intro skippy hskippy
  have hsum : (preIndex + skippy) % 2 ^ 64 = preIndex + skippy := Nat.mod_eq_of_lt (by omega)
  split
  · trivial
  · rw [hsum]
    split
    · trivial
    · exact ⟨by omega, by omega⟩

/-- The loop of `Unmarshal` of a `RegisterAccountData` ends with a message or with
an error. -/
theorem RegisterAccountData.unmarshalLoop_safe_data (dAtA : Bytes) (hl : dAtA.length < 2 ^ 63) :
    ∀ (fuel : Nat) (m : RegisterAccountData) (iNdEx : Nat), 1 ≤ fuel →
      dAtA.length < fuel + iNdEx →
      Run.Safe (fun _ => True) (RegisterAccountData.unmarshalLoop dAtA fuel m iNdEx)
  | 0, _, _, h1, _ => absurd h1 (by decide)
  | fuel + 1, m, iNdEx, _, hfuel => by
    unfold RegisterAccountData.unmarshalLoop
    by_cases hin : iNdEx < dAtA.length
    · rw [if_pos hin]
      refine (readTag_safe _ dAtA iNdEx).bind ?_
      intro tag htag
      split
      · split
        · trivial
        · refine (readLength_safe dAtA tag.2.2 hl).bind ?_
          intro bounds hbounds
          rw [slice_ok dAtA bounds.1 bounds.2 hbounds.2.1 hbounds.2.2]
          exact RegisterAccountData.unmarshalLoop_safe_data dAtA hl fuel _ bounds.2
            (by omega) (by omega)
      · split
        · split
          · trivial
          · refine (readLength_safe dAtA tag.2.2 hl).bind ?_
            intro bounds hbounds
            rw [slice_ok dAtA bounds.1 bounds.2 hbounds.2.1 hbounds.2.2]
            exact RegisterAccountData.unmarshalLoop_safe_data dAtA hl fuel _ bounds.2
              (by omega) (by omega)
        · refine (skipField_safe dAtA iNdEx hl hin).bind ?_
          intro next hnext
          exact RegisterAccountData.unmarshalLoop_safe_data dAtA hl fuel m next
            (by omega) (by omega)
    · rw [if_neg hin]
      split <;> trivial

theorem RegisterAccountData.Unmarshal_safe_data (m : RegisterAccountData) (dAtA : Bytes)
    (hl : dAtA.length < 2 ^ 63) : Run.Safe (fun _ => True) (m.Unmarshal dAtA) :=
  RegisterAccountData.unmarshalLoop_safe_data dAtA hl _ m 0 (by omega) (by omega)

/-- The loop of `Unmarshal` of a wrapper ends with a message or with an error. -/
theorem RegisterAccountMemo_RegisterAccountDataWrapper.unmarshalLoop_safe_wrapper (dAtA : Bytes)
    (hl : dAtA.length < 2 ^ 63) :
    ∀ (fuel : Nat) (m : RegisterAccountMemo_RegisterAccountDataWrapper) (iNdEx : Nat),
      1 ≤ fuel → dAtA.length < fuel + iNdEx →
      Run.Safe (fun _ => True)
        (RegisterAccountMemo_RegisterAccountDataWrapper.unmarshalLoop dAtA fuel m iNdEx)
  | 0, _, _, h1, _ => absurd h1 (by decide)
  | fuel + 1, m, iNdEx, _, hfuel => by
    unfold RegisterAccountMemo_RegisterAccountDataWrapper.unmarshalLoop
    by_cases hin : iNdEx < dAtA.length
    · rw [if_pos hin]
      refine (readTag_safe _ dAtA iNdEx).bind ?_
      intro tag htag
      split
      · split
        · trivial
        · refine (readLength_safe dAtA tag.2.2 hl).bind ?_
          intro bounds hbounds
          rw [slice_ok dAtA bounds.1 bounds.2 hbounds.2.1 hbounds.2.2]
          simp only [Run.bind]
          have hinner : ((dAtA.take bounds.2).drop bounds.1).length < 2 ^ 63 := by
            rw [length_slice _ _ _ hbounds.2.2]
            omega
          refine (RegisterAccountData.Unmarshal_safe_data _ _ hinner).bind ?_
          intro forwarding _
          exact RegisterAccountMemo_RegisterAccountDataWrapper.unmarshalLoop_safe_wrapper dAtA hl fuel _
            bounds.2 (by omega) (by omega)
      · refine (skipField_safe dAtA iNdEx hl hin).bind ?_
        intro next hnext
        exact RegisterAccountMemo_RegisterAccountDataWrapper.unmarshalLoop_safe_wrapper dAtA hl fuel m
          next (by omega) (by omega)
    · rw [if_neg hin]
      split <;> trivial

theorem RegisterAccountMemo_RegisterAccountDataWrapper.Unmarshal_safe_wrapper
    (m : RegisterAccountMemo_RegisterAccountDataWrapper) (dAtA : Bytes)
    (hl : dAtA.length < 2 ^ 63) : Run.Safe (fun _ => True) (m.Unmarshal dAtA) :=
  RegisterAccountMemo_RegisterAccountDataWrapper.unmarshalLoop_safe_wrapper dAtA hl _ m 0
    (by omega) (by omega)

/-- The loop of `Unmarshal` of a memo ends with a message or with an error. -/
theorem RegisterAccountMemo.unmarshalLoop_safe_memo (dAtA : Bytes) (hl : dAtA.length < 2 ^ 63) :
    ∀ (fuel : Nat) (m : RegisterAccountMemo) (iNdEx : Nat), 1 ≤ fuel →
      dAtA.length < fuel + iNdEx →
      Run.Safe (fun _ => True) (RegisterAccountMemo.unmarshalLoop dAtA fuel m iNdEx)
  | 0, _, _, h1, _ => absurd h1 (by decide)
  | fuel + 1, m, iNdEx, _, hfuel => by
    unfold RegisterAccountMemo.unmarshalLoop
    by_cases hin : iNdEx < dAtA.length
    · rw [if_pos hin]
      refine (readTag_safe _ dAtA iNdEx).bind ?_
      intro tag htag
      split
      · split
        · trivial
        · refine (readLength_safe dAtA tag.2.2 hl).bind ?_
          intro bounds hbounds
          rw [slice_ok dAtA bounds.1 bounds.2 hbounds.2.1 hbounds.2.2]
          simp only [Run.bind]
          have hinner : ((dAtA.take bounds.2).drop bounds.1).length < 2 ^ 63 := by
            rw [length_slice _ _ _ hbounds.2.2]
            omega
          refine (RegisterAccountMemo_RegisterAccountDataWrapper.Unmarshal_safe_wrapper _ _ hinner).bind ?_
          intro noble _
          exact RegisterAccountMemo.unmarshalLoop_safe_memo dAtA hl fuel _ bounds.2
            (by omega) (by omega)
      · refine (skipField_safe dAtA iNdEx hl hin).bind ?_
        intro next hnext
        exact RegisterAccountMemo.unmarshalLoop_safe_memo dAtA hl fuel m next (by omega) (by omega)
    · rw [if_neg hin]
      split <;> trivial

theorem RegisterAccountMemo.Unmarshal_safe_memo (m : RegisterAccountMemo) (dAtA : Bytes)
    (hl : dAtA.length < 2 ^ 63) : Run.Safe (fun _ => True) (m.Unmarshal dAtA) :=
  RegisterAccountMemo.unmarshalLoop_safe_memo dAtA hl _ m 0 (by omega) (by omega)

/-! ## Facts about `Unmarshal`: it reads what `Marshal` writes -/

theorem drop_eq_cons {α : Type} {l : List α} {i : Nat} {b : α} {tl : List α}
    (h : l.drop i = b :: tl) : i < l.length ∧ l[i]? = some b ∧ l.drop (i + 1) = tl := by
  have hlt : i < l.length := by
    by_contra hge
    rw [List.drop_eq_nil_of_le (by omega)] at h
    cases h
  rw [List.drop_eq_getElem_cons hlt] at h
  injection h with h1 h2
  exact ⟨hlt, by rw [List.getElem?_eq_getElem hlt, h1], h2⟩

theorem drop_append_length {α : Type} {l : List α} {i : Nat} {a rest : List α}
    (h : l.drop i = a ++ rest) : l.drop (i + a.length) = rest := by
  rw [← List.drop_drop, h, List.drop_left]

theorem length_of_drop {α : Type} {l : List α} {i : Nat} {x : List α}
    (h : l.drop i = x) : l.length - i = x.length := by
  rw [← h, List.length_drop]

theorem slice_of_drop (dAtA : Bytes) (lo : Nat) (s post : Bytes) (hlo : lo ≤ dAtA.length)
    (h : dAtA.drop lo = s ++ post) : slice dAtA lo (lo + s.length) = .ok s := by
  have hlen := length_of_drop h
  rw [List.length_append] at hlen
  rw [slice_ok dAtA lo (lo + s.length) (by omega) (by omega), List.drop_take]
  have : lo + s.length - lo = s.length := by omega
  rw [this, h, List.take_left]

theorem and_0x7f (v : Nat) : v &&& 0x7f = v % 128 := by
  have h := Nat.and_pow_two_sub_one_eq_mod v 7
  simpa using h

theorem or_0x80 (r : Nat) (h : r < 128) : r ||| 0x80 = r + 128 := by
  have h1 := Nat.mul_add_lt_is_or (i := 7) (b := r) (by simpa using h) 1
  rw [Nat.lor_comm]
  simp only [Nat.reducePow, Nat.mul_one] at h1
  omega

theorem or_shiftLeft (acc x s : Nat) (h : acc < 2 ^ s) : acc ||| (x <<< s) = acc + x * 2 ^ s := by
  have h1 := Nat.mul_add_lt_is_or h x
  rw [Nat.shiftLeft_eq, Nat.lor_comm, Nat.mul_comm x, ← h1, Nat.add_comm]

/-- Reading a varint where the bytes of a 64-bit value stand gives the value back
and the index after them. -/
theorem decodeVarint_varintBytes (dAtA : Bytes) : ∀ (rounds fuel shift iNdEx value v : Nat)
    (post : Bytes), 1 ≤ rounds → rounds ≤ fuel → v < 2 ^ (7 * rounds) →
    dAtA.drop iNdEx = varintBytes rounds v ++ post →
    shift < 64 → value < 2 ^ shift → value + v * 2 ^ shift < 2 ^ 64 →
    decodeVarint dAtA fuel shift iNdEx value =
      .ok (value + v * 2 ^ shift, iNdEx + (varintBytes rounds v).length)
  | 0, _, _, _, _, _, _, h1, _, _, _, _, _, _ => absurd h1 (by decide)
  | _ + 1, 0, _, _, _, _, _, _, h2, _, _, _, _, _ => absurd h2 (by omega)
  | rounds + 1, fuel + 1, shift, iNdEx, value, v, post, _, hfuel, hv, hdrop, hshift, hvalue,
      hsum => by
    unfold varintBytes at hdrop ⊢
    unfold decodeVarint
    have hpow : (2 : Nat) ^ (shift + 7) = 2 ^ shift * 128 := by rw [Nat.pow_add]
    by_cases hge : v ≥ 1 <<< 7
    · simp only [hge, if_true, List.cons_append] at hdrop ⊢
      have hge' : 128 ≤ v := hge
      obtain ⟨hlt, hget, hrest⟩ := drop_eq_cons hdrop
      have hbyte : (v &&& 0x7f ||| 0x80) % 256 = v % 128 + 128 := by
        rw [and_0x7f, or_0x80 _ (Nat.mod_lt _ (by decide))]
        omega
      have hshr : v >>> 7 = v / 128 := Nat.shiftRight_eq_div_pow v 7
      rw [hbyte] at hget
      have hnot64 : ¬ shift ≥ 64 := by omega
      have hnotend : ¬ iNdEx ≥ dAtA.length := by omega
      rw [if_neg hnot64, if_neg hnotend, hget]
      dsimp only
      have hnotlow : ¬ v % 128 + 128 < 0x80 := by omega
      have hlow : (v % 128 + 128) &&& 0x7F = v % 128 := by
        rw [and_0x7f]
        omega
      have hsplit : v * 2 ^ shift = v % 128 * 2 ^ shift + v / 128 * (2 ^ shift * 128) := by
        have h := Nat.div_add_mod v 128
        calc v * 2 ^ shift = (128 * (v / 128) + v % 128) * 2 ^ shift := by rw [h]
          _ = v % 128 * 2 ^ shift + v / 128 * (2 ^ shift * 128) := by ring
      have hacc : (value ||| ((v % 128) <<< shift)) % 2 ^ 64 = value + v % 128 * 2 ^ shift := by
        rw [or_shiftLeft _ _ _ hvalue]
        apply Nat.mod_eq_of_lt
        have : 0 ≤ v / 128 * (2 ^ shift * 128) := Nat.zero_le _
        omega
      rw [if_neg hnotlow, hlow, hacc]
      have hdiv : v >>> 7 < 2 ^ (7 * rounds) := by
        have : 2 ^ (7 * (rounds + 1)) = 2 ^ (7 * rounds) * 128 := by
          rw [Nat.mul_add, Nat.pow_add]
        rw [this] at hv
        rw [hshr]
        exact (Nat.div_lt_iff_lt_mul (by decide)).2 hv
      have hrounds : 1 ≤ rounds := by
        cases rounds with
        | zero =>
          simp only [Nat.mul_zero, Nat.pow_zero] at hdiv
          rw [hshr] at hdiv
          omega
        | succ r => omega
      have hshift7 : shift + 7 < 64 := by
        by_contra hnot
        have h1 : (2 : Nat) ^ 64 ≤ 2 ^ (shift + 7) := Nat.pow_le_pow_right (by decide) (by omega)
        have h2 : 1 * (2 ^ shift * 128) ≤ v / 128 * (2 ^ shift * 128) :=
          Nat.mul_le_mul_right _ (by omega)
        rw [hpow] at h1
        omega
      have hacc_lt : value + v % 128 * 2 ^ shift < 2 ^ (shift + 7) := by
        rw [hpow]
        have h1 : v % 128 * 2 ^ shift ≤ 127 * 2 ^ shift :=
          Nat.mul_le_mul_right _ (by omega)
        omega
      have ih := decodeVarint_varintBytes dAtA rounds fuel (shift + 7) (iNdEx + 1)
        (value + v % 128 * 2 ^ shift) (v >>> 7) post hrounds (by omega) hdiv hrest hshift7
        hacc_lt (by rw [hshr, hpow]; omega)
      rw [ih, hshr, hpow, List.length_cons]
      congr 2
      · omega
      · omega
    · simp only [hge, if_false, List.singleton_append] at hdrop ⊢
      have hlt128 : v < 128 := by
        have : ¬ 128 ≤ v := hge
        omega
      obtain ⟨hlt, hget, _⟩ := drop_eq_cons hdrop
      have hbyte : v % 256 = v := Nat.mod_eq_of_lt (by omega)
      rw [hbyte] at hget
      have hnot64 : ¬ shift ≥ 64 := by omega
      have hnotend : ¬ iNdEx ≥ dAtA.length := by omega
      rw [if_neg hnot64, if_neg hnotend, hget]
      dsimp only
      have hlow : v &&& 0x7F = v := by
        rw [and_0x7f]
        omega
      have hacc : (value ||| (v <<< shift)) % 2 ^ 64 = value + v * 2 ^ shift := by
        rw [or_shiftLeft _ _ _ hvalue]
        exact Nat.mod_eq_of_lt hsum
      rw [if_pos (by simpa using hlt128), hlow, hacc, List.length_singleton]

theorem readVarint_varintBytes (dAtA : Bytes) (iNdEx v : Nat) (post : Bytes)
    (hv : v < 2 ^ 64) (hdrop : dAtA.drop iNdEx = varintBytes 10 v ++ post) :
    readVarint dAtA iNdEx = .ok (v, iNdEx + sovPacket v) := by
  have h := decodeVarint_varintBytes dAtA 10 11 0 iNdEx 0 v post (by decide) (by decide)
    (Nat.lt_of_lt_of_le hv (by decide)) hdrop (by decide) (by decide) (by simpa using hv)
  rw [length_varintBytes 10 v (Nat.lt_of_lt_of_le hv (by decide)) hv (by decide)] at h
  unfold readVarint
  rw [h]
  simp

/-- Reading the tag where the tag byte of a string or message field stands. -/
theorem readTag_field (message : String) (dAtA : Bytes) (iNdEx : Nat) (rest : Bytes)
    (tag : Nat) (htag : tag = 0xa ∨ tag = 0x12) (hdrop : dAtA.drop iNdEx = tag :: rest) :
    readTag message dAtA iNdEx = .ok (if tag = 0xa then 1 else 2, 2, iNdEx + 1) := by
  obtain ⟨hlt, hget, _⟩ := drop_eq_cons hdrop
  have hnotend : ¬ iNdEx ≥ dAtA.length := by omega
  unfold readTag readVarint decodeVarint
  rcases htag with h | h <;> subst h
  · have hv : (0 ||| (0xa &&& 0x7F) <<< 0) % 2 ^ 64 = 10 := by decide
    have h1 : (10 : Nat) &&& 0x7 = 2 := by decide
    have h2 : int32 (10 >>> 3) = 1 := by decide
    simp only [ge_iff_le, Nat.not_le_of_lt (by decide : 0 < 64), if_false, hnotend, hget]
    rw [if_pos (by decide), hv]
    simp only [Run.bind, h1, h2]
    rfl
  · have hv : (0 ||| (0x12 &&& 0x7F) <<< 0) % 2 ^ 64 = 18 := by decide
    have h1 : (18 : Nat) &&& 0x7 = 2 := by decide
    have h2 : int32 (18 >>> 3) = 2 := by decide
    simp only [ge_iff_le, Nat.not_le_of_lt (by decide : 0 < 64), if_false, hnotend, hget]
    rw [if_pos (by decide), hv]
    simp only [Run.bind, h1, h2]
    rfl

theorem not_isNegative_of_lt (x : Nat) (h : x < 2 ^ 63) : ¬ isNegative x = true := by
  unfold isNegative
  simp only [decide_eq_true_eq]
  rw [Nat.mod_eq_of_lt (by omega)]
  omega

/-- Reading the length where the varint of the length of a field stands, the field
lying within the slice. -/
theorem readLength_varintBytes (dAtA : Bytes) (iNdEx n : Nat) (post : Bytes)
    (hl : dAtA.length < 2 ^ 63) (hn : iNdEx + sovPacket n + n ≤ dAtA.length)
    (hdrop : dAtA.drop iNdEx = varintBytes 10 n ++ post) :
    readLength dAtA iNdEx = .ok (iNdEx + sovPacket n, iNdEx + sovPacket n + n) := by
  unfold readLength
  rw [readVarint_varintBytes dAtA iNdEx n post (by omega) hdrop]
  simp only [Run.bind]
  rw [if_neg (not_isNegative_of_lt n (by omega)),
    if_neg (not_isNegative_of_lt _ (by omega)), Nat.mod_eq_of_lt (by omega),
    if_neg (by omega)]

/-- The loop of `Unmarshal` at the end of the slice answers the message. -/
theorem RegisterAccountData.unmarshalLoop_end_data (dAtA : Bytes) (fuel : Nat)
    (m : RegisterAccountData) :
    RegisterAccountData.unmarshalLoop dAtA (fuel + 1) m dAtA.length = .ok m := by
  rw [RegisterAccountData.unmarshalLoop]
  simp

/-- A round of the loop of `Unmarshal` where a written string field stands: the
field is read into the message and the loop goes on after it. -/
theorem RegisterAccountData.unmarshalLoop_string (dAtA : Bytes) (hl : dAtA.length < 2 ^ 63)
    (fuel : Nat) (m : RegisterAccountData) (iNdEx tag : Nat) (s post : Bytes)
    (htag : tag = 0xa ∨ tag = 0x12) (hs : 0 < s.length)
    (hdrop : dAtA.drop iNdEx = encodeString tag s ++ post) :
    RegisterAccountData.unmarshalLoop dAtA (fuel + 1) m iNdEx =
      RegisterAccountData.unmarshalLoop dAtA fuel
        (if tag = 0xa then { m with Recipient := s } else { m with Channel := s })
        (iNdEx + (encodeString tag s).length) := by
  have hlen := length_of_drop hdrop
  rw [List.length_append, length_encodeString, if_pos hs] at hlen
  have hmod : s.length % 2 ^ 64 = s.length := Nat.mod_eq_of_lt (by omega)
  rw [hmod] at hlen
  have henc : encodeString tag s = tag :: (varintBytes 10 s.length ++ s) := by
    unfold encodeString
    rw [if_pos hs, hmod]
  have henclen : (encodeString tag s).length = 1 + s.length + sovPacket s.length := by
    rw [length_encodeString, if_pos hs, hmod]
  rw [henc, List.cons_append, List.append_assoc] at hdrop
  obtain ⟨hlt, _, hrest⟩ := drop_eq_cons hdrop
  have htagread := readTag_field "RegisterAccountData" dAtA iNdEx _ tag htag hdrop
  have hlength := readLength_varintBytes dAtA (iNdEx + 1) s.length (s ++ post) hl (by omega)
    hrest
  have hslice := slice_of_drop dAtA (iNdEx + 1 + sovPacket s.length) s post (by omega)
    (by
      have h := drop_append_length hrest
      rw [length_varintBytes 10 s.length (by
        exact Nat.lt_of_lt_of_le (by omega : s.length < 2 ^ 64) (by decide)) (by omega)
        (by decide)] at h
      exact h)
  have hpost : iNdEx + 1 + sovPacket s.length + s.length =
      iNdEx + (1 + s.length + sovPacket s.length) := by omega
  rw [RegisterAccountData.unmarshalLoop, if_pos hlt, htagread, henclen, ← hpost]
  rcases htag with h | h <;> subst h
  · simp only [Run.bind, if_true, ne_eq, not_true_eq_false, if_false, hlength, hslice]
  · have h1 : ¬ ((2 : Int) = 1) := by decide
    have h2 : ¬ ((0x12 : Nat) = 0xa) := by decide
    simp only [Run.bind, h2, h1, if_true, ne_eq, not_true_eq_false, if_false, hlength, hslice]

/-- An `Unmarshal` into a message reads the bytes a `RegisterAccountData` is written
as: the strings that are not empty replace those of the message. -/
theorem RegisterAccountData.unmarshalLoop_encode (m m0 : RegisterAccountData)
    (hsize : m.Size < 2 ^ 63) (fuel : Nat) (hfuel : m.encode.length < fuel) :
    RegisterAccountData.unmarshalLoop m.encode fuel m0 0 =
      .ok ⟨if 0 < m.Recipient.length then m.Recipient else m0.Recipient,
        if 0 < m.Channel.length then m.Channel else m0.Channel⟩ := by
  have hl : m.encode.length < 2 ^ 63 := by rw [m.length_encode_data]; exact hsize
  have hlen : m.encode.length =
      (encodeString 0xa m.Recipient).length + (encodeString 0x12 m.Channel).length := by
    unfold RegisterAccountData.encode
    rw [List.length_append]
  have hr := length_encodeString 0xa m.Recipient
  have hc := length_encodeString 0x12 m.Channel
  by_cases h1 : 0 < m.Recipient.length
  · by_cases h2 : 0 < m.Channel.length
    · rw [if_pos h1] at hr
      rw [if_pos h2] at hc
      obtain ⟨f, rfl⟩ : ∃ f, fuel = f + 3 := ⟨fuel - 3, by omega⟩
      rw [RegisterAccountData.unmarshalLoop_string m.encode hl (f + 2) m0 0 0xa m.Recipient
        (encodeString 0x12 m.Channel) (Or.inl rfl) h1 (by simp [RegisterAccountData.encode])]
      rw [RegisterAccountData.unmarshalLoop_string m.encode hl (f + 1) _
        (0 + (encodeString 0xa m.Recipient).length) 0x12 m.Channel [] (Or.inr rfl) h2 (by
          unfold RegisterAccountData.encode
          rw [Nat.zero_add, List.drop_left, List.append_nil])]
      have hend : 0 + (encodeString 0xa m.Recipient).length +
          (encodeString 0x12 m.Channel).length = m.encode.length := by omega
      rw [hend, RegisterAccountData.unmarshalLoop_end_data]
      simp [h1, h2]
    · rw [if_pos h1] at hr
      have hcnil : encodeString 0x12 m.Channel = [] := by
        unfold encodeString
        rw [if_neg h2]
      obtain ⟨f, rfl⟩ : ∃ f, fuel = f + 2 := ⟨fuel - 2, by omega⟩
      rw [RegisterAccountData.unmarshalLoop_string m.encode hl (f + 1) m0 0 0xa m.Recipient
        [] (Or.inl rfl) h1 (by simp [RegisterAccountData.encode, hcnil])]
      have hend : 0 + (encodeString 0xa m.Recipient).length = m.encode.length := by
        rw [hlen, hcnil]
        simp
      rw [hend, RegisterAccountData.unmarshalLoop_end_data]
      simp [h1, h2]
  · have hrnil : encodeString 0xa m.Recipient = [] := by
      unfold encodeString
      rw [if_neg h1]
    by_cases h2 : 0 < m.Channel.length
    · rw [if_pos h2] at hc
      obtain ⟨f, rfl⟩ : ∃ f, fuel = f + 2 := ⟨fuel - 2, by omega⟩
      rw [RegisterAccountData.unmarshalLoop_string m.encode hl (f + 1) m0 0 0x12 m.Channel
        [] (Or.inr rfl) h2 (by simp [RegisterAccountData.encode, hrnil])]
      have hend : 0 + (encodeString 0x12 m.Channel).length = m.encode.length := by
        rw [hlen, hrnil]
        simp
      rw [hend, RegisterAccountData.unmarshalLoop_end_data]
      simp [h1, h2]
    · have hcnil : encodeString 0x12 m.Channel = [] := by
        unfold encodeString
        rw [if_neg h2]
      obtain ⟨f, rfl⟩ : ∃ f, fuel = f + 1 := ⟨fuel - 1, by omega⟩
      have hzero : (0 : Nat) = m.encode.length := by
        rw [hlen, hrnil, hcnil]
        rfl
      conv => lhs; rw [hzero]
      rw [RegisterAccountData.unmarshalLoop_end_data]
      simp [h1, h2]

/-- An `Unmarshal` into the zero message undoes the writing of a
`RegisterAccountData`. -/
theorem RegisterAccountData.Unmarshal_encode_data (m : RegisterAccountData)
    (hsize : m.Size < 2 ^ 63) :
    RegisterAccountData.Unmarshal ⟨[], []⟩ m.encode = .ok m := by
  unfold RegisterAccountData.Unmarshal
  rw [RegisterAccountData.unmarshalLoop_encode m ⟨[], []⟩ hsize _ (by omega)]
  obtain ⟨r, c⟩ := m
  congr 2
  · by_cases h : 0 < r.length
    · simp [h]
    · have : r = [] := List.length_eq_zero.1 (by omega)
      simp [this]
  · by_cases h : 0 < c.length
    · simp [h]
    · have : c = [] := List.length_eq_zero.1 (by omega)
      simp [this]

theorem RegisterAccountMemo_RegisterAccountDataWrapper.unmarshalLoop_end_wrapper (dAtA : Bytes)
    (fuel : Nat) (m : RegisterAccountMemo_RegisterAccountDataWrapper) :
    RegisterAccountMemo_RegisterAccountDataWrapper.unmarshalLoop dAtA (fuel + 1) m
      dAtA.length = .ok m := by
  rw [RegisterAccountMemo_RegisterAccountDataWrapper.unmarshalLoop]
  simp

/-- A round of the loop of `Unmarshal` of a wrapper where a written
`RegisterAccountData` stands: it is read into the field, which was nil, and the
loop goes on after it. -/
theorem RegisterAccountMemo_RegisterAccountDataWrapper.unmarshalLoop_message_wrapper (dAtA : Bytes)
    (hl : dAtA.length < 2 ^ 63) (fuel : Nat)
    (m : RegisterAccountMemo_RegisterAccountDataWrapper) (iNdEx : Nat)
    (d : RegisterAccountData) (post : Bytes) (hm : m.Forwarding = none)
    (hdrop : dAtA.drop iNdEx = 0xa :: (varintBytes 10 (d.Size % 2 ^ 64) ++ d.encode) ++ post) :
    RegisterAccountMemo_RegisterAccountDataWrapper.unmarshalLoop dAtA (fuel + 1) m iNdEx =
      RegisterAccountMemo_RegisterAccountDataWrapper.unmarshalLoop dAtA fuel
        { m with Forwarding := some d } (iNdEx + 1 + sovPacket d.Size + d.Size) := by
  have hlen := length_of_drop hdrop
  have hv : d.Size % 2 ^ 64 < 2 ^ 64 := Nat.mod_lt _ (by decide)
  rw [List.length_append, List.length_cons, List.length_append, d.length_encode_data,
    length_varintBytes 10 _ (Nat.lt_of_lt_of_le hv (by decide)) hv (by decide)] at hlen
  have hsize : d.Size < 2 ^ 63 := by omega
  have hmod : d.Size % 2 ^ 64 = d.Size := Nat.mod_eq_of_lt (by omega)
  rw [hmod] at hlen hdrop
  rw [List.cons_append, List.append_assoc] at hdrop
  obtain ⟨hlt, _, hrest⟩ := drop_eq_cons hdrop
  have htagread := readTag_field "RegisterAccountDataWrapper" dAtA iNdEx _ 0xa (Or.inl rfl) hdrop
  have hlength := readLength_varintBytes dAtA (iNdEx + 1) d.Size (d.encode ++ post) hl
    (by omega) hrest
  have hslice := slice_of_drop dAtA (iNdEx + 1 + sovPacket d.Size) d.encode post (by omega)
    (by
      have h := drop_append_length hrest
      rw [length_varintBytes 10 d.Size (Nat.lt_of_lt_of_le (by omega : d.Size < 2 ^ 64)
        (by decide)) (by omega) (by decide)] at h
      exact h)
  rw [d.length_encode_data] at hslice
  rw [RegisterAccountMemo_RegisterAccountDataWrapper.unmarshalLoop, if_pos hlt, htagread]
  simp only [Run.bind, if_true, ne_eq, not_true_eq_false, if_false, hlength, hslice, hm,
    Option.getD_none, RegisterAccountData.Unmarshal_encode_data d hsize]

/-- An `Unmarshal` into the zero message undoes the writing of a wrapper. -/
theorem RegisterAccountMemo_RegisterAccountDataWrapper.Unmarshal_encode_wrapper
    (m : RegisterAccountMemo_RegisterAccountDataWrapper) (hsize : m.Size < 2 ^ 63) :
    RegisterAccountMemo_RegisterAccountDataWrapper.Unmarshal ⟨none⟩ m.encode = .ok m := by
  have hl : m.encode.length < 2 ^ 63 := by rw [m.length_encode_wrapper]; exact hsize
  have hlen := m.length_encode_wrapper
  obtain ⟨forwarding⟩ := m
  unfold RegisterAccountMemo_RegisterAccountDataWrapper.Unmarshal
  cases forwarding with
  | none =>
    have hnil : (RegisterAccountMemo_RegisterAccountDataWrapper.mk none).encode = [] := rfl
    rw [hnil]
    exact RegisterAccountMemo_RegisterAccountDataWrapper.unmarshalLoop_end_wrapper [] 0 _
  | some d =>
    have henc : (RegisterAccountMemo_RegisterAccountDataWrapper.mk (some d)).encode =
        0xa :: (varintBytes 10 (d.Size % 2 ^ 64) ++ d.encode) := rfl
    have hsize' : 1 + d.Size + sovPacket (d.Size % 2 ^ 64) < 2 ^ 63 := hsize
    have hmod : d.Size % 2 ^ 64 = d.Size := Nat.mod_eq_of_lt (by omega)
    have hlen' : (RegisterAccountMemo_RegisterAccountDataWrapper.mk (some d)).encode.length = 1 + d.Size + sovPacket d.Size := by
      rw [hlen]
      show 1 + d.Size + sovPacket (d.Size % 2 ^ 64) = _
      rw [hmod]
    obtain ⟨f, hf⟩ : ∃ f, (RegisterAccountMemo_RegisterAccountDataWrapper.mk (some d)).encode.length
        + 1 = f + 2 := ⟨d.Size + sovPacket d.Size, by rw [hlen']; omega⟩
    rw [hf, RegisterAccountMemo_RegisterAccountDataWrapper.unmarshalLoop_message_wrapper _ hl (f + 1)
      ⟨none⟩ 0 d [] rfl (by rw [henc]; simp)]
    have hend : 0 + 1 + sovPacket d.Size + d.Size =
        (RegisterAccountMemo_RegisterAccountDataWrapper.mk (some d)).encode.length := by
      rw [hlen']
      omega
    rw [hend, RegisterAccountMemo_RegisterAccountDataWrapper.unmarshalLoop_end_wrapper]

theorem RegisterAccountMemo.unmarshalLoop_end_memo (dAtA : Bytes) (fuel : Nat)
    (m : RegisterAccountMemo) :
    RegisterAccountMemo.unmarshalLoop dAtA (fuel + 1) m dAtA.length = .ok m := by
  rw [RegisterAccountMemo.unmarshalLoop]
  simp

/-- A round of the loop of `Unmarshal` of a memo where a written wrapper stands: it
is read into the field, which was nil, and the loop goes on after it. -/
theorem RegisterAccountMemo.unmarshalLoop_message_memo (dAtA : Bytes)
    (hl : dAtA.length < 2 ^ 63) (fuel : Nat) (m : RegisterAccountMemo) (iNdEx : Nat)
    (w : RegisterAccountMemo_RegisterAccountDataWrapper) (post : Bytes) (hm : m.Noble = none)
    (hdrop : dAtA.drop iNdEx = 0xa :: (varintBytes 10 (w.Size % 2 ^ 64) ++ w.encode) ++ post) :
    RegisterAccountMemo.unmarshalLoop dAtA (fuel + 1) m iNdEx =
      RegisterAccountMemo.unmarshalLoop dAtA fuel { m with Noble := some w }
        (iNdEx + 1 + sovPacket w.Size + w.Size) := by
  have hlen := length_of_drop hdrop
  have hv : w.Size % 2 ^ 64 < 2 ^ 64 := Nat.mod_lt _ (by decide)
  rw [List.length_append, List.length_cons, List.length_append, w.length_encode_wrapper,
    length_varintBytes 10 _ (Nat.lt_of_lt_of_le hv (by decide)) hv (by decide)] at hlen
  have hsize : w.Size < 2 ^ 63 := by omega
  have hmod : w.Size % 2 ^ 64 = w.Size := Nat.mod_eq_of_lt (by omega)
  rw [hmod] at hlen hdrop
  rw [List.cons_append, List.append_assoc] at hdrop
  obtain ⟨hlt, _, hrest⟩ := drop_eq_cons hdrop
  have htagread := readTag_field "RegisterAccountMemo" dAtA iNdEx _ 0xa (Or.inl rfl) hdrop
  have hlength := readLength_varintBytes dAtA (iNdEx + 1) w.Size (w.encode ++ post) hl
    (by omega) hrest
  have hslice := slice_of_drop dAtA (iNdEx + 1 + sovPacket w.Size) w.encode post (by omega)
    (by
      have h := drop_append_length hrest
      rw [length_varintBytes 10 w.Size (Nat.lt_of_lt_of_le (by omega : w.Size < 2 ^ 64)
        (by decide)) (by omega) (by decide)] at h
      exact h)
  rw [w.length_encode_wrapper] at hslice
  rw [RegisterAccountMemo.unmarshalLoop, if_pos hlt, htagread]
  simp only [Run.bind, if_true, ne_eq, not_true_eq_false, if_false, hlength, hslice, hm,
    Option.getD_none, RegisterAccountMemo_RegisterAccountDataWrapper.Unmarshal_encode_wrapper w hsize]

/-- An `Unmarshal` into the zero message undoes the writing of a memo. -/
theorem RegisterAccountMemo.Unmarshal_encode_memo (m : RegisterAccountMemo)
    (hsize : m.Size < 2 ^ 63) : RegisterAccountMemo.Unmarshal ⟨none⟩ m.encode = .ok m := by
  have hl : m.encode.length < 2 ^ 63 := by rw [m.length_encode_memo]; exact hsize
  have hlen := m.length_encode_memo
  obtain ⟨noble⟩ := m
  unfold RegisterAccountMemo.Unmarshal
  cases noble with
  | none =>
    have hnil : (RegisterAccountMemo.mk none).encode = [] := rfl
    rw [hnil]
    exact RegisterAccountMemo.unmarshalLoop_end_memo [] 0 _
  | some w =>
    have henc : (RegisterAccountMemo.mk (some w)).encode =
        0xa :: (varintBytes 10 (w.Size % 2 ^ 64) ++ w.encode) := rfl
    have hsize' : 1 + w.Size + sovPacket (w.Size % 2 ^ 64) < 2 ^ 63 := hsize
    have hmod : w.Size % 2 ^ 64 = w.Size := Nat.mod_eq_of_lt (by omega)
    have hlen' : (RegisterAccountMemo.mk (some w)).encode.length = 1 + w.Size + sovPacket w.Size := by
      rw [hlen]
      show 1 + w.Size + sovPacket (w.Size % 2 ^ 64) = _
      rw [hmod]
    obtain ⟨f, hf⟩ : ∃ f, (RegisterAccountMemo.mk (some w)).encode.length + 1 = f + 2 :=
      ⟨w.Size + sovPacket w.Size, by rw [hlen']; omega⟩
    rw [hf, RegisterAccountMemo.unmarshalLoop_message_memo _ hl (f + 1) ⟨none⟩ 0 w [] rfl
      (by rw [henc]; simp)]
    have hend : 0 + 1 + sovPacket w.Size + w.Size =
        (RegisterAccountMemo.mk (some w)).encode.length := by
      rw [hlen']
      omega
    rw [hend, RegisterAccountMemo.unmarshalLoop_end_memo]

/-! ## The packet messages: the claims -/

/-- C36: decode undoes encode. For every `RegisterAccountMemo` (its `Noble` nil or
not, the `Forwarding` of that nil or not, whatever the two strings) whose written
size is below 2^63, the bound of a Go slice, `Marshal` returns bytes and no error,
and `Unmarshal` of these bytes into a zero-valued message returns no error and
leaves a message equal to the one written; the same holds for the wrapper and for
`RegisterAccountData` alone. -/
theorem Unmarshal_Marshal (m : RegisterAccountMemo) (hsize : m.Size < 2 ^ 63) :
    (∃ bytes : Bytes, m.Marshal = .ok bytes ∧
      RegisterAccountMemo.Unmarshal ⟨none⟩ bytes = .ok m) ∧
    (∀ w : RegisterAccountMemo_RegisterAccountDataWrapper, w.Size < 2 ^ 63 →
      ∃ bytes : Bytes, w.Marshal = .ok bytes ∧
        RegisterAccountMemo_RegisterAccountDataWrapper.Unmarshal ⟨none⟩ bytes = .ok w) ∧
    (∀ d : RegisterAccountData, d.Size < 2 ^ 63 →
      ∃ bytes : Bytes, d.Marshal = .ok bytes ∧
        RegisterAccountData.Unmarshal ⟨[], []⟩ bytes = .ok d) :=
  ⟨⟨m.encode, m.Marshal_eq_memo, m.Unmarshal_encode_memo hsize⟩,
    fun w hw => ⟨w.encode, w.Marshal_eq_wrapper, w.Unmarshal_encode_wrapper hw⟩,
    fun d hd => ⟨d.encode, d.Marshal_eq_data, d.Unmarshal_encode_data hd⟩⟩

/-- A memo with both strings set, written and read back. -/
theorem Unmarshal_Marshal_witness :
    (RegisterAccountMemo.mk (some ⟨some ⟨[97, 98], [99]⟩⟩)).Size < 2 ^ 63 ∧
    (RegisterAccountMemo.mk (some ⟨some ⟨[97, 98], [99]⟩⟩)).Marshal =
      .ok [10, 9, 10, 7, 10, 2, 97, 98, 18, 1, 99] ∧
    ∃ bytes : Bytes,
      (RegisterAccountMemo.mk (some ⟨some ⟨[97, 98], [99]⟩⟩)).Marshal = .ok bytes ∧
      RegisterAccountMemo.Unmarshal ⟨none⟩ bytes = .ok ⟨some ⟨some ⟨[97, 98], [99]⟩⟩⟩ :=
  ⟨by decide, by decide,
    (Unmarshal_Marshal ⟨some ⟨some ⟨[97, 98], [99]⟩⟩⟩ (by decide)).1⟩

/-- C37: for every `RegisterAccountData`, wrapper and `RegisterAccountMemo`,
`Marshal` returns no error and exactly `Size` bytes; `MarshalToSizedBuffer`, which
fills the buffer from its end, writes the last `Size` bytes of a buffer that has at
least that many and nothing before them (no write out of range: no panic), and
answers `Size`; `encodeVarintPacket` writes exactly the `sovPacket(v)` bytes before
the offset for every 64-bit `v`, where `sovPacket(v)` is between 1 and 10 and is
the number of groups of seven bits that `v` needs. -/
theorem Marshal_fills_Size :
    (∀ m : RegisterAccountData, ∃ bytes : Bytes, m.Marshal = .ok bytes ∧
      bytes.length = m.Size) ∧
    (∀ m : RegisterAccountMemo_RegisterAccountDataWrapper, ∃ bytes : Bytes,
      m.Marshal = .ok bytes ∧ bytes.length = m.Size) ∧
    (∀ m : RegisterAccountMemo, ∃ bytes : Bytes, m.Marshal = .ok bytes ∧
      bytes.length = m.Size) ∧
    (∀ (m : RegisterAccountData) (before gap : Bytes), gap.length = m.Size →
      ∃ bytes : Bytes, bytes.length = m.Size ∧
        m.MarshalToSizedBuffer (before ++ gap) = .ok (before ++ bytes, m.Size)) ∧
    (∀ (m : RegisterAccountMemo_RegisterAccountDataWrapper) (before gap : Bytes),
      gap.length = m.Size →
      ∃ bytes : Bytes, bytes.length = m.Size ∧
        m.MarshalToSizedBuffer (before ++ gap) = .ok (before ++ bytes, m.Size)) ∧
    (∀ (m : RegisterAccountMemo) (before gap : Bytes), gap.length = m.Size →
      ∃ bytes : Bytes, bytes.length = m.Size ∧
        m.MarshalToSizedBuffer (before ++ gap) = .ok (before ++ bytes, m.Size)) ∧
    (∀ (v : Nat) (before gap after : Bytes), v < 2 ^ 64 → gap.length = sovPacket v →
      ∃ bytes : Bytes, bytes.length = sovPacket v ∧
        encodeVarintPacket (before ++ (gap ++ after)) (before.length + gap.length) v =
          .ok (before ++ (bytes ++ after), before.length)) ∧
    (∀ v : Nat, v < 2 ^ 64 →
      1 ≤ sovPacket v ∧ sovPacket v ≤ 10 ∧ v < 2 ^ (7 * sovPacket v) ∧
      (1 < sovPacket v → 2 ^ (7 * (sovPacket v - 1)) ≤ v)) := by
  refine ⟨fun m => ⟨m.encode, m.Marshal_eq_data, m.length_encode_data⟩,
    fun m => ⟨m.encode, m.Marshal_eq_wrapper, m.length_encode_wrapper⟩,
    fun m => ⟨m.encode, m.Marshal_eq_memo, m.length_encode_memo⟩,
    fun m before gap h => ⟨m.encode, m.length_encode_data, m.MarshalToSizedBuffer_spec_data before gap h⟩,
    fun m before gap h => ⟨m.encode, m.length_encode_wrapper, m.MarshalToSizedBuffer_spec_wrapper before gap h⟩,
    fun m before gap h => ⟨m.encode, m.length_encode_memo, m.MarshalToSizedBuffer_spec_memo before gap h⟩,
    ?_, ?_⟩
  · intro v before gap after hv hgap
    exact ⟨varintBytes 10 v,
      length_varintBytes 10 v (Nat.lt_of_lt_of_le hv (by decide)) hv (by decide),
      encodeVarintPacket_spec before gap after v hv hgap⟩
  · intro v hv
    refine ⟨sovPacket_pos v, sovPacket_le_ten v hv,
      (sovPacket_le_iff v _ hv (sovPacket_pos v)).1 (Nat.le_refl _), ?_⟩
    intro h1
    by_contra hlt
    have h := (sovPacket_le_iff v (sovPacket v - 1) hv (by omega)).2 (by omega)
    omega

/-- C38: on every byte slice (of a length below 2^63, as every Go slice is) the
three `Unmarshal` functions and `skipPacket` end, with a value or with an error
returned: they do not run on for ever and read no index and take no slice out of
range (no panic). A `skipPacket` that succeeds answers a length of at least 1;
every round of an `Unmarshal` loop starts by reading a tag, which takes at least
one byte and stays within the slice; a field length that is accepted gives bounds
within the slice, and a skipped field ends within the slice, so a length that runs
past the end is an error. -/
theorem Unmarshal_terminates_in_bounds (dAtA : Bytes) (hl : dAtA.length < 2 ^ 63) :
    (∀ m : RegisterAccountData,
      (∃ read, m.Unmarshal dAtA = .ok read) ∨ ∃ e, m.Unmarshal dAtA = .error e) ∧
    (∀ m : RegisterAccountMemo_RegisterAccountDataWrapper,
      (∃ read, m.Unmarshal dAtA = .ok read) ∨ ∃ e, m.Unmarshal dAtA = .error e) ∧
    (∀ m : RegisterAccountMemo,
      (∃ read, m.Unmarshal dAtA = .ok read) ∨ ∃ e, m.Unmarshal dAtA = .error e) ∧
    ((∃ n, skipPacket dAtA = .ok n ∧ 1 ≤ n) ∨ ∃ e, skipPacket dAtA = .error e) ∧
    (∀ (message : String) (iNdEx : Nat) (tag : Int × Nat × Nat),
      readTag message dAtA iNdEx = .ok tag → iNdEx < tag.2.2 ∧ tag.2.2 ≤ dAtA.length) ∧
    (∀ (iNdEx : Nat) (bounds : Nat × Nat), readLength dAtA iNdEx = .ok bounds →
      iNdEx < bounds.1 ∧ bounds.1 ≤ bounds.2 ∧ bounds.2 ≤ dAtA.length) ∧
    (∀ preIndex next : Nat, preIndex < dAtA.length → skipField dAtA preIndex = .ok next →
      preIndex < next ∧ next ≤ dAtA.length) := by
  refine ⟨?_, ?_, ?_, ?_, ?_, ?_, ?_⟩
  · intro m
    rcases (m.Unmarshal_safe_data dAtA hl).cases with ⟨v, hv, _⟩ | he
    · exact Or.inl ⟨v, hv⟩
    · exact Or.inr he
  · intro m
    rcases (m.Unmarshal_safe_wrapper dAtA hl).cases with ⟨v, hv, _⟩ | he
    · exact Or.inl ⟨v, hv⟩
    · exact Or.inr he
  · intro m
    rcases (m.Unmarshal_safe_memo dAtA hl).cases with ⟨v, hv, _⟩ | he
    · exact Or.inl ⟨v, hv⟩
    · exact Or.inr he
  · rcases (skipPacket_safe dAtA hl).cases with ⟨n, hn, h1, _⟩ | he
    · exact Or.inl ⟨n, hn, h1⟩
    · exact Or.inr he
  · intro message iNdEx tag h
    have hs := readTag_safe message dAtA iNdEx
    rw [h] at hs
    exact hs
  · intro iNdEx bounds h
    have hs := readLength_safe dAtA iNdEx hl
    rw [h] at hs
    exact hs
  · intro preIndex next hpre h
    have hs := skipField_safe dAtA preIndex hl hpre
    rw [h] at hs
    exact hs

/-- A string field and an unknown field whose declared length of 5 runs past the
end of a slice of three bytes; and a slice that is read. -/
theorem Unmarshal_terminates_in_bounds_witness :
    ([10, 5, 97] : Bytes).length < 2 ^ 63 ∧
    ((∃ read, RegisterAccountData.Unmarshal ⟨[], []⟩ [10, 5, 97] = .ok read) ∨
      ∃ e, RegisterAccountData.Unmarshal ⟨[], []⟩ [10, 5, 97] = .error e) ∧
    RegisterAccountData.Unmarshal ⟨[], []⟩ [10, 5, 97] = .error .ErrUnexpectedEOF ∧
    RegisterAccountData.Unmarshal ⟨[], []⟩ [26, 5, 97] = .error .ErrUnexpectedEOF ∧
    skipPacket [26, 5, 97] = .ok 7 ∧
    RegisterAccountData.Unmarshal ⟨[], []⟩ [26, 1, 97, 18, 1, 99] = .ok ⟨[], [99]⟩ :=
  ⟨by decide,
    (Unmarshal_terminates_in_bounds [10, 5, 97] (by decide)).1 ⟨[], []⟩,
    by decide, by decide, by decide, by decide⟩

end Forwarding
